import Mathlib

/-! # Papyrus lexer (npp-papyrus, `src/Plugin/Lexer/Lexer.cpp`)

A shallow embedding of `Lexer::tokenize`, `Lexer::colorToken`, `Lexer::isComment`,
`Lexer::getNextChar` and `Lexer::Lex`, together with the parts of the host editor
(document accessor, style context, word lists) that these functions consume.
-/

namespace Papyrus

/-! ## Data model -/

/-- Modelled from the spec: the `State` enumeration of `Lexer.hpp` (not among the sources).
The spec lists the style tags; the first five are the continuation states. The stored style
of a character is one of these tags; a position that was never styled holds `Default`. -/
inductive State
  | Default
  | Comment
  | CommentMultiLine
  | CommentDoc
  | String
  | Keyword
  | Keyword2
  | TypeName
  | FlowControl
  | Operator
  | Number
  | Function
  | Property
  | Class
  deriving DecidableEq

/-- Modelled from the spec: `TokenType` of `Lexer.hpp`. -/
inductive TokenType
  | Identifier
  | Numeric
  | Special
  deriving DecidableEq

/-- Modelled from the spec: `Lexer::Token` of `Lexer.hpp`: kind, lower-cased content and
absolute start position. -/
structure Token where
  tokenType : TokenType
  content : List Char
  startPos : Nat
  deriving DecidableEq

/-- Modelled from the spec: `Lexer::Property` of `Lexer.hpp`: declared name and line number. -/
structure Property where
  name : List Char
  line : Nat
  deriving DecidableEq

/-- Modelled from the spec: the game selector of `Common/Game.hpp`: either `Auto` or a
concrete game, identified here by a number. -/
inductive Game
  | Auto
  | Other (id : Nat)
  deriving DecidableEq

/-- Modelled from the spec: the lexer settings that `Lex` and `Fold` read. -/
structure Settings where
  enableFoldMiddle : Bool
  enableClassNameCache : Bool

/-- Modelled from the spec: the shared configuration object `lexerData` (`LexerData.hpp`),
with the file-existence probe `utility::fileExists` carried as the oracle `fileExists`
(directory, file name). -/
structure LexerData where
  usable : Bool
  currentGame : Game
  importDirectories : Game → List (List Char)
  settings : Settings
  fileExists : List Char → List Char → Bool

/-- Modelled from the spec: the host document behind Scintilla's `Accessor`: the text (one
list element per byte in eight-bit mode), the persisted style of every character, the
persisted fold level of every line, and, when the encoding is not eight-bit, the host's
decoder `GetCharacterAndWidth` for positions inside the text. -/
structure Document where
  text : List Char
  styles : Nat → State
  levels : Nat → Int
  multiByte : Option (Nat → Char × Nat)

/-- The members of `Lexer` that `Lex` and `Fold` use. The word lists are Scintilla
`WordList`s, taken as their `InList` predicates; the three `std::set<std::string>` members
are lists read through membership only. -/
structure Lexer where
  wordListOperators : List Char → Bool
  wordListFlowControl : List Char → Bool
  wordListTypes : List Char → Bool
  wordListKeywords : List Char → Bool
  wordListKeywords2 : List Char → Bool
  wordListFoldOpen : List Char → Bool
  wordListFoldMiddle : List Char → Bool
  wordListFoldClose : List Char → Bool
  propertyLines : List Property
  propertyNames : List (List Char)
  classNames : List (List Char)
  nonClassNames : List (List Char)

/-- What can stop `tokenize`: `std::out_of_range` thrown by `std::string::at`, or the scan not
finishing within the step budget. -/
inductive Error
  | outOfRange
  | outOfFuel
  deriving DecidableEq

/-! ## Characters -/

def chTab : Char := Char.ofNat 9
def chLF : Char := Char.ofNat 10
def chCR : Char := Char.ofNat 13
def chSpace : Char := Char.ofNat 32
def chQuote : Char := Char.ofNat 34
def chLParen : Char := Char.ofNat 40
def chMinus : Char := Char.ofNat 45
def chDot : Char := Char.ofNat 46
def chSlash : Char := Char.ofNat 47
def chSemicolon : Char := Char.ofNat 59
def chBackslash : Char := Char.ofNat 92
def chUnderscore : Char := Char.ofNat 95
def chLBrace : Char := Char.ofNat 123
def chRBrace : Char := Char.ofNat 125
def chNul : Char := Char.ofNat 0

/-- The keyword "property". -/
def propertyWord : List Char := "property".toList

/-- The extension ".psc" of a script source file. -/
def pscExtension : List Char := ".psc".toList

/-- C `isblank` in the "C" locale. -/
def isblank (ch : Char) : Bool := ch == chSpace || ch == chTab

/-- C `isalpha` in the "C" locale. -/
def isalpha (ch : Char) : Bool := ch.isAlpha

/-- C `isdigit`. -/
def isdigit (ch : Char) : Bool := ch.isDigit

/-- C `isalnum` in the "C" locale. -/
def isalnum (ch : Char) : Bool := ch.isAlphanum

/-- C `tolower` in the "C" locale. -/
def tolower (ch : Char) : Char := ch.toLower

/-- The conversion of an `int` to the `char` that `std::string::push_back` stores: the value
modulo 256. A byte is unchanged by it. -/
def narrow (ch : Char) : Char := Char.ofNat (ch.toNat % 256)

/-- C `isxdigit`. -/
def isxdigit (ch : Char) : Bool :=
  ch.isDigit || (ch.val ≥ 97 && ch.val ≤ 102) || (ch.val ≥ 65 && ch.val ≤ 70)

/-! ## Document accessor -/

/-- Start positions of the lines that begin after position `p`, where `p` is the position
of the head of the remaining text. A line ends at LF, at CR LF, or at a CR not followed by
LF. -/
def lineStartsFrom : List Char → Nat → List Nat
  | [], _ => []
  | c :: cs, p =>
    if c = chLF then (p + 1) :: lineStartsFrom cs (p + 1)
    else if c = chCR then
      match cs with
      | [] => (p + 1) :: lineStartsFrom cs (p + 1)
      | d :: _ => if d = chLF then lineStartsFrom cs (p + 1) else (p + 1) :: lineStartsFrom cs (p + 1)
    else lineStartsFrom cs (p + 1)

namespace Document

def Length (d : Document) : Nat := d.text.length

/-- Start positions of all lines; line 0 starts at 0. -/
def lineStarts (d : Document) : List Nat := 0 :: lineStartsFrom d.text 0

def LinesTotal (d : Document) : Nat := d.lineStarts.length

/-- `Accessor::LineStart`: the document length for a line past the last one. -/
def LineStart (d : Document) (line : Nat) : Nat := d.lineStarts.getD line d.Length

/-- `Accessor::SafeGetCharAt(position)`, whose default is a space. -/
def SafeGetCharAt (d : Document) (position : Nat) : Char := d.text.getD position chSpace

/-- `Accessor::LineEnd`: the position of the line terminator, or the document length on the
last line. -/
def LineEnd (d : Document) (line : Nat) : Nat :=
  if d.LinesTotal ≤ line + 1 then d.LineStart (line + 1)
  else
    let position := d.LineStart (line + 1) - 1
    if d.LineStart line < position ∧ d.text.getD (position - 1) chNul = chCR then position - 1
    else position

/-- `Accessor::GetLine`: the number of the line holding `position`. -/
def GetLine (d : Document) (position : Nat) : Nat :=
  (d.lineStarts.filter (fun s => decide (s ≤ position))).length - 1

/-- `Accessor::StyleAt`: the stored style, `Default` (0) outside the text. -/
def StyleAt (d : Document) (position : Nat) : State :=
  if position < d.Length then d.styles position else State.Default

/-- `Accessor::StyleAt(startPos - 1)` with `startPos` unsigned: at `startPos = 0` the
position is outside the text. -/
def StyleBefore (d : Document) (startPos : Nat) : State :=
  if startPos = 0 then State.Default else d.StyleAt (startPos - 1)

/-- `IDocument::GetCharacterAndWidth`: the host's decoder inside the text, the character 0
of width 1 outside it. -/
def GetCharacterAndWidth (d : Document) (f : Nat → Char × Nat) (position : Nat) : Char × Nat :=
  if position < d.Length then f position else (chNul, 1)

end Document

/-! ## Tokenizer -/

/-- The scanning variables of `tokenize`: the current character, its position `index` and
the position `indexNext` of the character after it. -/
structure Cursor where
  ch : Char
  index : Nat
  indexNext : Nat
  deriving DecidableEq

/-- `Lexer::getNextChar`: advance `index` to `indexNext`, read the character there and set
`indexNext` past it. -/
def getNextChar (accessor : Document) (c : Cursor) : Cursor :=
  let index := c.indexNext
  match accessor.multiByte with
  | some f =>
    let r := accessor.GetCharacterAndWidth f index
    { ch := r.1, index := index, indexNext := index + r.2 }
  | none => { ch := accessor.SafeGetCharAt index, index := index, indexNext := index + 1 }

/-- `std::string::at`. -/
def stringAt (s : List Char) (i : Nat) : Except Error Char :=
  match s.get? i with
  | some c => Except.ok c
  | none => Except.error Error.outOfRange

/-- The inner loop of the identifier branch of `tokenize`. The character pushed is a letter,
a digit or an underscore, which the conversion to `char` leaves as it is. -/
def scanIdentifier (accessor : Document) : Nat → List Char → Cursor → Except Error (List Char × Cursor)
  | 0, _, _ => Except.error Error.outOfFuel
  | fuel + 1, content, c =>
    if isalnum c.ch || c.ch == chUnderscore then
      scanIdentifier accessor fuel (content ++ [tolower c.ch]) (getNextChar accessor c)
    else Except.ok (content, c)

/-- The loop condition of the numeric branch of `tokenize`, with the short-circuit order
of the source. -/
def numericContinues (startPos : Nat) (content : List Char) (hasDigit : Bool) (c : Cursor) :
    Except Error Bool :=
  if isdigit c.ch then Except.ok true
  else if c.ch == chMinus && c.index == startPos then Except.ok true
  else if c.ch == chDot && hasDigit then Except.ok true
  else
    match (if tolower c.ch == 'x' && c.index == startPos + 1 then
        (stringAt content 0).map (fun c0 => c0 == '0') else Except.ok false) with
    | Except.error e => Except.error e
    | Except.ok true => Except.ok true
    | Except.ok false =>
      if isxdigit c.ch && decide (content.length > 1) then
        (stringAt content 1).map (fun c1 => tolower c1 == 'x')
      else Except.ok false

/-- The inner loop of the numeric branch of `tokenize`. The character pushed is a digit, a
sign, a point, an `x` or a hexadecimal digit, which the conversion to `char` leaves as it
is. -/
def scanNumeric (accessor : Document) (startPos : Nat) :
    Nat → List Char → Bool → Cursor → Except Error (List Char × Cursor)
  | 0, _, _, _ => Except.error Error.outOfFuel
  | fuel + 1, content, hasDigit, c =>
    match numericContinues startPos content hasDigit c with
    | Except.error e => Except.error e
    | Except.ok true =>
      scanNumeric accessor startPos fuel (content ++ [tolower c.ch]) (hasDigit || isdigit c.ch)
        (getNextChar accessor c)
    | Except.ok false => Except.ok (content, c)

/-- The outer loop of `tokenize`. In the last branch the character may be any code point, and
`push_back` stores it converted to a `char`. -/
def tokenizeLoop (accessor : Document) (lineEnd : Nat) :
    Nat → List Token → Cursor → Except Error (List Token)
  | 0, _, _ => Except.error Error.outOfFuel
  | fuel + 1, tokens, c =>
    if c.index < lineEnd then
      if c.ch == chCR || c.ch == chLF then Except.ok tokens
      else if isblank c.ch then tokenizeLoop accessor lineEnd fuel tokens (getNextChar accessor c)
      else if isalpha c.ch || c.ch == chUnderscore then
        match scanIdentifier accessor fuel [] c with
        | Except.error e => Except.error e
        | Except.ok (content, c1) =>
          tokenizeLoop accessor lineEnd fuel
            (tokens ++ [{ tokenType := TokenType.Identifier, content := content, startPos := c.index }]) c1
      else if isdigit c.ch || c.ch == chMinus then
        match scanNumeric accessor c.index fuel [] false c with
        | Except.error e => Except.error e
        | Except.ok (content, c1) =>
          match stringAt content 0 with
          | Except.error e => Except.error e
          | Except.ok c0 =>
            let tokenType :=
              if c0 == chMinus && content.length == 1 then TokenType.Special else TokenType.Numeric
            tokenizeLoop accessor lineEnd fuel
              (tokens ++ [{ tokenType := tokenType, content := content, startPos := c.index }]) c1
      else
        tokenizeLoop accessor lineEnd fuel
          (tokens ++ [{ tokenType := TokenType.Special, content := [narrow (tolower c.ch)], startPos := c.index }])
          (getNextChar accessor c)
    else Except.ok tokens

/-- `Lexer::tokenize` run for at most `fuel` steps of each loop. -/
def tokenizeFuel (fuel : Nat) (accessor : Document) (line : Nat) : Except Error (List Token) :=
  let index := accessor.LineStart line
  tokenizeLoop accessor (accessor.LineEnd line) fuel []
    (getNextChar accessor { ch := chSpace, index := index, indexNext := index })

/-- `Lexer::tokenize`. Every step of a loop reads one more character, so a budget of the
document length plus two covers every scan of a document whose characters have a width of at
least one. -/
def tokenize (accessor : Document) (line : Nat) : Except Error (List Token) :=
  tokenizeFuel (accessor.Length + 2) accessor line

/-! ## Style context -/

/-- Modelled from the spec: Scintilla's `StyleContext` over a `LexAccessor`, as far as `Lex`
uses it: the position `currentPos`, the limit `endPos`, the pending `state`, the character
`ch` at `currentPos`, the accessor's segment start `startSeg`, and the styles as they stand
once the accessor's buffer is flushed. -/
structure StyleContext where
  currentPos : Nat
  endPos : Nat
  lengthDocument : Nat
  state : State
  ch : Char
  startSeg : Nat
  styles : Nat → State

/-- The character at `position` and its width as the style context reads them:
`SafeGetCharAt(position, 0)` of width 1 in eight-bit mode, the decoder otherwise. -/
def charAndWidth (accessor : Document) (position : Nat) : Char × Nat :=
  match accessor.multiByte with
  | some f => accessor.GetCharacterAndWidth f position
  | none => (accessor.text.getD position chNul, 1)

namespace StyleContext

/-- The constructor `StyleContext(startPos, length, initStyle, accessor)`; an `endPos` equal
to the document length is moved one further. -/
def init (startPos length : Nat) (initStyle : State) (accessor : Document) : StyleContext :=
  { currentPos := startPos
    endPos := if startPos + length = accessor.Length then startPos + length + 1 else startPos + length
    lengthDocument := accessor.Length
    state := initStyle
    ch := (charAndWidth accessor startPos).1
    startSeg := startPos
    styles := accessor.styles }

/-- `StyleContext::Forward()`: one character further while `currentPos < endPos`; at the
limit the position stays and `ch` becomes a space. -/
def Forward (accessor : Document) (sc : StyleContext) : StyleContext :=
  if sc.currentPos < sc.endPos then
    let position := sc.currentPos + (charAndWidth accessor sc.currentPos).2
    { sc with currentPos := position, ch := (charAndWidth accessor position).1 }
  else { sc with ch := chSpace }

/-- `StyleContext::Forward(nb)`. -/
def ForwardN (accessor : Document) : Nat → StyleContext → StyleContext
  | 0, sc => sc
  | nb + 1, sc => ForwardN accessor nb (Forward accessor sc)

/-- `LexAccessor::ColourTo(pos, chAttr)` with `stop = pos + 1`: the segment from `startSeg`
up to `stop` takes the style, and the next segment starts at `stop`; nothing happens for an
empty segment. -/
def ColourTo (sc : StyleContext) (stop : Nat) (chAttr : State) : StyleContext :=
  if sc.startSeg < stop then
    { sc with
      styles := fun p => if sc.startSeg ≤ p ∧ p < stop then chAttr else sc.styles p
      startSeg := stop }
  else sc

/-- One past the position `currentPos - ((currentPos > lengthDocument) ? 2 : 1)` that
`SetState` and `Complete` colour to. -/
def colourStop (sc : StyleContext) : Nat :=
  if sc.lengthDocument < sc.currentPos then sc.currentPos - 1 else sc.currentPos

/-- `StyleContext::SetState(state_)`: the text before `currentPos` takes the old state. -/
def SetState (sc : StyleContext) (state : State) : StyleContext :=
  { sc.ColourTo sc.colourStop sc.state with state := state }

/-- `StyleContext::Complete()`: colour the last segment; the flush then stores the styles. -/
def Complete (sc : StyleContext) : StyleContext :=
  sc.ColourTo sc.colourStop sc.state

end StyleContext

/-! ## Lexer -/

/-- `std::set::insert`. -/
def setInsert (x : List Char) (s : List (List Char)) : List (List Char) :=
  if x ∈ s then s else s ++ [x]

/-- `std::set::erase(key)`. -/
def setErase (x : List Char) (s : List (List Char)) : List (List Char) :=
  s.filter (fun y => decide (y ≠ x))

/-- `Lexer::isComment`. -/
def isComment (style : State) : Bool :=
  style == State.Comment || style == State.CommentMultiLine || style == State.CommentDoc

/-- `Lexer::colorToken`: move up to the token, switch to `state`, and move over the token. -/
def colorToken (accessor : Document) (styleContext : StyleContext) (token : Token) (state : State) :
    StyleContext :=
  let sc :=
    if styleContext.currentPos < token.startPos then
      StyleContext.ForwardN accessor (token.startPos - styleContext.currentPos) styleContext
    else styleContext
  StyleContext.ForwardN accessor token.content.length (sc.SetState state)

/-- The guard of lines 66 and 95 of `Lex`: the token is "property", a next token exists, and
the stored styles at the starts of both are not comment styles. Gives the next token. -/
def declaresProperty (accessor : Document) (tok : Token) (after : List Token) : Option Token :=
  match after with
  | [] => none
  | next :: _ =>
    if tok.content = propertyWord ∧ isComment (accessor.StyleAt tok.startPos) = false
        ∧ isComment (accessor.StyleAt next.startPos) = false then some next
    else none

/-- The token loop of the re-validation pass (lines 65-76): the name that follows the first
"property" token passing the guard, if there is one. -/
def findPropertyName (accessor : Document) : List Token → Option (List Char)
  | [] => none
  | tok :: rest =>
    match declaresProperty accessor tok rest with
    | some next => some next.content
    | none => findPropertyName accessor rest

/-- The re-validation pass (lines 62-82) over the property records still to visit: a record
whose line still declares a property keeps its place, renamed when the name changed (the
old name leaves `propertyNames`, the new one enters); a record whose line declares none is
erased from `propertyLines`. -/
def revalidate (accessor : Document) :
    List Property → List (List Char) → Except Error (List Property × List (List Char))
  | [], propertyNames => Except.ok ([], propertyNames)
  | p :: rest, propertyNames =>
    match tokenize accessor p.line with
    | Except.error e => Except.error e
    | Except.ok tokens =>
      match findPropertyName accessor tokens with
      | some currentName =>
        let renamed := decide (p.name ≠ currentName)
        let names1 := if renamed then setInsert currentName (setErase p.name propertyNames) else propertyNames
        let p1 : Property := if renamed then { p with name := currentName } else p
        match revalidate accessor rest names1 with
        | Except.error e => Except.error e
        | Except.ok (kept, names2) => Except.ok (p1 :: kept, names2)
      | none => revalidate accessor rest propertyNames

/-- Lines 184-209: the class-name lookup for an identifier that is in no word list and is no
property name. Gives the lexer with its caches updated and the style of the token. -/
def resolveClassName (data : LexerData) (tokenString : List Char) (self : Lexer) : Lexer × State :=
  if tokenString ∈ self.classNames then (self, State.Class)
  else if tokenString ∉ self.nonClassNames then
    let found := decide (data.currentGame ≠ Game.Auto) &&
      (data.importDirectories data.currentGame).any
        (fun path => data.fileExists path (tokenString ++ pscExtension))
    if found then
      (if data.settings.enableClassNameCache then
          { self with classNames := setInsert tokenString self.classNames } else self,
        State.Class)
    else
      (if data.settings.enableClassNameCache then
          { self with nonClassNames := setInsert tokenString self.nonClassNames } else self,
        State.Default)
  else (self, State.Default)

/-- Whether the token after the current one has the given content. -/
def nextIs (after : List Token) (content : List Char) : Bool :=
  match after with
  | [] => false
  | next :: _ => decide (next.content = content)

/-- Lines 166-211: the style of an Identifier token in the default state. `back()` of the
content is read as its last character. -/
def styleIdentifier (data : LexerData) (tokenString : List Char) (after : List Token) (self : Lexer) :
    Lexer × State :=
  if !self.wordListFlowControl tokenString && tokenString.getLast?.any isalnum
      && nextIs after [chLParen] then (self, State.Function)
  else if self.wordListTypes tokenString then (self, State.TypeName)
  else if self.wordListFlowControl tokenString then (self, State.FlowControl)
  else if self.wordListKeywords tokenString then (self, State.Keyword)
  else if self.wordListKeywords2 tokenString then (self, State.Keyword2)
  else if self.wordListOperators tokenString then (self, State.Operator)
  else if tokenString ∈ self.propertyNames then (self, State.Property)
  else resolveClassName data tokenString self

/-- Lines 134-142: the number of backslash tokens right before the current token; `before`
holds the earlier tokens of the line, the nearest first. -/
def numBackslash : List Token → Nat
  | [] => 0
  | t :: rest => if t.content = [chBackslash] then numBackslash rest + 1 else 0

/-- Lines 148-218: the token loop body in the default state, that is when `messageState` is
none of `CommentDoc`, `CommentMultiLine`, `Comment` and `String`. Gives the lexer, the next
`messageState` and the state handed to `colorToken`. -/
def styleDefault (data : LexerData) (tok : Token) (after : List Token) (self : Lexer)
    (messageState : State) : Lexer × State × State :=
  let tokenString := tok.content
  if tokenString = [chLBrace] then (self, State.CommentDoc, State.CommentDoc)
  else if tokenString = [chSemicolon] then
    if nextIs after [chSlash] then (self, State.CommentMultiLine, State.CommentMultiLine)
    else (self, State.Comment, State.Comment)
  else if tokenString = [chQuote] then (self, State.String, State.String)
  else
    match tok.tokenType with
    | TokenType.Numeric => (self, messageState, State.Number)
    | TokenType.Identifier =>
      let r := styleIdentifier data tokenString after self
      (r.1, messageState, r.2)
    | TokenType.Special =>
      (self, messageState,
        if self.wordListOperators tokenString then State.Operator else State.Default)

/-- Lines 118-219: the part of the token loop body that depends on `messageState`. Gives the
lexer, the next `messageState` and the state handed to `colorToken`. -/
def styleByState (data : LexerData) (before : List Token) (tok : Token) (after : List Token)
    (self : Lexer) (messageState : State) : Lexer × State × State :=
  let tokenString := tok.content
  if messageState = State.CommentDoc then
    (self, if tokenString = [chRBrace] then State.Default else messageState, State.CommentDoc)
  else if messageState = State.CommentMultiLine then
    (self,
      if tokenString = [chSemicolon] ∧ nextIs before [chSlash] = true then State.Default
      else messageState,
      State.CommentMultiLine)
  else if messageState = State.Comment then (self, messageState, State.Comment)
  else if messageState = State.String then
    (self,
      if tokenString = [chQuote] ∧ numBackslash before % 2 = 0 then State.Default else messageState,
      State.String)
  else styleDefault data tok after self messageState

/-- The body of the token loop (lines 92-219) for the token `tok` of line `line`, with the
earlier tokens `before` (nearest first) and the later tokens `after`. Gives the lexer, the
next `messageState` and the state handed to `colorToken`. -/
def styleToken (data : LexerData) (accessor : Document) (line : Nat) (before : List Token)
    (tok : Token) (after : List Token) (self : Lexer) (messageState : State) :
    Lexer × State × State :=
  match declaresProperty accessor tok after with
  | some next =>
    if self.propertyLines.any (fun p => decide (p.line = line)) then
      styleByState data before tok after self messageState
    else
      ({ self with
          propertyLines := self.propertyLines ++ [{ name := next.content, line := line }]
          propertyNames := setInsert next.content self.propertyNames },
        messageState, State.Keyword)
  | none => styleByState data before tok after self messageState

/-- The token loop of a line (lines 91-220). -/
def styleTokens (data : LexerData) (accessor : Document) (line : Nat) :
    List Token → List Token → Lexer → StyleContext → State → Lexer × StyleContext × State
  | _, [], self, styleContext, messageState => (self, styleContext, messageState)
  | before, tok :: after, self, styleContext, messageState =>
    let r := styleToken data accessor line before tok after self messageState
    styleTokens data accessor line (tok :: before) after r.1
      (colorToken accessor styleContext tok r.2.2) r.2.1

/-- Lines 221-223: `Comment` and `String` do not pass the end of the line. -/
def endOfLineState (messageState : State) : State :=
  if messageState = State.Comment ∨ messageState = State.String then State.Default else messageState

/-- Lines 224-230: step over a CR, then store the state on the LF and step over it. -/
def endOfLine (accessor : Document) (styleContext : StyleContext) (messageState : State) :
    StyleContext :=
  let sc := if styleContext.ch = chCR then StyleContext.Forward accessor styleContext else styleContext
  if sc.ch = chLF then StyleContext.Forward accessor (sc.SetState messageState) else sc

/-- The body of the line loop (lines 87-231) on the tokens of the line. -/
def lexTokens (data : LexerData) (accessor : Document) (line : Nat) (tokens : List Token)
    (self : Lexer) (styleContext : StyleContext) (messageStateLast : State) :
    Lexer × StyleContext × State :=
  let r := styleTokens data accessor line [] tokens self styleContext messageStateLast
  let messageState := endOfLineState r.2.2
  (r.1, endOfLine accessor r.2.1 messageState, messageState)

/-- The body of the line loop (lines 87-231). -/
def lexLine (data : LexerData) (accessor : Document) (line : Nat)
    (self : Lexer) (styleContext : StyleContext) (messageStateLast : State) :
    Except Error (Lexer × StyleContext × State) :=
  match tokenize accessor line with
  | Except.error e => Except.error e
  | Except.ok tokens => Except.ok (lexTokens data accessor line tokens self styleContext messageStateLast)

/-- The line loop (lines 86-232) over `count` lines from `line` on. -/
def lexLines (data : LexerData) (accessor : Document) :
    Nat → Nat → Lexer → StyleContext → State → Except Error (Lexer × StyleContext × State)
  | 0, _, self, styleContext, messageStateLast => Except.ok (self, styleContext, messageStateLast)
  | count + 1, line, self, styleContext, messageStateLast =>
    match lexLine data accessor line self styleContext messageStateLast with
    | Except.error e => Except.error e
    | Except.ok r => lexLines data accessor count (line + 1) r.1 r.2.1 r.2.2

/-- `Lexer::Lex(startPos, lengthDoc, initStyle, pAccess)`; `initStyle` is not read by the
source. Gives the lexer and the document after the call; nothing changes when the lexer
is not usable. Every style read is at or after the position the style context has reached,
so the reads see the styles stored before the call. -/
def Lex (self : Lexer) (lexerData : Option LexerData) (startPos lengthDoc : Nat) (pAccess : Document) :
    Except Error (Lexer × Document) :=
  match lexerData with
  | none => Except.ok (self, pAccess)
  | some data =>
    if data.usable then
      let styleContext :=
        StyleContext.init startPos lengthDoc (pAccess.StyleBefore startPos) pAccess
      match revalidate pAccess self.propertyLines self.propertyNames with
      | Except.error e => Except.error e
      | Except.ok (propertyLines, propertyNames) =>
        let first := pAccess.GetLine startPos
        let last := pAccess.GetLine (startPos + lengthDoc - 1)
        match lexLines data pAccess (last + 1 - first) first
            { self with propertyLines := propertyLines, propertyNames := propertyNames }
            styleContext (pAccess.StyleBefore startPos) with
        | Except.error e => Except.error e
        | Except.ok r => Except.ok (r.1, { pAccess with styles := r.2.1.Complete.styles })
    else Except.ok (self, pAccess)

/-- The states handed to `colorToken` by the token loop of a line, in token order: the
style that `Lex` assigns to each token of the line. -/
def tokenStyles (data : LexerData) (accessor : Document) (line : Nat) :
    List Token → List Token → Lexer → State → List State
  | _, [], _, _ => []
  | before, tok :: after, self, messageState =>
    let r := styleToken data accessor line before tok after self messageState
    r.2.2 :: tokenStyles data accessor line (tok :: before) after r.1 r.2.1

/-! ## Definitions used to state the properties -/

/-- The four states with a branch of their own in the token loop body. -/
def isContinuationComment (s : State) : Bool :=
  s == State.CommentDoc || s == State.CommentMultiLine || s == State.Comment || s == State.String

/-- The five continuation states. -/
def isContinuation (s : State) : Prop :=
  s = State.Default ∨ s = State.Comment ∨ s = State.CommentMultiLine ∨ s = State.CommentDoc
    ∨ s = State.String

/-- The states that may pass a line boundary. -/
def crossesLine (s : State) : Prop :=
  s = State.Default ∨ s = State.CommentMultiLine ∨ s = State.CommentDoc

/-- The number of consecutive backslash tokens right before a token whose earlier tokens on
the line are `pre`, in line order. -/
def backslashesBefore (pre : List Token) : Nat :=
  (pre.reverse.takeWhile (fun t => decide (t.content = [chBackslash]))).length

/-- No "/" token of the list is directly followed by a ";" token. -/
def noMultiLineClose : List Token → Prop
  | [] => True
  | [_] => True
  | a :: b :: rest =>
    ¬ (a.content = [chSlash] ∧ b.content = [chSemicolon]) ∧ noMultiLineClose (b :: rest)

/-- The token `tok`, followed by `after`, starts a new property declaration on `line`: it
passes the guard of line 95 and no record of the lexer is on that line. -/
def startsDeclaration (accessor : Document) (line : Nat) (self : Lexer) (tok : Token)
    (after : List Token) : Prop :=
  (declaresProperty accessor tok after).isSome = true
    ∧ self.propertyLines.any (fun p => decide (p.line = line)) = false

/-- No token of the list starts a new property declaration on `line`. -/
def noDeclaration (accessor : Document) (line : Nat) (self : Lexer) (tokens : List Token) : Prop :=
  ∀ pre tok after, tokens = pre ++ tok :: after → ¬ startsDeclaration accessor line self tok after

/-- A document holding the text `s`: eight-bit, never styled, every fold level 0. -/
def freshDocument (s : String) : Document :=
  { text := s.toList, styles := fun _ => State.Default, levels := fun _ => 0, multiByte := none }

/-- Membership in a list of words. -/
def inWords (ws : List String) (w : List Char) : Bool :=
  ws.any (fun s => decide (s.toList = w))

/-- A lexer with a few Papyrus word lists, no property records and empty name sets. -/
def sampleLexer : Lexer :=
  { wordListOperators := inWords ["=", "+", "-", "(", ")"]
    wordListFlowControl := inWords ["if", "elseif", "else", "endif", "while", "endwhile"]
    wordListTypes := inWords ["int", "bool", "float", "string"]
    wordListKeywords := inWords ["function", "endfunction", "return"]
    wordListKeywords2 := inWords ["self", "parent"]
    wordListFoldOpen := inWords ["if", "while", "function"]
    wordListFoldMiddle := inWords ["elseif", "else"]
    wordListFoldClose := inWords ["endif", "endwhile", "endfunction"]
    propertyLines := []
    propertyNames := []
    classNames := []
    nonClassNames := [] }

/-- A usable configuration: game `Auto`, no import directory, both settings on. -/
def sampleData : LexerData :=
  { usable := true
    currentGame := Game.Auto
    importDirectories := fun _ => []
    settings := { enableFoldMiddle := true, enableClassNameCache := true }
    fileExists := fun _ _ => false }

/-- A Special token of one character. -/
def specialToken (c : Char) (startPos : Nat) : Token :=
  { tokenType := TokenType.Special, content := [c], startPos := startPos }

/-- An Identifier token. -/
def identifierToken (s : String) (startPos : Nat) : Token :=
  { tokenType := TokenType.Identifier, content := s.toList, startPos := startPos }

/-- The stored style at `position` after a call of `Lex`, when the call returns. -/
def styleAfter (r : Except Error (Lexer × Document)) (position : Nat) : Option State :=
  match r with
  | Except.ok x => some (x.2.styles position)
  | Except.error _ => none

/-- The property records and property names after a call of `Lex`, when the call returns. -/
def propertiesAfter (r : Except Error (Lexer × Document)) : Option (List Property × List (List Char)) :=
  match r with
  | Except.ok x => some (x.1.propertyLines, x.1.propertyNames)
  | Except.error _ => none

/-- The text `s` with every character stored as `Comment`. -/
def commentedDocument (s : String) : Document :=
  { text := s.toList, styles := fun _ => State.Comment, levels := fun _ => 0, multiByte := none }

/-- The tokens of the line `; property foo`. -/
def commentedPropertyTokens : List Token :=
  [specialToken chSemicolon 0, identifierToken "property" 2, identifierToken "foo" 11]

/-- The characters of an identifier: letters, digits and the underscore. -/
def identChar (ch : Char) : Bool := isalnum ch || ch == chUnderscore

/-- The scanning variables agree with an eight-bit document: `ch` is the character at
`index`, and `indexNext` is one further. -/
def Cursor.good (accessor : Document) (c : Cursor) : Prop :=
  c.ch = accessor.SafeGetCharAt c.index ∧ c.indexNext = c.index + 1

/-- A character that ends every token: CR, LF or the space read past the end of the text. -/
def stopChar (ch : Char) : Prop := ch = chCR ∨ ch = chLF ∨ ch = chSpace

/-- The tokens are not empty, come in position order without overlap, start at or after
`lo` and end at or before `hi`. -/
def tokensWithin : Nat → List Token → Nat → Prop
  | _, [], _ => True
  | lo, t :: ts, hi =>
    lo ≤ t.startPos ∧ t.content ≠ [] ∧ t.startPos + t.content.length ≤ hi
      ∧ tokensWithin (t.startPos + t.content.length) ts hi

/-- The class-name resolver succeeds for `name`: it is a known class name, or it is not a
known non-class name, the game is not `Auto`, and some import directory of the game holds a
source file of that name. -/
def classResolves (data : LexerData) (self : Lexer) (name : List Char) : Bool :=
  decide (name ∈ self.classNames) ||
    (decide (name ∉ self.nonClassNames) && decide (data.currentGame ≠ Game.Auto) &&
      (data.importDirectories data.currentGame).any
        (fun path => data.fileExists path (name ++ pscExtension)))

/-- The style of an identifier in the priority order of the specification: function name,
the five word lists, property name, class name, otherwise `Default`. -/
def identifierStyleSpec (data : LexerData) (self : Lexer) (name : List Char) (nextIsParen : Bool) :
    State :=
  if self.wordListFlowControl name = false ∧ name.getLast?.map isalnum = some true
      ∧ nextIsParen = true then State.Function
  else if self.wordListTypes name = true then State.TypeName
  else if self.wordListFlowControl name = true then State.FlowControl
  else if self.wordListKeywords name = true then State.Keyword
  else if self.wordListKeywords2 name = true then State.Keyword2
  else if self.wordListOperators name = true then State.Operator
  else if name ∈ self.propertyNames then State.Property
  else if classResolves data self name = true then State.Class
  else State.Default

/-- Two lexers classify tokens alike: the same word lists, the same property names, and the
same outcome of the class-name resolver for every name. -/
def sameClassification (data : LexerData) (a b : Lexer) : Prop :=
  a.wordListOperators = b.wordListOperators ∧ a.wordListFlowControl = b.wordListFlowControl
    ∧ a.wordListTypes = b.wordListTypes ∧ a.wordListKeywords = b.wordListKeywords
    ∧ a.wordListKeywords2 = b.wordListKeywords2
    ∧ (∀ n, n ∈ a.propertyNames ↔ n ∈ b.propertyNames)
    ∧ (∀ n, classResolves data a n = classResolves data b n)

/-- Two documents with the same text and encoding; the stored styles and fold levels may
differ. -/
def sameText (a b : Document) : Prop := a.text = b.text ∧ a.multiByte = b.multiByte

/-- The style that position `p` holds once the pending segment is coloured: the written
style before the segment start, the pending state from there on. -/
def StyleContext.pendingStyle (sc : StyleContext) (p : Nat) : State :=
  if p < sc.startSeg then sc.styles p else sc.state

/-- The style context has passed position `p` of the text, which holds or will hold `s`. -/
def rendered (sc : StyleContext) (p : Nat) (s : State) : Prop :=
  p < sc.currentPos ∧ p < sc.lengthDocument ∧ sc.pendingStyle p = s

/-- The style context of a document read byte by byte is in order: the segment start is not past
the position, the position is not past the limit, the document length is the accessor's,
and `ch` is the character at the position or the space set at the limit. -/
def StyleContext.wellFormed (accessor : Document) (sc : StyleContext) : Prop :=
  sc.startSeg ≤ sc.currentPos ∧ sc.currentPos ≤ sc.endPos ∧ sc.lengthDocument = accessor.Length
    ∧ (sc.ch = accessor.text.getD sc.currentPos chNul ∨ sc.ch = chSpace)

/-- The continuation state with which a full-document `Lex` of a usable lexer enters `line`,
when its re-validation pass and its loop over the lines before `line` return. -/
def stateEntering (self : Lexer) (data : LexerData) (doc : Document) (line : Nat) : Option State :=
  match revalidate doc self.propertyLines self.propertyNames with
  | Except.error _ => none
  | Except.ok (kept, names) =>
    match lexLines data doc line 0 { self with propertyLines := kept, propertyNames := names }
        (StyleContext.init 0 doc.Length (doc.StyleBefore 0) doc) (doc.StyleBefore 0) with
    | Except.error _ => none
    | Except.ok r => some r.2.2

/-- Every line before `line` on which the guard of the re-validation pass finds a property
declaration has a property record of the lexer. -/
def declarationsRecorded (self : Lexer) (doc : Document) (line : Nat) : Prop :=
  ∀ l tokens, l < line → tokenize doc l = Except.ok tokens →
    findPropertyName doc tokens ≠ none → ∃ p ∈ self.propertyLines, p.line = l

/-- The sample lexer holding the record of the property `foo` declared on line 0. -/
def recordedLexer : Lexer :=
  { sampleLexer with
    propertyLines := [{ name := "foo".toList, line := 0 }]
    propertyNames := ["foo".toList] }

/-- A never-styled document that declares the property `foo` on line 0 and uses it on
line 1, which starts at position 17. -/
def propertyDocument : Document := freshDocument "int property foo\nfoo\n"

/-- `Lex` on the range `(startPos, lengthDoc)`, then `Lex` on the range
`(startPos2, lengthDoc2)` of the document and from the lexer that the first call leaves. -/
def lexThen (self : Lexer) (lexerData : Option LexerData) (startPos lengthDoc : Nat)
    (startPos2 lengthDoc2 : Nat) (doc : Document) : Except Error (Lexer × Document) :=
  match Lex self lexerData startPos lengthDoc doc with
  | Except.error e => Except.error e
  | Except.ok r => Lex r.1 lexerData startPos2 lengthDoc2 r.2

/-- A never-styled document whose line 0 is a comment with a blank before the line feed at
position 4; line 1 starts at position 5. -/
def trailingBlankDocument : Document := freshDocument "; c \nx\n"

/-- A never-styled document whose line 0 declares no property. -/
def noLongerDeclaring : Document := freshDocument "int x\n"

/-- A never-styled document whose line 0 declares the property `bar`. -/
def renamedDeclaration : Document := freshDocument "int property bar\n"

/-- The known and unknown class-name sets after a call of `Lex`, when the call returns. -/
def cachesAfter (r : Except Error (Lexer × Document)) :
    Option (List (List Char) × List (List Char)) :=
  match r with
  | Except.ok x => some (x.1.classNames, x.1.nonClassNames)
  | Except.error _ => none

/-- The known and the unknown class-name set share no name. -/
def cachesDisjoint (self : Lexer) : Prop :=
  ∀ n, n ∈ self.classNames → n ∉ self.nonClassNames

/-- The sample lexer with `foo` in the known class-name set. -/
def knownClassLexer : Lexer := { sampleLexer with classNames := ["foo".toList] }

/-- A never-styled document holding the one identifier `foo`. -/
def fooDocument : Document := freshDocument "foo\n"

/-- `Lexer::Lexer`, lines 46-52: the listener of the class-name-cache setting clears both
sets when the setting is switched off; `restyleDocument` only asks the host to restyle. -/
def onClassNameCacheChange (self : Lexer) (newValue : Bool) : Lexer :=
  if !newValue then { self with classNames := [], nonClassNames := [] } else self

/-- A usable configuration with a concrete game whose one import directory holds the source
file of the class `actor` only; both settings on. -/
def gameData : LexerData :=
  { usable := true
    currentGame := Game.Other 0
    importDirectories := fun _ => ["scripts".toList]
    settings := { enableFoldMiddle := true, enableClassNameCache := true }
    fileExists := fun _ file => decide (file = "actor.psc".toList) }

/-- No line from `first` to `last` holds a "property" token immediately followed by the
token `a`. -/
def notDeclared (doc : Document) (a : List Char) (first last : Nat) : Prop :=
  ∀ line tokens, first ≤ line → line ≤ last → tokenize doc line = Except.ok tokens →
    ∀ pre tok next post, tokens = pre ++ tok :: next :: post →
      tok.content = propertyWord → next.content ≠ a

/-- The property `b` is tracked on line `l`: `b` is in the property-name set, a record is
on line `l`, and every record on line `l` has the name `b`. -/
def tracksProperty (b : List Char) (l : Nat) (L : Lexer) : Prop :=
  b ∈ L.propertyNames ∧ (∃ p ∈ L.propertyLines, p.line = l)
    ∧ ∀ p ∈ L.propertyLines, p.line = l → p.name = b

/-- A never-styled document whose line 0 declares the property `bar`, whose line 1 holds the
identifiers `foo` and `bar`. -/
def renamedDocument : Document := freshDocument "int property bar\nfoo bar\n"

/-- A never-styled document whose line 0 declares the property `bar` and whose line 1
declares the property `foo`, used on line 2 at position 34. -/
def redeclaredDocument : Document := freshDocument "int property bar\nint property foo\nfoo\n"

/-! ## Folding -/

/-- Modelled from the spec: Scintilla's `SC_FOLDLEVELNUMBERMASK`, the bits of a stored fold
level that hold the level number. -/
def SC_FOLDLEVELNUMBERMASK : Int := 0x0FFF

/-- Modelled from the spec: Scintilla's `SC_FOLDLEVELHEADERFLAG`, the bit of a stored fold
level that marks a fold header. -/
def SC_FOLDLEVELHEADERFLAG : Int := 0x2000

/-- `Accessor::LevelAt`: the stored fold level of a line. -/
def Document.LevelAt (d : Document) (line : Nat) : Int := d.levels line

/-- `Accessor::SetLevel`: store the fold level of a line. -/
def Document.SetLevel (d : Document) (line : Nat) (level : Int) : Document :=
  { d with levels := fun l => if l = line then level else d.levels l }

/-- The counters of the token loop of `Fold` (lines 244-246). -/
structure FoldCounts where
  numFoldOpen : Int
  numFoldClose : Int
  hasFoldMiddle : Bool

/-- The body of the token loop of `Fold` (lines 250-258). -/
def countFoldToken (self : Lexer) (data : LexerData) (accessor : Document) (c : FoldCounts)
    (token : Token) : FoldCounts :=
  if !isComment (accessor.StyleAt token.startPos)
      && accessor.StyleAt token.startPos != State.String then
    if self.wordListFoldOpen token.content then { c with numFoldOpen := c.numFoldOpen + 1 }
    else if self.wordListFoldClose token.content then
      { c with numFoldClose := c.numFoldClose + 1 }
    else if data.settings.enableFoldMiddle && self.wordListFoldMiddle token.content then
      { c with hasFoldMiddle := true }
    else c
  else c

/-- The body of the line loop of `Fold` (lines 244-272) on the tokens of the line: gives the
level written for the line and the next `levelPrev`. The `int` levels are unbounded here;
`|=` is the bitwise or of two's-complement integers. -/
def foldLine (self : Lexer) (data : LexerData) (accessor : Document) (tokens : List Token)
    (levelPrev : Int) : Int × Int :=
  let c := tokens.foldl (countFoldToken self data accessor)
    { numFoldOpen := 0, numFoldClose := 0, hasFoldMiddle := false }
  let level := levelPrev
  let levelDelta := c.numFoldOpen - c.numFoldClose
  let level := if levelDelta > 0 then Int.lor level SC_FOLDLEVELHEADERFLAG else level
  let level :=
    if c.hasFoldMiddle && c.numFoldOpen == 0 && c.numFoldClose == 0 then
      Int.lor (level - 1) SC_FOLDLEVELHEADERFLAG
    else level
  (level, levelPrev + levelDelta)

/-- The line loop of `Fold` (lines 243-273) over `count` lines from `line` on. -/
def foldLines (self : Lexer) (data : LexerData) :
    Nat → Nat → Document → Int → Except Error Document
  | 0, _, accessor, _ => Except.ok accessor
  | count + 1, line, accessor, levelPrev =>
    match tokenize accessor line with
    | Except.error e => Except.error e
    | Except.ok tokens =>
      let r := foldLine self data accessor tokens levelPrev
      foldLines self data count (line + 1) (accessor.SetLevel line r.1) r.2

/-- `Lexer::Fold(startPos, lengthDoc, initStyle, pAccess)`; `initStyle` is not read by the
source. Gives the document after the call; nothing changes when the lexer is not usable. -/
def Fold (self : Lexer) (lexerData : Option LexerData) (startPos lengthDoc : Nat)
    (pAccess : Document) : Except Error Document :=
  match lexerData with
  | none => Except.ok pAccess
  | some data =>
    if data.usable then
      let first := pAccess.GetLine startPos
      let last := pAccess.GetLine (startPos + lengthDoc)
      let levelPrev := Int.land (pAccess.LevelAt first) SC_FOLDLEVELNUMBERMASK
      foldLines self data (last + 1 - first) first pAccess levelPrev
    else Except.ok pAccess

/-! ## Definitions used to state the folding properties -/

/-- The token counts for folding: its stored style is none of `Comment`,
`CommentMultiLine`, `CommentDoc` and `String`. -/
def countsForFold (accessor : Document) (t : Token) : Bool :=
  decide (accessor.StyleAt t.startPos ≠ State.Comment
    ∧ accessor.StyleAt t.startPos ≠ State.CommentMultiLine
    ∧ accessor.StyleAt t.startPos ≠ State.CommentDoc
    ∧ accessor.StyleAt t.startPos ≠ State.String)

/-- The tokens of a line, none when `tokenize` does not return. -/
def lineTokens (doc : Document) (line : Nat) : List Token :=
  match tokenize doc line with
  | Except.ok tokens => tokens
  | Except.error _ => []

/-- The number of tokens of the line that count for folding and are in the fold-open list. -/
def foldOpens (self : Lexer) (doc : Document) (line : Nat) : Int :=
  ((lineTokens doc line).countP
    (fun t => countsForFold doc t && self.wordListFoldOpen t.content) : Nat)

/-- The number of tokens of the line that count for folding and are in the fold-close list
and not in the fold-open list. -/
def foldCloses (self : Lexer) (doc : Document) (line : Nat) : Int :=
  ((lineTokens doc line).countP
    (fun t => countsForFold doc t && !self.wordListFoldOpen t.content
      && self.wordListFoldClose t.content) : Nat)

/-- The number of closes of a line in the words of the claim: the tokens of the line that
count for folding and are in the fold-close list, whether or not the fold-open list holds
them too. -/
def foldClosesAsStated (self : Lexer) (doc : Document) (line : Nat) : Int :=
  ((lineTokens doc line).countP
    (fun t => countsForFold doc t && self.wordListFoldClose t.content) : Nat)

/-- A fold-middle line: fold-middle is enabled, no token counts as open or close, and some
token that counts for folding is in the fold-middle list. -/
def isFoldMiddleLine (self : Lexer) (data : LexerData) (doc : Document) (line : Nat) : Bool :=
  data.settings.enableFoldMiddle && foldOpens self doc line == 0 && foldCloses self doc line == 0
    && (lineTokens doc line).any
        (fun t => countsForFold doc t && self.wordListFoldMiddle t.content)

/-- The running level before the `k`-th line from `first`: `L0` plus the sum over the
earlier lines of opens minus closes. -/
def runningLevel (self : Lexer) (doc : Document) (first : Nat) (L0 : Int) (k : Nat) : Int :=
  L0 + ((List.range k).map
    (fun j => foldOpens self doc (first + j) - foldCloses self doc (first + j))).sum

/-- The stored fold level of a line after a call of `Fold`, when the call returns. -/
def levelAfter (r : Except Error Document) (line : Nat) : Option Int :=
  match r with
  | Except.ok d => some (d.LevelAt line)
  | Except.error _ => none

/-- `Fold` on a range, then `Fold` on the same range of the document that the first call
leaves. -/
def foldTwice (self : Lexer) (lexerData : Option LexerData) (startPos lengthDoc : Nat)
    (doc : Document) : Except Error Document :=
  match Fold self lexerData startPos lengthDoc doc with
  | Except.error e => Except.error e
  | Except.ok d => Fold self lexerData startPos lengthDoc d

/-- The text `s`, never styled, with Scintilla's base level 0x400 stored on every line. -/
def baseLevelDocument (s : String) : Document :=
  { text := s.toList, styles := fun _ => State.Default, levels := fun _ => 0x400,
    multiByte := none }

/-- The level that the claims give for a line reached with the running level `running`: on
a fold-middle line one below it with the header flag, otherwise the running level, with the
header flag when the line has more opens than closes. -/
def writtenLevel (self : Lexer) (data : LexerData) (doc : Document) (line : Nat)
    (running : Int) : Int :=
  if isFoldMiddleLine self data doc line = true then
    Int.lor (running - 1) SC_FOLDLEVELHEADERFLAG
  else if 0 < foldOpens self doc line - foldCloses self doc line then
    Int.lor running SC_FOLDLEVELHEADERFLAG
  else running

/-- Line 241: the running level with which `Fold` starts, the number part of the stored
level of the first line of the range. -/
def startLevel (doc : Document) (startPos : Nat) : Int :=
  Int.land (doc.LevelAt (doc.GetLine startPos)) SC_FOLDLEVELNUMBERMASK

/-- A never-styled document with level 0 stored on every line: a line with an unmatched
`endif`, then the line `x`. -/
def unmatchedCloseDocument : Document := freshDocument "endif\nx\n"

/-- The sample lexer with `if` in the fold-close list as well as in the fold-open list. -/
def overlapLexer : Lexer :=
  { sampleLexer with wordListFoldClose := inWords ["endif", "endwhile", "endfunction", "if"] }

/-- The lines `if` and `x`, never styled, with the base level 0x400 stored on every line. -/
def overlapDocument : Document := baseLevelDocument "if\nx\n"

/-- A never-styled document with level 0 stored on every line, holding the line `else`. -/
def lowElseDocument : Document := freshDocument "else\n"

/-- The block `if x`, `y`, `elseif z`, `w`, `endif` on lines 0 to 4, never styled, with
the base level 0x400 stored on every line. -/
def ifBlockDocument : Document := baseLevelDocument "if x\ny\nelseif z\nw\nendif\n"

/-- The line `else` and the line `x`, never styled, with the base level 0x400 stored on
every line. -/
def elseDocument : Document := baseLevelDocument "else\nx\n"

/-- The character and the width that `getNextChar` reads at `position`. -/
def readAt (accessor : Document) (position : Nat) : Char × Nat :=
  match accessor.multiByte with
  | some f => accessor.GetCharacterAndWidth f position
  | none => (accessor.SafeGetCharAt position, 1)

/-- The scanning variables hold what `getNextChar` reads at `index`. -/
def Cursor.reads (accessor : Document) (c : Cursor) : Prop :=
  c.ch = (readAt accessor c.index).1 ∧ c.indexNext = c.index + (readAt accessor c.index).2

/-- The positions from `lo` to `hi` are read byte by byte: each is read with width 1, and a
position inside the text as the character stored there. Every position of an eight-bit
document is read so, and so is every position of a line of ASCII text in a multi-byte
encoding. -/
def decodesBytewise (accessor : Document) (lo hi : Nat) : Prop :=
  ∀ q, lo ≤ q → q ≤ hi →
    (readAt accessor q).2 = 1
      ∧ (q < accessor.Length → (readAt accessor q).1 = accessor.SafeGetCharAt q)

/-- A character read at the end of a line: CR, LF, or the space or the null character read
past the end of the text. -/
def endChar (ch : Char) : Prop := stopChar ch ∨ ch = chNul

/-- The token is a piece of the text, lower-cased, or for a Special token lower-cased and
converted to `char`; and an Identifier token starts at a letter or underscore, holds letters,
digits and underscores only, and is followed by none of these. -/
def tokenShape (doc : Document) (t : Token) : Prop :=
  t.startPos + t.content.length ≤ doc.Length
    ∧ (t.content = ((doc.text.drop t.startPos).take t.content.length).map tolower
        ∨ (t.tokenType = TokenType.Special
            ∧ t.content = ((doc.text.drop t.startPos).take t.content.length).map
                (fun x => narrow (tolower x))))
    ∧ (t.tokenType = TokenType.Identifier →
        (isalpha (doc.SafeGetCharAt t.startPos) || doc.SafeGetCharAt t.startPos == chUnderscore)
            = true
          ∧ (∀ x ∈ (doc.text.drop t.startPos).take t.content.length, identChar x = true)
          ∧ identChar (doc.SafeGetCharAt (t.startPos + t.content.length)) = false)

/-- An optional leading "-", one or more decimal digits, then optionally "." followed by
zero or more decimal digits. -/
def isDecimalLiteral (s : List Char) : Prop :=
  ∃ sign digits frac, s = sign ++ digits ++ frac
    ∧ (sign = [] ∨ sign = [chMinus])
    ∧ digits ≠ [] ∧ (∀ d ∈ digits, isdigit d = true)
    ∧ (frac = [] ∨ ∃ ds, frac = chDot :: ds ∧ ∀ d ∈ ds, isdigit d = true)

/-- The characters "0x" or "0X" followed by one or more hexadecimal digits. -/
def isHexLiteral (s : List Char) : Prop :=
  ∃ x ds, s = '0' :: x :: ds ∧ (x = 'x' ∨ x = 'X') ∧ ds ≠ [] ∧ ∀ d ∈ ds, isxdigit d = true

/-- The line consists of exactly the characters `s`. -/
def lineHolds (doc : Document) (line : Nat) (s : List Char) : Prop :=
  doc.LineEnd line = doc.LineStart line + s.length
    ∧ (doc.text.drop (doc.LineStart line)).take s.length = s

/-- A Numeric token with the given content. -/
def numericToken (s : String) (startPos : Nat) : Token :=
  { tokenType := TokenType.Numeric, content := s.toList, startPos := startPos }

/-- A character that the tokenizer puts into a token: no CR, no LF, no space and no tab. -/
def solidChar (ch : Char) : Bool := !(ch == chCR || ch == chLF) && !isblank ch

/-- The text up to its first CR or LF, with every space and tab removed, lower-cased. -/
def squeeze (l : List Char) : List Char :=
  ((l.takeWhile (fun ch => !(ch == chCR || ch == chLF))).filter (fun ch => !isblank ch)).map
    tolower

/-- The text of a line, from its start to its end. -/
def lineText (doc : Document) (line : Nat) : List Char :=
  (doc.text.drop (doc.LineStart line)).take (doc.LineEnd line - doc.LineStart line)

/-- The characters of the line are bytes: their codes are below 256. -/
def lineBytes (doc : Document) (line : Nat) : Prop :=
  ∀ x ∈ lineText doc line, x.toNat < 256

/-- The contents of the tokens, one after the other. -/
def contents : List Token → List Char
  | [] => []
  | t :: ts => t.content ++ contents ts

/-- The accessor reports a character width of at least one at every position. -/
def widthsPositive (accessor : Document) : Prop := ∀ q, 1 ≤ (readAt accessor q).2

/-- A document in a two-byte encoding: `x`, a character stored in the two bytes at
positions 1 and 2, `y`, and a line feed. The decoder reads the character 233 of width 2 at
position 1 and the stored byte of width 1 elsewhere. -/
def twoByteDocument : Document :=
  { text := ['x', Char.ofNat 195, Char.ofNat 169, 'y', chLF]
    styles := fun _ => State.Default
    levels := fun _ => 0
    multiByte := some (fun q =>
      if q = 1 then (Char.ofNat 233, 2)
      else (['x', Char.ofNat 195, Char.ofNat 169, 'y', chLF].getD q chSpace, 1)) }

/-- A document in a two-byte encoding: `foo`, a character stored in the two bytes at
positions 3 and 4, and a line feed. The decoder reads the code point 296 of width 2 at
position 3 and the stored byte of width 1 elsewhere; converted to `char`, 296 is 40, the
character "(". -/
def wideParenDocument : Document :=
  { text := ['f', 'o', 'o', Char.ofNat 196, Char.ofNat 168, chLF]
    styles := fun _ => State.Default
    levels := fun _ => 0
    multiByte := some (fun q =>
      if q = 3 then (Char.ofNat 296, 2)
      else (['f', 'o', 'o', Char.ofNat 196, Char.ofNat 168, chLF].getD q chSpace, 1)) }

/-- The document is read byte by byte: at every position the style context reads the stored
character with width 1, and the null character past the end of the text. Every eight-bit
document is read so, and so is a document in a multi-byte encoding whose decoder reads
every position as one stored byte, as it does on ASCII text. -/
def readsBytes (accessor : Document) : Prop :=
  ∀ p, charAndWidth accessor p = (accessor.text.getD p chNul, 1)

/-- A document in a two-byte encoding: a character stored in the two bytes at positions 0
and 1, a space, `-1` and a line feed. The decoder reads the code point 301 of width 2 at
position 0 and the stored byte of width 1 elsewhere; converted to `char`, 301 is 45, the
character "-". -/
def widePointDocument : Document :=
  { text := [Char.ofNat 196, Char.ofNat 173, chSpace, chMinus, '1', chLF]
    styles := fun _ => State.Default
    levels := fun _ => 0
    multiByte := some (fun q =>
      if q = 0 then (Char.ofNat 301, 2)
      else ([Char.ofNat 196, Char.ofNat 173, chSpace, chMinus, '1', chLF].getD q chSpace, 1)) }

/-- The lexer and the state with which the line loop of `Lex(startPos, lengthDoc)` of a
usable lexer reaches `line`, a line of the range, when the re-validation pass and the loop
over the lines before `line` return. -/
def lineEntry (self : Lexer) (data : LexerData) (startPos lengthDoc : Nat) (doc : Document)
    (line : Nat) : Option (Lexer × State) :=
  match revalidate doc self.propertyLines self.propertyNames with
  | Except.error _ => none
  | Except.ok (kept, names) =>
    match lexLines data doc (line - doc.GetLine startPos) (doc.GetLine startPos)
        { self with propertyLines := kept, propertyNames := names }
        (StyleContext.init startPos lengthDoc (doc.StyleBefore startPos) doc)
        (doc.StyleBefore startPos) with
    | Except.error _ => none
    | Except.ok r => some (r.1, r.2.2)

/-- The states that `Lex(startPos, lengthDoc)` of a usable lexer hands to `colorToken` for
the tokens of `line`, a line of the range, in token order. -/
def assignedStyles (self : Lexer) (data : LexerData) (startPos lengthDoc : Nat) (doc : Document)
    (line : Nat) : Option (List State) :=
  match lineEntry self data startPos lengthDoc doc line with
  | none => none
  | some e =>
    match tokenize doc line with
    | Except.error _ => none
    | Except.ok tokens => some (tokenStyles data doc line [] tokens e.1 e.2)

/-- The sample lexer with `foo` in the known and `baz` in the unknown class-name set. -/
def cachedLexer : Lexer :=
  { sampleLexer with classNames := ["foo".toList], nonClassNames := ["baz".toList] }

/-- A never-styled document holding the identifiers `actor`, `foo` and `bar`. -/
def cachesDocument : Document := freshDocument "actor foo bar\n"

/-- The text of `propertyDocument` in a multi-byte encoding whose decoder reads every byte
of this text as a character of width 1. -/
def decodedPropertyDocument : Document :=
  { text := "int property foo\nfoo\n".toList
    styles := fun _ => State.Default
    levels := fun _ => 0
    multiByte := some (fun q => ("int property foo\nfoo\n".toList.getD q chSpace, 1)) }

/-! ## Theorems -/

/-! ### The token loop body -/

theorem declaresProperty_of_ne (accessor : Document) (tok : Token) (after : List Token)
    (h : tok.content ≠ propertyWord) : declaresProperty accessor tok after = none := by
  unfold declaresProperty
  cases after with
  | nil => rfl
  | cons next rest => simp [h]

theorem declaresProperty_some (accessor : Document) (tok : Token) (after : List Token) (next : Token)
    (h : declaresProperty accessor tok after = some next) :
    tok.content = propertyWord ∧ (∃ rest, after = next :: rest)
      ∧ isComment (accessor.StyleAt tok.startPos) = false
      ∧ isComment (accessor.StyleAt next.startPos) = false := by
  unfold declaresProperty at h
  cases after with
  | nil => simp at h
  | cons n rest =>
    simp only at h
    split at h
    · rename_i hc
      simp only [Option.some.injEq] at h
      subst h
      exact ⟨hc.1, ⟨rest, rfl⟩, hc.2.1, hc.2.2⟩
    · simp at h

theorem styleToken_of_ne (data : LexerData) (accessor : Document) (line : Nat) (before : List Token)
    (tok : Token) (after : List Token) (self : Lexer) (messageState : State)
    (h : tok.content ≠ propertyWord) :
    styleToken data accessor line before tok after self messageState
      = styleByState data before tok after self messageState := by
  unfold styleToken
  rw [declaresProperty_of_ne accessor tok after h]

theorem styleToken_of_not_starts (data : LexerData) (accessor : Document) (line : Nat)
    (before : List Token) (tok : Token) (after : List Token) (self : Lexer) (messageState : State)
    (h : ¬ startsDeclaration accessor line self tok after) :
    styleToken data accessor line before tok after self messageState
      = styleByState data before tok after self messageState := by
  unfold styleToken
  cases hd : declaresProperty accessor tok after with
  | none => rfl
  | some next =>
    simp only
    by_cases hr : self.propertyLines.any (fun p => decide (p.line = line)) = true
    · rw [if_pos hr]
    · exfalso
      apply h
      refine ⟨by rw [hd]; rfl, ?_⟩
      simpa using hr

theorem property_ne_brace : propertyWord ≠ [chRBrace] := by decide
theorem property_ne_lbrace : propertyWord ≠ [chLBrace] := by decide
theorem property_ne_semicolon : propertyWord ≠ [chSemicolon] := by decide
theorem property_ne_quote : propertyWord ≠ [chQuote] := by decide

/-- In the default state the lexer stays as it is or is the one left by the identifier
classification. -/
theorem styleDefault_lexer (data : LexerData) (tok : Token) (after : List Token) (self : Lexer)
    (messageState : State) :
    (styleDefault data tok after self messageState).1 = self
    ∨ (styleDefault data tok after self messageState).1
        = (styleIdentifier data tok.content after self).1 := by
  unfold styleDefault
  simp only
  by_cases h1 : tok.content = [chLBrace]
  · rw [if_pos h1]; exact Or.inl rfl
  rw [if_neg h1]
  by_cases h2 : tok.content = [chSemicolon]
  · rw [if_pos h2]
    by_cases h3 : nextIs after [chSlash] = true
    · rw [if_pos h3]; exact Or.inl rfl
    · rw [if_neg h3]; exact Or.inl rfl
  rw [if_neg h2]
  by_cases h4 : tok.content = [chQuote]
  · rw [if_pos h4]; exact Or.inl rfl
  rw [if_neg h4]
  cases tok.tokenType
  · exact Or.inr rfl
  · exact Or.inl rfl
  · exact Or.inl rfl

/-- In the default state the next `messageState` is the old one or one of four continuation
states. -/
theorem styleDefault_state (data : LexerData) (tok : Token) (after : List Token) (self : Lexer)
    (messageState : State) :
    (styleDefault data tok after self messageState).2.1 = messageState
    ∨ (styleDefault data tok after self messageState).2.1 = State.Comment
    ∨ (styleDefault data tok after self messageState).2.1 = State.CommentMultiLine
    ∨ (styleDefault data tok after self messageState).2.1 = State.CommentDoc
    ∨ (styleDefault data tok after self messageState).2.1 = State.String := by
  unfold styleDefault
  simp only
  by_cases h1 : tok.content = [chLBrace]
  · rw [if_pos h1]; exact Or.inr (Or.inr (Or.inr (Or.inl rfl)))
  rw [if_neg h1]
  by_cases h2 : tok.content = [chSemicolon]
  · rw [if_pos h2]
    by_cases h3 : nextIs after [chSlash] = true
    · rw [if_pos h3]; exact Or.inr (Or.inr (Or.inl rfl))
    · rw [if_neg h3]; exact Or.inr (Or.inl rfl)
  rw [if_neg h2]
  by_cases h4 : tok.content = [chQuote]
  · rw [if_pos h4]; exact Or.inr (Or.inr (Or.inr (Or.inr rfl)))
  rw [if_neg h4]
  cases tok.tokenType <;> exact Or.inl rfl

/-- With the content "property" the default state keeps `messageState`. -/
theorem styleDefault_property_state (data : LexerData) (tok : Token) (after : List Token)
    (self : Lexer) (messageState : State) (h : tok.content = propertyWord) :
    (styleDefault data tok after self messageState).2.1 = messageState := by
  unfold styleDefault
  simp only
  rw [h, if_neg property_ne_lbrace, if_neg property_ne_semicolon, if_neg property_ne_quote]
  cases tok.tokenType <;> rfl

/-- The four branches of the state-dependent part that are not the default state. -/
theorem styleByState_cases (data : LexerData) (before : List Token) (tok : Token)
    (after : List Token) (self : Lexer) (messageState : State) :
    (messageState = State.CommentDoc
      ∧ styleByState data before tok after self messageState
        = (self, if tok.content = [chRBrace] then State.Default else State.CommentDoc,
            State.CommentDoc))
    ∨ (messageState = State.CommentMultiLine
      ∧ styleByState data before tok after self messageState
        = (self,
            if tok.content = [chSemicolon] ∧ nextIs before [chSlash] = true then State.Default
            else State.CommentMultiLine,
            State.CommentMultiLine))
    ∨ (messageState = State.Comment
      ∧ styleByState data before tok after self messageState
        = (self, State.Comment, State.Comment))
    ∨ (messageState = State.String
      ∧ styleByState data before tok after self messageState
        = (self,
            if tok.content = [chQuote] ∧ numBackslash before % 2 = 0 then State.Default
            else State.String,
            State.String))
    ∨ (isContinuationComment messageState = false
      ∧ styleByState data before tok after self messageState
        = styleDefault data tok after self messageState) := by
  unfold styleByState
  simp only
  by_cases h1 : messageState = State.CommentDoc
  · rw [if_pos h1]; subst h1; exact Or.inl ⟨rfl, rfl⟩
  rw [if_neg h1]
  by_cases h2 : messageState = State.CommentMultiLine
  · rw [if_pos h2]; subst h2; exact Or.inr (Or.inl ⟨rfl, rfl⟩)
  rw [if_neg h2]
  by_cases h3 : messageState = State.Comment
  · rw [if_pos h3]; subst h3; exact Or.inr (Or.inr (Or.inl ⟨rfl, rfl⟩))
  rw [if_neg h3]
  by_cases h4 : messageState = State.String
  · rw [if_pos h4]; subst h4; exact Or.inr (Or.inr (Or.inr (Or.inl ⟨rfl, rfl⟩)))
  rw [if_neg h4]
  refine Or.inr (Or.inr (Or.inr (Or.inr ⟨?_, rfl⟩)))
  cases messageState <;>
    first
      | rfl
      | exact absurd rfl h1
      | exact absurd rfl h2
      | exact absurd rfl h3
      | exact absurd rfl h4

/-- With the content "property" the state-dependent part never changes `messageState`. -/
theorem styleByState_property_state (data : LexerData) (before : List Token) (tok : Token)
    (after : List Token) (self : Lexer) (messageState : State) (h : tok.content = propertyWord) :
    (styleByState data before tok after self messageState).2.1 = messageState := by
  rcases styleByState_cases data before tok after self messageState with
    ⟨hm, he⟩ | ⟨hm, he⟩ | ⟨hm, he⟩ | ⟨hm, he⟩ | ⟨_, he⟩
  · rw [he, hm, h, if_neg property_ne_brace]
  · rw [he, hm, h, if_neg (fun hc => property_ne_semicolon hc.1)]
  · rw [he, hm]
  · rw [he, hm, h, if_neg (fun hc => property_ne_quote hc.1)]
  · rw [he]; exact styleDefault_property_state data tok after self messageState h

/-- The next `messageState` is decided by the state-dependent part alone. -/
theorem styleToken_state (data : LexerData) (accessor : Document) (line : Nat) (before : List Token)
    (tok : Token) (after : List Token) (self : Lexer) (messageState : State) :
    (styleToken data accessor line before tok after self messageState).2.1
      = (styleByState data before tok after self messageState).2.1 := by
  unfold styleToken
  cases hd : declaresProperty accessor tok after with
  | none => rfl
  | some next =>
    simp only
    split_ifs
    · rfl
    · rw [styleByState_property_state data before tok after self messageState
        (declaresProperty_some accessor tok after next hd).1]

theorem numBackslash_eq_takeWhile (before : List Token) :
    numBackslash before
      = (before.takeWhile (fun t => decide (t.content = [chBackslash]))).length := by
  induction before with
  | nil => rfl
  | cons t rest ih =>
    by_cases h : t.content = [chBackslash]
    · simp [numBackslash, h, ih, List.takeWhile]
    · simp [numBackslash, h, List.takeWhile]

theorem quote_ne_property : [chQuote] ≠ propertyWord := by decide

/-- C5: a double-quote token met in the `String` state is styled `String`, and the state
after it is `Default` exactly when the number of backslash tokens right before it on the
line is even; with an odd number the state stays `String`. Here `pre` holds the earlier
tokens of the line in line order. -/
theorem quote_in_string_closes_iff_even (data : LexerData) (accessor : Document) (line : Nat)
    (pre : List Token) (tok : Token) (after : List Token) (self : Lexer)
    (h : tok.content = [chQuote]) :
    (styleToken data accessor line pre.reverse tok after self State.String).2.2 = State.String
    ∧ ((styleToken data accessor line pre.reverse tok after self State.String).2.1 = State.Default
        ↔ backslashesBefore pre % 2 = 0)
    ∧ (backslashesBefore pre % 2 = 1 →
        (styleToken data accessor line pre.reverse tok after self State.String).2.1 = State.String) := by
  have hne : tok.content ≠ propertyWord := by rw [h]; exact quote_ne_property
  rw [styleToken_of_ne _ _ _ _ _ _ _ _ hne]
  unfold backslashesBefore
  rw [← numBackslash_eq_takeWhile]
  by_cases hp : numBackslash pre.reverse % 2 = 0
  · simp [styleByState, h, hp]
  · have h1 : numBackslash pre.reverse % 2 = 1 := by omega
    simp [styleByState, h, h1]

/-- Witness for C5: after one backslash token the quote does not close the string, after
two it does. -/
theorem quote_in_string_closes_iff_even_witness :
    (specialToken chQuote 3).content = [chQuote]
    ∧ backslashesBefore [specialToken chBackslash 2] % 2 = 1
    ∧ (styleToken sampleData (freshDocument "") 0 [specialToken chBackslash 2].reverse
        (specialToken chQuote 3) [] sampleLexer State.String).2.1 = State.String
    ∧ (styleToken sampleData (freshDocument "") 0
        [specialToken chBackslash 1, specialToken chBackslash 2].reverse
        (specialToken chQuote 3) [] sampleLexer State.String).2.1 = State.Default :=
  ⟨rfl, by decide,
    (quote_in_string_closes_iff_even sampleData (freshDocument "") 0 [specialToken chBackslash 2]
      (specialToken chQuote 3) [] sampleLexer rfl).2.2 (by decide),
    (quote_in_string_closes_iff_even sampleData (freshDocument "") 0
      [specialToken chBackslash 1, specialToken chBackslash 2]
      (specialToken chQuote 3) [] sampleLexer rfl).2.1.2 (by decide)⟩

/-! ### States at line boundaries -/

/-- The next `messageState` is the old one or one of the five continuation states. -/
theorem styleByState_state_cases (data : LexerData) (before : List Token) (tok : Token)
    (after : List Token) (self : Lexer) (messageState : State) :
    (styleByState data before tok after self messageState).2.1 = messageState
    ∨ (styleByState data before tok after self messageState).2.1 = State.Default
    ∨ (styleByState data before tok after self messageState).2.1 = State.Comment
    ∨ (styleByState data before tok after self messageState).2.1 = State.CommentMultiLine
    ∨ (styleByState data before tok after self messageState).2.1 = State.CommentDoc
    ∨ (styleByState data before tok after self messageState).2.1 = State.String := by
  rcases styleByState_cases data before tok after self messageState with
    ⟨hm, he⟩ | ⟨hm, he⟩ | ⟨hm, he⟩ | ⟨hm, he⟩ | ⟨_, he⟩
  · rw [he, hm]
    by_cases hc : tok.content = [chRBrace]
    · rw [if_pos hc]; exact Or.inr (Or.inl rfl)
    · rw [if_neg hc]; exact Or.inl rfl
  · rw [he, hm]
    by_cases hc : tok.content = [chSemicolon] ∧ nextIs before [chSlash] = true
    · rw [if_pos hc]; exact Or.inr (Or.inl rfl)
    · rw [if_neg hc]; exact Or.inl rfl
  · rw [he, hm]; exact Or.inl rfl
  · rw [he, hm]
    by_cases hc : tok.content = [chQuote] ∧ numBackslash before % 2 = 0
    · rw [if_pos hc]; exact Or.inr (Or.inl rfl)
    · rw [if_neg hc]; exact Or.inl rfl
  · rw [he]
    rcases styleDefault_state data tok after self messageState with h | h | h | h | h <;>
      rw [h] <;> simp

/-- The lexer after the state-dependent part is the old one or the one left by the
identifier classification. -/
theorem styleByState_lexer (data : LexerData) (before : List Token) (tok : Token)
    (after : List Token) (self : Lexer) (messageState : State) :
    (styleByState data before tok after self messageState).1 = self
    ∨ (styleByState data before tok after self messageState).1
        = (styleIdentifier data tok.content after self).1 := by
  rcases styleByState_cases data before tok after self messageState with
    ⟨_, he⟩ | ⟨_, he⟩ | ⟨_, he⟩ | ⟨_, he⟩ | ⟨_, he⟩
  · rw [he]; exact Or.inl rfl
  · rw [he]; exact Or.inl rfl
  · rw [he]; exact Or.inl rfl
  · rw [he]; exact Or.inl rfl
  · rw [he]; exact styleDefault_lexer data tok after self messageState

theorem styleByState_continuation (data : LexerData) (before : List Token) (tok : Token)
    (after : List Token) (self : Lexer) (messageState : State) (h : isContinuation messageState) :
    isContinuation (styleByState data before tok after self messageState).2.1 := by
  have hc := styleByState_state_cases data before tok after self messageState
  unfold isContinuation at *
  rcases hc with hc | hc | hc | hc | hc | hc <;> rw [hc] <;> simp [h]

theorem styleTokens_continuation (data : LexerData) (accessor : Document) (line : Nat)
    (rest : List Token) :
    ∀ (before : List Token) (self : Lexer) (styleContext : StyleContext) (messageState : State),
      isContinuation messageState →
      isContinuation (styleTokens data accessor line before rest self styleContext messageState).2.2 := by
  induction rest with
  | nil => intro before self styleContext messageState h; exact h
  | cons tok after ih =>
    intro before self styleContext messageState h
    unfold styleTokens
    apply ih
    rw [styleToken_state]
    exact styleByState_continuation data before tok after self messageState h

theorem endOfLineState_crosses (messageState : State) (h : isContinuation messageState) :
    crossesLine (endOfLineState messageState) := by
  unfold isContinuation at h
  unfold crossesLine endOfLineState
  rcases h with h | h | h | h | h <;> subst h <;> simp

theorem crossesLine_continuation (s : State) (h : crossesLine s) : isContinuation s := by
  unfold crossesLine at h
  unfold isContinuation
  rcases h with h | h | h <;> simp [h]

theorem lexTokens_crosses (data : LexerData) (accessor : Document) (line : Nat) (tokens : List Token)
    (self : Lexer) (styleContext : StyleContext) (messageStateLast : State)
    (h : isContinuation messageStateLast) :
    crossesLine (lexTokens data accessor line tokens self styleContext messageStateLast).2.2 := by
  unfold lexTokens
  exact endOfLineState_crosses _ (styleTokens_continuation data accessor line tokens [] self
    styleContext messageStateLast h)

theorem lexLines_crosses (data : LexerData) (accessor : Document) (count : Nat) :
    ∀ (line : Nat) (self : Lexer) (styleContext : StyleContext) (messageStateLast : State)
      (r : Lexer × StyleContext × State),
      isContinuation messageStateLast →
      lexLines data accessor count line self styleContext messageStateLast = Except.ok r →
      isContinuation r.2.2 ∧ (0 < count → crossesLine r.2.2) := by
  induction count with
  | zero =>
    intro line self styleContext messageStateLast r h hr
    simp only [lexLines, Except.ok.injEq] at hr
    subst hr
    exact ⟨h, fun h0 => absurd h0 (Nat.lt_irrefl 0)⟩
  | succ count ih =>
    intro line self styleContext messageStateLast r h hr
    unfold lexLines lexLine at hr
    cases ht : tokenize accessor line with
    | error e => rw [ht] at hr; simp at hr
    | ok tokens =>
      rw [ht] at hr
      simp only at hr
      have hc := lexTokens_crosses data accessor line tokens self styleContext messageStateLast h
      have h2 := ih _ _ _ _ r (crossesLine_continuation _ hc) hr
      refine ⟨h2.1, fun _ => ?_⟩
      cases count with
      | zero =>
        simp only [lexLines, Except.ok.injEq] at hr
        rw [← hr]
        exact hc
      | succ n => exact h2.2 (Nat.succ_pos n)

/-! ### Comment states -/

theorem nextIs_iff (l : List Token) (content : List Char) :
    nextIs l content = true ↔ ∃ p, l.head? = some p ∧ p.content = content := by
  cases l with
  | nil => simp [nextIs]
  | cons t rest => simp [nextIs]

theorem noMultiLineClose_tail (tok : Token) (after : List Token)
    (h : noMultiLineClose (tok :: after)) : noMultiLineClose after := by
  cases after with
  | nil => trivial
  | cons b rest => exact h.2

theorem noMultiLineClose_head (tok : Token) (after : List Token)
    (h : noMultiLineClose (tok :: after)) (t : Token) (ht : after.head? = some t) :
    ¬ (tok.content = [chSlash] ∧ t.content = [chSemicolon]) := by
  cases after with
  | nil => simp at ht
  | cons b rest =>
    simp only [List.head?_cons, Option.some.injEq] at ht
    subst ht
    exact h.1

theorem styleTokens_multiLine_stays (data : LexerData) (accessor : Document) (line : Nat)
    (rest : List Token) :
    ∀ (before : List Token) (self : Lexer) (styleContext : StyleContext),
      (∀ p t, before.head? = some p → rest.head? = some t →
        ¬ (p.content = [chSlash] ∧ t.content = [chSemicolon])) →
      noMultiLineClose rest →
      (styleTokens data accessor line before rest self styleContext State.CommentMultiLine).2.2
        = State.CommentMultiLine := by
  induction rest with
  | nil => intro before self styleContext _ _; rfl
  | cons tok after ih =>
    intro before self styleContext hfirst hchain
    unfold styleTokens
    have hstate : (styleToken data accessor line before tok after self State.CommentMultiLine).2.1
        = State.CommentMultiLine := by
      rw [styleToken_state]
      unfold styleByState
      simp only [reduceCtorEq, if_false, if_true]
      rw [if_neg]
      rintro ⟨hsemi, hslash⟩
      obtain ⟨p, hp, hpc⟩ := (nextIs_iff before [chSlash]).1 hslash
      exact hfirst p tok hp rfl ⟨hpc, hsemi⟩
    simp only [hstate]
    apply ih
    · intro p t hp ht
      simp only [List.head?_cons, Option.some.injEq] at hp
      subst hp
      exact noMultiLineClose_head tok after hchain t ht
    · exact noMultiLineClose_tail tok after hchain

theorem styleTokens_doc_stays (data : LexerData) (accessor : Document) (line : Nat)
    (rest : List Token) :
    ∀ (before : List Token) (self : Lexer) (styleContext : StyleContext),
      (∀ t ∈ rest, t.content ≠ [chRBrace]) →
      (styleTokens data accessor line before rest self styleContext State.CommentDoc).2.2
        = State.CommentDoc := by
  induction rest with
  | nil => intro before self styleContext _; rfl
  | cons tok after ih =>
    intro before self styleContext hno
    unfold styleTokens
    have hstate : (styleToken data accessor line before tok after self State.CommentDoc).2.1
        = State.CommentDoc := by
      rw [styleToken_state]
      unfold styleByState
      simp only [if_true]
      rw [if_neg (hno tok (List.mem_cons_self _ _))]
    simp only [hstate]
    exact ih _ _ _ (fun t ht => hno t (List.mem_cons_of_mem _ ht))

/-- C7: in `CommentMultiLine` the state after a token is `Default` exactly when the token is
";" and the token right before it on the line is "/", and it stays `CommentMultiLine`
otherwise; in `CommentDoc` the state becomes `Default` exactly at a closing brace token. A
line entered in `CommentMultiLine` (in `CommentDoc`) without such a closing token ends in
that state. Here `pre` holds the earlier tokens of the line in line order. -/
theorem comment_close_exactly (data : LexerData) (accessor : Document) (line : Nat)
    (pre : List Token) (tok : Token) (after : List Token) (self : Lexer)
    (tokens : List Token) (styleContext : StyleContext) :
    ((styleToken data accessor line pre.reverse tok after self State.CommentMultiLine).2.1
        = State.Default
      ↔ tok.content = [chSemicolon] ∧ ∃ p, pre.getLast? = some p ∧ p.content = [chSlash])
    ∧ ((styleToken data accessor line pre.reverse tok after self State.CommentMultiLine).2.1
        = State.Default
      ∨ (styleToken data accessor line pre.reverse tok after self State.CommentMultiLine).2.1
        = State.CommentMultiLine)
    ∧ ((styleToken data accessor line pre.reverse tok after self State.CommentDoc).2.1
        = State.Default
      ↔ tok.content = [chRBrace])
    ∧ ((styleToken data accessor line pre.reverse tok after self State.CommentDoc).2.1
        = State.Default
      ∨ (styleToken data accessor line pre.reverse tok after self State.CommentDoc).2.1
        = State.CommentDoc)
    ∧ (noMultiLineClose tokens →
        (lexTokens data accessor line tokens self styleContext State.CommentMultiLine).2.2
          = State.CommentMultiLine)
    ∧ ((∀ t ∈ tokens, t.content ≠ [chRBrace]) →
        (lexTokens data accessor line tokens self styleContext State.CommentDoc).2.2
          = State.CommentDoc) := by
  have hn : (nextIs pre.reverse [chSlash] = true)
      ↔ ∃ p, pre.getLast? = some p ∧ p.content = [chSlash] := by
    rw [nextIs_iff, List.head?_reverse]
  refine ⟨?_, ?_, ?_, ?_, ?_, ?_⟩
  · rw [styleToken_state]
    unfold styleByState
    simp only [reduceCtorEq, if_false, if_true]
    rw [← hn]
    split_ifs with hc
    · simp [hc]
    · simp only [reduceCtorEq, false_iff]; exact hc
  · rw [styleToken_state]
    unfold styleByState
    simp only [reduceCtorEq, if_false, if_true]
    split_ifs <;> simp
  · rw [styleToken_state]
    unfold styleByState
    simp only [if_true]
    split_ifs with hc
    · simp [hc]
    · simp only [reduceCtorEq, false_iff]; exact hc
  · rw [styleToken_state]
    unfold styleByState
    simp only [if_true]
    split_ifs <;> simp
  · intro hchain
    unfold lexTokens
    simp only
    rw [styleTokens_multiLine_stays data accessor line tokens [] self styleContext
      (by intro p t hp; simp at hp) hchain]
    rfl
  · intro hno
    unfold lexTokens
    simp only
    rw [styleTokens_doc_stays data accessor line tokens [] self styleContext hno]
    rfl

/-- Witness for C7: the line `a / ;` closes a multi-line comment at its last token, the line
`a ; b` does not close one, and a line without a closing brace stays in `CommentDoc`. -/
theorem comment_close_exactly_witness :
    (styleToken sampleData (freshDocument "a / ;") 0
        [identifierToken "a" 0, specialToken chSlash 2].reverse (specialToken chSemicolon 4) []
        sampleLexer State.CommentMultiLine).2.1 = State.Default
    ∧ (lexTokens sampleData (freshDocument "a ; b") 0
        [identifierToken "a" 0, specialToken chSemicolon 2, identifierToken "b" 4] sampleLexer
        (StyleContext.init 0 5 State.CommentMultiLine (freshDocument "a ; b"))
        State.CommentMultiLine).2.2 = State.CommentMultiLine
    ∧ (lexTokens sampleData (freshDocument "a ; b") 0
        [identifierToken "a" 0, specialToken chSemicolon 2, identifierToken "b" 4] sampleLexer
        (StyleContext.init 0 5 State.CommentDoc (freshDocument "a ; b"))
        State.CommentDoc).2.2 = State.CommentDoc :=
  ⟨(comment_close_exactly sampleData (freshDocument "a / ;") 0
      [identifierToken "a" 0, specialToken chSlash 2] (specialToken chSemicolon 4) []
      sampleLexer [] (StyleContext.init 0 5 State.Default (freshDocument "a / ;"))).1.2
      ⟨rfl, specialToken chSlash 2, rfl, rfl⟩,
    (comment_close_exactly sampleData (freshDocument "a ; b") 0 [] (specialToken chSemicolon 0) []
      sampleLexer [identifierToken "a" 0, specialToken chSemicolon 2, identifierToken "b" 4]
      (StyleContext.init 0 5 State.CommentMultiLine (freshDocument "a ; b"))).2.2.2.2.1
      ⟨by decide, by decide, trivial⟩,
    (comment_close_exactly sampleData (freshDocument "a ; b") 0 [] (specialToken chSemicolon 0) []
      sampleLexer [identifierToken "a" 0, specialToken chSemicolon 2, identifierToken "b" 4]
      (StyleContext.init 0 5 State.CommentDoc (freshDocument "a ; b"))).2.2.2.2.2
      (by decide)⟩

/-- C3: when the state entering a line is one of the five continuation states, the state
carried to the next line is `Default`, `CommentMultiLine` or `CommentDoc`, and so is the state
at every later line boundary of the range. -/
theorem line_boundary_states (data : LexerData) (accessor : Document) (line : Nat)
    (tokens : List Token) (self : Lexer) (styleContext : StyleContext) (messageStateLast : State)
    (h : isContinuation messageStateLast) :
    crossesLine (lexTokens data accessor line tokens self styleContext messageStateLast).2.2
    ∧ ∀ (count : Nat) (r : Lexer × StyleContext × State), 0 < count →
        lexLines data accessor count line self styleContext messageStateLast = Except.ok r →
        crossesLine r.2.2 :=
  ⟨lexTokens_crosses data accessor line tokens self styleContext messageStateLast h,
    fun count r hc hr =>
      (lexLines_crosses data accessor count line self styleContext messageStateLast r h hr).2 hc⟩

/-- Witness for C3: the line `; c` entered in `Default`: the token loop ends the line in the
state `Comment`, which the end of the line sets back, and `Default` is handed to the next
line; so does a line that opens a string and does not close it, whose token loop ends in
`String`; and the line loop over the line `; c` hands on `Default`. -/
theorem line_boundary_states_witness :
    isContinuation State.Default
    ∧ tokenize (freshDocument "; c\n") 0
        = Except.ok [specialToken chSemicolon 0, identifierToken "c" 2]
    ∧ (styleTokens sampleData (freshDocument "; c\n") 0 []
        [specialToken chSemicolon 0, identifierToken "c" 2] sampleLexer
        (StyleContext.init 0 4 State.Default (freshDocument "; c\n")) State.Default).2.2
        = State.Comment
    ∧ (lexTokens sampleData (freshDocument "; c\n") 0
        [specialToken chSemicolon 0, identifierToken "c" 2] sampleLexer
        (StyleContext.init 0 4 State.Default (freshDocument "; c\n")) State.Default).2.2
        = State.Default
    ∧ crossesLine (lexTokens sampleData (freshDocument "; c\n") 0
        [specialToken chSemicolon 0, identifierToken "c" 2] sampleLexer
        (StyleContext.init 0 4 State.Default (freshDocument "; c\n")) State.Default).2.2
    ∧ (∀ r, lexLines sampleData (freshDocument "; c\n") 1 0 sampleLexer
          (StyleContext.init 0 4 State.Default (freshDocument "; c\n")) State.Default
          = Except.ok r → crossesLine r.2.2)
    ∧ (styleTokens sampleData (freshDocument "; c\n") 0 []
        [specialToken chQuote 0, identifierToken "c" 1] sampleLexer
        (StyleContext.init 0 4 State.Default (freshDocument "; c\n")) State.Default).2.2
        = State.String
    ∧ (lexTokens sampleData (freshDocument "; c\n") 0
        [specialToken chQuote 0, identifierToken "c" 1] sampleLexer
        (StyleContext.init 0 4 State.Default (freshDocument "; c\n")) State.Default).2.2
        = State.Default :=
  ⟨by unfold isContinuation; decide, by rfl, by decide!, by decide!,
    (line_boundary_states sampleData (freshDocument "; c\n") 0
      [specialToken chSemicolon 0, identifierToken "c" 2] sampleLexer
      (StyleContext.init 0 4 State.Default (freshDocument "; c\n")) State.Default
      (by unfold isContinuation; decide)).1,
    fun r hr => (line_boundary_states sampleData (freshDocument "; c\n") 0
      [specialToken chSemicolon 0, identifierToken "c" 2] sampleLexer
      (StyleContext.init 0 4 State.Default (freshDocument "; c\n")) State.Default
      (by unfold isContinuation; decide)).2 1 r (by decide) hr,
    by decide!, by decide!⟩

/-! ### Property records -/

theorem resolveClassName_properties (data : LexerData) (tokenString : List Char) (self : Lexer) :
    (resolveClassName data tokenString self).1.propertyLines = self.propertyLines
    ∧ (resolveClassName data tokenString self).1.propertyNames = self.propertyNames := by
  unfold resolveClassName
  simp only
  split_ifs <;> exact ⟨rfl, rfl⟩

/-- The lexer after the identifier classification is the old one or the one left by the
class-name lookup. -/
theorem styleIdentifier_lexer (data : LexerData) (tokenString : List Char)
    (after : List Token) (self : Lexer) :
    (styleIdentifier data tokenString after self).1 = self
    ∨ (styleIdentifier data tokenString after self).1
        = (resolveClassName data tokenString self).1 := by
  unfold styleIdentifier
  split_ifs <;> first | exact Or.inl rfl | exact Or.inr rfl

theorem styleIdentifier_properties (data : LexerData) (tokenString : List Char)
    (after : List Token) (self : Lexer) :
    (styleIdentifier data tokenString after self).1.propertyLines = self.propertyLines
    ∧ (styleIdentifier data tokenString after self).1.propertyNames = self.propertyNames := by
  rcases styleIdentifier_lexer data tokenString after self with h | h
  · rw [h]; exact ⟨rfl, rfl⟩
  · rw [h]; exact resolveClassName_properties data tokenString self

theorem styleByState_properties (data : LexerData) (before : List Token) (tok : Token)
    (after : List Token) (self : Lexer) (messageState : State) :
    (styleByState data before tok after self messageState).1.propertyLines = self.propertyLines
    ∧ (styleByState data before tok after self messageState).1.propertyNames
        = self.propertyNames := by
  rcases styleByState_lexer data before tok after self messageState with h | h
  · rw [h]; exact ⟨rfl, rfl⟩
  · rw [h]; exact styleIdentifier_properties data tok.content after self

theorem revalidate_length (accessor : Document) (records : List Property) :
    ∀ (names : List (List Char)) (kept : List Property) (names1 : List (List Char)),
      revalidate accessor records names = Except.ok (kept, names1) →
      kept.length ≤ records.length := by
  induction records with
  | nil =>
    intro names kept names1 h
    simp only [revalidate, Except.ok.injEq, Prod.mk.injEq] at h
    rw [← h.1]
  | cons p rest ih =>
    intro names kept names1 h
    unfold revalidate at h
    cases ht : tokenize accessor p.line with
    | error e => rw [ht] at h; simp at h
    | ok tokens =>
      rw [ht] at h
      simp only at h
      cases hf : findPropertyName accessor tokens with
      | none =>
        rw [hf] at h
        simp only at h
        exact Nat.le_succ_of_le (ih _ _ _ h)
      | some currentName =>
        rw [hf] at h
        simp only at h
        split at h
        · simp at h
        · rename_i kept1 names2 hrec
          simp only [Except.ok.injEq, Prod.mk.injEq] at h
          rw [← h.1]
          simp only [List.length_cons]
          exact Nat.succ_le_succ (ih _ _ _ hrec)

/-- C9, as amended: a token whose stored style is a comment style, or whose next token has a
stored comment style, creates no property record and adds no property name, whatever the
continuation state; a token that changes the records or the names is a "property" token
followed by another token, the stored styles at the starts of both are not comment styles,
and no record is on its line: then the record of the next token's content is appended and
that name enters the name set. The re-validation pass creates no record. -/
theorem property_record_creation (data : LexerData) (accessor : Document) (line : Nat)
    (before : List Token) (tok : Token) (after : List Token) (self : Lexer) (messageState : State) :
    ((isComment (accessor.StyleAt tok.startPos) = true
        ∨ ∃ next rest, after = next :: rest ∧ isComment (accessor.StyleAt next.startPos) = true) →
      (styleToken data accessor line before tok after self messageState).1.propertyLines
          = self.propertyLines
        ∧ (styleToken data accessor line before tok after self messageState).1.propertyNames
          = self.propertyNames)
    ∧ (((styleToken data accessor line before tok after self messageState).1.propertyLines
          ≠ self.propertyLines
        ∨ (styleToken data accessor line before tok after self messageState).1.propertyNames
          ≠ self.propertyNames) →
      tok.content = propertyWord
        ∧ ∃ next rest, after = next :: rest
          ∧ isComment (accessor.StyleAt tok.startPos) = false
          ∧ isComment (accessor.StyleAt next.startPos) = false
          ∧ self.propertyLines.any (fun p => decide (p.line = line)) = false
          ∧ (styleToken data accessor line before tok after self messageState).1.propertyLines
            = self.propertyLines ++ [{ name := next.content, line := line }]
          ∧ (styleToken data accessor line before tok after self messageState).1.propertyNames
            = setInsert next.content self.propertyNames)
    ∧ (∀ names kept names1, revalidate accessor self.propertyLines names = Except.ok (kept, names1) →
        kept.length ≤ self.propertyLines.length) := by
  refine ⟨?_, ?_, fun names kept names1 h => revalidate_length accessor _ names kept names1 h⟩
  · intro hc
    cases hd : declaresProperty accessor tok after with
    | none =>
      unfold styleToken
      rw [hd]
      exact styleByState_properties data before tok after self messageState
    | some next =>
      exfalso
      obtain ⟨_, ⟨rest, hrest⟩, h1, h2⟩ := declaresProperty_some accessor tok after next hd
      rcases hc with hc | ⟨n, r, hnr, hc⟩
      · rw [h1] at hc; exact Bool.noConfusion hc
      · rw [hrest] at hnr
        simp only [List.cons.injEq] at hnr
        rw [← hnr.1, h2] at hc
        exact Bool.noConfusion hc
  · intro hchange
    cases hd : declaresProperty accessor tok after with
    | none =>
      exfalso
      unfold styleToken at hchange
      rw [hd] at hchange
      have hp := styleByState_properties data before tok after self messageState
      rcases hchange with hc | hc
      · exact hc hp.1
      · exact hc hp.2
    | some next =>
      obtain ⟨hcontent, ⟨rest, hrest⟩, h1, h2⟩ := declaresProperty_some accessor tok after next hd
      by_cases hr : self.propertyLines.any (fun p => decide (p.line = line)) = true
      · exfalso
        unfold styleToken at hchange
        rw [hd] at hchange
        simp only [hr, if_true] at hchange
        have hp := styleByState_properties data before tok after self messageState
        rcases hchange with hc | hc
        · exact hc hp.1
        · exact hc hp.2
      · refine ⟨hcontent, next, rest, hrest, h1, h2, by simpa using hr, ?_, ?_⟩
        · unfold styleToken
          rw [hd]
          simp only [hr]
          rfl
        · unfold styleToken
          rw [hd]
          simp only [hr]
          rfl

/-- Witness for C9 as amended: on a line stored as comment the "property" token creates no
record; on a never-styled line it creates the record of the next token. -/
theorem property_record_creation_witness :
    isComment ((commentedDocument "; property foo").StyleAt (identifierToken "property" 2).startPos)
      = true
    ∧ (styleToken sampleData (commentedDocument "; property foo") 0 [specialToken chSemicolon 0]
        (identifierToken "property" 2) [identifierToken "foo" 11] sampleLexer
        State.Comment).1.propertyLines = sampleLexer.propertyLines
    ∧ (styleToken sampleData (freshDocument "int property foo") 0 [identifierToken "int" 0]
        (identifierToken "property" 4) [identifierToken "foo" 13] sampleLexer
        State.Default).1.propertyLines ≠ sampleLexer.propertyLines
    ∧ (identifierToken "property" 4).content = propertyWord :=
  ⟨by decide,
    ((property_record_creation sampleData (commentedDocument "; property foo") 0
      [specialToken chSemicolon 0] (identifierToken "property" 2) [identifierToken "foo" 11]
      sampleLexer State.Comment).1 (Or.inl (by decide))).1,
    by decide,
    ((property_record_creation sampleData (freshDocument "int property foo") 0
      [identifierToken "int" 0] (identifierToken "property" 4) [identifierToken "foo" 13]
      sampleLexer State.Default).2.1 (Or.inl (by decide))).1⟩

/-- Counterexample to C9 as stated: in the never-styled document `; property foo` the token
"property" is met in the continuation state `Comment`, yet it creates the record (foo, 0)
and the name "foo" enters the name set. -/
theorem property_in_comment_creates_record :
    tokenize (freshDocument "; property foo\n") 0 = Except.ok commentedPropertyTokens
    ∧ (styleToken sampleData (freshDocument "; property foo\n") 0 []
        (specialToken chSemicolon 0) [identifierToken "property" 2, identifierToken "foo" 11]
        sampleLexer State.Default).2.1 = State.Comment
    ∧ (styleToken sampleData (freshDocument "; property foo\n") 0 [specialToken chSemicolon 0]
        (identifierToken "property" 2) [identifierToken "foo" 11] sampleLexer
        State.Comment).1.propertyLines = [{ name := "foo".toList, line := 0 }]
    ∧ propertiesAfter (Lex sampleLexer (some sampleData) 0 15 (freshDocument "; property foo\n"))
        = some ([{ name := "foo".toList, line := 0 }], ["foo".toList]) :=
  ⟨by rfl, by decide!, by decide!, by decide!⟩

/-! ### Styles of tokens inside comments -/

theorem noDeclaration_tail (accessor : Document) (line : Nat) (self : Lexer) (tok : Token)
    (after : List Token) (h : noDeclaration accessor line self (tok :: after)) :
    noDeclaration accessor line self after := by
  intro pre t a hsplit
  exact h (tok :: pre) t a (by rw [hsplit]; rfl)

theorem noDeclaration_head (accessor : Document) (line : Nat) (self : Lexer) (tok : Token)
    (after : List Token) (h : noDeclaration accessor line self (tok :: after)) :
    ¬ startsDeclaration accessor line self tok after :=
  h [] tok after rfl

theorem tokenStyles_comment (data : LexerData) (accessor : Document) (line : Nat) (self : Lexer)
    (rest : List Token) :
    ∀ (before : List Token), noDeclaration accessor line self rest →
      tokenStyles data accessor line before rest self State.Comment
        = List.replicate rest.length State.Comment := by
  induction rest with
  | nil => intro before _; rfl
  | cons tok after ih =>
    intro before hno
    unfold tokenStyles
    rw [styleToken_of_not_starts data accessor line before tok after self State.Comment
      (noDeclaration_head accessor line self tok after hno)]
    have hs : styleByState data before tok after self State.Comment
        = (self, State.Comment, State.Comment) := by
      unfold styleByState
      simp
    rw [hs]
    simp only [List.length_cons, List.replicate_succ, List.cons.injEq, true_and]
    exact ih _ (noDeclaration_tail accessor line self tok after hno)

theorem tokenStyles_multiLine (data : LexerData) (accessor : Document) (line : Nat) (self : Lexer)
    (rest : List Token) :
    ∀ (before : List Token),
      (∀ p t, before.head? = some p → rest.head? = some t →
        ¬ (p.content = [chSlash] ∧ t.content = [chSemicolon])) →
      noMultiLineClose rest → noDeclaration accessor line self rest →
      tokenStyles data accessor line before rest self State.CommentMultiLine
        = List.replicate rest.length State.CommentMultiLine := by
  induction rest with
  | nil => intro before _ _ _; rfl
  | cons tok after ih =>
    intro before hfirst hchain hno
    unfold tokenStyles
    rw [styleToken_of_not_starts data accessor line before tok after self State.CommentMultiLine
      (noDeclaration_head accessor line self tok after hno)]
    have hs : styleByState data before tok after self State.CommentMultiLine
        = (self, State.CommentMultiLine, State.CommentMultiLine) := by
      unfold styleByState
      simp only [reduceCtorEq, if_false, if_true]
      rw [if_neg]
      rintro ⟨hsemi, hslash⟩
      obtain ⟨p, hp, hpc⟩ := (nextIs_iff before [chSlash]).1 hslash
      exact hfirst p tok hp rfl ⟨hpc, hsemi⟩
    rw [hs]
    simp only [List.length_cons, List.replicate_succ, List.cons.injEq, true_and]
    apply ih
    · intro p t hp ht
      simp only [List.head?_cons, Option.some.injEq] at hp
      subst hp
      exact noMultiLineClose_head tok after hchain t ht
    · exact noMultiLineClose_tail tok after hchain
    · exact noDeclaration_tail accessor line self tok after hno

/-- The style context after the token loop is the one reached by `colorToken` on each token
with its state from `tokenStyles`. -/
theorem styleTokens_styleContext (data : LexerData) (accessor : Document) (line : Nat)
    (rest : List Token) :
    ∀ (before : List Token) (self : Lexer) (styleContext : StyleContext) (messageState : State),
      (styleTokens data accessor line before rest self styleContext messageState).2.1
        = (List.zip rest (tokenStyles data accessor line before rest self messageState)).foldl
            (fun sc p => colorToken accessor sc p.1 p.2) styleContext := by
  induction rest with
  | nil => intro before self styleContext messageState; rfl
  | cons tok after ih =>
    intro before self styleContext messageState
    unfold styleTokens tokenStyles
    simp only [List.zip_cons_cons, List.foldl_cons]
    exact ih _ _ _ _

/-- A token that starts a new property declaration is styled `Keyword` in every state, and
the state stays. -/
theorem styleToken_of_starts (data : LexerData) (accessor : Document) (line : Nat)
    (before : List Token) (tok : Token) (after : List Token) (self : Lexer) (messageState : State)
    (h : startsDeclaration accessor line self tok after) :
    (styleToken data accessor line before tok after self messageState).2.2 = State.Keyword
    ∧ (styleToken data accessor line before tok after self messageState).2.1 = messageState := by
  obtain ⟨h1, h2⟩ := h
  unfold styleToken
  cases hd : declaresProperty accessor tok after with
  | none =>
    rw [hd] at h1
    exact Bool.noConfusion h1
  | some next =>
    simp only
    rw [if_neg (by rw [h2]; decide)]
    exact ⟨rfl, rfl⟩

/-- C6, as amended: a token met in the state `Comment`, `CommentMultiLine` or `CommentDoc`
that does not start a new property declaration is styled with that state, and a token that
starts a new property declaration is styled `Keyword` whatever the state, which stays as it
is. So, on a line where no later token starts a declaration, every token after a bare ";"
met in the `Default` state is styled `Comment`, and every token of a line entered in
`CommentMultiLine` that holds no closing "/" ";" pair and no token starting a declaration is
styled `CommentMultiLine`. -/
theorem comment_tokens_styled (data : LexerData) (accessor : Document) (line : Nat)
    (before : List Token) (tok : Token) (after : List Token) (self : Lexer) (messageState : State)
    (semi : Token) (post tokens : List Token) :
    (isComment messageState = true → ¬ startsDeclaration accessor line self tok after →
      (styleToken data accessor line before tok after self messageState).2.2 = messageState)
    ∧ (startsDeclaration accessor line self tok after →
        (styleToken data accessor line before tok after self messageState).2.2 = State.Keyword
        ∧ (styleToken data accessor line before tok after self messageState).2.1 = messageState)
    ∧ (semi.content = [chSemicolon] → nextIs post [chSlash] = false →
        noDeclaration accessor line self post →
        tokenStyles data accessor line before (semi :: post) self State.Default
          = State.Comment :: List.replicate post.length State.Comment)
    ∧ (noMultiLineClose tokens → noDeclaration accessor line self tokens →
        tokenStyles data accessor line [] tokens self State.CommentMultiLine
          = List.replicate tokens.length State.CommentMultiLine) := by
  refine ⟨?_, styleToken_of_starts data accessor line before tok after self messageState, ?_, ?_⟩
  · intro hc hno
    rw [styleToken_of_not_starts data accessor line before tok after self messageState hno]
    unfold styleByState
    cases messageState <;> simp [isComment] at hc ⊢
  · intro hsemi hbare hno
    unfold tokenStyles
    have hne : semi.content ≠ propertyWord := by
      rw [hsemi]; exact fun h => property_ne_semicolon h.symm
    rw [styleToken_of_ne data accessor line before semi post self State.Default hne]
    have hs : styleByState data before semi post self State.Default
        = (self, State.Comment, State.Comment) := by
      unfold styleByState styleDefault
      have h1 : ¬ chSemicolon = chLBrace := by decide
      simp [hsemi, hbare, h1]
    rw [hs]
    simp only [List.cons.injEq, true_and]
    exact tokenStyles_comment data accessor line self post _ hno
  · intro hchain hno
    exact tokenStyles_multiLine data accessor line self tokens []
      (by intro p t hp; simp at hp) hchain hno

theorem noDeclaration_of_no_property (accessor : Document) (line : Nat) (self : Lexer)
    (tokens : List Token) (h : ∀ t ∈ tokens, t.content ≠ propertyWord) :
    noDeclaration accessor line self tokens := by
  intro pre tok after hsplit hstart
  have hmem : tok ∈ tokens := by rw [hsplit]; simp
  rw [startsDeclaration, declaresProperty_of_ne accessor tok after (h tok hmem)] at hstart
  exact Bool.noConfusion hstart.1

/-- Witness for C6 as amended: both tokens after the bare ";" of `; note x` are styled
`Comment`; and in the never-styled `; property foo` the token "property", met in the state
`Comment`, starts a declaration and is styled `Keyword`, and the state stays `Comment`. -/
theorem comment_tokens_styled_witness :
    (specialToken chSemicolon 0).content = [chSemicolon]
    ∧ nextIs [identifierToken "note" 2, identifierToken "x" 7] [chSlash] = false
    ∧ noDeclaration (freshDocument "; note x") 0 sampleLexer
        [identifierToken "note" 2, identifierToken "x" 7]
    ∧ tokenStyles sampleData (freshDocument "; note x") 0 []
        (specialToken chSemicolon 0 :: [identifierToken "note" 2, identifierToken "x" 7])
        sampleLexer State.Default
      = State.Comment :: List.replicate 2 State.Comment
    ∧ startsDeclaration (freshDocument "; property foo\n") 0 sampleLexer
        (identifierToken "property" 2) [identifierToken "foo" 11]
    ∧ (styleToken sampleData (freshDocument "; property foo\n") 0 [specialToken chSemicolon 0]
        (identifierToken "property" 2) [identifierToken "foo" 11] sampleLexer State.Comment).2.2
        = State.Keyword
    ∧ (styleToken sampleData (freshDocument "; property foo\n") 0 [specialToken chSemicolon 0]
        (identifierToken "property" 2) [identifierToken "foo" 11] sampleLexer State.Comment).2.1
        = State.Comment :=
  ⟨rfl, rfl,
    noDeclaration_of_no_property _ _ _ _ (by decide),
    (comment_tokens_styled sampleData (freshDocument "; note x") 0 []
      (specialToken chSemicolon 0) [] sampleLexer State.Default (specialToken chSemicolon 0)
      [identifierToken "note" 2, identifierToken "x" 7] []).2.2.1 rfl rfl
      (noDeclaration_of_no_property _ _ _ _ (by decide)),
    ⟨by decide!, by decide!⟩,
    ((comment_tokens_styled sampleData (freshDocument "; property foo\n") 0
      [specialToken chSemicolon 0] (identifierToken "property" 2) [identifierToken "foo" 11]
      sampleLexer State.Comment (specialToken chSemicolon 0) [] []).2.1
      ⟨by decide!, by decide!⟩).1,
    ((comment_tokens_styled sampleData (freshDocument "; property foo\n") 0
      [specialToken chSemicolon 0] (identifierToken "property" 2) [identifierToken "foo" 11]
      sampleLexer State.Comment (specialToken chSemicolon 0) [] []).2.1
      ⟨by decide!, by decide!⟩).2⟩

/-- Counterexample to C6 as stated: in the never-styled document `; property foo` the token
"property" comes after a bare ";" met in the `Default` state, so it is met in the state
`Comment`, and it is styled `Keyword`. -/
theorem property_token_in_comment_styled_keyword :
    tokenize (freshDocument "; property foo\n") 0 = Except.ok commentedPropertyTokens
    ∧ (styleToken sampleData (freshDocument "; property foo\n") 0 []
        (specialToken chSemicolon 0) [identifierToken "property" 2, identifierToken "foo" 11]
        sampleLexer State.Default).2.1 = State.Comment
    ∧ tokenStyles sampleData (freshDocument "; property foo\n") 0 [] commentedPropertyTokens
        sampleLexer State.Default = [State.Comment, State.Keyword, State.Comment]
    ∧ styleAfter (Lex sampleLexer (some sampleData) 0 15 (freshDocument "; property foo\n")) 2
        = some State.Keyword :=
  ⟨by rfl, by decide!, by decide!, by decide!⟩

/-! ### The tokenizer on an eight-bit document -/

theorem ascii_cases (P : Char → Prop) (hlow : ∀ n : Fin 128, P (Char.ofNat n.val))
    (hhigh : ∀ c : Char, 128 ≤ c.toNat → P c) (c : Char) : P c := by
  by_cases h : c.toNat < 128
  · have := hlow ⟨c.toNat, h⟩
    simpa using this
  · exact hhigh c (by omega)

theorem not_identChar_high (c : Char) (h : 128 ≤ c.toNat) : identChar c = false := by
  have hv : 128 ≤ c.val.toNat := h
  have h1 : ¬ (c.val ≤ 57) := by
    intro hle
    have : c.val.toNat ≤ 57 := hle
    omega
  have h2 : ¬ (c.val ≤ 90) := by
    intro hle
    have : c.val.toNat ≤ 90 := hle
    omega
  have h3 : ¬ (c.val ≤ 122) := by
    intro hle
    have : c.val.toNat ≤ 122 := hle
    omega
  have h4 : c ≠ chUnderscore := by
    intro he
    rw [he] at h
    revert h
    decide
  simp [identChar, isalnum, Char.isAlphanum, Char.isAlpha, Char.isUpper, Char.isLower, Char.isDigit,
    h1, h2, h3, h4]

theorem identChar_tolower (c : Char) (h : identChar c = true) : identChar (tolower c) = true := by
  revert h
  apply ascii_cases (fun c => identChar c = true → identChar (tolower c) = true)
  · decide!
  · intro c hc h
    rw [not_identChar_high c hc] at h
    exact Bool.noConfusion h

theorem stopChar_not_identChar (ch : Char) (h : stopChar ch) : identChar ch = false := by
  rcases h with h | h | h <;> rw [h] <;> decide

theorem getNextChar_eightBit (accessor : Document) (h8 : accessor.multiByte = none) (c : Cursor) :
    getNextChar accessor c
      = { ch := accessor.SafeGetCharAt c.indexNext, index := c.indexNext, indexNext := c.indexNext + 1 } := by
  unfold getNextChar
  rw [h8]

theorem getNextChar_good (accessor : Document) (h8 : accessor.multiByte = none) (c : Cursor)
    (hg : c.good accessor) :
    (getNextChar accessor c).good accessor ∧ (getNextChar accessor c).index = c.index + 1 := by
  rw [getNextChar_eightBit accessor h8 c]
  exact ⟨⟨rfl, rfl⟩, hg.2⟩

theorem scanIdentifier_spec (accessor : Document) (h8 : accessor.multiByte = none) (lineEnd : Nat)
    (hstop : stopChar (accessor.SafeGetCharAt lineEnd)) :
    ∀ (fuel : Nat) (content : List Char) (c : Cursor),
      c.good accessor → c.index ≤ lineEnd → lineEnd - c.index < fuel →
      ∃ added c1, scanIdentifier accessor fuel content c = Except.ok (content ++ added, c1)
        ∧ c1.good accessor ∧ c1.index = c.index + added.length ∧ c1.index ≤ lineEnd
        ∧ (∀ x ∈ added, identChar x = true)
        ∧ (identChar c.ch = true → added ≠ [])
        ∧ identChar c1.ch = false := by
  intro fuel
  induction fuel with
  | zero => intro content c _ _ hf; omega
  | succ fuel ih =>
    intro content c hg hle hf
    unfold scanIdentifier
    by_cases hm : identChar c.ch = true
    · have hm' : (isalnum c.ch || c.ch == chUnderscore) = true := hm
      rw [if_pos hm']
      have hlt : c.index < lineEnd := by
        rcases Nat.lt_or_ge c.index lineEnd with h | h
        · exact h
        · exfalso
          have he : c.index = lineEnd := by omega
          have hs := stopChar_not_identChar _ hstop
          rw [← he, ← hg.1, hm] at hs
          exact Bool.noConfusion hs
      obtain ⟨hg1, hi1⟩ := getNextChar_good accessor h8 c hg
      obtain ⟨added, c1, hres, hg2, hidx, hle2, hall, _, hlast⟩ :=
        ih (content ++ [tolower c.ch]) (getNextChar accessor c) hg1 (by omega) (by omega)
      refine ⟨tolower c.ch :: added, c1, ?_, hg2, ?_, hle2, ?_, fun _ => List.cons_ne_nil _ _, hlast⟩
      · rw [hres, List.append_assoc]; rfl
      · rw [hidx, hi1, List.length_cons]; omega
      · intro x hx
        rcases List.mem_cons.1 hx with hx | hx
        · rw [hx]; exact identChar_tolower c.ch hm
        · exact hall x hx
    · have hm' : ¬ (isalnum c.ch || c.ch == chUnderscore) = true := hm
      rw [if_neg hm']
      refine ⟨[], c, by rw [List.append_nil], hg, by simp, hle, by simp, fun h => absurd h hm, ?_⟩
      simpa using hm

theorem stringAt_cons_zero (x : Char) (rest : List Char) : stringAt (x :: rest) 0 = Except.ok x := rfl

theorem numericContinues_stop (startPos : Nat) (content : List Char) (hasDigit : Bool) (c : Cursor)
    (h : stopChar c.ch) : numericContinues startPos content hasDigit c = Except.ok false := by
  have e1 : isdigit c.ch = false := by rcases h with h | h | h <;> rw [h] <;> decide
  have e2 : (c.ch == chMinus) = false := by rcases h with h | h | h <;> rw [h] <;> decide
  have e3 : (c.ch == chDot) = false := by rcases h with h | h | h <;> rw [h] <;> decide
  have e4 : (tolower c.ch == 'x') = false := by rcases h with h | h | h <;> rw [h] <;> decide
  have e5 : isxdigit c.ch = false := by rcases h with h | h | h <;> rw [h] <;> decide
  unfold numericContinues
  simp [e1, e2, e3, e4, e5]

theorem numericContinues_start (startPos : Nat) (content : List Char) (hasDigit : Bool) (c : Cursor)
    (h : isdigit c.ch = true ∨ (c.ch = chMinus ∧ c.index = startPos)) :
    numericContinues startPos content hasDigit c = Except.ok true := by
  unfold numericContinues
  rcases h with h | ⟨h1, h2⟩
  · rw [if_pos h]
  · by_cases hd : isdigit c.ch = true
    · rw [if_pos hd]
    · rw [if_neg hd]
      simp [h1, h2]

theorem numericContinues_ok (startPos : Nat) (content : List Char) (hasDigit : Bool) (c : Cursor)
    (h : c.index = startPos + 1 → content ≠ []) :
    ∃ b, numericContinues startPos content hasDigit c = Except.ok b := by
  unfold numericContinues
  by_cases h1 : isdigit c.ch = true
  · exact ⟨true, by rw [if_pos h1]⟩
  rw [if_neg h1]
  by_cases h2 : (c.ch == chMinus && c.index == startPos) = true
  · exact ⟨true, by rw [if_pos h2]⟩
  rw [if_neg h2]
  by_cases h3 : (c.ch == chDot && hasDigit) = true
  · exact ⟨true, by rw [if_pos h3]⟩
  rw [if_neg h3]
  cases content with
  | nil =>
    have hA : ¬ (tolower c.ch == 'x' && c.index == startPos + 1) = true := by
      intro hA
      simp only [Bool.and_eq_true, beq_iff_eq] at hA
      exact h hA.2 rfl
    rw [if_neg hA]
    exact ⟨false, by simp⟩
  | cons x rest =>
    by_cases hA : (tolower c.ch == 'x' && c.index == startPos + 1) = true
    · rw [if_pos hA, stringAt_cons_zero]
      cases hx : (x == '0')
      · simp only [Except.map, hx]
        cases rest with
        | nil => exact ⟨false, by simp⟩
        | cons y rest2 =>
          by_cases h5 : isxdigit c.ch = true
          · exact ⟨tolower y == 'x', by simp [h5, stringAt, Except.map]⟩
          · exact ⟨false, by simp [h5]⟩
      · exact ⟨true, by simp [Except.map, hx]⟩
    · rw [if_neg hA]
      cases rest with
      | nil => exact ⟨false, by simp⟩
      | cons y rest2 =>
        by_cases h5 : isxdigit c.ch = true
        · exact ⟨tolower y == 'x', by simp [h5, stringAt, Except.map]⟩
        · exact ⟨false, by simp [h5]⟩

theorem scanNumeric_spec (accessor : Document) (h8 : accessor.multiByte = none) (lineEnd : Nat)
    (hstop : stopChar (accessor.SafeGetCharAt lineEnd)) (startPos : Nat) :
    ∀ (fuel : Nat) (content : List Char) (hasDigit : Bool) (c : Cursor),
      c.good accessor → c.index ≤ lineEnd → lineEnd - c.index < fuel →
      startPos ≤ c.index → content.length = c.index - startPos →
      ∃ added c1, scanNumeric accessor startPos fuel content hasDigit c
          = Except.ok (content ++ added, c1)
        ∧ c1.good accessor ∧ c1.index = c.index + added.length ∧ c1.index ≤ lineEnd
        ∧ ((isdigit c.ch = true ∨ (c.ch = chMinus ∧ c.index = startPos)) → added ≠ []) := by
  intro fuel
  induction fuel with
  | zero => intro content hasDigit c _ _ hf; omega
  | succ fuel ih =>
    intro content hasDigit c hg hle hf hsp hlen
    unfold scanNumeric
    obtain ⟨b, hb⟩ := numericContinues_ok startPos content hasDigit c (by
      intro hi hc
      rw [hc] at hlen
      simp only [List.length_nil] at hlen
      omega)
    rw [hb]
    cases b with
    | false =>
      refine ⟨[], c, by simp, hg, by simp, hle, ?_⟩
      intro hstart
      rw [numericContinues_start startPos content hasDigit c hstart] at hb
      simp at hb
    | true =>
      simp only
      have hlt : c.index < lineEnd := by
        rcases Nat.lt_or_ge c.index lineEnd with h | h
        · exact h
        · exfalso
          have he : c.index = lineEnd := by omega
          have hs : stopChar c.ch := by rw [hg.1, he]; exact hstop
          rw [numericContinues_stop startPos content hasDigit c hs] at hb
          simp at hb
      obtain ⟨hg1, hi1⟩ := getNextChar_good accessor h8 c hg
      obtain ⟨added, c1, hres, hg2, hidx, hle2, _⟩ :=
        ih (content ++ [tolower c.ch]) (hasDigit || isdigit c.ch) (getNextChar accessor c) hg1
          (by omega) (by omega) (by omega) (by rw [List.length_append, hlen, hi1]; simp; omega)
      refine ⟨tolower c.ch :: added, c1, ?_, hg2, ?_, hle2, fun _ => List.cons_ne_nil _ _⟩
      · rw [hres, List.append_assoc]; rfl
      · rw [hidx, hi1, List.length_cons]; omega

theorem tokensWithin_mono (ts : List Token) (lo lo1 hi : Nat) (h : lo1 ≤ lo)
    (hw : tokensWithin lo ts hi) : tokensWithin lo1 ts hi := by
  cases ts with
  | nil => trivial
  | cons t rest => exact ⟨Nat.le_trans h hw.1, hw.2.1, hw.2.2.1, hw.2.2.2⟩

theorem isalpha_identChar (ch : Char) (h : (isalpha ch || ch == chUnderscore) = true) :
    identChar ch = true := by
  unfold identChar isalnum Char.isAlphanum
  unfold isalpha at h
  rcases Bool.or_eq_true_iff.1 h with h | h
  · simp [h]
  · simp [h]

theorem tokenizeLoop_spec (accessor : Document) (h8 : accessor.multiByte = none) (lineEnd : Nat)
    (hstop : stopChar (accessor.SafeGetCharAt lineEnd)) :
    ∀ (fuel : Nat) (tokens : List Token) (c : Cursor),
      c.good accessor → lineEnd + 1 - c.index < fuel →
      ∃ new, tokenizeLoop accessor lineEnd fuel tokens c = Except.ok (tokens ++ new)
        ∧ tokensWithin c.index new lineEnd
        ∧ ∀ t ∈ new, t.tokenType = TokenType.Identifier → ∀ x ∈ t.content, identChar x = true := by
  intro fuel
  induction fuel with
  | zero => intro tokens c _ hf; omega
  | succ fuel ih =>
    intro tokens c hg hf
    unfold tokenizeLoop
    by_cases hlt : c.index < lineEnd
    · rw [if_pos hlt]
      by_cases hcr : (c.ch == chCR || c.ch == chLF) = true
      · rw [if_pos hcr]
        exact ⟨[], by simp, trivial, by simp⟩
      rw [if_neg hcr]
      obtain ⟨hg1, hi1⟩ := getNextChar_good accessor h8 c hg
      by_cases hbl : isblank c.ch = true
      · rw [if_pos hbl]
        obtain ⟨new, hres, hw, hid⟩ := ih tokens (getNextChar accessor c) hg1 (by omega)
        exact ⟨new, hres, tokensWithin_mono new _ _ _ (by omega) hw, hid⟩
      rw [if_neg hbl]
      by_cases hal : (isalpha c.ch || c.ch == chUnderscore) = true
      · rw [if_pos hal]
        obtain ⟨added, c1, hres, hg2, hidx, hle2, hall, hne, _⟩ :=
          scanIdentifier_spec accessor h8 lineEnd hstop fuel [] c hg (by omega) (by omega)
        rw [hres]
        simp only [List.nil_append]
        have hpos : 1 ≤ added.length :=
          List.length_pos.2 (hne (isalpha_identChar c.ch hal))
        obtain ⟨new, hres2, hw, hid⟩ := ih
          (tokens ++ [{ tokenType := TokenType.Identifier, content := added, startPos := c.index }])
          c1 hg2 (by omega)
        refine ⟨{ tokenType := TokenType.Identifier, content := added, startPos := c.index } :: new,
          ?_, ?_, ?_⟩
        · rw [hres2, List.append_assoc]; rfl
        · refine ⟨Nat.le_refl _, hne (isalpha_identChar c.ch hal), ?_, ?_⟩
          · show c.index + added.length ≤ lineEnd
            omega
          · show tokensWithin (c.index + added.length) new lineEnd
            rw [← hidx]; exact hw
        · intro t ht
          rcases List.mem_cons.1 ht with ht | ht
          · intro _ x hx
            rw [ht] at hx
            exact hall x hx
          · exact hid t ht
      rw [if_neg hal]
      by_cases hnum : (isdigit c.ch || c.ch == chMinus) = true
      · rw [if_pos hnum]
        obtain ⟨added, c1, hres, hg2, hidx, hle2, hne⟩ :=
          scanNumeric_spec accessor h8 lineEnd hstop c.index fuel [] false c hg (by omega) (by omega)
            (Nat.le_refl _) (by simp)
        rw [hres]
        simp only [List.nil_append]
        have hne1 : added ≠ [] := by
          apply hne
          rcases Bool.or_eq_true_iff.1 hnum with h | h
          · exact Or.inl h
          · exact Or.inr ⟨by simpa using h, rfl⟩
        cases added with
        | nil => exact absurd rfl hne1
        | cons a rest =>
          rw [stringAt_cons_zero]
          simp only
          obtain ⟨tt, htt⟩ : ∃ tt : TokenType, tt =
              (if (a == chMinus && (a :: rest).length == 1) = true then TokenType.Special
                else TokenType.Numeric) := ⟨_, rfl⟩
          rw [← htt]
          have hlen : c1.index = c.index + (rest.length + 1) := by
            rw [hidx, List.length_cons]
          obtain ⟨new, hres2, hw, hid⟩ := ih
            (tokens ++ [(⟨tt, a :: rest, c.index⟩ : Token)]) c1 hg2 (by omega)
          refine ⟨(⟨tt, a :: rest, c.index⟩ : Token) :: new, ?_, ?_, ?_⟩
          · rw [hres2, List.append_assoc]; rfl
          · refine ⟨Nat.le_refl _, List.cons_ne_nil _ _, ?_, ?_⟩
            · show c.index + (a :: rest).length ≤ lineEnd
              rw [List.length_cons]; omega
            · show tokensWithin (c.index + (a :: rest).length) new lineEnd
              rw [← hidx]; exact hw
          · intro t ht
            rcases List.mem_cons.1 ht with ht | ht
            · intro hty
              rw [ht] at hty
              simp only at hty
              rw [htt] at hty
              split_ifs at hty
            · exact hid t ht
      rw [if_neg hnum]
      obtain ⟨new, hres2, hw, hid⟩ := ih
        (tokens ++ [{ tokenType := TokenType.Special, content := [narrow (tolower c.ch)], startPos := c.index }])
        (getNextChar accessor c) hg1 (by omega)
      refine ⟨{ tokenType := TokenType.Special, content := [narrow (tolower c.ch)], startPos := c.index } :: new,
        ?_, ?_, ?_⟩
      · rw [hres2, List.append_assoc]; rfl
      · refine ⟨Nat.le_refl _, List.cons_ne_nil _ _, ?_, ?_⟩
        · show c.index + 1 ≤ lineEnd
          omega
        · show tokensWithin (c.index + 1) new lineEnd
          rw [← hi1]; exact hw
      · intro t ht
        rcases List.mem_cons.1 ht with ht | ht
        · intro hty
          rw [ht] at hty
          exact TokenType.noConfusion hty
        · exact hid t ht
    · rw [if_neg hlt]
      exact ⟨[], by simp, trivial, by simp⟩

/-! ### Lines of a document -/

theorem lineStartsFrom_spec (cs : List Char) :
    ∀ (p s : Nat), s ∈ lineStartsFrom cs p →
      p < s ∧ s ≤ p + cs.length
        ∧ (cs.getD (s - 1 - p) chNul = chLF
          ∨ (cs.getD (s - 1 - p) chNul = chCR ∧ cs.getD (s - p) chNul ≠ chLF)) := by
  induction cs with
  | nil => intro p s h; simp [lineStartsFrom] at h
  | cons c rest ih =>
    intro p s h
    have hrec : s ∈ lineStartsFrom rest (p + 1) →
        p < s ∧ s ≤ p + (c :: rest).length
          ∧ ((c :: rest).getD (s - 1 - p) chNul = chLF
            ∨ ((c :: rest).getD (s - 1 - p) chNul = chCR ∧ (c :: rest).getD (s - p) chNul ≠ chLF)) := by
      intro hm
      obtain ⟨h1, h2, h3⟩ := ih (p + 1) s hm
      refine ⟨by omega, by simp only [List.length_cons]; omega, ?_⟩
      have e1 : s - 1 - p = (s - 1 - (p + 1)) + 1 := by omega
      have e2 : s - p = (s - (p + 1)) + 1 := by omega
      rw [e1, e2]
      simpa using h3
    unfold lineStartsFrom at h
    split_ifs at h with h1 h2
    · rcases List.mem_cons.1 h with h | h
      · subst h
        refine ⟨by omega, by simp only [List.length_cons]; omega, Or.inl ?_⟩
        simpa using h1
      · exact hrec h
    · cases rest with
      | nil =>
        rcases List.mem_cons.1 h with h | h
        · subst h
          refine ⟨by omega, by simp only [List.length_cons]; omega, Or.inr ⟨?_, ?_⟩⟩
          · simpa using h2
          · simp only [Nat.add_sub_cancel_left]
            show chNul ≠ chLF
            decide
        · exact hrec h
      | cons d rest2 =>
        simp only at h
        split_ifs at h with h3
        · exact hrec h
        · rcases List.mem_cons.1 h with h | h
          · subst h
            refine ⟨by omega, by simp only [List.length_cons]; omega, Or.inr ⟨?_, ?_⟩⟩
            · simpa using h2
            · simpa using h3
          · exact hrec h
    · exact hrec h

theorem lineStartsFrom_chain (cs : List Char) :
    ∀ (p : Nat), List.Chain (fun a b => a < b) p (lineStartsFrom cs p) := by
  induction cs with
  | nil => intro p; exact List.Chain.nil
  | cons c rest ih =>
    intro p
    have hskip : List.Chain (fun a b => a < b) p (lineStartsFrom rest (p + 1)) :=
      List.Chain.imp' (fun _ _ h => h) (fun c (h : p + 1 < c) => by omega) (ih (p + 1))
    have hcons : List.Chain (fun a b => a < b) p ((p + 1) :: lineStartsFrom rest (p + 1)) :=
      List.Chain.cons (Nat.lt_succ_self p) (ih (p + 1))
    unfold lineStartsFrom
    split_ifs with h1 h2
    · exact hcons
    · cases rest with
      | nil => exact hcons
      | cons d rest2 =>
        simp only
        split_ifs
        · exact hskip
        · exact hcons
    · exact hskip

theorem lineStarts_sorted (d : Document) : List.Pairwise (fun a b => a < b) d.lineStarts := by
  have h := lineStartsFrom_chain d.text 0
  exact List.chain_iff_pairwise.1 h

theorem lineStarts_cons (d : Document) : d.lineStarts = 0 :: lineStartsFrom d.text 0 := rfl

theorem LineStart_of_lt (d : Document) (line : Nat) (h : line < d.LinesTotal) :
    d.LineStart line = d.lineStarts.get ⟨line, h⟩ := by
  unfold Document.LineStart
  rw [List.getD_eq_getElem?_getD, List.getElem?_eq_getElem h]
  rfl

theorem LineStart_of_ge (d : Document) (line : Nat) (h : d.LinesTotal ≤ line) :
    d.LineStart line = d.Length := by
  unfold Document.LineStart
  rw [List.getD_eq_getElem?_getD, List.getElem?_eq_none h]
  rfl

theorem LineStart_succ_spec (d : Document) (line : Nat) (h : line + 1 < d.LinesTotal) :
    0 < d.LineStart (line + 1) ∧ d.LineStart (line + 1) ≤ d.Length
      ∧ (d.text.getD (d.LineStart (line + 1) - 1) chNul = chLF
        ∨ (d.text.getD (d.LineStart (line + 1) - 1) chNul = chCR
          ∧ d.text.getD (d.LineStart (line + 1)) chNul ≠ chLF)) := by
  have hmem : d.LineStart (line + 1) ∈ lineStartsFrom d.text 0 := by
    rw [LineStart_of_lt d (line + 1) h]
    have hl : line < (lineStartsFrom d.text 0).length := by
      have : d.LinesTotal = (lineStartsFrom d.text 0).length + 1 := rfl
      omega
    have : d.lineStarts.get ⟨line + 1, h⟩ = (lineStartsFrom d.text 0).get ⟨line, hl⟩ := rfl
    rw [this]
    exact List.get_mem _ _ _
  obtain ⟨h1, h2, h3⟩ := lineStartsFrom_spec d.text 0 _ hmem
  refine ⟨h1, by simpa [Document.Length] using h2, ?_⟩
  simpa using h3

theorem LineStart_le_Length (d : Document) (line : Nat) : d.LineStart line ≤ d.Length := by
  rcases Nat.lt_or_ge line d.LinesTotal with h | h
  · cases line with
    | zero =>
      rw [LineStart_of_lt d 0 h]
      exact Nat.zero_le _
    | succ n => exact (LineStart_succ_spec d n h).2.1
  · rw [LineStart_of_ge d line h]

theorem LineStart_lt_succ (d : Document) (line : Nat) (h : line + 1 < d.LinesTotal) :
    d.LineStart line < d.LineStart (line + 1) := by
  rw [LineStart_of_lt d line (by omega), LineStart_of_lt d (line + 1) h]
  exact List.pairwise_iff_get.1 (lineStarts_sorted d) ⟨line, by unfold Document.LinesTotal at h; omega⟩
    ⟨line + 1, h⟩ (by simp)

theorem LineStart_le_succ (d : Document) (line : Nat) : d.LineStart line ≤ d.LineStart (line + 1) := by
  rcases Nat.lt_or_ge (line + 1) d.LinesTotal with h | h
  · exact Nat.le_of_lt (LineStart_lt_succ d line h)
  · rw [LineStart_of_ge d (line + 1) h]
    exact LineStart_le_Length d line

theorem getD_default_irrel (l : List Char) (i : Nat) (a b : Char) (h : i < l.length) :
    l.getD i a = l.getD i b := by
  rw [List.getD_eq_getElem?_getD, List.getD_eq_getElem?_getD, List.getElem?_eq_getElem h]
  rfl

theorem LineEnd_last (d : Document) (line : Nat) (h : d.LinesTotal ≤ line + 1) :
    d.LineEnd line = d.Length := by
  unfold Document.LineEnd
  rw [if_pos h, LineStart_of_ge d (line + 1) h]

theorem LineEnd_cases (d : Document) (line : Nat) (h : line + 1 < d.LinesTotal) :
    (d.LineEnd line = d.LineStart (line + 1) - 2 ∧ d.LineStart line + 2 ≤ d.LineStart (line + 1)
        ∧ d.text.getD (d.LineStart (line + 1) - 2) chNul = chCR)
    ∨ (d.LineEnd line = d.LineStart (line + 1) - 1
        ∧ ¬ (d.LineStart line + 2 ≤ d.LineStart (line + 1)
            ∧ d.text.getD (d.LineStart (line + 1) - 2) chNul = chCR)) := by
  unfold Document.LineEnd
  rw [if_neg (by omega)]
  simp only
  have e : d.LineStart (line + 1) - 1 - 1 = d.LineStart (line + 1) - 2 := by omega
  rw [e]
  by_cases hc : d.LineStart line < d.LineStart (line + 1) - 1
      ∧ d.text.getD (d.LineStart (line + 1) - 2) chNul = chCR
  · rw [if_pos hc]
    exact Or.inl ⟨rfl, by omega, hc.2⟩
  · rw [if_neg hc]
    refine Or.inr ⟨rfl, ?_⟩
    intro hc2
    exact hc ⟨by omega, hc2.2⟩

theorem LineEnd_le_LineStart_succ (d : Document) (line : Nat) :
    d.LineEnd line ≤ d.LineStart (line + 1)
      ∧ (line + 1 < d.LinesTotal → d.LineEnd line + 1 ≤ d.LineStart (line + 1)) := by
  rcases Nat.lt_or_ge (line + 1) d.LinesTotal with h | h
  · have hs := LineStart_succ_spec d line h
    have hl := LineStart_lt_succ d line h
    rcases LineEnd_cases d line h with ⟨he, h2, _⟩ | ⟨he, _⟩
    · rw [he]; exact ⟨by omega, fun _ => by omega⟩
    · rw [he]; exact ⟨by omega, fun _ => by omega⟩
  · rw [LineEnd_last d line h, LineStart_of_ge d (line + 1) h]
    exact ⟨Nat.le_refl _, fun h2 => by omega⟩

theorem LineStart_le_LineEnd (d : Document) (line : Nat) : d.LineStart line ≤ d.LineEnd line := by
  rcases Nat.lt_or_ge (line + 1) d.LinesTotal with h | h
  · have hl := LineStart_lt_succ d line h
    rcases LineEnd_cases d line h with ⟨he, h2, _⟩ | ⟨he, _⟩
    · rw [he]; omega
    · rw [he]; omega
  · rw [LineEnd_last d line h]
    exact LineStart_le_Length d line

theorem LineEnd_le_Length (d : Document) (line : Nat) : d.LineEnd line ≤ d.Length :=
  Nat.le_trans (LineEnd_le_LineStart_succ d line).1 (LineStart_le_Length d (line + 1))

theorem LineEnd_stop (d : Document) (line : Nat) : stopChar (d.SafeGetCharAt (d.LineEnd line)) := by
  unfold Document.SafeGetCharAt
  rcases Nat.lt_or_ge (line + 1) d.LinesTotal with h | h
  · have hs := LineStart_succ_spec d line h
    have hlen : d.Length = d.text.length := rfl
    rcases LineEnd_cases d line h with ⟨he, h2, hcr⟩ | ⟨he, _⟩
    · rw [he, getD_default_irrel d.text _ chSpace chNul (by omega), hcr]
      exact Or.inl rfl
    · rw [he, getD_default_irrel d.text _ chSpace chNul (by omega)]
      rcases hs.2.2 with h3 | ⟨h3, _⟩
      · rw [h3]; exact Or.inr (Or.inl rfl)
      · rw [h3]; exact Or.inl rfl
  · rw [LineEnd_last d line h]
    right; right
    rw [List.getD_eq_getElem?_getD, List.getElem?_eq_none (show d.text.length ≤ d.Length from Nat.le_refl _)]
    rfl

theorem LineEnd_crlf (d : Document) (line : Nat) (h : line + 1 < d.LinesTotal)
    (hcr : d.text.getD (d.LineEnd line) chNul = chCR)
    (hlf : d.text.getD (d.LineEnd line + 1) chNul = chLF) :
    d.LineEnd line + 2 ≤ d.LineStart (line + 1) := by
  have hs := LineStart_succ_spec d line h
  rcases LineEnd_cases d line h with ⟨he, h2, _⟩ | ⟨he, _⟩
  · rw [he]; omega
  · exfalso
    rw [he] at hcr hlf
    have e : d.LineStart (line + 1) - 1 + 1 = d.LineStart (line + 1) := by omega
    rw [e] at hlf
    rcases hs.2.2 with h3 | ⟨_, h4⟩
    · rw [h3] at hcr
      revert hcr
      decide
    · exact h4 hlf

theorem GetLine_mono (d : Document) (p q : Nat) (h : p ≤ q) : d.GetLine p ≤ d.GetLine q := by
  unfold Document.GetLine
  apply Nat.sub_le_sub_right
  rw [← List.countP_eq_length_filter, ← List.countP_eq_length_filter]
  apply List.countP_mono_left
  intro x _ hx
  simp only [decide_eq_true_eq] at hx ⊢
  omega

theorem tokenize_spec (accessor : Document) (h8 : accessor.multiByte = none) (line : Nat) :
    ∃ tokens, tokenize accessor line = Except.ok tokens
      ∧ tokensWithin (accessor.LineStart line) tokens (accessor.LineEnd line)
      ∧ ∀ t ∈ tokens, t.tokenType = TokenType.Identifier → ∀ x ∈ t.content, identChar x = true := by
  unfold tokenize tokenizeFuel
  simp only
  have hle := LineEnd_le_Length accessor line
  have hg : (getNextChar accessor
      { ch := chSpace, index := accessor.LineStart line, indexNext := accessor.LineStart line }).good
      accessor := by
    rw [getNextChar_eightBit accessor h8]
    exact ⟨rfl, rfl⟩
  have hi : (getNextChar accessor
      { ch := chSpace, index := accessor.LineStart line, indexNext := accessor.LineStart line }).index
      = accessor.LineStart line := by
    rw [getNextChar_eightBit accessor h8]
  obtain ⟨new, hres, hw, hid⟩ := tokenizeLoop_spec accessor h8 (accessor.LineEnd line)
    (LineEnd_stop accessor line) (accessor.Length + 2) [] _ hg (by omega)
  refine ⟨new, ?_, ?_, hid⟩
  · rw [hres]; rfl
  · rw [← hi]; exact hw

/-! ### The tokenizer in every encoding -/

theorem getNextChar_readAt (accessor : Document) (c : Cursor) :
    getNextChar accessor c
      = { ch := (readAt accessor c.indexNext).1, index := c.indexNext,
          indexNext := c.indexNext + (readAt accessor c.indexNext).2 } := by
  unfold getNextChar readAt
  cases accessor.multiByte <;> rfl

theorem getNextChar_reads (accessor : Document) (c : Cursor) :
    (getNextChar accessor c).reads accessor := by
  rw [getNextChar_readAt]
  exact ⟨rfl, rfl⟩

theorem getNextChar_stuck (accessor : Document) (c : Cursor) (hr : c.reads accessor)
    (h : (getNextChar accessor c).index = c.index) : getNextChar accessor c = c := by
  rw [getNextChar_readAt] at h ⊢
  simp only at h
  rw [h]
  obtain ⟨h1, h2⟩ := hr
  cases c with
  | mk ch index indexNext =>
    simp only at h1 h2 ⊢
    rw [← h1, ← h2]

theorem scanIdentifier_reads (accessor : Document) :
    ∀ (fuel : Nat) (content : List Char) (c : Cursor) (r : List Char × Cursor),
      scanIdentifier accessor fuel content c = Except.ok r → c.reads accessor →
      r.2.reads accessor ∧ ∃ added, r.1 = content ++ added := by
  intro fuel
  induction fuel with
  | zero => intro content c r h; simp [scanIdentifier] at h
  | succ fuel ih =>
    intro content c r h hr
    unfold scanIdentifier at h
    split_ifs at h with hm
    · obtain ⟨h1, added, h2⟩ := ih _ _ r h (getNextChar_reads accessor c)
      exact ⟨h1, tolower c.ch :: added, by rw [h2, List.append_assoc]; rfl⟩
    · simp only [Except.ok.injEq] at h
      rw [← h]
      exact ⟨hr, [], by simp⟩

theorem scanNumeric_reads (accessor : Document) (startPos : Nat) :
    ∀ (fuel : Nat) (content : List Char) (hasDigit : Bool) (c : Cursor) (r : List Char × Cursor),
      scanNumeric accessor startPos fuel content hasDigit c = Except.ok r → c.reads accessor →
      r.2.reads accessor ∧ ∃ added, r.1 = content ++ added := by
  intro fuel
  induction fuel with
  | zero => intro content hasDigit c r h; simp [scanNumeric] at h
  | succ fuel ih =>
    intro content hasDigit c r h hr
    unfold scanNumeric at h
    cases hb : numericContinues startPos content hasDigit c with
    | error e => rw [hb] at h; simp at h
    | ok b =>
      rw [hb] at h
      cases b with
      | true =>
        simp only at h
        obtain ⟨h1, added, h2⟩ := ih _ _ _ r h (getNextChar_reads accessor c)
        exact ⟨h1, tolower c.ch :: added, by rw [h2, List.append_assoc]; rfl⟩
      | false =>
        simp only [Except.ok.injEq] at h
        rw [← h]
        exact ⟨hr, [], by simp⟩

theorem scanNumeric_stuck (accessor : Document) (startPos : Nat) (c : Cursor)
    (hs : getNextChar accessor c = c) (hm : c.ch = chMinus) (hi : c.index = startPos) :
    ∀ (fuel : Nat) (content : List Char) (hasDigit : Bool) (r : List Char × Cursor),
      scanNumeric accessor startPos fuel content hasDigit c ≠ Except.ok r := by
  intro fuel
  induction fuel with
  | zero => intro content hasDigit r h; simp [scanNumeric] at h
  | succ fuel ih =>
    intro content hasDigit r h
    unfold scanNumeric at h
    rw [numericContinues_start startPos content hasDigit c (Or.inr ⟨hm, hi⟩)] at h
    simp only at h
    rw [hs] at h
    exact ih _ _ r h

theorem numericContinues_first (startPos : Nat) (content : List Char) (c : Cursor)
    (hc : content = [] ∨ content = [chMinus])
    (h : numericContinues startPos content false c = Except.ok true) :
    isdigit c.ch = true ∨ (c.ch = chMinus ∧ c.index = startPos) := by
  unfold numericContinues at h
  by_cases h1 : isdigit c.ch = true
  · exact Or.inl h1
  rw [if_neg h1] at h
  by_cases h2 : (c.ch == chMinus && c.index == startPos) = true
  · simp only [Bool.and_eq_true, beq_iff_eq] at h2
    exact Or.inr h2
  rw [if_neg h2] at h
  exfalso
  rcases hc with hc | hc
  · subst hc
    by_cases hA : (tolower c.ch == 'x' && c.index == startPos + 1) = true
    · simp [hA, stringAt, Except.map] at h
    · simp [hA] at h
  · subst hc
    by_cases hA : (tolower c.ch == 'x' && c.index == startPos + 1) = true
    · simp [hA, stringAt, Except.map, chMinus] at h
    · simp [hA] at h

theorem isdigit_tolower (ch : Char) (h : isdigit ch = true) : isdigit (tolower ch) = true := by
  revert h
  apply ascii_cases (fun c => isdigit c = true → isdigit (tolower c) = true)
  · decide!
  · intro c hc h
    exfalso
    unfold isdigit Char.isDigit at h
    have hv : 128 ≤ c.val.toNat := hc
    simp only [ge_iff_le, Bool.and_eq_true, decide_eq_true_eq] at h
    have : c.val.toNat ≤ 57 := h.2
    omega

/-- The content that the numeric scan returns holds a decimal digit, or is "-", or is
empty. -/
theorem scanNumeric_digit (accessor : Document) (startPos : Nat) :
    ∀ (fuel : Nat) (content : List Char) (hasDigit : Bool) (c : Cursor) (r : List Char × Cursor),
      scanNumeric accessor startPos fuel content hasDigit c = Except.ok r →
      ((∃ x ∈ content, isdigit x = true)
        ∨ (content = [] ∧ hasDigit = false ∧ c.reads accessor)
        ∨ (content = [chMinus] ∧ hasDigit = false
            ∧ ∃ c0 : Cursor, c0.reads accessor ∧ c0.ch = chMinus ∧ c0.index = startPos
              ∧ c = getNextChar accessor c0)) →
      (∃ x ∈ r.1, isdigit x = true) ∨ r.1 = [chMinus] ∨ r.1 = [] := by
  intro fuel
  induction fuel with
  | zero => intro content hasDigit c r h; simp [scanNumeric] at h
  | succ fuel ih =>
    intro content hasDigit c r h hJ
    unfold scanNumeric at h
    cases hb : numericContinues startPos content hasDigit c with
    | error e => rw [hb] at h; simp at h
    | ok b =>
      rw [hb] at h
      cases b with
      | false =>
        simp only [Except.ok.injEq] at h
        rw [← h]
        rcases hJ with hJ | ⟨hJ, _, _⟩ | ⟨hJ, _, _⟩
        · exact Or.inl hJ
        · exact Or.inr (Or.inr hJ)
        · exact Or.inr (Or.inl hJ)
      | true =>
        simp only at h
        rcases hJ with ⟨x, hx, hd⟩ | ⟨hc, hh, hr⟩ | ⟨hc, hh, c0, hr0, hm0, hi0, hc0⟩
        · exact ih _ _ _ r h (Or.inl ⟨x, List.mem_append_left _ hx, hd⟩)
        · subst hh
          rcases numericContinues_first startPos content c (Or.inl hc) hb with hd | ⟨hm, hi⟩
          · exact ih _ _ _ r h
              (Or.inl ⟨tolower c.ch, by simp, isdigit_tolower c.ch hd⟩)
          · have hnd : isdigit c.ch = false := by rw [hm]; decide
            have hlow : tolower c.ch = chMinus := by rw [hm]; decide
            refine ih _ _ _ r h (Or.inr (Or.inr ⟨?_, ?_, c, hr, hm, hi, rfl⟩))
            · rw [hc, hlow]; rfl
            · rw [hnd]; rfl
        · subst hh
          rcases numericContinues_first startPos content c (Or.inr hc) hb with hd | ⟨hm, hi⟩
          · exact ih _ _ _ r h
              (Or.inl ⟨tolower c.ch, by simp, isdigit_tolower c.ch hd⟩)
          · exfalso
            have hidx : (getNextChar accessor c0).index = c0.index := by
              rw [← hc0, hi, hi0]
            have hst := getNextChar_stuck accessor c0 hr0 hidx
            have hcc : c = c0 := by rw [hc0, hst]
            rw [hcc, hst] at h
            exact scanNumeric_stuck accessor startPos c0 hst hm0 hi0 _ _ _ r h

theorem tolower_high (c : Char) (h : 128 ≤ c.toNat) : tolower c = c := by
  unfold tolower Char.toLower
  have h1 : ¬ (c.toNat ≥ 65 ∧ c.toNat ≤ 90) := by omega
  simp only [if_neg h1]

theorem tolower_eq_minus (c : Char) (h : tolower c = chMinus) : c = chMinus := by
  revert h
  apply ascii_cases (fun c => tolower c = chMinus → c = chMinus)
  · decide!
  · intro c hc h
    rw [tolower_high c hc] at h
    exact h

theorem isalpha_not_minus (c : Char) (h : (isalpha c || c == chUnderscore) = true) :
    tolower c ≠ chMinus := by
  intro hm
  rw [tolower_eq_minus c hm] at h
  revert h
  decide

/-- Every token that the scanning loop adds with the content "-" is Special, and every
Numeric token it adds holds a decimal digit. -/
theorem tokenizeLoop_minus (accessor : Document) (lineEnd : Nat) :
    ∀ (fuel : Nat) (tokens : List Token) (c : Cursor) (r : List Token),
      tokenizeLoop accessor lineEnd fuel tokens c = Except.ok r → c.reads accessor →
      (∀ t ∈ tokens, (t.content = [chMinus] → t.tokenType = TokenType.Special)
        ∧ (t.tokenType = TokenType.Numeric → ∃ x ∈ t.content, isdigit x = true)) →
      ∀ t ∈ r, (t.content = [chMinus] → t.tokenType = TokenType.Special)
        ∧ (t.tokenType = TokenType.Numeric → ∃ x ∈ t.content, isdigit x = true) := by
  intro fuel
  induction fuel with
  | zero => intro tokens c r h; simp [tokenizeLoop] at h
  | succ fuel ih =>
    intro tokens c r h hr hall
    unfold tokenizeLoop at h
    by_cases hlt : c.index < lineEnd
    swap
    · rw [if_neg hlt] at h
      simp only [Except.ok.injEq] at h
      rw [← h]
      exact hall
    rw [if_pos hlt] at h
    by_cases hcr : (c.ch == chCR || c.ch == chLF) = true
    · rw [if_pos hcr] at h
      simp only [Except.ok.injEq] at h
      rw [← h]
      exact hall
    rw [if_neg hcr] at h
    by_cases hbl : isblank c.ch = true
    · rw [if_pos hbl] at h
      exact ih _ _ r h (getNextChar_reads accessor c) hall
    rw [if_neg hbl] at h
    have hext : ∀ tok : Token,
        ((tok.content = [chMinus] → tok.tokenType = TokenType.Special)
          ∧ (tok.tokenType = TokenType.Numeric → ∃ x ∈ tok.content, isdigit x = true)) →
        ∀ t ∈ tokens ++ [tok], (t.content = [chMinus] → t.tokenType = TokenType.Special)
          ∧ (t.tokenType = TokenType.Numeric → ∃ x ∈ t.content, isdigit x = true) := by
      intro tok htok t ht
      rcases List.mem_append.1 ht with ht | ht
      · exact hall t ht
      · rw [List.mem_singleton] at ht
        rw [ht]
        exact htok
    by_cases hal : (isalpha c.ch || c.ch == chUnderscore) = true
    · rw [if_pos hal] at h
      cases hs : scanIdentifier accessor fuel [] c with
      | error e => rw [hs] at h; simp at h
      | ok res =>
        rw [hs] at h
        simp only at h
        obtain ⟨hr1, _⟩ := scanIdentifier_reads accessor fuel [] c res hs hr
        refine ih _ _ r h hr1 (hext _ ⟨?_, fun hty => TokenType.noConfusion hty⟩)
        intro hc
        exfalso
        -- the content starts with the lower-cased first character
        cases fuel with
        | zero => simp [scanIdentifier] at hs
        | succ fuel1 =>
          unfold scanIdentifier at hs
          rw [if_pos (show (isalnum c.ch || c.ch == chUnderscore) = true from
            isalpha_identChar c.ch hal)] at hs
          obtain ⟨_, added, hadd⟩ := scanIdentifier_reads accessor fuel1 _ _ res hs
            (getNextChar_reads accessor c)
          have hc2 : res.1 = [chMinus] := hc
          rw [hadd] at hc2
          simp only [List.nil_append, List.cons_append, List.cons.injEq] at hc2
          exact isalpha_not_minus c.ch hal hc2.1
    rw [if_neg hal] at h
    by_cases hnum : (isdigit c.ch || c.ch == chMinus) = true
    · rw [if_pos hnum] at h
      cases hs : scanNumeric accessor c.index fuel [] false c with
      | error e => rw [hs] at h; simp at h
      | ok res =>
        rw [hs] at h
        simp only at h
        obtain ⟨hr1, _⟩ := scanNumeric_reads accessor c.index fuel [] false c res hs hr
        have hdig := scanNumeric_digit accessor c.index fuel [] false c res hs
          (Or.inr (Or.inl ⟨rfl, rfl, hr⟩))
        cases h0 : stringAt res.1 0 with
        | error e => rw [h0] at h; simp at h
        | ok c0 =>
          rw [h0] at h
          simp only at h
          refine ih _ _ r h hr1 (hext _ ⟨?_, ?_⟩)
          · intro hc
            have hc2 : res.1 = [chMinus] := hc
            rw [hc2] at h0
            simp only [stringAt, List.get?, Except.ok.injEq] at h0
            show (if (c0 == chMinus && res.1.length == 1) = true then TokenType.Special
              else TokenType.Numeric) = TokenType.Special
            rw [← h0, hc2]
            rfl
          · intro hty
            have hty2 : (if (c0 == chMinus && res.1.length == 1) = true then TokenType.Special
              else TokenType.Numeric) = TokenType.Numeric := hty
            rcases hdig with hd | hd | hd
            · exact hd
            · exfalso
              rw [hd] at h0 hty2
              simp only [stringAt, List.get?, Except.ok.injEq] at h0
              rw [← h0] at hty2
              revert hty2
              decide
            · exfalso
              rw [hd] at h0
              simp [stringAt] at h0
    rw [if_neg hnum] at h
    refine ih _ _ r h (getNextChar_reads accessor c) (hext _ ⟨fun _ => rfl, fun hty => ?_⟩)
    exact TokenType.noConfusion hty

/-! ### The tokenizer on a line read byte by byte -/

theorem eightBit_decodesBytewise (accessor : Document) (h8 : accessor.multiByte = none)
    (lo hi : Nat) : decodesBytewise accessor lo hi := by
  intro q _ _
  unfold readAt
  rw [h8]
  exact ⟨rfl, fun _ => rfl⟩

theorem readAt_outside (accessor : Document) (q : Nat) (h : accessor.Length ≤ q) :
    (readAt accessor q).2 = 1 ∧ endChar (readAt accessor q).1 := by
  unfold readAt
  cases hm : accessor.multiByte with
  | none =>
    refine ⟨rfl, Or.inl (Or.inr (Or.inr ?_))⟩
    show accessor.text.getD q chSpace = chSpace
    rw [List.getD_eq_getElem?_getD, List.getElem?_eq_none (show accessor.text.length ≤ q from h)]
    rfl
  | some f =>
    simp only
    unfold Document.GetCharacterAndWidth
    rw [if_neg (by omega)]
    exact ⟨rfl, Or.inr rfl⟩

theorem endChar_not_identChar (ch : Char) (h : endChar ch) : identChar ch = false := by
  rcases h with h | h
  · exact stopChar_not_identChar ch h
  · rw [h]; decide

theorem numericContinues_end (startPos : Nat) (content : List Char) (hasDigit : Bool) (c : Cursor)
    (h : endChar c.ch) : numericContinues startPos content hasDigit c = Except.ok false := by
  rcases h with h | h
  · exact numericContinues_stop startPos content hasDigit c h
  · have e1 : isdigit c.ch = false := by rw [h]; decide
    have e2 : (c.ch == chMinus) = false := by rw [h]; decide
    have e3 : (c.ch == chDot) = false := by rw [h]; decide
    have e4 : (tolower c.ch == 'x') = false := by rw [h]; decide
    have e5 : isxdigit c.ch = false := by rw [h]; decide
    unfold numericContinues
    simp [e1, e2, e3, e4, e5]

/-- A cursor inside the stretch that is read byte by byte holds the character of the text
and is followed by the next position. -/
theorem reads_inside (accessor : Document) (lo hi : Nat) (hdec : decodesBytewise accessor lo hi)
    (hhi : hi ≤ accessor.Length) (c : Cursor) (hr : c.reads accessor) (hlo : lo ≤ c.index)
    (hlt : c.index < hi) :
    c.index < accessor.text.length ∧ c.ch = accessor.text.get ⟨c.index, by
      have : accessor.Length = accessor.text.length := rfl
      omega⟩
    ∧ c.ch = accessor.SafeGetCharAt c.index
    ∧ (getNextChar accessor c).index = c.index + 1 := by
  have hL : accessor.Length = accessor.text.length := rfl
  obtain ⟨h1, h2⟩ := hdec c.index hlo (by omega)
  have h3 := h2 (by omega)
  have hlen : c.index < accessor.text.length := by omega
  refine ⟨hlen, ?_, ?_, ?_⟩
  · rw [hr.1, h3]
    show accessor.text.getD c.index chSpace = _
    rw [List.getD_eq_getElem?_getD, List.getElem?_eq_getElem hlen]
    rfl
  · rw [hr.1, h3]
  · rw [getNextChar_readAt]
    show c.indexNext = c.index + 1
    rw [hr.2, h1]

theorem drop_take_succ (l : List Char) (i n : Nat) (h : i < l.length) :
    (l.drop i).take (n + 1) = l.get ⟨i, h⟩ :: (l.drop (i + 1)).take n := by
  rw [List.drop_eq_getElem_cons h]
  rfl

theorem scanIdentifier_shape (accessor : Document) (lo hi : Nat)
    (hdec : decodesBytewise accessor lo hi) (hhi : hi ≤ accessor.Length)
    (hstop : endChar (readAt accessor hi).1) :
    ∀ (fuel : Nat) (content : List Char) (c : Cursor),
      c.reads accessor → lo ≤ c.index → c.index ≤ hi → hi - c.index < fuel →
      ∃ n c1, scanIdentifier accessor fuel content c
          = Except.ok (content ++ ((accessor.text.drop c.index).take n).map tolower, c1)
        ∧ c1.reads accessor ∧ c1.index = c.index + n ∧ c1.index ≤ hi
        ∧ (∀ x ∈ (accessor.text.drop c.index).take n, identChar x = true)
        ∧ (identChar c.ch = true → 0 < n) ∧ identChar c1.ch = false := by
  intro fuel
  induction fuel with
  | zero => intro content c _ _ _ hf; omega
  | succ fuel ih =>
    intro content c hr hlo hle hf
    unfold scanIdentifier
    by_cases hm : identChar c.ch = true
    · have hm' : (isalnum c.ch || c.ch == chUnderscore) = true := hm
      rw [if_pos hm']
      have hlt : c.index < hi := by
        rcases Nat.lt_or_ge c.index hi with h | h
        · exact h
        · exfalso
          have he : c.index = hi := by omega
          have hs := endChar_not_identChar _ hstop
          rw [← he, ← hr.1, hm] at hs
          exact Bool.noConfusion hs
      obtain ⟨hlen, hget, _, hnext⟩ := reads_inside accessor lo hi hdec hhi c hr hlo hlt
      obtain ⟨n, c1, hres, hr1, hidx, hle1, hall, _, hlast⟩ :=
        ih (content ++ [tolower c.ch]) (getNextChar accessor c) (getNextChar_reads accessor c)
          (by omega) (by omega) (by omega)
      rw [hnext] at hres hidx hall
      refine ⟨n + 1, c1, ?_, hr1, by omega, hle1, ?_, fun _ => Nat.succ_pos n, hlast⟩
      · rw [hres, drop_take_succ accessor.text c.index n hlen, List.map_cons, ← hget,
          List.append_assoc]
        rfl
      · intro x hx
        rw [drop_take_succ accessor.text c.index n hlen] at hx
        rcases List.mem_cons.1 hx with hx | hx
        · rw [hx, ← hget]; exact hm
        · exact hall x hx
    · have hm' : ¬ (isalnum c.ch || c.ch == chUnderscore) = true := hm
      rw [if_neg hm']
      refine ⟨0, c, by simp, hr, by simp, hle, by simp, fun h => absurd h hm, ?_⟩
      simpa using hm

theorem scanNumeric_shape (accessor : Document) (lo hi : Nat)
    (hdec : decodesBytewise accessor lo hi) (hhi : hi ≤ accessor.Length)
    (hstop : endChar (readAt accessor hi).1) (startPos : Nat) :
    ∀ (fuel : Nat) (content : List Char) (hasDigit : Bool) (c : Cursor),
      c.reads accessor → lo ≤ c.index → c.index ≤ hi → hi - c.index < fuel →
      startPos ≤ c.index → content.length = c.index - startPos →
      ∃ n c1, scanNumeric accessor startPos fuel content hasDigit c
          = Except.ok (content ++ ((accessor.text.drop c.index).take n).map tolower, c1)
        ∧ c1.reads accessor ∧ c1.index = c.index + n ∧ c1.index ≤ hi
        ∧ ((isdigit c.ch = true ∨ (c.ch = chMinus ∧ c.index = startPos)) → 0 < n) := by
  intro fuel
  induction fuel with
  | zero => intro content hasDigit c _ _ _ hf; omega
  | succ fuel ih =>
    intro content hasDigit c hr hlo hle hf hsp hlen
    unfold scanNumeric
    obtain ⟨b, hb⟩ := numericContinues_ok startPos content hasDigit c (by
      intro hi hc
      rw [hc] at hlen
      simp only [List.length_nil] at hlen
      omega)
    rw [hb]
    cases b with
    | false =>
      refine ⟨0, c, by simp, hr, by simp, hle, ?_⟩
      intro hstart
      rw [numericContinues_start startPos content hasDigit c hstart] at hb
      simp at hb
    | true =>
      simp only
      have hlt : c.index < hi := by
        rcases Nat.lt_or_ge c.index hi with h | h
        · exact h
        · exfalso
          have he : c.index = hi := by omega
          have hs : endChar c.ch := by rw [hr.1, he]; exact hstop
          rw [numericContinues_end startPos content hasDigit c hs] at hb
          simp at hb
      obtain ⟨hlen1, hget, _, hnext⟩ := reads_inside accessor lo hi hdec hhi c hr hlo hlt
      obtain ⟨n, c1, hres, hr1, hidx, hle1, _⟩ :=
        ih (content ++ [tolower c.ch]) (hasDigit || isdigit c.ch) (getNextChar accessor c)
          (getNextChar_reads accessor c) (by omega) (by omega) (by omega) (by omega)
          (by rw [List.length_append, hlen, hnext]; simp; omega)
      rw [hnext] at hres hidx
      refine ⟨n + 1, c1, ?_, hr1, by omega, hle1, fun _ => Nat.succ_pos n⟩
      rw [hres, drop_take_succ accessor.text c.index n hlen1, List.map_cons, ← hget,
        List.append_assoc]
      rfl

theorem slice_length (l : List Char) (i n : Nat) (h : i + n ≤ l.length) :
    (((l.drop i).take n).map tolower).length = n := by
  rw [List.length_map, List.length_take, List.length_drop]
  omega

theorem tokenShape_slice (accessor : Document) (tt : TokenType) (i n : Nat)
    (h : i + n ≤ accessor.Length)
    (hid : tt = TokenType.Identifier →
      (isalpha (accessor.SafeGetCharAt i) || accessor.SafeGetCharAt i == chUnderscore) = true
        ∧ (∀ x ∈ (accessor.text.drop i).take n, identChar x = true)
        ∧ identChar (accessor.SafeGetCharAt (i + n)) = false) :
    tokenShape accessor
      { tokenType := tt, content := ((accessor.text.drop i).take n).map tolower, startPos := i } := by
  have hl := slice_length accessor.text i n h
  unfold tokenShape
  simp only
  rw [hl]
  exact ⟨h, Or.inl rfl, hid⟩

theorem tokenizeLoop_shape (accessor : Document) (lo hi : Nat)
    (hdec : decodesBytewise accessor lo hi) (hhi : hi ≤ accessor.Length)
    (hstop : endChar (readAt accessor hi).1) :
    ∀ (fuel : Nat) (tokens : List Token) (c : Cursor),
      c.reads accessor → lo ≤ c.index → c.index ≤ hi → hi + 1 - c.index < fuel →
      ∃ new, tokenizeLoop accessor hi fuel tokens c = Except.ok (tokens ++ new)
        ∧ tokensWithin c.index new hi
        ∧ ∀ t ∈ new, tokenShape accessor t := by
  intro fuel
  induction fuel with
  | zero => intro tokens c _ _ _ hf; omega
  | succ fuel ih =>
    intro tokens c hr hlo hle hf
    unfold tokenizeLoop
    by_cases hlt : c.index < hi
    swap
    · rw [if_neg hlt]
      exact ⟨[], by simp, trivial, by simp⟩
    rw [if_pos hlt]
    by_cases hcr : (c.ch == chCR || c.ch == chLF) = true
    · rw [if_pos hcr]
      exact ⟨[], by simp, trivial, by simp⟩
    rw [if_neg hcr]
    obtain ⟨hlen, hget, hsafe, hnext⟩ := reads_inside accessor lo hi hdec hhi c hr hlo hlt
    have hr1 := getNextChar_reads accessor c
    by_cases hbl : isblank c.ch = true
    · rw [if_pos hbl]
      obtain ⟨new, hres, hw, hsh⟩ := ih tokens (getNextChar accessor c) hr1 (by omega) (by omega)
        (by omega)
      exact ⟨new, hres, tokensWithin_mono new _ _ _ (by omega) hw, hsh⟩
    rw [if_neg hbl]
    by_cases hal : (isalpha c.ch || c.ch == chUnderscore) = true
    · rw [if_pos hal]
      obtain ⟨n, c1, hres, hr2, hidx, hle2, hall, hpos, hlast⟩ :=
        scanIdentifier_shape accessor lo hi hdec hhi hstop fuel [] c hr hlo hle (by omega)
      rw [hres]
      simp only [List.nil_append]
      have hn : 0 < n := hpos (isalpha_identChar c.ch hal)
      have hin : c.index + n ≤ accessor.Length := by omega
      have hl := slice_length accessor.text c.index n hin
      obtain ⟨new, hres2, hw, hsh⟩ := ih
        (tokens ++ [{ tokenType := TokenType.Identifier,
                      content := ((accessor.text.drop c.index).take n).map tolower,
                      startPos := c.index }]) c1 hr2 (by omega) hle2 (by omega)
      refine ⟨{ tokenType := TokenType.Identifier,
                content := ((accessor.text.drop c.index).take n).map tolower,
                startPos := c.index } :: new, ?_, ?_, ?_⟩
      · rw [hres2, List.append_assoc]; rfl
      · refine ⟨Nat.le_refl _, ?_, ?_, ?_⟩
        · intro he
          have := congrArg List.length he
          rw [hl] at this
          simp at this
          omega
        · show c.index + (((accessor.text.drop c.index).take n).map tolower).length ≤ hi
          rw [hl]; omega
        · show tokensWithin (c.index + (((accessor.text.drop c.index).take n).map tolower).length)
            new hi
          rw [hl, ← hidx]; exact hw
      · intro t ht
        rcases List.mem_cons.1 ht with ht | ht
        · rw [ht]
          refine tokenShape_slice accessor _ c.index n hin (fun _ => ⟨?_, hall, ?_⟩)
          · rw [← hsafe]; exact hal
          · rw [← hidx]
            by_cases hc1 : c1.index < accessor.Length
            · have h3 := (hdec c1.index (by omega) hle2).2 hc1
              rw [← h3, ← hr2.1]
              exact hlast
            · have : accessor.SafeGetCharAt c1.index = chSpace := by
                show accessor.text.getD c1.index chSpace = chSpace
                rw [List.getD_eq_getElem?_getD,
                  List.getElem?_eq_none (show accessor.text.length ≤ c1.index from by
                    have : accessor.Length = accessor.text.length := rfl
                    omega)]
                rfl
              rw [this]
              decide
        · exact hsh t ht
    rw [if_neg hal]
    by_cases hnum : (isdigit c.ch || c.ch == chMinus) = true
    · rw [if_pos hnum]
      obtain ⟨n, c1, hres, hr2, hidx, hle2, hpos⟩ :=
        scanNumeric_shape accessor lo hi hdec hhi hstop c.index fuel [] false c hr hlo hle
          (by omega) (Nat.le_refl _) (by simp)
      rw [hres]
      simp only [List.nil_append]
      have hn : 0 < n := by
        apply hpos
        rcases Bool.or_eq_true_iff.1 hnum with h | h
        · exact Or.inl h
        · exact Or.inr ⟨by simpa using h, rfl⟩
      have hin : c.index + n ≤ accessor.Length := by omega
      have hl := slice_length accessor.text c.index n hin
      cases hsl : ((accessor.text.drop c.index).take n).map tolower with
      | nil =>
        rw [hsl] at hl
        simp at hl
        omega
      | cons a rest =>
        rw [stringAt_cons_zero]
        simp only
        obtain ⟨tt, htt⟩ : ∃ tt : TokenType, tt =
            (if (a == chMinus && (a :: rest).length == 1) = true then TokenType.Special
              else TokenType.Numeric) := ⟨_, rfl⟩
        rw [← htt]
        rw [hsl] at hl
        obtain ⟨new, hres2, hw, hsh⟩ := ih
          (tokens ++ [(⟨tt, a :: rest, c.index⟩ : Token)]) c1 hr2 (by omega) hle2 (by omega)
        refine ⟨(⟨tt, a :: rest, c.index⟩ : Token) :: new, ?_, ?_, ?_⟩
        · rw [hres2, List.append_assoc]; rfl
        · refine ⟨Nat.le_refl _, List.cons_ne_nil _ _, ?_, ?_⟩
          · show c.index + (a :: rest).length ≤ hi
            rw [hl]; omega
          · show tokensWithin (c.index + (a :: rest).length) new hi
            rw [hl, ← hidx]; exact hw
        · intro t ht
          rcases List.mem_cons.1 ht with ht | ht
          · rw [ht, ← hsl]
            refine tokenShape_slice accessor tt c.index n hin (fun hty => ?_)
            exfalso
            rw [htt] at hty
            split_ifs at hty
          · exact hsh t ht
    rw [if_neg hnum]
    obtain ⟨new, hres2, hw, hsh⟩ := ih
      (tokens ++ [{ tokenType := TokenType.Special, content := [narrow (tolower c.ch)], startPos := c.index }])
      (getNextChar accessor c) hr1 (by omega) (by omega) (by omega)
    refine ⟨{ tokenType := TokenType.Special, content := [narrow (tolower c.ch)], startPos := c.index } :: new,
      ?_, ?_, ?_⟩
    · rw [hres2, List.append_assoc]; rfl
    · refine ⟨Nat.le_refl _, List.cons_ne_nil _ _, ?_, ?_⟩
      · show c.index + 1 ≤ hi
        omega
      · show tokensWithin (c.index + 1) new hi
        rw [← hnext]; exact hw
    · intro t ht
      rcases List.mem_cons.1 ht with ht | ht
      · rw [ht]
        have hs1 : [narrow (tolower c.ch)]
            = ((accessor.text.drop c.index).take 1).map (fun x => narrow (tolower x)) := by
          rw [drop_take_succ accessor.text c.index 0 hlen, ← hget]
          rfl
        refine ⟨?_, Or.inr ⟨rfl, hs1⟩, fun hty => TokenType.noConfusion hty⟩
        show c.index + 1 ≤ accessor.Length
        have : accessor.Length = accessor.text.length := rfl
        omega
      · exact hsh t ht

/-- On a line that is read byte by byte `tokenize` returns; its tokens lie in position order
within the line, and each has the shape `tokenShape`. -/
theorem tokenize_shape (doc : Document) (line : Nat)
    (hdec : decodesBytewise doc (doc.LineStart line) (doc.LineEnd line)) :
    ∃ tokens, tokenize doc line = Except.ok tokens
      ∧ tokensWithin (doc.LineStart line) tokens (doc.LineEnd line)
      ∧ ∀ t ∈ tokens, tokenShape doc t := by
  have hle := LineStart_le_LineEnd doc line
  have hhi := LineEnd_le_Length doc line
  have hstop : endChar (readAt doc (doc.LineEnd line)).1 := by
    by_cases h : doc.LineEnd line < doc.Length
    · rw [(hdec (doc.LineEnd line) hle (Nat.le_refl _)).2 h]
      exact Or.inl (LineEnd_stop doc line)
    · exact (readAt_outside doc _ (by omega)).2
  have hidx : (getNextChar doc
      (⟨chSpace, doc.LineStart line, doc.LineStart line⟩ : Cursor)).index
      = doc.LineStart line := by
    rw [getNextChar_readAt]
  obtain ⟨new, hres, hw, hsh⟩ := tokenizeLoop_shape doc (doc.LineStart line) (doc.LineEnd line)
    hdec hhi hstop (doc.Length + 2) []
    (getNextChar doc (⟨chSpace, doc.LineStart line, doc.LineStart line⟩ : Cursor))
    (getNextChar_reads doc _) (by rw [hidx]) (by rw [hidx]; exact hle) (by rw [hidx]; omega)
  refine ⟨new, ?_, ?_, hsh⟩
  · unfold tokenize tokenizeFuel
    rw [hres]
    rfl
  · rw [hidx] at hw
    exact hw

/-! ### Termination of the tokenizer -/

theorem getNextChar_advances (accessor : Document) (hw : widthsPositive accessor) (c : Cursor)
    (hr : c.reads accessor) : c.index + 1 ≤ (getNextChar accessor c).index := by
  rw [getNextChar_readAt]
  show c.index + 1 ≤ c.indexNext
  rw [hr.2]
  have := hw c.index
  omega

theorem reads_endChar (accessor : Document) (c : Cursor) (hr : c.reads accessor)
    (h : accessor.Length ≤ c.index) : endChar c.ch := by
  rw [hr.1]
  exact (readAt_outside accessor c.index h).2

/-- With character widths of at least one the identifier scan returns, and it moves forward
when it starts at a letter, digit or underscore. -/
theorem scanIdentifier_total (accessor : Document) (hw : widthsPositive accessor) :
    ∀ (fuel : Nat) (content : List Char) (c : Cursor),
      c.reads accessor → accessor.Length - c.index < fuel →
      ∃ r, scanIdentifier accessor fuel content c = Except.ok r ∧ r.2.reads accessor
        ∧ c.index ≤ r.2.index ∧ (identChar c.ch = true → c.index + 1 ≤ r.2.index) := by
  intro fuel
  induction fuel with
  | zero => intro content c _ hf; omega
  | succ fuel ih =>
    intro content c hr hf
    unfold scanIdentifier
    by_cases hm : (isalnum c.ch || c.ch == chUnderscore) = true
    · rw [if_pos hm]
      have hlt : c.index < accessor.Length := by
        rcases Nat.lt_or_ge c.index accessor.Length with h | h
        · exact h
        · exfalso
          have hs := endChar_not_identChar _ (reads_endChar accessor c hr h)
          have hm1 : identChar c.ch = true := hm
          rw [hm1] at hs
          exact Bool.noConfusion hs
      have hadv := getNextChar_advances accessor hw c hr
      obtain ⟨r, hres, hr1, hle, _⟩ := ih (content ++ [tolower c.ch]) (getNextChar accessor c)
        (getNextChar_reads accessor c) (by omega)
      exact ⟨r, hres, hr1, by omega, fun _ => by omega⟩
    · rw [if_neg hm]
      exact ⟨(content, c), rfl, hr, Nat.le_refl _, fun h => absurd h hm⟩

/-- With character widths of at least one the numeric scan returns, and it moves forward
when it starts at a character that keeps the loop going. -/
theorem scanNumeric_total (accessor : Document) (hw : widthsPositive accessor) (startPos : Nat) :
    ∀ (fuel : Nat) (content : List Char) (hasDigit : Bool) (c : Cursor),
      c.reads accessor → accessor.Length - c.index < fuel →
      (c.index = startPos + 1 → content ≠ []) →
      ∃ r, scanNumeric accessor startPos fuel content hasDigit c = Except.ok r
        ∧ r.2.reads accessor ∧ c.index ≤ r.2.index
        ∧ (content ≠ [] ∨ numericContinues startPos content hasDigit c = Except.ok true →
            r.1 ≠ [])
        ∧ (numericContinues startPos content hasDigit c = Except.ok true →
            c.index + 1 ≤ r.2.index) := by
  intro fuel
  induction fuel with
  | zero => intro content hasDigit c _ hf; omega
  | succ fuel ih =>
    intro content hasDigit c hr hf hc
    unfold scanNumeric
    obtain ⟨b, hb⟩ := numericContinues_ok startPos content hasDigit c hc
    rw [hb]
    cases b with
    | false =>
      refine ⟨(content, c), rfl, hr, Nat.le_refl _, fun hne => ?_, fun h => by simp at h⟩
      rcases hne with hne | hne
      · exact hne
      · simp at hne
    | true =>
      simp only
      have hlt : c.index < accessor.Length := by
        rcases Nat.lt_or_ge c.index accessor.Length with h | h
        · exact h
        · exfalso
          rw [numericContinues_end startPos content hasDigit c
            (reads_endChar accessor c hr h)] at hb
          simp at hb
      have hadv := getNextChar_advances accessor hw c hr
      obtain ⟨r, hres, hr1, hle, hne, _⟩ := ih (content ++ [tolower c.ch])
        (hasDigit || isdigit c.ch) (getNextChar accessor c) (getNextChar_reads accessor c)
        (by omega) (fun _ => by simp)
      exact ⟨r, hres, hr1, by omega, fun _ => hne (Or.inl (by simp)), fun _ => by omega⟩

/-- With character widths of at least one, an iteration of the outer loop that does not end
the loop returns to the loop with the scan index moved forward by at least one, and with
the same tokens or one more. -/
theorem tokenizeLoop_step (accessor : Document) (hw : widthsPositive accessor) (lineEnd : Nat)
    (fuel : Nat) (tokens : List Token) (c : Cursor) (hr : c.reads accessor)
    (hlt : c.index < lineEnd) (hcr : (c.ch == chCR || c.ch == chLF) = false)
    (hf : accessor.Length - c.index < fuel) :
    ∃ tokens1 c1, tokenizeLoop accessor lineEnd (fuel + 1) tokens c
          = tokenizeLoop accessor lineEnd fuel tokens1 c1
      ∧ c1.reads accessor ∧ c.index + 1 ≤ c1.index
      ∧ (tokens1 = tokens ∨ ∃ t, tokens1 = tokens ++ [t]) := by
  have hadv := getNextChar_advances accessor hw c hr
  have hr1 := getNextChar_reads accessor c
  conv => enter [1, tokens1, 1, c1, 1, 1]; unfold tokenizeLoop
  simp only [if_pos hlt, hcr, Bool.false_eq_true, if_false]
  by_cases hbl : isblank c.ch = true
  · simp only [if_pos hbl]
    exact ⟨tokens, _, rfl, hr1, hadv, Or.inl rfl⟩
  simp only [if_neg hbl]
  by_cases hal : (isalpha c.ch || c.ch == chUnderscore) = true
  · simp only [if_pos hal]
    obtain ⟨r, hres, hr2, _, hmove⟩ := scanIdentifier_total accessor hw fuel [] c hr hf
    rw [hres]
    exact ⟨_, r.2, rfl, hr2, hmove (isalpha_identChar c.ch hal), Or.inr ⟨_, rfl⟩⟩
  simp only [if_neg hal]
  by_cases hnum : (isdigit c.ch || c.ch == chMinus) = true
  · simp only [if_pos hnum]
    have hstart : numericContinues c.index [] false c = Except.ok true := by
      apply numericContinues_start
      rcases Bool.or_eq_true_iff.1 hnum with h | h
      · exact Or.inl h
      · exact Or.inr ⟨by simpa using h, rfl⟩
    obtain ⟨r, hres, hr2, _, hne, hmove⟩ := scanNumeric_total accessor hw c.index fuel [] false c
      hr hf (fun h => by omega)
    rw [hres]
    simp only
    cases hcont : r.1 with
    | nil => exact absurd hcont (hne (Or.inr hstart))
    | cons a rest =>
      rw [stringAt_cons_zero]
      exact ⟨_, r.2, rfl, hr2, hmove hstart, Or.inr ⟨_, rfl⟩⟩
  simp only [if_neg hnum]
  exact ⟨_, _, rfl, hr1, hadv, Or.inr ⟨_, rfl⟩⟩

/-- With character widths of at least one the outer loop returns, and it adds at most as
many tokens as there are positions from the scan index to the end of the line. -/
theorem tokenizeLoop_returns (accessor : Document) (hw : widthsPositive accessor)
    (lineEnd : Nat) (hhi : lineEnd ≤ accessor.Length) :
    ∀ (fuel : Nat) (tokens : List Token) (c : Cursor),
      c.reads accessor → accessor.Length + 1 - c.index < fuel →
      ∃ r, tokenizeLoop accessor lineEnd fuel tokens c = Except.ok r
        ∧ r.length ≤ tokens.length + (lineEnd - c.index) := by
  intro fuel
  induction fuel with
  | zero => intro tokens c _ hf; omega
  | succ fuel ih =>
    intro tokens c hr hf
    by_cases hlt : c.index < lineEnd
    swap
    · unfold tokenizeLoop
      rw [if_neg hlt]
      exact ⟨tokens, rfl, by omega⟩
    by_cases hcr : (c.ch == chCR || c.ch == chLF) = true
    · unfold tokenizeLoop
      rw [if_pos hlt, if_pos hcr]
      exact ⟨tokens, rfl, by omega⟩
    obtain ⟨tokens1, c1, hstep, hr1, hadv, hgrow⟩ := tokenizeLoop_step accessor hw lineEnd fuel
      tokens c hr hlt (by simpa using hcr) (by omega)
    obtain ⟨r, hres, hlen⟩ := ih tokens1 c1 hr1 (by omega)
    refine ⟨r, by rw [hstep, hres], ?_⟩
    have hl1 : tokens1.length ≤ tokens.length + 1 := by
      rcases hgrow with h | ⟨t, h⟩
      · rw [h]; omega
      · rw [h, List.length_append]; simp
    omega

/-- C23: when the accessor reports a character width of at least one at every position,
`tokenize` returns on every line, with at most (line end - line start) tokens; and each
iteration of the outer scanning loop that does not end the loop moves the scan index forward
by at least one. Every eight-bit document has such widths. -/
theorem tokenize_terminates (doc : Document) (line : Nat) (hw : widthsPositive doc) :
    (∃ tokens, tokenize doc line = Except.ok tokens
      ∧ tokens.length ≤ doc.LineEnd line - doc.LineStart line)
    ∧ (∀ (fuel : Nat) (tokens : List Token) (c : Cursor), c.reads doc →
        c.index < doc.LineEnd line → (c.ch == chCR || c.ch == chLF) = false →
        doc.Length - c.index < fuel →
        ∃ tokens1 c1, tokenizeLoop doc (doc.LineEnd line) (fuel + 1) tokens c
              = tokenizeLoop doc (doc.LineEnd line) fuel tokens1 c1
          ∧ c1.reads doc ∧ c.index + 1 ≤ c1.index
          ∧ (tokens1 = tokens ∨ ∃ t, tokens1 = tokens ++ [t]))
    ∧ (doc.multiByte = none → widthsPositive doc) := by
  refine ⟨?_, fun fuel tokens c hr hlt hcr hf =>
    tokenizeLoop_step doc hw (doc.LineEnd line) fuel tokens c hr hlt hcr hf, fun h8 q => ?_⟩
  · have hidx : (getNextChar doc
        (⟨chSpace, doc.LineStart line, doc.LineStart line⟩ : Cursor)).index
        = doc.LineStart line := by
      rw [getNextChar_readAt]
    obtain ⟨r, hres, hlen⟩ := tokenizeLoop_returns doc hw (doc.LineEnd line)
      (LineEnd_le_Length doc line) (doc.Length + 2) []
      (getNextChar doc (⟨chSpace, doc.LineStart line, doc.LineStart line⟩ : Cursor))
      (getNextChar_reads doc _) (by rw [hidx]; omega)
    refine ⟨r, hres, ?_⟩
    rw [hidx] at hlen
    simpa using hlen
  · rw [(eightBit_decodesBytewise doc h8 q q q (Nat.le_refl _) (Nat.le_refl _)).1]

theorem twoByteDocument_widths : widthsPositive twoByteDocument := by
  intro q
  show 1 ≤ (Document.GetCharacterAndWidth twoByteDocument _ q).2
  unfold Document.GetCharacterAndWidth
  split_ifs with h1
  · beta_reduce
    by_cases h2 : q = 1
    · rw [if_pos h2]
      exact Nat.le_succ 1
    · rw [if_neg h2]
  · exact Nat.le_refl 1

/-- Witness for C23: the line of `twoByteDocument`, whose decoder reports the widths 1 and
2; `tokenize` returns the three tokens `x`, the two-byte character and `y`, and the line has
four positions. -/
theorem tokenize_terminates_witness :
    tokenize twoByteDocument 0
      = Except.ok [identifierToken "x" 0, specialToken (Char.ofNat 233) 1,
          identifierToken "y" 3]
    ∧ twoByteDocument.LineEnd 0 - twoByteDocument.LineStart 0 = 4
    ∧ ∃ tokens, tokenize twoByteDocument 0 = Except.ok tokens
      ∧ tokens.length ≤ twoByteDocument.LineEnd 0 - twoByteDocument.LineStart 0 :=
  ⟨by rfl, by decide!, (tokenize_terminates twoByteDocument 0 twoByteDocument_widths).1⟩

/-! ### Documents read byte by byte -/

theorem eightBit_widthsPositive (doc : Document) (h8 : doc.multiByte = none) :
    widthsPositive doc := by
  intro q
  rw [(eightBit_decodesBytewise doc h8 q q q (Nat.le_refl _) (Nat.le_refl _)).1]

/-- With character widths of at least one `tokenize` returns on every line. -/
theorem tokenize_returns (doc : Document) (hw : widthsPositive doc) (line : Nat) :
    ∃ tokens, tokenize doc line = Except.ok tokens := by
  have hidx : (getNextChar doc
      (⟨chSpace, doc.LineStart line, doc.LineStart line⟩ : Cursor)).index
      = doc.LineStart line := by
    rw [getNextChar_readAt]
  obtain ⟨r, hres, _⟩ := tokenizeLoop_returns doc hw (doc.LineEnd line)
    (LineEnd_le_Length doc line) (doc.Length + 2) []
    (getNextChar doc (⟨chSpace, doc.LineStart line, doc.LineStart line⟩ : Cursor))
    (getNextChar_reads doc _) (by rw [hidx]; omega)
  exact ⟨r, hres⟩

theorem eightBit_readsBytes (doc : Document) (h8 : doc.multiByte = none) : readsBytes doc := by
  intro p
  unfold charAndWidth
  rw [h8]

theorem readsBytes_readAt (doc : Document) (hb : readsBytes doc) (q : Nat) :
    (readAt doc q).2 = 1 ∧ (q < doc.Length → (readAt doc q).1 = doc.SafeGetCharAt q) := by
  cases hm : doc.multiByte with
  | none => exact eightBit_decodesBytewise doc hm q q q (Nat.le_refl _) (Nat.le_refl _)
  | some f =>
    have h1 : readAt doc q = charAndWidth doc q := by
      unfold readAt charAndWidth
      rw [hm]
    rw [h1, hb q]
    refine ⟨rfl, fun hq => ?_⟩
    have hq2 : q < doc.text.length := hq
    show doc.text.getD q chNul = doc.text.getD q chSpace
    rw [List.getD_eq_getElem?_getD, List.getD_eq_getElem?_getD, List.getElem?_eq_getElem hq2]
    rfl

theorem readsBytes_decodesBytewise (doc : Document) (hb : readsBytes doc) (lo hi : Nat) :
    decodesBytewise doc lo hi :=
  fun q _ _ => readsBytes_readAt doc hb q

theorem readsBytes_widthsPositive (doc : Document) (hb : readsBytes doc) :
    widthsPositive doc := by
  intro q
  rw [(readsBytes_readAt doc hb q).1]

/-- In a document read byte by byte `tokenize` returns on every line, and its tokens lie in
position order within the line. -/
theorem tokenize_within (doc : Document) (hb : readsBytes doc) (line : Nat) :
    ∃ tokens, tokenize doc line = Except.ok tokens
      ∧ tokensWithin (doc.LineStart line) tokens (doc.LineEnd line) := by
  obtain ⟨tokens, h, hw, _⟩ := tokenize_shape doc line (readsBytes_decodesBytewise doc hb _ _)
  exact ⟨tokens, h, hw⟩

theorem widePointDocument_widths : widthsPositive widePointDocument := by
  intro q
  show 1 ≤ (Document.GetCharacterAndWidth widePointDocument _ q).2
  unfold Document.GetCharacterAndWidth
  split_ifs with h1
  · beta_reduce
    by_cases h2 : q = 0
    · rw [if_pos h2]
      exact Nat.le_succ 1
    · rw [if_neg h2]
  · exact Nat.le_refl 1

/-- C19: for every document, encoding and line, every token returned by `tokenize` whose
content is exactly "-" has kind Special, and every token of kind Numeric holds at least one
decimal digit; with character widths of at least one, as in every eight-bit document,
`tokenize` returns. -/
theorem minus_is_special_numeric_has_digit (doc : Document) (line : Nat) :
    (∀ tokens, tokenize doc line = Except.ok tokens → ∀ t ∈ tokens,
      (t.content = [chMinus] → t.tokenType = TokenType.Special)
      ∧ (t.tokenType = TokenType.Numeric → ∃ x ∈ t.content, isdigit x = true))
    ∧ (widthsPositive doc → ∃ tokens, tokenize doc line = Except.ok tokens)
    ∧ (doc.multiByte = none → widthsPositive doc) := by
  refine ⟨?_, fun hw => tokenize_returns doc hw line, eightBit_widthsPositive doc⟩
  intro tokens h
  unfold tokenize tokenizeFuel at h
  exact tokenizeLoop_minus doc _ _ [] _ tokens h (getNextChar_reads doc _)
    (fun t ht => absurd ht (List.not_mem_nil t))

/-- Witness for C19: the line `x - -1` gives the Identifier `x`, the Special token "-" and
the Numeric token "-1"; and the line of `widePointDocument` gives a Special token with the
content "-", the code point 301 converted to `char`, and the Numeric token "-1". -/
theorem minus_is_special_numeric_has_digit_witness :
    tokenize (freshDocument "x - -1") 0
        = Except.ok [identifierToken "x" 0, specialToken chMinus 2,
            { tokenType := TokenType.Numeric, content := "-1".toList, startPos := 4 }]
    ∧ (∀ t ∈ [identifierToken "x" 0, specialToken chMinus 2,
          { tokenType := TokenType.Numeric, content := "-1".toList, startPos := 4 }],
        (t.content = [chMinus] → t.tokenType = TokenType.Special)
        ∧ (t.tokenType = TokenType.Numeric → ∃ x ∈ t.content, isdigit x = true))
    ∧ tokenize widePointDocument 0
        = Except.ok [specialToken chMinus 0,
            { tokenType := TokenType.Numeric, content := "-1".toList, startPos := 3 }]
    ∧ (∀ t ∈ [specialToken chMinus 0,
          { tokenType := TokenType.Numeric, content := "-1".toList, startPos := 3 }],
        (t.content = [chMinus] → t.tokenType = TokenType.Special)
        ∧ (t.tokenType = TokenType.Numeric → ∃ x ∈ t.content, isdigit x = true)) :=
  ⟨by rfl, (minus_is_special_numeric_has_digit (freshDocument "x - -1") 0).1 _ (by rfl),
    by rfl, (minus_is_special_numeric_has_digit widePointDocument 0).1 _ (by rfl)⟩

/-! ### Identifier tokens -/

theorem scanIdentifier_chars (accessor : Document) :
    ∀ (fuel : Nat) (content : List Char) (c : Cursor) (r : List Char × Cursor),
      scanIdentifier accessor fuel content c = Except.ok r →
      (∀ x ∈ content, identChar x = true) → ∀ x ∈ r.1, identChar x = true := by
  intro fuel
  induction fuel with
  | zero => intro content c r h; simp [scanIdentifier] at h
  | succ fuel ih =>
    intro content c r h hall
    unfold scanIdentifier at h
    split_ifs at h with hm
    · apply ih _ _ r h
      intro x hx
      rcases List.mem_append.1 hx with hx | hx
      · exact hall x hx
      · simp only [List.mem_singleton] at hx
        rw [hx]
        exact identChar_tolower c.ch hm
    · simp only [Except.ok.injEq] at h
      rw [← h]
      exact hall

theorem tokenizeLoop_identifiers (accessor : Document) (lineEnd : Nat) :
    ∀ (fuel : Nat) (tokens : List Token) (c : Cursor) (r : List Token),
      tokenizeLoop accessor lineEnd fuel tokens c = Except.ok r →
      (∀ t ∈ tokens, t.tokenType = TokenType.Identifier → ∀ x ∈ t.content, identChar x = true) →
      ∀ t ∈ r, t.tokenType = TokenType.Identifier → ∀ x ∈ t.content, identChar x = true := by
  intro fuel
  induction fuel with
  | zero => intro tokens c r h; simp [tokenizeLoop] at h
  | succ fuel ih =>
    intro tokens c r h hall
    unfold tokenizeLoop at h
    split_ifs at h with h1 h2 h3 h4 h5
    · simp only [Except.ok.injEq] at h
      rw [← h]; exact hall
    · exact ih _ _ r h hall
    · cases hs : scanIdentifier accessor fuel [] c with
      | error e => rw [hs] at h; simp at h
      | ok res =>
        rw [hs] at h
        simp only at h
        apply ih _ _ r h
        intro t ht
        rcases List.mem_append.1 ht with ht | ht
        · exact hall t ht
        · simp only [List.mem_singleton] at ht
          intro _ x hx
          rw [ht] at hx
          exact scanIdentifier_chars accessor fuel [] c res hs (by simp) x hx
    · cases hs : scanNumeric accessor c.index fuel [] false c with
      | error e => rw [hs] at h; simp at h
      | ok res =>
        rw [hs] at h
        simp only at h
        cases ha : stringAt res.1 0 with
        | error e => rw [ha] at h; simp at h
        | ok c0 =>
          rw [ha] at h
          simp only at h
          apply ih _ _ r h
          intro t ht
          rcases List.mem_append.1 ht with ht | ht
          · exact hall t ht
          · simp only [List.mem_singleton] at ht
            intro hty
            rw [ht] at hty
            simp only at hty
            split_ifs at hty
    · apply ih _ _ r h
      intro t ht
      rcases List.mem_append.1 ht with ht | ht
      · exact hall t ht
      · simp only [List.mem_singleton] at ht
        intro hty
        rw [ht] at hty
        exact TokenType.noConfusion hty
    · simp only [Except.ok.injEq] at h
      rw [← h]; exact hall

theorem tokenize_identifiers (accessor : Document) (line : Nat) (tokens : List Token)
    (h : tokenize accessor line = Except.ok tokens) :
    ∀ t ∈ tokens, t.tokenType = TokenType.Identifier → ∀ x ∈ t.content, identChar x = true := by
  unfold tokenize tokenizeFuel at h
  exact tokenizeLoop_identifiers accessor _ _ [] _ tokens h (by simp)

theorem resolveClassName_style (data : LexerData) (name : List Char) (self : Lexer) :
    (resolveClassName data name self).2
      = if classResolves data self name = true then State.Class else State.Default := by
  unfold resolveClassName classResolves
  by_cases h1 : name ∈ self.classNames
  · simp [h1]
  · by_cases h2 : name ∈ self.nonClassNames
    · simp [h1, h2]
    · simp only [h1, h2, if_false, not_false_eq_true, if_true, decide_False, decide_True,
        Bool.false_or, Bool.true_and]
      split_ifs <;> simp_all

theorem styleIdentifier_style (data : LexerData) (name : List Char) (after : List Token)
    (self : Lexer) :
    (styleIdentifier data name after self).2
      = identifierStyleSpec data self name (nextIs after [chLParen]) := by
  unfold styleIdentifier identifierStyleSpec
  have hlast : (name.getLast?.map isalnum = some true) ↔ (name.getLast?.any isalnum = true) := by
    cases name.getLast? <;> simp
  by_cases hf : (!self.wordListFlowControl name && name.getLast?.any isalnum
      && nextIs after [chLParen]) = true
  · rw [if_pos hf, if_pos]
    simp only [Bool.and_eq_true, Bool.not_eq_true'] at hf
    exact ⟨hf.1.1, hlast.2 hf.1.2, hf.2⟩
  · have hneg : ¬ (self.wordListFlowControl name = false ∧ name.getLast?.map isalnum = some true
        ∧ nextIs after [chLParen] = true) := by
      rintro ⟨h1, h2, h3⟩
      apply hf
      simp [h1, hlast.1 h2, h3]
    rw [if_neg hf, if_neg hneg, ← resolveClassName_style]
    split_ifs <;> rfl

theorem identChar_content_ne (content : List Char) (h : ∀ x ∈ content, identChar x = true) :
    content ≠ [chLBrace] ∧ content ≠ [chSemicolon] ∧ content ≠ [chQuote] := by
  refine ⟨?_, ?_, ?_⟩
  · intro he
    have := h chLBrace (by rw [he]; simp)
    revert this; decide
  · intro he
    have := h chSemicolon (by rw [he]; simp)
    revert this; decide
  · intro he
    have := h chQuote (by rw [he]; simp)
    revert this; decide

/-- C8: in the `Default` state an Identifier token of a tokenized line that does not start a
new property declaration gets the first style that applies in the order Function, Type,
FlowControl, Keyword, Keyword2, Operator, Property, Class, and `Default` otherwise, and the
state stays `Default`; an identifier in no word list and not followed by "(" is styled
`Property` if it is a property name, else `Class` if the resolver succeeds, else `Default`.
Here `pre` holds the earlier tokens of the line in line order; the line is one of any
document in any encoding, and the token that follows holds what the code stores, for a
Special token its character converted to `char`. -/
theorem identifier_style_priority (data : LexerData) (accessor : Document) (line : Nat)
    (pre : List Token) (tok : Token) (after : List Token) (self : Lexer)
    (htok : tokenize accessor line = Except.ok (pre ++ tok :: after))
    (hid : tok.tokenType = TokenType.Identifier)
    (hno : ¬ startsDeclaration accessor line self tok after) :
    (styleToken data accessor line pre.reverse tok after self State.Default).2.2
        = identifierStyleSpec data self tok.content (nextIs after [chLParen])
    ∧ (styleToken data accessor line pre.reverse tok after self State.Default).2.1 = State.Default
    ∧ (self.wordListTypes tok.content = false → self.wordListFlowControl tok.content = false →
        self.wordListKeywords tok.content = false → self.wordListKeywords2 tok.content = false →
        self.wordListOperators tok.content = false → nextIs after [chLParen] = false →
        (styleToken data accessor line pre.reverse tok after self State.Default).2.2
          = if tok.content ∈ self.propertyNames then State.Property
            else if classResolves data self tok.content = true then State.Class
            else State.Default) := by
  have hchars := tokenize_identifiers accessor line _ htok tok (by simp) hid
  obtain ⟨hn1, hn2, hn3⟩ := identChar_content_ne tok.content hchars
  have hstyle : styleToken data accessor line pre.reverse tok after self State.Default
      = ((styleIdentifier data tok.content after self).1, State.Default,
          (styleIdentifier data tok.content after self).2) := by
    rw [styleToken_of_not_starts data accessor line pre.reverse tok after self State.Default hno]
    unfold styleByState styleDefault
    simp only [reduceCtorEq, if_false, hn1, hn2, hn3, hid]
  have h1 : (styleToken data accessor line pre.reverse tok after self State.Default).2.2
      = identifierStyleSpec data self tok.content (nextIs after [chLParen]) := by
    rw [hstyle]
    exact styleIdentifier_style data tok.content after self
  refine ⟨h1, by rw [hstyle], ?_⟩
  intro ht hf hk hk2 ho hp
  rw [h1]
  unfold identifierStyleSpec
  simp [ht, hf, hk, hk2, ho, hp]

/-- Witness for C8: in `foo(bar)` the identifier `foo` is styled `Function`, and `bar`, in no
word list, neither a property nor a class, is styled `Default`; in `wideParenDocument` the
token after `foo` holds the code point 296 converted to `char`, the character "(", and
`foo` is styled `Function`. -/
theorem identifier_style_priority_witness :
    tokenize (freshDocument "foo(bar)") 0
      = Except.ok ([] ++ identifierToken "foo" 0 ::
          [specialToken chLParen 3, identifierToken "bar" 4, specialToken (Char.ofNat 41) 7])
    ∧ (identifierToken "foo" 0).tokenType = TokenType.Identifier
    ∧ (styleToken sampleData (freshDocument "foo(bar)") 0 [].reverse (identifierToken "foo" 0)
        [specialToken chLParen 3, identifierToken "bar" 4, specialToken (Char.ofNat 41) 7]
        sampleLexer State.Default).2.2 = State.Function
    ∧ (styleToken sampleData (freshDocument "foo(bar)") 0
        [identifierToken "foo" 0, specialToken chLParen 3].reverse (identifierToken "bar" 4)
        [specialToken (Char.ofNat 41) 7] sampleLexer State.Default).2.2 = State.Default
    ∧ tokenize wideParenDocument 0
        = Except.ok ([] ++ identifierToken "foo" 0 :: [specialToken chLParen 3])
    ∧ (styleToken sampleData wideParenDocument 0 [].reverse (identifierToken "foo" 0)
        [specialToken chLParen 3] sampleLexer State.Default).2.2 = State.Function :=
  ⟨by rfl, rfl,
    (identifier_style_priority sampleData (freshDocument "foo(bar)") 0 [] (identifierToken "foo" 0)
      [specialToken chLParen 3, identifierToken "bar" 4, specialToken (Char.ofNat 41) 7]
      sampleLexer (by rfl) rfl (fun h => Bool.noConfusion h.1)).1.trans (by decide),
    (identifier_style_priority sampleData (freshDocument "foo(bar)") 0
      [identifierToken "foo" 0, specialToken chLParen 3] (identifierToken "bar" 4)
      [specialToken (Char.ofNat 41) 7] sampleLexer (by rfl) rfl
      (fun h => Bool.noConfusion h.1)).2.2 (by decide) (by decide) (by decide) (by decide)
      (by decide) (by decide),
    by rfl,
    (identifier_style_priority sampleData wideParenDocument 0 [] (identifierToken "foo" 0)
      [specialToken chLParen 3] sampleLexer (by rfl) rfl
      (fun h => Bool.noConfusion h.1)).1.trans (by decide)⟩

/-! ### Lexers that classify alike -/

theorem sameClassification_refl (data : LexerData) (a : Lexer) : sameClassification data a a :=
  ⟨rfl, rfl, rfl, rfl, rfl, fun _ => Iff.rfl, fun _ => rfl⟩

theorem sameClassification_symm (data : LexerData) (a b : Lexer)
    (h : sameClassification data a b) : sameClassification data b a :=
  ⟨h.1.symm, h.2.1.symm, h.2.2.1.symm, h.2.2.2.1.symm, h.2.2.2.2.1.symm,
    fun n => (h.2.2.2.2.2.1 n).symm, fun n => (h.2.2.2.2.2.2 n).symm⟩

theorem sameClassification_trans (data : LexerData) (a b c : Lexer)
    (h : sameClassification data a b) (h2 : sameClassification data b c) :
    sameClassification data a c :=
  ⟨h.1.trans h2.1, h.2.1.trans h2.2.1, h.2.2.1.trans h2.2.2.1, h.2.2.2.1.trans h2.2.2.2.1,
    h.2.2.2.2.1.trans h2.2.2.2.2.1,
    fun n => (h.2.2.2.2.2.1 n).trans (h2.2.2.2.2.2.1 n),
    fun n => (h.2.2.2.2.2.2 n).trans (h2.2.2.2.2.2.2 n)⟩

theorem mem_setInsert (x y : List Char) (s : List (List Char)) :
    y ∈ setInsert x s ↔ y = x ∨ y ∈ s := by
  unfold setInsert
  split_ifs with h
  · constructor
    · exact fun hy => Or.inr hy
    · rintro (hy | hy)
      · rw [hy]; exact h
      · exact hy
  · simp [or_comm]

theorem resolveClassName_same (data : LexerData) (name : List Char) (a : Lexer) :
    sameClassification data a (resolveClassName data name a).1 := by
  unfold resolveClassName
  by_cases h1 : name ∈ a.classNames
  · rw [if_pos h1]; exact sameClassification_refl data a
  rw [if_neg h1]
  by_cases h2 : name ∈ a.nonClassNames
  · rw [if_neg (not_not.2 h2)]; exact sameClassification_refl data a
  rw [if_pos h2]
  simp only
  by_cases hc : data.settings.enableClassNameCache = true
  · by_cases hf : (decide (data.currentGame ≠ Game.Auto) &&
        (data.importDirectories data.currentGame).any
          (fun path => data.fileExists path (name ++ pscExtension))) = true
    · rw [if_pos hf, if_pos hc]
      refine ⟨rfl, rfl, rfl, rfl, rfl, fun _ => Iff.rfl, fun n => ?_⟩
      unfold classResolves
      simp only [mem_setInsert]
      by_cases hn : n = name
      · subst hn
        simp only [Bool.and_eq_true] at hf
        simp [h1, h2, hf.1, hf.2]
      · simp [hn]
    · rw [if_neg hf, if_pos hc]
      refine ⟨rfl, rfl, rfl, rfl, rfl, fun _ => Iff.rfl, fun n => ?_⟩
      unfold classResolves
      simp only [mem_setInsert]
      by_cases hn : n = name
      · subst hn
        have hf2 : (decide (data.currentGame ≠ Game.Auto) &&
            (data.importDirectories data.currentGame).any
              (fun path => data.fileExists path (n ++ pscExtension))) = false := by
          simpa using hf
        simp only [h1, h2, decide_False, Bool.false_or, not_false_eq_true, decide_True,
          Bool.true_and, true_or, not_true_eq_false, Bool.false_and]
        exact hf2
      · simp [hn]
  · split_ifs <;> exact sameClassification_refl data a

theorem styleIdentifier_same (data : LexerData) (name : List Char) (after : List Token)
    (a : Lexer) : sameClassification data a (styleIdentifier data name after a).1 := by
  rcases styleIdentifier_lexer data name after a with h | h
  · rw [h]; exact sameClassification_refl data a
  · rw [h]; exact resolveClassName_same data name a

theorem styleByState_same (data : LexerData) (before : List Token) (tok : Token)
    (after : List Token) (a : Lexer) (messageState : State) :
    sameClassification data a (styleByState data before tok after a messageState).1 := by
  rcases styleByState_lexer data before tok after a messageState with h | h
  · rw [h]; exact sameClassification_refl data a
  · rw [h]; exact styleIdentifier_same data tok.content after a

theorem identifierStyleSpec_congr (data : LexerData) (a b : Lexer)
    (h : sameClassification data a b) (name : List Char) (nextIsParen : Bool) :
    identifierStyleSpec data a name nextIsParen = identifierStyleSpec data b name nextIsParen := by
  obtain ⟨h1, h2, h3, h4, h5, h6, h7⟩ := h
  unfold identifierStyleSpec
  rw [h1, h2, h3, h4, h5, h7 name]
  have hp : (name ∈ a.propertyNames) = (name ∈ b.propertyNames) := propext (h6 name)
  simp only [hp]

theorem styleDefault_congr (data : LexerData) (tok : Token) (after : List Token) (a b : Lexer)
    (messageState : State) (h : sameClassification data a b) :
    (styleDefault data tok after a messageState).2
      = (styleDefault data tok after b messageState).2 := by
  have hid : (styleIdentifier data tok.content after a).2
      = (styleIdentifier data tok.content after b).2 := by
    rw [styleIdentifier_style, styleIdentifier_style]
    exact identifierStyleSpec_congr data a b h tok.content _
  have hop : a.wordListOperators = b.wordListOperators := h.1
  unfold styleDefault
  simp only
  by_cases h1 : tok.content = [chLBrace]
  · rw [if_pos h1, if_pos h1]
  rw [if_neg h1, if_neg h1]
  by_cases h2 : tok.content = [chSemicolon]
  · rw [if_pos h2, if_pos h2]
    by_cases h3 : nextIs after [chSlash] = true
    · rw [if_pos h3, if_pos h3]
    · rw [if_neg h3, if_neg h3]
  rw [if_neg h2, if_neg h2]
  by_cases h4 : tok.content = [chQuote]
  · rw [if_pos h4, if_pos h4]
  rw [if_neg h4, if_neg h4]
  cases tok.tokenType
  · simp only [hid]
  · rfl
  · simp only [hop]

theorem styleByState_congr (data : LexerData) (before : List Token) (tok : Token)
    (after : List Token) (a b : Lexer) (messageState : State)
    (h : sameClassification data a b) :
    (styleByState data before tok after a messageState).2
      = (styleByState data before tok after b messageState).2 := by
  rcases styleByState_cases data before tok after a messageState with
    ⟨hm, he⟩ | ⟨hm, he⟩ | ⟨hm, he⟩ | ⟨hm, he⟩ | ⟨hm, he⟩ <;>
  rcases styleByState_cases data before tok after b messageState with
    ⟨hm2, he2⟩ | ⟨hm2, he2⟩ | ⟨hm2, he2⟩ | ⟨hm2, he2⟩ | ⟨hm2, he2⟩ <;>
  first
    | (rw [he, he2]; done)
    | (rw [he, he2]; exact styleDefault_congr data tok after a b messageState h)
    | (exfalso; rw [hm] at hm2; revert hm2; decide)
    | (exfalso; rw [hm2] at hm; revert hm; decide)

/-! ### Documents with the same text -/

theorem sameText_symm (a b : Document) (h : sameText a b) : sameText b a := ⟨h.1.symm, h.2.symm⟩

theorem getNextChar_congr (a b : Document) (h : sameText a b) (c : Cursor) :
    getNextChar a c = getNextChar b c := by
  unfold getNextChar Document.GetCharacterAndWidth Document.Length Document.SafeGetCharAt
  rw [h.1, h.2]

theorem scanIdentifier_congr (a b : Document) (h : sameText a b) :
    ∀ (fuel : Nat) (content : List Char) (c : Cursor),
      scanIdentifier a fuel content c = scanIdentifier b fuel content c := by
  intro fuel
  induction fuel with
  | zero => intro content c; rfl
  | succ fuel ih =>
    intro content c
    unfold scanIdentifier
    rw [getNextChar_congr a b h, ih]

theorem scanNumeric_congr (a b : Document) (h : sameText a b) (startPos : Nat) :
    ∀ (fuel : Nat) (content : List Char) (hasDigit : Bool) (c : Cursor),
      scanNumeric a startPos fuel content hasDigit c
        = scanNumeric b startPos fuel content hasDigit c := by
  intro fuel
  induction fuel with
  | zero => intro content hasDigit c; rfl
  | succ fuel ih =>
    intro content hasDigit c
    unfold scanNumeric
    rw [getNextChar_congr a b h, ih]

theorem tokenizeLoop_congr (a b : Document) (h : sameText a b) (lineEnd : Nat) :
    ∀ (fuel : Nat) (tokens : List Token) (c : Cursor),
      tokenizeLoop a lineEnd fuel tokens c = tokenizeLoop b lineEnd fuel tokens c := by
  intro fuel
  induction fuel with
  | zero => intro tokens c; rfl
  | succ fuel ih =>
    intro tokens c
    unfold tokenizeLoop
    rw [getNextChar_congr a b h, scanIdentifier_congr a b h, scanNumeric_congr a b h]
    simp only [ih]

theorem tokenize_congr (a b : Document) (h : sameText a b) (line : Nat) :
    tokenize a line = tokenize b line := by
  unfold tokenize tokenizeFuel
  simp only
  rw [tokenizeLoop_congr a b h, getNextChar_congr a b h]
  unfold Document.LineEnd Document.LineStart Document.LinesTotal Document.lineStarts Document.Length
  rw [h.1]

theorem revalidate_total (accessor : Document) (hw : widthsPositive accessor)
    (records : List Property) :
    ∀ (names : List (List Char)), ∃ r, revalidate accessor records names = Except.ok r := by
  induction records with
  | nil => intro names; exact ⟨_, rfl⟩
  | cons p rest ih =>
    intro names
    unfold revalidate
    obtain ⟨tokens, ht⟩ := tokenize_returns accessor hw p.line
    rw [ht]
    simp only
    cases findPropertyName accessor tokens with
    | none => exact ih names
    | some currentName =>
      simp only
      obtain ⟨r, hr⟩ := ih
        (if decide (p.name ≠ currentName) = true then
          setInsert currentName (setErase p.name names) else names)
      rw [hr]
      exact ⟨_, rfl⟩

theorem lexLines_total (data : LexerData) (accessor : Document) (hw : widthsPositive accessor)
    (count : Nat) :
    ∀ (line : Nat) (self : Lexer) (sc : StyleContext) (messageState : State),
      ∃ r, lexLines data accessor count line self sc messageState = Except.ok r := by
  induction count with
  | zero => intro line self sc messageState; exact ⟨_, rfl⟩
  | succ count ih =>
    intro line self sc messageState
    unfold lexLines lexLine
    obtain ⟨tokens, ht⟩ := tokenize_returns accessor hw line
    rw [ht]
    exact ih _ _ _ _

/-- With character widths of at least one `Lex` returns. -/
theorem Lex_total (self : Lexer) (lexerData : Option LexerData) (startPos lengthDoc : Nat)
    (pAccess : Document) (hw : widthsPositive pAccess) :
    ∃ r, Lex self lexerData startPos lengthDoc pAccess = Except.ok r := by
  unfold Lex
  cases lexerData with
  | none => exact ⟨_, rfl⟩
  | some data =>
    simp only
    split_ifs
    · obtain ⟨r, hr⟩ := revalidate_total pAccess hw self.propertyLines self.propertyNames
      rw [hr]
      simp only
      obtain ⟨r2, hr2⟩ := lexLines_total data pAccess hw
        (pAccess.GetLine (startPos + lengthDoc - 1) + 1 - pAccess.GetLine startPos)
        (pAccess.GetLine startPos)
        { self with propertyLines := r.1, propertyNames := r.2 }
        (StyleContext.init startPos lengthDoc (pAccess.StyleBefore startPos) pAccess)
        (pAccess.StyleBefore startPos)
      rw [hr2]
      exact ⟨_, rfl⟩
    · exact ⟨_, rfl⟩

/-- When a usable `Lex` returns, the re-validation pass and the line loop have returned. -/
theorem Lex_usable_inv (self : Lexer) (data : LexerData) (startPos lengthDoc : Nat)
    (pAccess : Document) (hu : data.usable = true) (r1 : Lexer × Document)
    (h : Lex self (some data) startPos lengthDoc pAccess = Except.ok r1) :
    ∃ kept names r,
      revalidate pAccess self.propertyLines self.propertyNames = Except.ok (kept, names)
      ∧ lexLines data pAccess
          (pAccess.GetLine (startPos + lengthDoc - 1) + 1 - pAccess.GetLine startPos)
          (pAccess.GetLine startPos)
          { self with propertyLines := kept, propertyNames := names }
          (StyleContext.init startPos lengthDoc (pAccess.StyleBefore startPos) pAccess)
          (pAccess.StyleBefore startPos) = Except.ok r
      ∧ r1 = (r.1, { pAccess with styles := r.2.1.Complete.styles }) := by
  unfold Lex at h
  simp only [hu, if_true] at h
  cases hr : revalidate pAccess self.propertyLines self.propertyNames with
  | error e => rw [hr] at h; simp at h
  | ok kn =>
    rw [hr] at h
    simp only at h
    cases hl : lexLines data pAccess
        (pAccess.GetLine (startPos + lengthDoc - 1) + 1 - pAccess.GetLine startPos)
        (pAccess.GetLine startPos)
        { self with propertyLines := kn.1, propertyNames := kn.2 }
        (StyleContext.init startPos lengthDoc (pAccess.StyleBefore startPos) pAccess)
        (pAccess.StyleBefore startPos) with
    | error e => rw [hl] at h; simp at h
    | ok r =>
      rw [hl] at h
      simp only [Except.ok.injEq] at h
      exact ⟨kn.1, kn.2, r, rfl, hl, h.symm⟩

theorem Lex_unusable (self : Lexer) (lexerData : Option LexerData) (startPos lengthDoc : Nat)
    (pAccess : Document) (hu : ∀ data, lexerData = some data → data.usable = false) :
    Lex self lexerData startPos lengthDoc pAccess = Except.ok (self, pAccess) := by
  unfold Lex
  cases lexerData with
  | none => rfl
  | some data => simp only [hu data rfl]; rfl

/-! ### Style contexts that start alike -/

theorem Forward_bytes (accessor : Document) (hb : readsBytes accessor)
    (sc : StyleContext) :
    StyleContext.Forward accessor sc
      = if sc.currentPos < sc.endPos then
          { sc with currentPos := sc.currentPos + 1,
                    ch := accessor.text.getD (sc.currentPos + 1) chNul }
        else { sc with ch := chSpace } := by
  unfold StyleContext.Forward
  simp only [hb _]

/-- What `Forward` keeps and how far it moves. -/
theorem Forward_spec (accessor : Document) (hb : readsBytes accessor) (sc : StyleContext)
    (hw : sc.wellFormed accessor) :
    (StyleContext.Forward accessor sc).wellFormed accessor
    ∧ (StyleContext.Forward accessor sc).endPos = sc.endPos
    ∧ (StyleContext.Forward accessor sc).startSeg = sc.startSeg
    ∧ (StyleContext.Forward accessor sc).state = sc.state
    ∧ (StyleContext.Forward accessor sc).styles = sc.styles
    ∧ (StyleContext.Forward accessor sc).currentPos
        = (if sc.currentPos < sc.endPos then sc.currentPos + 1 else sc.currentPos) := by
  rw [Forward_bytes accessor hb]
  obtain ⟨h1, h2, h3, h4⟩ := hw
  split_ifs with hlt
  · exact ⟨⟨by show sc.startSeg ≤ sc.currentPos + 1; omega, by show sc.currentPos + 1 ≤ sc.endPos; omega,
      h3, Or.inl rfl⟩, rfl, rfl, rfl, rfl, rfl⟩
  · exact ⟨⟨h1, h2, h3, Or.inr rfl⟩, rfl, rfl, rfl, rfl, rfl⟩

theorem ForwardN_spec (accessor : Document) (hb : readsBytes accessor) (n : Nat) :
    ∀ (sc : StyleContext), sc.wellFormed accessor →
      (StyleContext.ForwardN accessor n sc).wellFormed accessor
      ∧ (StyleContext.ForwardN accessor n sc).endPos = sc.endPos
      ∧ (StyleContext.ForwardN accessor n sc).startSeg = sc.startSeg
      ∧ (StyleContext.ForwardN accessor n sc).state = sc.state
      ∧ (StyleContext.ForwardN accessor n sc).styles = sc.styles
      ∧ (StyleContext.ForwardN accessor n sc).currentPos = min (sc.currentPos + n) sc.endPos := by
  induction n with
  | zero =>
    intro sc hw
    refine ⟨hw, rfl, rfl, rfl, rfl, ?_⟩
    show sc.currentPos = min (sc.currentPos + 0) sc.endPos
    have := hw.2.1
    omega
  | succ n ih =>
    intro sc hw
    unfold StyleContext.ForwardN
    obtain ⟨f1, f2, f3, f4, f5, f6⟩ := Forward_spec accessor hb sc hw
    obtain ⟨i1, i2, i3, i4, i5, i6⟩ := ih (StyleContext.Forward accessor sc) f1
    refine ⟨i1, i2.trans f2, i3.trans f3, i4.trans f4, i5.trans f5, ?_⟩
    rw [i6, f6, f2]
    have := hw.2.1
    split_ifs <;> omega

theorem colourStop_le (sc : StyleContext) : sc.colourStop ≤ sc.currentPos := by
  unfold StyleContext.colourStop
  split_ifs <;> omega

theorem lt_colourStop (sc : StyleContext) (p : Nat) (h1 : p < sc.currentPos)
    (h2 : p < sc.lengthDocument) : p < sc.colourStop := by
  unfold StyleContext.colourStop
  split_ifs <;> omega

theorem SetState_spec (accessor : Document) (sc : StyleContext) (state : State)
    (hw : sc.wellFormed accessor) :
    (sc.SetState state).wellFormed accessor
    ∧ (sc.SetState state).endPos = sc.endPos
    ∧ (sc.SetState state).currentPos = sc.currentPos
    ∧ (sc.SetState state).state = state
    ∧ (sc.SetState state).ch = sc.ch
    ∧ (sc.SetState state).startSeg = max sc.startSeg sc.colourStop
    ∧ (∀ p s, rendered sc p s → rendered (sc.SetState state) p s) := by
  have hcs := colourStop_le sc
  obtain ⟨h1, h2, h3, h4⟩ := hw
  unfold StyleContext.SetState StyleContext.ColourTo
  by_cases hlt : sc.startSeg < sc.colourStop
  · rw [if_pos hlt]
    refine ⟨⟨hcs, h2, h3, h4⟩, rfl, rfl, rfl, rfl, by show sc.colourStop = _; omega, ?_⟩
    rintro p s ⟨r1, r2, r3⟩
    refine ⟨r1, r2, ?_⟩
    have hp := lt_colourStop sc p r1 r2
    unfold StyleContext.pendingStyle at r3 ⊢
    simp only
    rw [if_pos hp]
    by_cases hps : p < sc.startSeg
    · rw [if_pos hps] at r3
      rw [if_neg (by omega)]
      exact r3
    · rw [if_neg hps] at r3
      rw [if_pos ⟨by omega, hp⟩]
      exact r3
  · rw [if_neg hlt]
    refine ⟨⟨h1, h2, h3, h4⟩, rfl, rfl, rfl, rfl, by show sc.startSeg = _; omega, ?_⟩
    rintro p s ⟨r1, r2, r3⟩
    refine ⟨r1, r2, ?_⟩
    have hp := lt_colourStop sc p r1 r2
    unfold StyleContext.pendingStyle at r3 ⊢
    simp only
    rw [if_pos (by omega)] at r3 ⊢
    exact r3

theorem rendered_Complete (sc : StyleContext) (p : Nat) (s : State) (h : rendered sc p s) :
    sc.Complete.styles p = s := by
  obtain ⟨r1, r2, r3⟩ := h
  have hp := lt_colourStop sc p r1 r2
  unfold StyleContext.Complete StyleContext.ColourTo
  unfold StyleContext.pendingStyle at r3
  by_cases hlt : sc.startSeg < sc.colourStop
  · rw [if_pos hlt]
    simp only
    by_cases hps : p < sc.startSeg
    · rw [if_pos hps] at r3
      rw [if_neg (by omega)]
      exact r3
    · rw [if_neg hps] at r3
      rw [if_pos ⟨by omega, hp⟩]
      exact r3
  · rw [if_neg hlt]
    rw [if_pos (by omega)] at r3
    exact r3

theorem rendered_of_eq (sc sc1 : StyleContext) (p : Nat) (s : State)
    (hpos : sc.currentPos ≤ sc1.currentPos) (hlen : sc1.lengthDocument = sc.lengthDocument)
    (hseg : sc1.startSeg = sc.startSeg) (hstate : sc1.state = sc.state)
    (hstyles : sc1.styles = sc.styles) (h : rendered sc p s) : rendered sc1 p s := by
  obtain ⟨r1, r2, r3⟩ := h
  refine ⟨by omega, by omega, ?_⟩
  unfold StyleContext.pendingStyle at r3 ⊢
  rw [hseg, hstate, hstyles]
  exact r3

/-- `colorToken` on a document read byte by byte: what it keeps, how far it moves, and that a token
reached inside the range and the text ends up carrying the state handed over. -/
theorem colorToken_spec (accessor : Document) (hb : readsBytes accessor)
    (sc : StyleContext) (token : Token) (state : State) (hw : sc.wellFormed accessor) :
    (colorToken accessor sc token state).wellFormed accessor
    ∧ (colorToken accessor sc token state).endPos = sc.endPos
    ∧ sc.currentPos ≤ (colorToken accessor sc token state).currentPos
    ∧ (sc.currentPos ≤ token.startPos →
        (colorToken accessor sc token state).currentPos ≤ token.startPos + token.content.length)
    ∧ (∀ p s, rendered sc p s → rendered (colorToken accessor sc token state) p s)
    ∧ (sc.currentPos ≤ token.startPos → token.startPos < sc.endPos →
        token.startPos < sc.lengthDocument → token.content ≠ [] →
        rendered (colorToken accessor sc token state) token.startPos state) := by
  unfold colorToken
  simp only
  obtain ⟨sc1, hsc1⟩ : ∃ sc1, sc1 = (if sc.currentPos < token.startPos then
      StyleContext.ForwardN accessor (token.startPos - sc.currentPos) sc else sc) := ⟨_, rfl⟩
  rw [← hsc1]
  have h1 : sc1.wellFormed accessor ∧ sc1.endPos = sc.endPos ∧ sc1.startSeg = sc.startSeg
      ∧ sc1.state = sc.state ∧ sc1.styles = sc.styles
      ∧ sc1.lengthDocument = sc.lengthDocument
      ∧ sc.currentPos ≤ sc1.currentPos
      ∧ (sc.currentPos ≤ token.startPos → sc1.currentPos ≤ token.startPos)
      ∧ (sc.currentPos ≤ token.startPos → token.startPos < sc.endPos →
          sc1.currentPos = token.startPos) := by
    rw [hsc1]
    split_ifs with hlt
    · obtain ⟨f1, f2, f3, f4, f5, f6⟩ :=
        ForwardN_spec accessor hb (token.startPos - sc.currentPos) sc hw
      have := hw.2.1
      refine ⟨f1, f2, f3, f4, f5, f1.2.2.1.trans hw.2.2.1.symm, ?_, ?_, ?_⟩
      · rw [f6]; omega
      · intro _; rw [f6]; omega
      · intro _ _; rw [f6]; omega
    · exact ⟨hw, rfl, rfl, rfl, rfl, rfl, Nat.le_refl _, fun h => h, fun h _ => by omega⟩
  obtain ⟨w1, e1, g1, t1, y1, l1, p1, b1, q1⟩ := h1
  obtain ⟨w2, e2, c2, t2, _, g2, r2⟩ := SetState_spec accessor sc1 state w1
  obtain ⟨w3, e3, g3, t3, y3, c3⟩ :=
    ForwardN_spec accessor hb token.content.length (sc1.SetState state) w2
  have hl2 : (sc1.SetState state).lengthDocument = sc.lengthDocument :=
    w2.2.2.1.trans hw.2.2.1.symm
  have hl3 : (StyleContext.ForwardN accessor token.content.length (sc1.SetState state)).lengthDocument
      = sc.lengthDocument := w3.2.2.1.trans hw.2.2.1.symm
  have hle1 := w1.2.1
  refine ⟨w3, e3.trans (e2.trans e1), ?_, ?_, ?_, ?_⟩
  · rw [c3, c2, e2]; omega
  · intro hle
    have := b1 hle
    rw [c3, c2, e2]; omega
  · intro p s hr
    have hr1 : rendered sc1 p s := rendered_of_eq sc sc1 p s p1 l1 g1 t1 y1 hr
    have hr2 := r2 p s hr1
    exact rendered_of_eq _ _ p s (by rw [c3, e2]; omega) (hl3.trans hl2.symm) g3 t3 y3 hr2
  · intro hle hend hlen hne
    have hc1 := q1 hle hend
    have hpos : 1 ≤ token.content.length := List.length_pos.2 hne
    have hstop : sc1.colourStop = token.startPos := by
      unfold StyleContext.colourStop
      rw [l1, hc1, if_neg (by omega)]
    have hseg1 := w1.1
    refine ⟨?_, by rw [hl3]; exact hlen, ?_⟩
    · rw [c3, c2, e2, hc1, e1]; omega
    · unfold StyleContext.pendingStyle
      rw [g3, t3, g2, t2, hstop, if_neg (by omega)]

theorem text_terminator_lt (d : Document) (p : Nat)
    (h : d.text.getD p chNul = chCR ∨ d.text.getD p chNul = chLF) : p < d.Length := by
  by_contra hge
  have hn : d.text.getD p chNul = chNul := by
    rw [List.getD_eq_getElem?_getD, List.getElem?_eq_none (show d.text.length ≤ p from by
      unfold Document.Length at hge; omega)]
    rfl
  rw [hn] at h
  revert h
  decide

theorem terminator_before_next (d : Document) (line p : Nat)
    (h : d.text.getD p chNul = chCR ∨ d.text.getD p chNul = chLF) (hp : p ≤ d.LineEnd line) :
    p + 1 ≤ d.LineStart (line + 1) := by
  rcases Nat.lt_or_ge (line + 1) d.LinesTotal with hl | hl
  · have := (LineEnd_le_LineStart_succ d line).2 hl
    omega
  · have h1 := text_terminator_lt d p h
    rw [LineStart_of_ge d (line + 1) hl]
    omega

theorem crlf_before_next (d : Document) (line p : Nat) (hcr : d.text.getD p chNul = chCR)
    (hlf : d.text.getD (p + 1) chNul = chLF) (hp : p ≤ d.LineEnd line) :
    p + 2 ≤ d.LineStart (line + 1) := by
  rcases Nat.lt_or_ge p (d.LineEnd line) with hlt | hge
  · exact terminator_before_next d line (p + 1) (Or.inr hlf) (by omega)
  · have he : p = d.LineEnd line := by omega
    rcases Nat.lt_or_ge (line + 1) d.LinesTotal with hl | hl
    · rw [he] at hcr hlf ⊢
      exact LineEnd_crlf d line hl hcr hlf
    · exfalso
      have h1 := text_terminator_lt d p (Or.inl hcr)
      rw [he, LineEnd_last d line hl] at h1
      omega

theorem ch_of_wellFormed (accessor : Document) (sc : StyleContext) (hw : sc.wellFormed accessor)
    (c : Char) (hc : c ≠ chSpace) (h : sc.ch = c) :
    accessor.text.getD sc.currentPos chNul = c := by
  rcases hw.2.2.2 with h1 | h1
  · rw [← h1]; exact h
  · rw [h1] at h; exact absurd h.symm hc

/-- `endOfLine` on a document read byte by byte: what it keeps, and that from a position at or
before the end of a line it does not pass the start of the next line. -/
theorem endOfLine_spec (accessor : Document) (hb : readsBytes accessor)
    (sc : StyleContext) (messageState : State) (hw : sc.wellFormed accessor) :
    (endOfLine accessor sc messageState).wellFormed accessor
    ∧ (endOfLine accessor sc messageState).endPos = sc.endPos
    ∧ (∀ p s, rendered sc p s → rendered (endOfLine accessor sc messageState) p s)
    ∧ (∀ line, sc.currentPos ≤ accessor.LineEnd line →
        (endOfLine accessor sc messageState).currentPos ≤ accessor.LineStart (line + 1)) := by
  unfold endOfLine
  simp only
  obtain ⟨sc1, hsc1⟩ : ∃ sc1, sc1 = (if sc.ch = chCR then StyleContext.Forward accessor sc
      else sc) := ⟨_, rfl⟩
  rw [← hsc1]
  have hlen := hw.2.2.1
  have h1 : sc1.wellFormed accessor ∧ sc1.endPos = sc.endPos
      ∧ (∀ p s, rendered sc p s → rendered sc1 p s)
      ∧ (∀ line, sc.currentPos ≤ accessor.LineEnd line →
          sc1.currentPos ≤ accessor.LineStart (line + 1)
          ∧ (sc1.ch = chLF → sc1.currentPos + 1 ≤ accessor.LineStart (line + 1))) := by
    rw [hsc1]
    split_ifs with hcr
    · obtain ⟨f1, f2, f3, f4, f5, f6⟩ := Forward_spec accessor hb sc hw
      have hreal := ch_of_wellFormed accessor sc hw chCR (by decide) hcr
      refine ⟨f1, f2, fun p s hr => rendered_of_eq sc _ p s (by rw [f6]; split_ifs <;> omega)
        (f1.2.2.1.trans hlen.symm) f3 f4 f5 hr, ?_⟩
      intro line hle
      have hb := terminator_before_next accessor line sc.currentPos (Or.inl hreal) hle
      refine ⟨by rw [f6]; split_ifs <;> omega, ?_⟩
      intro hlf
      have hreal2 := ch_of_wellFormed accessor _ f1 chLF (by decide) hlf
      rw [f6] at hreal2 ⊢
      split_ifs at hreal2 ⊢ with hlt
      · exact crlf_before_next accessor line sc.currentPos hreal hreal2 hle
      · rw [hreal] at hreal2
        exact absurd hreal2 (by decide)
    · refine ⟨hw, rfl, fun p s hr => hr, ?_⟩
      intro line hle
      have h0 := (LineEnd_le_LineStart_succ accessor line).1
      refine ⟨by omega, ?_⟩
      intro hlf
      have hreal := ch_of_wellFormed accessor sc hw chLF (by decide) hlf
      exact terminator_before_next accessor line sc.currentPos (Or.inr hreal) hle
  obtain ⟨w1, e1, r1, b1⟩ := h1
  split_ifs with hlf
  · obtain ⟨w2, e2, c2, t2, _, g2, r2⟩ := SetState_spec accessor sc1 messageState w1
    obtain ⟨f1, f2, f3, f4, f5, f6⟩ := Forward_spec accessor hb (sc1.SetState messageState) w2
    refine ⟨f1, f2.trans (e2.trans e1), ?_, ?_⟩
    · intro p s hr
      exact rendered_of_eq _ _ p s (by rw [f6]; split_ifs <;> omega)
        (f1.2.2.1.trans w2.2.2.1.symm) f3 f4 f5 (r2 p s (r1 p s hr))
    · intro line hle
      have := (b1 line hle).2 hlf
      rw [f6, c2]
      split_ifs <;> omega
  · exact ⟨w1, e1, r1, fun line hle => (b1 line hle).1⟩

/-! ### Styles stored for the tokens of a range -/

/-- Colouring the tokens of a line in order: every token inside the range ends up carrying
its state, and what was rendered before stays rendered. -/
theorem colorToken_fold_spec (accessor : Document) (hb : readsBytes accessor)
    (zs : List (Token × State)) :
    ∀ (sc : StyleContext) (lo hi : Nat), sc.wellFormed accessor → sc.currentPos ≤ lo →
      tokensWithin lo (zs.map Prod.fst) hi → hi ≤ sc.lengthDocument →
      (zs.foldl (fun c z => colorToken accessor c z.1 z.2) sc).wellFormed accessor
      ∧ (zs.foldl (fun c z => colorToken accessor c z.1 z.2) sc).endPos = sc.endPos
      ∧ (zs.foldl (fun c z => colorToken accessor c z.1 z.2) sc).currentPos ≤ max lo hi
      ∧ (∀ p s, rendered sc p s →
          rendered (zs.foldl (fun c z => colorToken accessor c z.1 z.2) sc) p s)
      ∧ (∀ z ∈ zs, z.1.startPos < sc.endPos →
          rendered (zs.foldl (fun c z => colorToken accessor c z.1 z.2) sc) z.1.startPos z.2) := by
  induction zs with
  | nil =>
    intro sc lo hi hw hlo _ _
    exact ⟨hw, rfl, by show sc.currentPos ≤ max lo hi; omega, fun _ _ h => h, by simp⟩
  | cons z rest ih =>
    intro sc lo hi hw hlo hwithin hhi
    simp only [List.foldl_cons]
    obtain ⟨t1, t2, t3, t4⟩ := hwithin
    obtain ⟨c1, c2, c3, c4, c5, c6⟩ := colorToken_spec accessor hb sc z.1 z.2 hw
    have hlen : (colorToken accessor sc z.1 z.2).lengthDocument = sc.lengthDocument :=
      c1.2.2.1.trans hw.2.2.1.symm
    obtain ⟨i1, i2, i3, i4, i5⟩ := ih (colorToken accessor sc z.1 z.2)
      (z.1.startPos + z.1.content.length) hi c1 (c4 (by omega)) t4 (by rw [hlen]; exact hhi)
    refine ⟨i1, i2.trans c2, by omega, fun p s h => i4 p s (c5 p s h), ?_⟩
    intro y hy hend
    rcases List.mem_cons.1 hy with hy | hy
    · rw [hy]
      apply i4
      have hpos : 1 ≤ z.1.content.length := List.length_pos.2 t2
      exact c6 (by omega) (by rw [← hy]; exact hend) (by omega) t2
    · exact i5 y hy (by rw [c2]; exact hend)

theorem lexLines_succ (data : LexerData) (accessor : Document) (count line : Nat) (self : Lexer)
    (sc : StyleContext) (messageState : State) :
    lexLines data accessor (count + 1) line self sc messageState
      = match lexLine data accessor line self sc messageState with
        | Except.error e => Except.error e
        | Except.ok r => lexLines data accessor count (line + 1) r.1 r.2.1 r.2.2 := rfl

theorem lexLines_add (data : LexerData) (accessor : Document) (m k : Nat) :
    ∀ (line : Nat) (self : Lexer) (sc : StyleContext) (messageState : State)
      (r : Lexer × StyleContext × State),
      lexLines data accessor m line self sc messageState = Except.ok r →
      lexLines data accessor (m + k) line self sc messageState
        = lexLines data accessor k (line + m) r.1 r.2.1 r.2.2 := by
  induction m with
  | zero =>
    intro line self sc messageState r h
    simp only [lexLines, Except.ok.injEq] at h
    rw [← h]
    simp
  | succ m ih =>
    intro line self sc messageState r h
    have e : m + 1 + k = (m + k) + 1 := by omega
    rw [e, lexLines_succ]
    rw [lexLines_succ] at h
    cases hl : lexLine data accessor line self sc messageState with
    | error e => rw [hl] at h; simp at h
    | ok r1 =>
      rw [hl] at h
      simp only at h ⊢
      rw [ih (line + 1) r1.1 r1.2.1 r1.2.2 r h]
      have e2 : line + 1 + m = line + (m + 1) := by omega
      rw [e2]

theorem tokenStyles_length (data : LexerData) (accessor : Document) (line : Nat)
    (rest : List Token) :
    ∀ (before : List Token) (self : Lexer) (messageState : State),
      (tokenStyles data accessor line before rest self messageState).length = rest.length := by
  induction rest with
  | nil => intro before self messageState; rfl
  | cons tok after ih =>
    intro before self messageState
    unfold tokenStyles
    simp only [List.length_cons]
    rw [ih]

theorem mem_zip_of_mem (tokens : List Token) :
    ∀ (styles : List State), styles.length = tokens.length → ∀ t ∈ tokens,
      ∃ s, (t, s) ∈ List.zip tokens styles := by
  induction tokens with
  | nil => intro styles _ t ht; simp at ht
  | cons a rest ih =>
    intro styles hlen t ht
    cases styles with
    | nil => simp at hlen
    | cons s srest =>
      simp only [List.length_cons, Nat.add_right_cancel_iff] at hlen
      rcases List.mem_cons.1 ht with ht | ht
      · exact ⟨s, by rw [ht]; simp⟩
      · obtain ⟨s1, hs1⟩ := ih srest hlen t ht
        exact ⟨s1, by simp [hs1]⟩

/-- The line loop on a document read byte by byte, entered at or before the start of its first
line: the style context stays in order and within the next line start, what was rendered
stays rendered, and every token inside the range of every line of the loop ends up
carrying the state that the token loop of its line hands to `colorToken`. -/
theorem lexLines_renders (data : LexerData) (accessor : Document)
    (hb : readsBytes accessor) (count : Nat) :
    ∀ (line : Nat) (self : Lexer) (sc : StyleContext) (messageState : State)
      (r : Lexer × StyleContext × State),
      sc.wellFormed accessor → sc.currentPos ≤ accessor.LineStart line →
      lexLines data accessor count line self sc messageState = Except.ok r →
      r.2.1.wellFormed accessor ∧ r.2.1.endPos = sc.endPos
      ∧ r.2.1.currentPos ≤ accessor.LineStart (line + count)
      ∧ (∀ p s, rendered sc p s → rendered r.2.1 p s)
      ∧ (∀ j, j < count → ∀ rj, lexLines data accessor j line self sc messageState = Except.ok rj →
          ∀ tokens, tokenize accessor (line + j) = Except.ok tokens →
          ∀ z ∈ List.zip tokens (tokenStyles data accessor (line + j) [] tokens rj.1 rj.2.2),
            z.1.startPos < sc.endPos → rendered r.2.1 z.1.startPos z.2) := by
  induction count with
  | zero =>
    intro line self sc messageState r hw hpos h
    simp only [lexLines, Except.ok.injEq] at h
    rw [← h]
    exact ⟨hw, rfl, hpos, fun _ _ hr => hr, fun j hj => absurd hj (Nat.not_lt_zero j)⟩
  | succ count ih =>
    intro line self sc messageState r hw hpos h
    have hfull := h
    unfold lexLines lexLine at h
    obtain ⟨tokens, ht, hwithin⟩ := tokenize_within accessor hb line
    rw [ht] at h
    simp only at h
    -- the token loop of this line
    have hsc : (lexTokens data accessor line tokens self sc messageState).2.1
        = endOfLine accessor
            ((List.zip tokens (tokenStyles data accessor line [] tokens self messageState)).foldl
              (fun c z => colorToken accessor c z.1 z.2) sc)
            (lexTokens data accessor line tokens self sc messageState).2.2 := by
      unfold lexTokens
      simp only
      rw [styleTokens_styleContext]
    have hmap : (List.zip tokens (tokenStyles data accessor line [] tokens self messageState)).map
        Prod.fst = tokens := by
      rw [List.map_fst_zip]
      rw [tokenStyles_length]
    obtain ⟨f1, f2, f3, f4, f5⟩ := colorToken_fold_spec accessor hb
      (List.zip tokens (tokenStyles data accessor line [] tokens self messageState)) sc
      (accessor.LineStart line) (accessor.LineEnd line) hw hpos (by rw [hmap]; exact hwithin)
      (by rw [hw.2.2.1]; exact LineEnd_le_Length accessor line)
    have hle := LineStart_le_LineEnd accessor line
    obtain ⟨g1, g2, g3, g4⟩ := endOfLine_spec accessor hb _
      (lexTokens data accessor line tokens self sc messageState).2.2 f1
    rw [← hsc] at g1 g2 g3 g4
    obtain ⟨i1, i2, i3, i4, i5⟩ := ih (line + 1) _ _ _ r g1 (g4 line (by omega)) h
    refine ⟨i1, i2.trans (g2.trans f2), ?_, fun p s hr => i4 p s (g3 p s (f4 p s hr)), ?_⟩
    · have e : line + (count + 1) = line + 1 + count := by omega
      rw [e]; exact i3
    · intro j hj rj hrj tokensj htj z hz hend
      cases j with
      | zero =>
        simp only [lexLines, Except.ok.injEq] at hrj
        rw [← hrj] at hz
        simp only [Nat.add_zero] at htj hz
        rw [ht] at htj
        simp only [Except.ok.injEq] at htj
        rw [← htj] at hz
        exact i4 _ _ (g3 _ _ (f5 z hz hend))
      | succ j =>
        unfold lexLines lexLine at hrj
        rw [ht] at hrj
        simp only at hrj
        have e : line + (j + 1) = line + 1 + j := by omega
        rw [e] at htj hz
        exact i5 j (by omega) rj hrj tokensj htj z hz (by rw [g2, f2]; exact hend)

/-! ### A sub-range against the whole document -/

theorem GetLine_zero (d : Document) : d.GetLine 0 = 0 := by
  unfold Document.GetLine
  rw [lineStarts_cons]
  have hnil : (lineStartsFrom d.text 0).filter (fun s => decide (s ≤ 0)) = [] := by
    rw [List.filter_eq_nil_iff]
    intro s hs
    have := (lineStartsFrom_spec d.text 0 s hs).1
    simp only [decide_eq_true_eq]
    omega
  rw [List.filter_cons_of_pos (by simp), hnil]
  rfl

theorem init_wellFormed (accessor : Document) (hb : readsBytes accessor)
    (startPos lengthDoc : Nat) (initStyle : State) :
    (StyleContext.init startPos lengthDoc initStyle accessor).wellFormed accessor := by
  unfold StyleContext.init StyleContext.wellFormed
  simp only [hb _]
  refine ⟨Nat.le_refl _, ?_, ?_⟩
  · split_ifs <;> omega
  · simp

theorem init_endPos (accessor : Document) (startPos lengthDoc : Nat) (initStyle : State) :
    startPos + lengthDoc ≤ (StyleContext.init startPos lengthDoc initStyle accessor).endPos := by
  unfold StyleContext.init
  simp only
  split_ifs <;> omega

/-! #### Lines that start no declaration -/

theorem findPropertyName_of_declares (accessor : Document) (pre : List Token) (tok : Token)
    (after : List Token) (h : (declaresProperty accessor tok after).isSome = true) :
    findPropertyName accessor (pre ++ tok :: after) ≠ none := by
  induction pre with
  | nil =>
    simp only [List.nil_append]
    unfold findPropertyName
    cases hd : declaresProperty accessor tok after with
    | none => rw [hd] at h; simp at h
    | some next => simp
  | cons t pre ih =>
    simp only [List.cons_append]
    unfold findPropertyName
    cases hd : declaresProperty accessor t (pre ++ tok :: after) with
    | none => exact ih
    | some next => simp

theorem revalidate_keeps (accessor : Document) (records : List Property) :
    ∀ (names : List (List Char)) (kept : List Property) (names1 : List (List Char)),
      revalidate accessor records names = Except.ok (kept, names1) →
      ∀ p ∈ records, ∀ tokens, tokenize accessor p.line = Except.ok tokens →
        findPropertyName accessor tokens ≠ none → ∃ q ∈ kept, q.line = p.line := by
  induction records with
  | nil => intro names kept names1 _ p hp; simp at hp
  | cons p0 rest ih =>
    intro names kept names1 h p hp tokens ht hf
    unfold revalidate at h
    cases ht0 : tokenize accessor p0.line with
    | error e => rw [ht0] at h; simp at h
    | ok tokens0 =>
      rw [ht0] at h
      simp only at h
      cases hf0 : findPropertyName accessor tokens0 with
      | none =>
        rw [hf0] at h
        simp only at h
        rcases List.mem_cons.mp hp with hp | hp
        · exfalso
          rw [hp, ht0] at ht
          simp only [Except.ok.injEq] at ht
          rw [← ht] at hf
          exact hf hf0
        · exact ih _ _ _ h p hp tokens ht hf
      | some currentName =>
        rw [hf0] at h
        simp only at h
        cases hr : revalidate accessor rest
            (if decide (p0.name ≠ currentName) = true
              then setInsert currentName (setErase p0.name names) else names) with
        | error e => rw [hr] at h; simp at h
        | ok kn =>
          rw [hr] at h
          simp only [Except.ok.injEq, Prod.mk.injEq] at h
          rcases List.mem_cons.mp hp with hp | hp
          · refine ⟨(if decide (p0.name ≠ currentName) = true
                then { name := currentName, line := p0.line } else p0), ?_, ?_⟩
            · rw [← h.1]; exact List.mem_cons_self _ _
            · rw [hp]; split_ifs <;> rfl
          · obtain ⟨q, hq, hql⟩ := ih _ kn.1 kn.2 hr p hp tokens ht hf
            exact ⟨q, by rw [← h.1]; exact List.mem_cons_of_mem _ hq, hql⟩

theorem noDeclaration_of_lines (accessor : Document) (line : Nat) (a b : Lexer)
    (tokens : List Token) (h : a.propertyLines = b.propertyLines)
    (hno : noDeclaration accessor line a tokens) : noDeclaration accessor line b tokens := by
  intro pre tok after hsplit hs
  apply hno pre tok after hsplit
  unfold startsDeclaration at hs ⊢
  rw [h]
  exact hs

theorem styleTokens_of_noDeclaration (data : LexerData) (accessor : Document) (line : Nat)
    (rest : List Token) :
    ∀ (before : List Token) (self : Lexer) (sc : StyleContext) (messageState : State),
      noDeclaration accessor line self rest →
      (styleTokens data accessor line before rest self sc messageState).1.propertyLines
          = self.propertyLines
        ∧ sameClassification data self
            (styleTokens data accessor line before rest self sc messageState).1 := by
  induction rest with
  | nil => intro before self sc messageState _; exact ⟨rfl, sameClassification_refl data self⟩
  | cons tok after ih =>
    intro before self sc messageState hno
    unfold styleTokens
    rw [styleToken_of_not_starts data accessor line before tok after self messageState
      (noDeclaration_head accessor line self tok after hno)]
    simp only
    have hp := (styleByState_properties data before tok after self messageState).1
    obtain ⟨h1, h2⟩ := ih (tok :: before) (styleByState data before tok after self messageState).1
      (colorToken accessor sc tok (styleByState data before tok after self messageState).2.2)
      (styleByState data before tok after self messageState).2.1
      (noDeclaration_of_lines accessor line self _ after hp.symm
        (noDeclaration_tail accessor line self tok after hno))
    exact ⟨h1.trans hp, sameClassification_trans data _ _ _
      (styleByState_same data before tok after self messageState) h2⟩

/-- A run of the line loop over lines none of which starts a declaration keeps the property
records, and the lexer still classifies as at the start. -/
theorem lexLines_of_noDeclaration (data : LexerData) (accessor : Document) (count : Nat) :
    ∀ (line : Nat) (self : Lexer) (sc : StyleContext) (messageState : State)
      (r : Lexer × StyleContext × State),
      (∀ l tokens, line ≤ l → l < line + count → tokenize accessor l = Except.ok tokens →
        noDeclaration accessor l self tokens) →
      lexLines data accessor count line self sc messageState = Except.ok r →
      r.1.propertyLines = self.propertyLines ∧ sameClassification data self r.1 := by
  induction count with
  | zero =>
    intro line self sc messageState r _ h
    simp only [lexLines, Except.ok.injEq] at h
    rw [← h]
    exact ⟨rfl, sameClassification_refl data self⟩
  | succ count ih =>
    intro line self sc messageState r hno h
    unfold lexLines lexLine at h
    cases ht : tokenize accessor line with
    | error e => rw [ht] at h; simp at h
    | ok tokens =>
      rw [ht] at h
      simp only at h
      obtain ⟨h3, h4⟩ := styleTokens_of_noDeclaration data accessor line tokens [] self sc
        messageState (hno line tokens (Nat.le_refl _) (by omega) ht)
      have h3b : (lexTokens data accessor line tokens self sc messageState).1.propertyLines
          = self.propertyLines := h3
      obtain ⟨h1, h2⟩ := ih _ _ _ _ r (fun l toks hl1 hl2 htl =>
        noDeclaration_of_lines accessor l self _ toks h3b.symm
          (hno l toks (by omega) (by omega) htl)) h
      exact ⟨h1.trans h3b, sameClassification_trans data _ _ _ h4 h2⟩

/-! #### Lexers with the same records -/

theorem styleToken_sameRecords (data : LexerData) (accessor : Document) (line : Nat)
    (before : List Token) (tok : Token) (after : List Token) (a b : Lexer) (messageState : State)
    (h : sameClassification data a b) (hl : a.propertyLines = b.propertyLines) :
    (styleToken data accessor line before tok after a messageState).2
        = (styleToken data accessor line before tok after b messageState).2
      ∧ sameClassification data (styleToken data accessor line before tok after a messageState).1
          (styleToken data accessor line before tok after b messageState).1
      ∧ (styleToken data accessor line before tok after a messageState).1.propertyLines
          = (styleToken data accessor line before tok after b messageState).1.propertyLines := by
  have hby : (styleByState data before tok after a messageState).2
        = (styleByState data before tok after b messageState).2
      ∧ sameClassification data (styleByState data before tok after a messageState).1
          (styleByState data before tok after b messageState).1
      ∧ (styleByState data before tok after a messageState).1.propertyLines
          = (styleByState data before tok after b messageState).1.propertyLines :=
    ⟨styleByState_congr data before tok after a b messageState h,
      sameClassification_trans data _ _ _
        (sameClassification_symm data _ _ (styleByState_same data before tok after a messageState))
        (sameClassification_trans data _ _ _ h
          (styleByState_same data before tok after b messageState)),
      by rw [(styleByState_properties data before tok after a messageState).1,
        (styleByState_properties data before tok after b messageState).1, hl]⟩
  unfold styleToken
  cases hd : declaresProperty accessor tok after with
  | none => exact hby
  | some next =>
    simp only
    rw [← hl]
    by_cases hr : a.propertyLines.any (fun p => decide (p.line = line)) = true
    · rw [if_pos hr, if_pos hr]
      exact hby
    · rw [if_neg hr, if_neg hr]
      refine ⟨rfl, ?_, by rw [hl]⟩
      obtain ⟨h1, h2, h3, h4, h5, h6, h7⟩ := h
      refine ⟨h1, h2, h3, h4, h5, ?_, ?_⟩
      · intro n
        show n ∈ setInsert next.content a.propertyNames ↔ n ∈ setInsert next.content b.propertyNames
        rw [mem_setInsert, mem_setInsert, h6 n]
      · intro n
        exact h7 n

theorem styleTokens_sameRecords (data : LexerData) (accessor : Document) (line : Nat)
    (rest : List Token) :
    ∀ (before : List Token) (a b : Lexer) (sc1 sc2 : StyleContext) (messageState : State),
      sameClassification data a b → a.propertyLines = b.propertyLines →
      (styleTokens data accessor line before rest a sc1 messageState).2.2
          = (styleTokens data accessor line before rest b sc2 messageState).2.2
        ∧ sameClassification data (styleTokens data accessor line before rest a sc1 messageState).1
            (styleTokens data accessor line before rest b sc2 messageState).1
        ∧ (styleTokens data accessor line before rest a sc1 messageState).1.propertyLines
            = (styleTokens data accessor line before rest b sc2 messageState).1.propertyLines
        ∧ tokenStyles data accessor line before rest a messageState
            = tokenStyles data accessor line before rest b messageState := by
  induction rest with
  | nil =>
    intro before a b sc1 sc2 messageState h hl
    exact ⟨rfl, h, hl, rfl⟩
  | cons tok after ih =>
    intro before a b sc1 sc2 messageState h hl
    obtain ⟨e1, e2, e3⟩ := styleToken_sameRecords data accessor line before tok after a b
      messageState h hl
    unfold styleTokens tokenStyles
    simp only
    rw [← e1]
    obtain ⟨i1, i2, i3, i4⟩ := ih (tok :: before) _ _
      (colorToken accessor sc1 tok (styleToken data accessor line before tok after a messageState).2.2)
      (colorToken accessor sc2 tok (styleToken data accessor line before tok after a messageState).2.2)
      (styleToken data accessor line before tok after a messageState).2.1 e2 e3
    exact ⟨i1, i2, i3, by rw [i4]⟩

/-- Two runs of the line loop over the same lines of one document, from lexers that classify
alike and hold the same records and with the same entering state, end in the same state,
with lexers that classify alike and hold the same records. -/
theorem lexLines_sameRecords (data : LexerData) (accessor : Document) (count : Nat) :
    ∀ (line : Nat) (a b : Lexer) (sc1 sc2 : StyleContext) (messageState : State)
      (r1 r2 : Lexer × StyleContext × State),
      sameClassification data a b → a.propertyLines = b.propertyLines →
      lexLines data accessor count line a sc1 messageState = Except.ok r1 →
      lexLines data accessor count line b sc2 messageState = Except.ok r2 →
      r1.2.2 = r2.2.2 ∧ sameClassification data r1.1 r2.1
        ∧ r1.1.propertyLines = r2.1.propertyLines := by
  induction count with
  | zero =>
    intro line a b sc1 sc2 messageState r1 r2 hab hl h1 h2
    simp only [lexLines, Except.ok.injEq] at h1 h2
    rw [← h1, ← h2]
    exact ⟨rfl, hab, hl⟩
  | succ count ih =>
    intro line a b sc1 sc2 messageState r1 r2 hab hl h1 h2
    unfold lexLines lexLine at h1 h2
    cases ht : tokenize accessor line with
    | error e => rw [ht] at h1; simp at h1
    | ok tokens =>
      rw [ht] at h1 h2
      simp only at h1 h2
      obtain ⟨e1, e2, e3, _⟩ := styleTokens_sameRecords data accessor line tokens [] a b sc1 sc2
        messageState hab hl
      have hms : (lexTokens data accessor line tokens a sc1 messageState).2.2
          = (lexTokens data accessor line tokens b sc2 messageState).2.2 := by
        unfold lexTokens
        simp only
        rw [← e1]
      rw [← hms] at h2
      exact ih (line + 1) _ _ _ _ _ r1 r2 e2 e3 h1 h2

/-! ### The styles assigned to the tokens of a line -/

/-- Whether the line loop returns depends on the lines only, not on the lexer, the style
context or the entering state. -/
theorem lexLines_returns_congr (data : LexerData) (accessor : Document) (count : Nat) :
    ∀ (line : Nat) (a b : Lexer) (sc1 sc2 : StyleContext) (ms1 ms2 : State)
      (r1 : Lexer × StyleContext × State),
      lexLines data accessor count line a sc1 ms1 = Except.ok r1 →
      ∃ r2, lexLines data accessor count line b sc2 ms2 = Except.ok r2 := by
  induction count with
  | zero => intro line a b sc1 sc2 ms1 ms2 r1 _; exact ⟨_, rfl⟩
  | succ count ih =>
    intro line a b sc1 sc2 ms1 ms2 r1 h
    unfold lexLines lexLine at h ⊢
    cases ht : tokenize accessor line with
    | error e => rw [ht] at h; simp at h
    | ok tokens =>
      rw [ht] at h
      simp only at h ⊢
      exact ih _ _ _ _ _ _ _ r1 h

/-- The assigned styles of a line, unfolded: the re-validation pass returns, the line loop
over the lines before it returns, `tokenize` returns, and the styles are those of the token
loop run with the lexer and the state in which the line loop reaches the line. -/
theorem assignedStyles_some (self : Lexer) (data : LexerData) (startPos lengthDoc : Nat)
    (doc : Document) (line : Nat) (styles : List State)
    (h : assignedStyles self data startPos lengthDoc doc line = some styles) :
    ∃ kept names rj tokens,
      revalidate doc self.propertyLines self.propertyNames = Except.ok (kept, names)
      ∧ lexLines data doc (line - doc.GetLine startPos) (doc.GetLine startPos)
          { self with propertyLines := kept, propertyNames := names }
          (StyleContext.init startPos lengthDoc (doc.StyleBefore startPos) doc)
          (doc.StyleBefore startPos) = Except.ok rj
      ∧ tokenize doc line = Except.ok tokens
      ∧ styles = tokenStyles data doc line [] tokens rj.1 rj.2.2 := by
  unfold assignedStyles lineEntry at h
  cases hkn : revalidate doc self.propertyLines self.propertyNames with
  | error e => rw [hkn] at h; simp at h
  | ok kn =>
    rw [hkn] at h
    simp only at h
    cases hj : lexLines data doc (line - doc.GetLine startPos) (doc.GetLine startPos)
        { self with propertyLines := kn.1, propertyNames := kn.2 }
        (StyleContext.init startPos lengthDoc (doc.StyleBefore startPos) doc)
        (doc.StyleBefore startPos) with
    | error e => rw [hj] at h; simp at h
    | ok rj =>
      rw [hj] at h
      simp only at h
      cases ht : tokenize doc line with
      | error e => rw [ht] at h; simp at h
      | ok tokens =>
        rw [ht] at h
        simp only [Option.some.injEq] at h
        exact ⟨kn.1, kn.2, rj, tokens, rfl, hj, rfl, h.symm⟩

theorem assignedStyles_of (self : Lexer) (data : LexerData) (startPos lengthDoc : Nat)
    (doc : Document) (line : Nat) (kept : List Property) (names : List (List Char))
    (rj : Lexer × StyleContext × State) (tokens : List Token)
    (hkn : revalidate doc self.propertyLines self.propertyNames = Except.ok (kept, names))
    (hj : lexLines data doc (line - doc.GetLine startPos) (doc.GetLine startPos)
          { self with propertyLines := kept, propertyNames := names }
          (StyleContext.init startPos lengthDoc (doc.StyleBefore startPos) doc)
          (doc.StyleBefore startPos) = Except.ok rj)
    (ht : tokenize doc line = Except.ok tokens) :
    assignedStyles self data startPos lengthDoc doc line
      = some (tokenStyles data doc line [] tokens rj.1 rj.2.2) := by
  unfold assignedStyles lineEntry
  rw [hkn]
  simp only
  rw [hj]
  simp only
  rw [ht]

/-- With character widths of at least one every line has assigned styles. -/
theorem assignedStyles_returns (self : Lexer) (data : LexerData) (startPos lengthDoc : Nat)
    (doc : Document) (hw : widthsPositive doc) (line : Nat) :
    ∃ styles, assignedStyles self data startPos lengthDoc doc line = some styles := by
  obtain ⟨⟨kept, names⟩, hkn⟩ := revalidate_total doc hw self.propertyLines self.propertyNames
  obtain ⟨rj, hj⟩ := lexLines_total data doc hw (line - doc.GetLine startPos)
    (doc.GetLine startPos) { self with propertyLines := kept, propertyNames := names }
    (StyleContext.init startPos lengthDoc (doc.StyleBefore startPos) doc)
    (doc.StyleBefore startPos)
  obtain ⟨tokens, ht⟩ := tokenize_returns doc hw line
  exact ⟨_, assignedStyles_of self data startPos lengthDoc doc line kept names rj tokens hkn hj ht⟩

/-- The styles that `Lex` stores: on a document read byte by byte, for a range that starts at
or before the start of its first line, the style stored at the start of each token of a line of the range is the one
that the token loop of that line hands to `colorToken`, run with the lexer and the state in
which the line loop reaches the line. -/
theorem Lex_renders (self : Lexer) (data : LexerData) (startPos lengthDoc : Nat) (doc : Document)
    (hb : readsBytes doc) (hu : data.usable = true)
    (hstart : startPos ≤ doc.LineStart (doc.GetLine startPos))
    (r : Lexer × Document) (h : Lex self (some data) startPos lengthDoc doc = Except.ok r) :
    ∃ kept names, revalidate doc self.propertyLines self.propertyNames = Except.ok (kept, names)
      ∧ ∀ j, doc.GetLine startPos + j ≤ doc.GetLine (startPos + lengthDoc - 1) →
        ∃ rj, lexLines data doc j (doc.GetLine startPos)
            { self with propertyLines := kept, propertyNames := names }
            (StyleContext.init startPos lengthDoc (doc.StyleBefore startPos) doc)
            (doc.StyleBefore startPos) = Except.ok rj
          ∧ ∀ tokens, tokenize doc (doc.GetLine startPos + j) = Except.ok tokens →
            ∀ z ∈ List.zip tokens
                (tokenStyles data doc (doc.GetLine startPos + j) [] tokens rj.1 rj.2.2),
              z.1.startPos < startPos + lengthDoc → r.2.styles z.1.startPos = z.2 := by
  obtain ⟨kept, names, r1, hr, hl, he⟩ := Lex_usable_inv self data startPos lengthDoc doc hu r h
  refine ⟨kept, names, hr, ?_⟩
  intro j hj
  obtain ⟨rj, hrj⟩ := lexLines_total data doc (readsBytes_widthsPositive doc hb) j
    (doc.GetLine startPos)
    { self with propertyLines := kept, propertyNames := names }
    (StyleContext.init startPos lengthDoc (doc.StyleBefore startPos) doc)
    (doc.StyleBefore startPos)
  refine ⟨rj, hrj, ?_⟩
  intro tokens htok z hz hlt
  obtain ⟨_, _, _, _, hren⟩ := lexLines_renders data doc hb _ (doc.GetLine startPos) _ _ _ r1
    (init_wellFormed doc hb startPos lengthDoc (doc.StyleBefore startPos))
    hstart hl
  have h1 := hren j (by omega) rj hrj tokens htok z hz
    (Nat.lt_of_lt_of_le hlt (init_endPos doc startPos lengthDoc _))
  rw [he]
  exact rendered_Complete _ _ _ h1

/-- On a document read byte by byte, for a range that starts at or before the start of its
first line, `Lex` of a usable lexer stores at the start of each token of a line of the range the style assigned to
the token. -/
theorem Lex_stores_assigned (self : Lexer) (data : LexerData) (startPos lengthDoc : Nat)
    (doc : Document) (hb : readsBytes doc) (hu : data.usable = true)
    (hstart : startPos ≤ doc.LineStart (doc.GetLine startPos))
    (r : Lexer × Document) (h : Lex self (some data) startPos lengthDoc doc = Except.ok r)
    (line : Nat) (tokens : List Token) (styles : List State)
    (hge : doc.GetLine startPos ≤ line) (hle : line ≤ doc.GetLine (startPos + lengthDoc - 1))
    (htok : tokenize doc line = Except.ok tokens)
    (hst : assignedStyles self data startPos lengthDoc doc line = some styles) :
    ∀ z ∈ List.zip tokens styles, z.1.startPos < startPos + lengthDoc →
      r.2.styles z.1.startPos = z.2 := by
  obtain ⟨kept, names, hkn, hren⟩ := Lex_renders self data startPos lengthDoc doc hb hu hstart r h
  obtain ⟨kept2, names2, rj2, tokens2, hkn2, hj2, ht2, hs2⟩ :=
    assignedStyles_some self data startPos lengthDoc doc line styles hst
  rw [hkn] at hkn2
  simp only [Except.ok.injEq, Prod.mk.injEq] at hkn2
  obtain ⟨hk, hn⟩ := hkn2
  subst hk hn
  rw [htok] at ht2
  simp only [Except.ok.injEq] at ht2
  subst ht2
  have hline : doc.GetLine startPos + (line - doc.GetLine startPos) = line := by omega
  obtain ⟨rj, hrj, hz⟩ := hren (line - doc.GetLine startPos) (by omega)
  rw [hj2] at hrj
  simp only [Except.ok.injEq] at hrj
  subst hrj
  rw [hline] at hz
  intro z hzm hlt
  exact hz tokens htok z (by rw [← hs2]; exact hzm) hlt

theorem assignedStyles_unfold (self : Lexer) (data : LexerData) (startPos lengthDoc : Nat)
    (doc : Document) (line : Nat) (kept : List Property) (names : List (List Char))
    (hkn : revalidate doc self.propertyLines self.propertyNames = Except.ok (kept, names)) :
    assignedStyles self data startPos lengthDoc doc line
      = (match lexLines data doc (line - doc.GetLine startPos) (doc.GetLine startPos)
            { self with propertyLines := kept, propertyNames := names }
            (StyleContext.init startPos lengthDoc (doc.StyleBefore startPos) doc)
            (doc.StyleBefore startPos) with
        | Except.error _ => none
        | Except.ok rj =>
          match tokenize doc line with
          | Except.error _ => none
          | Except.ok tokens => some (tokenStyles data doc line [] tokens rj.1 rj.2.2)) := by
  unfold assignedStyles lineEntry
  rw [hkn]
  simp only
  cases lexLines data doc (line - doc.GetLine startPos) (doc.GetLine startPos)
      { self with propertyLines := kept, propertyNames := names }
      (StyleContext.init startPos lengthDoc (doc.StyleBefore startPos) doc)
      (doc.StyleBefore startPos) <;> rfl

/-! #### The two calls compared -/

/-- C1, as amended: for every document and every sub-range that starts at a line start and
ends inside the text, if the style stored at `startPos - 1` is the continuation state with
which a full-document `Lex` enters that line, and every line before the sub-range that
declares a property already has a property record of the lexer, then the `Lex` on the
sub-range assigns to the tokens of every line of the sub-range the styles that the
full-document `Lex` from that lexer state assigns to them. With character widths of at
least one both calls return and every line has assigned styles. In a document read byte by
byte, as every eight-bit document is, both calls store the same style at the start of every
token of the sub-range. -/
theorem sub_range_lex_matches_full_lex (self : Lexer) (data : LexerData) (doc : Document)
    (startPos lengthDoc : Nat)
    (hrec : declarationsRecorded self doc (doc.GetLine startPos))
    (hstart : doc.LineStart (doc.GetLine startPos) = startPos)
    (hend : startPos + lengthDoc ≤ doc.Length)
    (hstate : stateEntering self data doc (doc.GetLine startPos)
      = some (doc.StyleBefore startPos)) :
    (∀ line, doc.GetLine startPos ≤ line → line ≤ doc.GetLine (startPos + lengthDoc - 1) →
      assignedStyles self data startPos lengthDoc doc line
        = assignedStyles self data 0 doc.Length doc line)
    ∧ (widthsPositive doc →
        (∃ full sub, Lex self (some data) 0 doc.Length doc = Except.ok full
          ∧ Lex self (some data) startPos lengthDoc doc = Except.ok sub)
        ∧ ∀ line, ∃ styles, assignedStyles self data startPos lengthDoc doc line = some styles)
    ∧ (readsBytes doc →
        ∃ full sub, Lex self (some data) 0 doc.Length doc = Except.ok full
          ∧ Lex self (some data) startPos lengthDoc doc = Except.ok sub
          ∧ ∀ line tokens t, doc.GetLine startPos ≤ line →
              line ≤ doc.GetLine (startPos + lengthDoc - 1) →
              tokenize doc line = Except.ok tokens → t ∈ tokens →
              t.startPos < startPos + lengthDoc →
              sub.2.styles t.startPos = full.2.styles t.startPos)
    ∧ (doc.multiByte = none → readsBytes doc)
    ∧ (readsBytes doc → widthsPositive doc) := by
  have key : ∀ line, doc.GetLine startPos ≤ line →
      assignedStyles self data startPos lengthDoc doc line
        = assignedStyles self data 0 doc.Length doc line := by
    intro line hge
    unfold stateEntering at hstate
    cases hkn : revalidate doc self.propertyLines self.propertyNames with
    | error e => rw [hkn] at hstate; simp at hstate
    | ok kn =>
      obtain ⟨kept, names⟩ := kn
      rw [hkn] at hstate
      simp only at hstate
      cases ha : lexLines data doc (doc.GetLine startPos) 0
          { self with propertyLines := kept, propertyNames := names }
          (StyleContext.init 0 doc.Length (doc.StyleBefore 0) doc) (doc.StyleBefore 0) with
      | error e => rw [ha] at hstate; simp at hstate
      | ok ra =>
        rw [ha] at hstate
        simp only [Option.some.injEq] at hstate
        -- no line before the sub-range starts a declaration
        have hpre : ∀ l toks, 0 ≤ l → l < 0 + doc.GetLine startPos →
            tokenize doc l = Except.ok toks →
            noDeclaration doc l { self with propertyLines := kept, propertyNames := names }
              toks := by
          intro l toks _ hl htl pre tok after hsplit hs
          obtain ⟨p, hp, hpl⟩ := hrec l toks (by omega) htl
            (by rw [hsplit]; exact findPropertyName_of_declares doc pre tok after hs.1)
          obtain ⟨q, hq, hql⟩ := revalidate_keeps doc _ _ _ _ hkn p hp toks
            (by rw [hpl]; exact htl)
            (by rw [hsplit]; exact findPropertyName_of_declares doc pre tok after hs.1)
          have hany : kept.any (fun p => decide (p.line = l)) = true :=
            List.any_eq_true.mpr ⟨q, hq, by simp [hql, hpl]⟩
          have hs2 : kept.any (fun p => decide (p.line = l)) = false := hs.2
          rw [hany] at hs2
          exact absurd hs2 (by decide)
        obtain ⟨hal, hac⟩ := lexLines_of_noDeclaration data doc (doc.GetLine startPos) 0 _ _ _ ra
          hpre ha
        obtain ⟨j, hj⟩ : ∃ j, line = doc.GetLine startPos + j :=
          ⟨line - doc.GetLine startPos, by omega⟩
        have hsubj : line - doc.GetLine startPos = j := by omega
        -- the full run reaches the line through the first line of the sub-range
        have hF : lexLines data doc line 0
              { self with propertyLines := kept, propertyNames := names }
              (StyleContext.init 0 doc.Length (doc.StyleBefore 0) doc) (doc.StyleBefore 0)
            = lexLines data doc j (doc.GetLine startPos) ra.1 ra.2.1
                (doc.StyleBefore startPos) := by
          have := lexLines_add data doc (doc.GetLine startPos) j 0 _ _ _ ra ha
          rw [← hj, Nat.zero_add, hstate] at this
          exact this
        rw [assignedStyles_unfold self data startPos lengthDoc doc line kept names hkn,
          assignedStyles_unfold self data 0 doc.Length doc line kept names hkn,
          GetLine_zero, Nat.sub_zero, hF, hsubj]
        cases hjS : lexLines data doc j (doc.GetLine startPos)
            { self with propertyLines := kept, propertyNames := names }
            (StyleContext.init startPos lengthDoc (doc.StyleBefore startPos) doc)
            (doc.StyleBefore startPos) with
        | error e =>
          cases hjF : lexLines data doc j (doc.GetLine startPos) ra.1 ra.2.1
              (doc.StyleBefore startPos) with
          | error e2 => rfl
          | ok rjF =>
            obtain ⟨r2, hr2⟩ := lexLines_returns_congr data doc j _ _
              { self with propertyLines := kept, propertyNames := names } _
              (StyleContext.init startPos lengthDoc (doc.StyleBefore startPos) doc) _
              (doc.StyleBefore startPos) rjF hjF
            rw [hjS] at hr2
            simp at hr2
        | ok rjS =>
          obtain ⟨rjF, hjF⟩ := lexLines_returns_congr data doc j _ _ ra.1 _ ra.2.1 _
            (doc.StyleBefore startPos) rjS hjS
          rw [hjF]
          simp only
          cases htok : tokenize doc line with
          | error e => rfl
          | ok tokens =>
            simp only
            obtain ⟨hms, hsim, hlines⟩ := lexLines_sameRecords data doc j (doc.GetLine startPos)
              ra.1 { self with propertyLines := kept, propertyNames := names } ra.2.1
              (StyleContext.init startPos lengthDoc (doc.StyleBefore startPos) doc)
              (doc.StyleBefore startPos) rjF rjS (sameClassification_symm data _ _ hac) hal
              hjF hjS
            rw [hms]
            exact congrArg some (styleTokens_sameRecords data doc line tokens [] rjF.1 rjS.1
              rjF.2.1 rjF.2.1 rjS.2.2 hsim hlines).2.2.2.symm
  refine ⟨fun line hge _ => key line hge, ?_, ?_, fun h8 => eightBit_readsBytes doc h8,
    fun hb => readsBytes_widthsPositive doc hb⟩
  · intro hw
    obtain ⟨full, hfull⟩ := Lex_total self (some data) 0 doc.Length doc hw
    obtain ⟨sub, hsub⟩ := Lex_total self (some data) startPos lengthDoc doc hw
    exact ⟨⟨full, sub, hfull, hsub⟩,
      fun line => assignedStyles_returns self data startPos lengthDoc doc hw line⟩
  · intro hb
    have hw := readsBytes_widthsPositive doc hb
    obtain ⟨full, hfull⟩ := Lex_total self (some data) 0 doc.Length doc hw
    obtain ⟨sub, hsub⟩ := Lex_total self (some data) startPos lengthDoc doc hw
    refine ⟨full, sub, hfull, hsub, ?_⟩
    intro line tokens t hge hle htok ht hin
    by_cases hu : data.usable = true
    swap
    · have hun : ∀ d, some data = some d → d.usable = false := by
        intro d hd
        simp only [Option.some.injEq] at hd
        rw [← hd]
        simpa using hu
      rw [Lex_unusable self (some data) 0 doc.Length doc hun] at hfull
      rw [Lex_unusable self (some data) startPos lengthDoc doc hun] at hsub
      simp only [Except.ok.injEq] at hfull hsub
      rw [← hfull, ← hsub]
    obtain ⟨styles, hst⟩ := assignedStyles_returns self data startPos lengthDoc doc hw line
    obtain ⟨_, _, rj, tokens2, _, _, ht2, hs2⟩ :=
      assignedStyles_some self data startPos lengthDoc doc line styles hst
    rw [htok] at ht2
    simp only [Except.ok.injEq] at ht2
    subst ht2
    obtain ⟨s, hs⟩ := mem_zip_of_mem tokens styles
      (by rw [hs2]; exact tokenStyles_length data doc line tokens [] rj.1 rj.2.2) t ht
    have hb2 : doc.GetLine (startPos + lengthDoc - 1) ≤ doc.GetLine (0 + doc.Length - 1) :=
      GetLine_mono doc _ _ (by omega)
    have h1 := Lex_stores_assigned self data startPos lengthDoc doc hb hu
      (Nat.le_of_eq hstart.symm) sub hsub line tokens styles hge hle htok hst (t, s) hs hin
    have h2 := Lex_stores_assigned self data 0 doc.Length doc hb hu (Nat.zero_le _) full hfull
      line tokens styles (by rw [GetLine_zero]; exact Nat.zero_le _) (by omega) htok
      (by rw [← key line hge]; exact hst) (t, s) hs (by show t.startPos < 0 + doc.Length; omega)
    exact h1.trans h2.symm

/-! ### The second run of Lex on a range -/

theorem recordedLexer_declarationsRecorded :
    declarationsRecorded recordedLexer propertyDocument (propertyDocument.GetLine 17) := by
  intro l tokens hl _ _
  have h1 : propertyDocument.GetLine 17 = 1 := by decide!
  rw [h1] at hl
  have h0 : l = 0 := by omega
  subst h0
  exact ⟨{ name := "foo".toList, line := 0 }, List.mem_singleton.mpr rfl, rfl⟩

theorem decodedPropertyDocument_readsBytes : readsBytes decodedPropertyDocument := by
  intro p
  have hm : decodedPropertyDocument.multiByte
      = some (fun q => ("int property foo\nfoo\n".toList.getD q chSpace, 1)) := rfl
  unfold charAndWidth
  rw [hm]
  simp only
  unfold Document.GetCharacterAndWidth
  split_ifs with h
  · have hp : p < decodedPropertyDocument.text.length := h
    beta_reduce
    rw [List.getD_eq_getElem?_getD, List.getD_eq_getElem?_getD]
    have : decodedPropertyDocument.text = "int property foo\nfoo\n".toList := rfl
    rw [← this, List.getElem?_eq_getElem hp]
    rfl
  · have hp : decodedPropertyDocument.text.length ≤ p := Nat.le_of_not_lt h
    rw [List.getD_eq_getElem?_getD, List.getElem?_eq_none hp]
    rfl

theorem recordedLexer_declarationsRecorded_decoded :
    declarationsRecorded recordedLexer decodedPropertyDocument
      (decodedPropertyDocument.GetLine 17) := by
  intro l tokens hl _ _
  have h1 : decodedPropertyDocument.GetLine 17 = 1 := by decide!
  rw [h1] at hl
  have h0 : l = 0 := by omega
  subst h0
  exact ⟨{ name := "foo".toList, line := 0 }, List.mem_singleton.mpr rfl, rfl⟩

/-- Witness for C1 as amended: the lexer that holds the record of the property declared on
line 0, lexing line 1, which starts at position 17 and holds the one token `foo`: in the
eight-bit `propertyDocument` and in `decodedPropertyDocument`, which is not eight-bit, both
calls assign `Property` to the token and store it at position 17. -/
theorem sub_range_lex_matches_full_lex_witness :
    (assignedStyles recordedLexer sampleData 17 4 propertyDocument 1 = some [State.Property]
      ∧ assignedStyles recordedLexer sampleData 0 propertyDocument.Length propertyDocument 1
          = some [State.Property]
      ∧ ∃ full sub,
        Lex recordedLexer (some sampleData) 0 propertyDocument.Length propertyDocument
            = Except.ok full
          ∧ Lex recordedLexer (some sampleData) 17 4 propertyDocument = Except.ok sub
          ∧ ∀ line tokens t, propertyDocument.GetLine 17 ≤ line →
              line ≤ propertyDocument.GetLine (17 + 4 - 1) →
              tokenize propertyDocument line = Except.ok tokens → t ∈ tokens →
              t.startPos < 17 + 4 →
              sub.2.styles t.startPos = full.2.styles t.startPos)
    ∧ (decodedPropertyDocument.multiByte ≠ none
      ∧ assignedStyles recordedLexer sampleData 17 4 decodedPropertyDocument 1
          = assignedStyles recordedLexer sampleData 0 decodedPropertyDocument.Length
              decodedPropertyDocument 1
      ∧ ∃ full sub,
        Lex recordedLexer (some sampleData) 0 decodedPropertyDocument.Length
            decodedPropertyDocument = Except.ok full
          ∧ Lex recordedLexer (some sampleData) 17 4 decodedPropertyDocument = Except.ok sub
          ∧ ∀ line tokens t, decodedPropertyDocument.GetLine 17 ≤ line →
              line ≤ decodedPropertyDocument.GetLine (17 + 4 - 1) →
              tokenize decodedPropertyDocument line = Except.ok tokens → t ∈ tokens →
              t.startPos < 17 + 4 →
              sub.2.styles t.startPos = full.2.styles t.startPos) :=
  ⟨⟨by decide!, by decide!,
      (sub_range_lex_matches_full_lex recordedLexer sampleData propertyDocument 17 4
        recordedLexer_declarationsRecorded (by decide!) (by decide!) (by decide!)).2.2.1
        (eightBit_readsBytes propertyDocument rfl)⟩,
    ⟨fun h => Option.noConfusion h,
      (sub_range_lex_matches_full_lex recordedLexer sampleData decodedPropertyDocument 17 4
        recordedLexer_declarationsRecorded_decoded (by decide!) (by decide!) (by decide!)).1 1
        (by decide!) (by decide!),
      (sub_range_lex_matches_full_lex recordedLexer sampleData decodedPropertyDocument 17 4
        recordedLexer_declarationsRecorded_decoded (by decide!) (by decide!) (by decide!)).2.2.1
        decodedPropertyDocument_readsBytes⟩⟩

/-- Counterexample to C1 as stated: in `propertyDocument` line 1 starts at position 17 and
holds the one token `foo`; the style stored at position 16 is `Default`, the state with
which the full-document `Lex` enters line 1 and which it stores there; yet from the lexer
without records the full-document `Lex` styles `foo` as `Property`, and the `Lex` on the
sub-range of line 1 styles it `Default`. -/
theorem sub_range_lex_differs_from_full_lex :
    propertyDocument.LineStart 1 = 17
    ∧ tokenize propertyDocument 1 = Except.ok [identifierToken "foo" 17]
    ∧ propertyDocument.StyleBefore 17 = State.Default
    ∧ stateEntering sampleLexer sampleData propertyDocument 1 = some State.Default
    ∧ styleAfter (Lex sampleLexer (some sampleData) 0 21 propertyDocument) 16
        = some State.Default
    ∧ styleAfter (Lex sampleLexer (some sampleData) 0 21 propertyDocument) 17
        = some State.Property
    ∧ styleAfter (Lex sampleLexer (some sampleData) 17 4 propertyDocument) 17
        = some State.Default :=
  ⟨by decide!, by rfl, by decide!, by decide!, by decide!, by decide!, by decide!⟩

/-- C4 on the text `; c ` followed by a line feed and the line `x`: the full-document `Lex`
enters line 1 in the state `Default`, the ending continuation state of line 0, and styles
`x` as `Default`; yet the style it stores on the line feed of line 0, at position 4, is
`Comment`, and a later `Lex` that starts at line 1 reads it there and styles `x` as
`Comment`. -/
theorem line_feed_after_blank_stores_comment :
    trailingBlankDocument.text.getD 4 chNul = chLF
    ∧ trailingBlankDocument.LineStart 1 = 5
    ∧ tokenize trailingBlankDocument 1 = Except.ok [identifierToken "x" 5]
    ∧ stateEntering sampleLexer sampleData trailingBlankDocument 1 = some State.Default
    ∧ styleAfter (Lex sampleLexer (some sampleData) 0 7 trailingBlankDocument) 4
        = some State.Comment
    ∧ styleAfter (Lex sampleLexer (some sampleData) 0 7 trailingBlankDocument) 5
        = some State.Default
    ∧ styleAfter (lexThen sampleLexer (some sampleData) 0 7 5 2 trailingBlankDocument) 5
        = some State.Comment :=
  ⟨by decide!, by decide!, by rfl, by decide!, by decide!, by decide!, by decide!⟩

/-- C10 on a lexer holding the record (foo, 0) and the name set with `foo` alone: when line 0
no longer declares a property, `Lex` erases the record and leaves `foo` in the name set;
when line 0 declares `bar` instead, `Lex` renames the record and replaces the name. -/
theorem removed_record_leaves_name :
    recordedLexer.propertyNames = recordedLexer.propertyLines.map Property.name
    ∧ propertiesAfter (Lex recordedLexer (some sampleData) 0 6 noLongerDeclaring)
        = some ([], ["foo".toList])
    ∧ propertiesAfter (Lex recordedLexer (some sampleData) 0 17 renamedDeclaration)
        = some ([{ name := "bar".toList, line := 0 }], ["bar".toList]) :=
  ⟨by decide!, by decide!, by decide!⟩

/-! ### The class-name sets -/

/-! #### The lexer after one token -/

theorem resolveClassName_cases (data : LexerData) (n : List Char) (self : Lexer) :
    (resolveClassName data n self).1 = self
    ∨ (n ∉ self.classNames ∧ n ∉ self.nonClassNames
        ∧ data.settings.enableClassNameCache = true ∧ data.currentGame ≠ Game.Auto
        ∧ (resolveClassName data n self).1
          = { self with classNames := setInsert n self.classNames })
    ∨ (n ∉ self.classNames ∧ n ∉ self.nonClassNames
        ∧ data.settings.enableClassNameCache = true
        ∧ (resolveClassName data n self).1
          = { self with nonClassNames := setInsert n self.nonClassNames }) := by
  unfold resolveClassName
  by_cases h1 : n ∈ self.classNames
  · rw [if_pos h1]; exact Or.inl rfl
  rw [if_neg h1]
  by_cases h2 : n ∉ self.nonClassNames
  swap
  · rw [if_neg h2]; exact Or.inl rfl
  rw [if_pos h2]
  simp only
  by_cases hc : data.settings.enableClassNameCache = true
  swap
  · left
    split_ifs <;> rfl
  by_cases hf : (decide (data.currentGame ≠ Game.Auto) &&
      (data.importDirectories data.currentGame).any
        (fun path => data.fileExists path (n ++ pscExtension))) = true
  · rw [if_pos hf, if_pos hc]
    right; left
    refine ⟨h1, h2, hc, ?_, rfl⟩
    simp only [Bool.and_eq_true, decide_eq_true_eq] at hf
    exact hf.1
  · rw [if_neg hf, if_pos hc]
    right; right
    exact ⟨h1, h2, hc, rfl⟩

theorem styleToken_lexer_cases (data : LexerData) (accessor : Document) (line : Nat)
    (before : List Token) (tok : Token) (after : List Token) (self : Lexer) (messageState : State) :
    (styleToken data accessor line before tok after self messageState).1 = self
    ∨ (styleToken data accessor line before tok after self messageState).1
        = (resolveClassName data tok.content self).1
    ∨ ∃ next, declaresProperty accessor tok after = some next
        ∧ self.propertyLines.any (fun p => decide (p.line = line)) = false
        ∧ (styleToken data accessor line before tok after self messageState).1
          = { self with
              propertyLines := self.propertyLines ++ [{ name := next.content, line := line }]
              propertyNames := setInsert next.content self.propertyNames } := by
  have hby : (styleByState data before tok after self messageState).1 = self
      ∨ (styleByState data before tok after self messageState).1
        = (resolveClassName data tok.content self).1 := by
    rcases styleByState_lexer data before tok after self messageState with h | h
    · exact Or.inl h
    · rcases styleIdentifier_lexer data tok.content after self with h2 | h2
      · exact Or.inl (h.trans h2)
      · exact Or.inr (h.trans h2)
  unfold styleToken
  cases hd : declaresProperty accessor tok after with
  | none =>
    simp only
    rcases hby with h | h
    · exact Or.inl h
    · exact Or.inr (Or.inl h)
  | some next =>
    simp only
    by_cases hr : self.propertyLines.any (fun p => decide (p.line = line)) = true
    · rw [if_pos hr]
      rcases hby with h | h
      · exact Or.inl h
      · exact Or.inr (Or.inl h)
    · rw [if_neg hr]
      exact Or.inr (Or.inr ⟨next, rfl, by simpa using hr, rfl⟩)

/-! #### Properties of the lexer kept by the line loop -/

/-- A property of the lexer that every step of the token loop keeps, on the tokens of the
lines that satisfy `C`, is kept by the token loop of a line. -/
theorem styleTokens_invariant (data : LexerData) (accessor : Document) (line : Nat)
    (P : Lexer → Prop) (C : Token → List Token → Prop)
    (hstep : ∀ before tok after L ms, C tok after → P L →
      P (styleToken data accessor line before tok after L ms).1) (rest : List Token) :
    ∀ (before : List Token) (L : Lexer) (sc : StyleContext) (ms : State),
      (∀ pre tok after, rest = pre ++ tok :: after → C tok after) → P L →
      P (styleTokens data accessor line before rest L sc ms).1 := by
  induction rest with
  | nil => intro before L sc ms _ h; exact h
  | cons tok after ih =>
    intro before L sc ms hC h
    unfold styleTokens
    simp only
    exact ih _ _ _ _ (fun pre t a hsplit => hC (tok :: pre) t a (by rw [hsplit]; rfl))
      (hstep before tok after L ms (hC [] tok after rfl) h)

/-- A property of the lexer that every step of the token loop keeps, on the tokens of the
lines that satisfy `C`, is kept by the line loop. -/
theorem lexLines_invariant (data : LexerData) (accessor : Document)
    (P : Lexer → Prop) (C : Nat → Token → List Token → Prop)
    (hstep : ∀ line before tok after L ms, C line tok after → P L →
      P (styleToken data accessor line before tok after L ms).1) (count : Nat) :
    ∀ (line : Nat) (L : Lexer) (sc : StyleContext) (ms : State)
      (r : Lexer × StyleContext × State),
      (∀ l toks, line ≤ l → l < line + count → tokenize accessor l = Except.ok toks →
        ∀ pre tok after, toks = pre ++ tok :: after → C l tok after) →
      P L → lexLines data accessor count line L sc ms = Except.ok r → P r.1 := by
  induction count with
  | zero =>
    intro line L sc ms r _ hP h
    simp only [lexLines, Except.ok.injEq] at h
    rw [← h]
    exact hP
  | succ count ih =>
    intro line L sc ms r hC hP h
    unfold lexLines lexLine at h
    cases ht : tokenize accessor line with
    | error e => rw [ht] at h; simp at h
    | ok tokens =>
      rw [ht] at h
      simp only at h
      refine ih (line + 1) _ _ _ r (fun l toks h1 h2 => hC l toks (by omega) (by omega)) ?_ h
      exact styleTokens_invariant data accessor line P (C line) (hstep line) tokens [] L sc ms
        (hC line tokens (Nat.le_refl _) (by omega) ht) hP

/-- A property of the class-name sets that every step of the token loop keeps is kept by
`Lex`. -/
theorem Lex_invariant (data : LexerData) (doc : Document) (P : Lexer → Prop)
    (hprop : ∀ L records names, P L → P { L with propertyLines := records, propertyNames := names })
    (hstep : ∀ line before tok after L ms, P L →
      P (styleToken data doc line before tok after L ms).1)
    (self : Lexer) (startPos lengthDoc : Nat) (r : Lexer × Document)
    (h : Lex self (some data) startPos lengthDoc doc = Except.ok r) (hP : P self) : P r.1 := by
  by_cases hu : data.usable = true
  · obtain ⟨kept, names, r1, hr, hl, he⟩ := Lex_usable_inv self data startPos lengthDoc doc hu r h
    rw [he]
    exact lexLines_invariant data doc P (fun _ _ _ => True)
      (fun line before tok after L ms _ hL => hstep line before tok after L ms hL) _ _ _ _ _ r1
      (fun _ _ _ _ _ _ _ _ _ => trivial) (hprop self kept names hP) hl
  · have hun : ∀ d, some data = some d → d.usable = false := by
      intro d hd
      simp only [Option.some.injEq] at hd
      rw [← hd]
      simpa using hu
    rw [Lex_unusable self (some data) startPos lengthDoc doc hun] at h
    simp only [Except.ok.injEq] at h
    rw [← h]
    exact hP

/-! ### Identifiers when the game is Auto -/

theorem styleToken_identifier_default (data : LexerData) (accessor : Document) (line : Nat)
    (pre : List Token) (tok : Token) (after : List Token) (self : Lexer)
    (htok : tokenize accessor line = Except.ok (pre ++ tok :: after))
    (hid : tok.tokenType = TokenType.Identifier)
    (hno : ¬ startsDeclaration accessor line self tok after) :
    styleToken data accessor line pre.reverse tok after self State.Default
      = ((styleIdentifier data tok.content after self).1, State.Default,
          (styleIdentifier data tok.content after self).2) := by
  have hchars := tokenize_identifiers accessor line _ htok tok (by simp) hid
  obtain ⟨hn1, hn2, hn3⟩ := identChar_content_ne tok.content hchars
  rw [styleToken_of_not_starts data accessor line pre.reverse tok after self State.Default hno]
  unfold styleByState styleDefault
  simp only [reduceCtorEq, if_false, hn1, hn2, hn3, hid]

theorem classResolves_auto (data : LexerData) (self : Lexer) (name : List Char)
    (hauto : data.currentGame = Game.Auto) :
    classResolves data self name = decide (name ∈ self.classNames) := by
  unfold classResolves
  rw [hauto]
  simp

/-- C12, as amended: when the game is `Auto`, an Identifier token of a tokenized line met in
the `Default` state that does not start a property declaration, is no function name, is in no
word list and is no property name is styled `Class` when it is in the known class-name set
and `Default` otherwise; the state stays `Default`. Here `pre` holds the earlier tokens of
the line in line order. -/
theorem auto_game_identifier_style (data : LexerData) (accessor : Document) (line : Nat)
    (pre : List Token) (tok : Token) (after : List Token) (self : Lexer)
    (hauto : data.currentGame = Game.Auto)
    (htok : tokenize accessor line = Except.ok (pre ++ tok :: after))
    (hid : tok.tokenType = TokenType.Identifier)
    (hno : ¬ startsDeclaration accessor line self tok after)
    (hfun : ¬ (tok.content.getLast?.map isalnum = some true ∧ nextIs after [chLParen] = true))
    (ht : self.wordListTypes tok.content = false)
    (hf : self.wordListFlowControl tok.content = false)
    (hk : self.wordListKeywords tok.content = false)
    (hk2 : self.wordListKeywords2 tok.content = false)
    (ho : self.wordListOperators tok.content = false)
    (hp : tok.content ∉ self.propertyNames) :
    (styleToken data accessor line pre.reverse tok after self State.Default).2.2
        = (if tok.content ∈ self.classNames then State.Class else State.Default)
    ∧ (styleToken data accessor line pre.reverse tok after self State.Default).2.1
        = State.Default := by
  rw [styleToken_identifier_default data accessor line pre tok after self htok hid hno]
  refine ⟨?_, rfl⟩
  show (styleIdentifier data tok.content after self).2 = _
  rw [styleIdentifier_style]
  unfold identifierStyleSpec
  have hfun2 : ¬ (self.wordListFlowControl tok.content = false
      ∧ tok.content.getLast?.map isalnum = some true ∧ nextIs after [chLParen] = true) :=
    fun h => hfun h.2
  rw [if_neg hfun2, classResolves_auto data self tok.content hauto]
  simp [ht, hf, hk, hk2, ho, hp]

/-- Witness for C12 as amended: with the sample configuration, whose game is `Auto`, the
identifier `foo` of `fooDocument` is styled `Default` by the lexer with empty class-name
sets. -/
theorem auto_game_identifier_style_witness :
    (styleToken sampleData fooDocument 0 [].reverse (identifierToken "foo" 0) [] sampleLexer
        State.Default).2.2
        = (if (identifierToken "foo" 0).content ∈ sampleLexer.classNames then State.Class
            else State.Default)
    ∧ (styleToken sampleData fooDocument 0 [].reverse (identifierToken "foo" 0) [] sampleLexer
        State.Default).2.1 = State.Default :=
  auto_game_identifier_style sampleData fooDocument 0 [] (identifierToken "foo" 0) []
    sampleLexer rfl (by rfl) rfl (fun h => Bool.noConfusion h.1)
    (fun h => Bool.noConfusion h.2) (by decide) (by decide) (by decide) (by decide) (by decide)
    (by decide)

/-- Counterexample to C12 as stated: the game is `Auto` and the known class-name set holds
`foo`; the identifier `foo`, in no word list, no property name and followed by no token, is
met in the `Default` state and styled `Class`, and `Lex` stores `Class` on it. -/
theorem auto_game_known_name_styled_class :
    sampleData.currentGame = Game.Auto
    ∧ tokenize fooDocument 0 = Except.ok [identifierToken "foo" 0]
    ∧ (styleToken sampleData fooDocument 0 [] (identifierToken "foo" 0) [] knownClassLexer
        State.Default).2.2 = State.Class
    ∧ styleAfter (Lex knownClassLexer (some sampleData) 0 4 fooDocument) 0 = some State.Class :=
  ⟨rfl, by rfl, by decide!, by decide!⟩

/-! ### The class-name sets when the game is Auto -/

theorem resolveClassName_probe (data : LexerData) (probe : List Char → List Char → Bool)
    (hauto : data.currentGame = Game.Auto) (n : List Char) (self : Lexer) :
    resolveClassName { data with fileExists := probe } n self = resolveClassName data n self := by
  unfold resolveClassName
  simp only [hauto, ne_eq, not_true_eq_false, decide_False, Bool.false_and]

theorem styleIdentifier_probe (data : LexerData) (probe : List Char → List Char → Bool)
    (hauto : data.currentGame = Game.Auto) (n : List Char) (after : List Token) (self : Lexer) :
    styleIdentifier { data with fileExists := probe } n after self
      = styleIdentifier data n after self := by
  unfold styleIdentifier
  rw [resolveClassName_probe data probe hauto]

theorem styleByState_probe (data : LexerData) (probe : List Char → List Char → Bool)
    (hauto : data.currentGame = Game.Auto) (before : List Token) (tok : Token)
    (after : List Token) (self : Lexer) (ms : State) :
    styleByState { data with fileExists := probe } before tok after self ms
      = styleByState data before tok after self ms := by
  unfold styleByState styleDefault
  simp only [styleIdentifier_probe data probe hauto]

theorem styleToken_probe (data : LexerData) (probe : List Char → List Char → Bool)
    (hauto : data.currentGame = Game.Auto) (accessor : Document) (line : Nat)
    (before : List Token) (tok : Token) (after : List Token) (self : Lexer) (ms : State) :
    styleToken { data with fileExists := probe } accessor line before tok after self ms
      = styleToken data accessor line before tok after self ms := by
  unfold styleToken
  rw [styleByState_probe data probe hauto]

theorem styleTokens_probe (data : LexerData) (probe : List Char → List Char → Bool)
    (hauto : data.currentGame = Game.Auto) (accessor : Document) (line : Nat)
    (rest : List Token) :
    ∀ (before : List Token) (self : Lexer) (sc : StyleContext) (ms : State),
      styleTokens { data with fileExists := probe } accessor line before rest self sc ms
        = styleTokens data accessor line before rest self sc ms := by
  induction rest with
  | nil => intro before self sc ms; rfl
  | cons tok after ih =>
    intro before self sc ms
    unfold styleTokens
    simp only
    rw [styleToken_probe data probe hauto, ih]

theorem lexLines_probe (data : LexerData) (probe : List Char → List Char → Bool)
    (hauto : data.currentGame = Game.Auto) (accessor : Document) (count : Nat) :
    ∀ (line : Nat) (self : Lexer) (sc : StyleContext) (ms : State),
      lexLines { data with fileExists := probe } accessor count line self sc ms
        = lexLines data accessor count line self sc ms := by
  induction count with
  | zero => intro line self sc ms; rfl
  | succ count ih =>
    intro line self sc ms
    unfold lexLines lexLine lexTokens
    simp only [styleTokens_probe data probe hauto, ih]

theorem Lex_probe (data : LexerData) (probe : List Char → List Char → Bool)
    (hauto : data.currentGame = Game.Auto) (self : Lexer) (startPos lengthDoc : Nat)
    (doc : Document) :
    Lex self (some { data with fileExists := probe }) startPos lengthDoc doc
      = Lex self (some data) startPos lengthDoc doc := by
  unfold Lex
  simp only [lexLines_probe data probe hauto]

theorem styleToken_auto_caches (data : LexerData) (hauto : data.currentGame = Game.Auto)
    (accessor : Document) (line : Nat) (before : List Token) (tok : Token) (after : List Token)
    (L : Lexer) (ms : State) :
    (styleToken data accessor line before tok after L ms).1.classNames = L.classNames
    ∧ ((styleToken data accessor line before tok after L ms).1.nonClassNames = L.nonClassNames
      ∨ (data.settings.enableClassNameCache = true ∧ tok.content ∉ L.classNames
          ∧ tok.content ∉ L.nonClassNames
          ∧ (styleToken data accessor line before tok after L ms).1.nonClassNames
            = setInsert tok.content L.nonClassNames)) := by
  rcases styleToken_lexer_cases data accessor line before tok after L ms with
    h | h | ⟨next, _, _, h⟩
  · rw [h]; exact ⟨rfl, Or.inl rfl⟩
  · rw [h]
    rcases resolveClassName_cases data tok.content L with h2 | ⟨_, _, _, hg, _⟩ | ⟨h1, h2, h3, h4⟩
    · rw [h2]; exact ⟨rfl, Or.inl rfl⟩
    · exact absurd hauto hg
    · rw [h4]; exact ⟨rfl, Or.inr ⟨h3, h1, h2, rfl⟩⟩
  · rw [h]; exact ⟨rfl, Or.inl rfl⟩

theorem resolveClassName_records (data : LexerData) (n : List Char) (L : Lexer)
    (hc : data.settings.enableClassNameCache = true)
    (h : (resolveClassName data n L).2 = State.Default) :
    n ∈ (resolveClassName data n L).1.nonClassNames := by
  unfold resolveClassName at h ⊢
  by_cases h1 : n ∈ L.classNames
  · rw [if_pos h1] at h
    simp at h
  rw [if_neg h1] at h ⊢
  by_cases h2 : n ∉ L.nonClassNames
  · rw [if_pos h2] at h ⊢
    simp only [hc, if_true] at h ⊢
    split_ifs at h ⊢ with hf
    show n ∈ setInsert n L.nonClassNames
    rw [mem_setInsert]
    exact Or.inl rfl
  · rw [if_neg h2]
    simpa using h2

theorem styleIdentifier_records (data : LexerData) (n : List Char) (after : List Token)
    (L : Lexer) (hc : data.settings.enableClassNameCache = true)
    (h : (styleIdentifier data n after L).2 = State.Default) :
    n ∈ (styleIdentifier data n after L).1.nonClassNames := by
  unfold styleIdentifier at h ⊢
  split_ifs at h ⊢
  exact resolveClassName_records data n L hc h

theorem styleByState_records (data : LexerData) (before : List Token) (tok : Token)
    (after : List Token) (L : Lexer) (ms : State)
    (hc : data.settings.enableClassNameCache = true)
    (hid : tok.tokenType = TokenType.Identifier)
    (h : (styleByState data before tok after L ms).2.2 = State.Default) :
    tok.content ∈ (styleByState data before tok after L ms).1.nonClassNames := by
  unfold styleByState styleDefault at h ⊢
  simp only [hid] at h ⊢
  split_ifs at h ⊢
  exact styleIdentifier_records data tok.content after L hc h

/-- With the class-name cache on, an Identifier token that the token loop styles `Default`
is in the unknown set after its step. -/
theorem styleToken_records (data : LexerData) (accessor : Document) (line : Nat)
    (before : List Token) (tok : Token) (after : List Token) (L : Lexer) (ms : State)
    (hc : data.settings.enableClassNameCache = true)
    (hid : tok.tokenType = TokenType.Identifier)
    (h : (styleToken data accessor line before tok after L ms).2.2 = State.Default) :
    tok.content ∈ (styleToken data accessor line before tok after L ms).1.nonClassNames := by
  unfold styleToken at h ⊢
  cases hd : declaresProperty accessor tok after with
  | none =>
    rw [hd] at h
    exact styleByState_records data before tok after L ms hc hid h
  | some next =>
    rw [hd] at h
    simp only at h ⊢
    split_ifs at h ⊢
    exact styleByState_records data before tok after L ms hc hid h

/-- The unknown set keeps its names at every step of the token loop. -/
theorem styleToken_unknown_mono (data : LexerData) (accessor : Document) (line : Nat)
    (before : List Token) (tok : Token) (after : List Token) (L : Lexer) (ms : State)
    (n : List Char) (h : n ∈ L.nonClassNames) :
    n ∈ (styleToken data accessor line before tok after L ms).1.nonClassNames := by
  rcases styleToken_lexer_cases data accessor line before tok after L ms with
    e | e | ⟨next, _, _, e⟩
  · rw [e]; exact h
  · rw [e]
    rcases resolveClassName_cases data tok.content L with e2 | ⟨_, _, _, _, e2⟩ | ⟨_, _, _, e2⟩
    · rw [e2]; exact h
    · rw [e2]; exact h
    · rw [e2]
      show n ∈ setInsert tok.content L.nonClassNames
      rw [mem_setInsert]
      exact Or.inr h
  · rw [e]; exact h

theorem styleTokens_records (data : LexerData) (accessor : Document) (line : Nat)
    (hc : data.settings.enableClassNameCache = true) (rest : List Token) :
    ∀ (before : List Token) (L : Lexer) (sc : StyleContext) (ms : State),
      (∀ n, n ∈ L.nonClassNames →
        n ∈ (styleTokens data accessor line before rest L sc ms).1.nonClassNames)
      ∧ ∀ z ∈ List.zip rest (tokenStyles data accessor line before rest L ms),
          z.1.tokenType = TokenType.Identifier → z.2 = State.Default →
          z.1.content ∈ (styleTokens data accessor line before rest L sc ms).1.nonClassNames := by
  induction rest with
  | nil =>
    intro before L sc ms
    exact ⟨fun n hn => hn, fun z hz => by simp [tokenStyles] at hz⟩
  | cons tok after ih =>
    intro before L sc ms
    unfold styleTokens tokenStyles
    simp only [List.zip_cons_cons]
    obtain ⟨m1, m2⟩ := ih (tok :: before)
      (styleToken data accessor line before tok after L ms).1
      (colorToken accessor sc tok (styleToken data accessor line before tok after L ms).2.2)
      (styleToken data accessor line before tok after L ms).2.1
    refine ⟨fun n hn => m1 n (styleToken_unknown_mono data accessor line before tok after L ms n hn),
      fun z hz hid hs => ?_⟩
    rcases List.mem_cons.1 hz with hz | hz
    · rw [hz] at hid hs ⊢
      exact m1 _ (styleToken_records data accessor line before tok after L ms hc hid hs)
    · exact m2 z hz hid hs

theorem lexLines_unknown_mono (data : LexerData) (accessor : Document) (count : Nat) :
    ∀ (line : Nat) (L : Lexer) (sc : StyleContext) (ms : State)
      (r : Lexer × StyleContext × State),
      lexLines data accessor count line L sc ms = Except.ok r →
      ∀ n, n ∈ L.nonClassNames → n ∈ r.1.nonClassNames :=
  fun line L sc ms r h =>
    lexLines_invariant data accessor (fun X => ∀ n, n ∈ L.nonClassNames → n ∈ X.nonClassNames)
      (fun _ _ _ => True)
      (fun l before tok after X ms2 _ hX n hn =>
        styleToken_unknown_mono data accessor l before tok after X ms2 n (hX n hn))
      count line L sc ms r (fun _ _ _ _ _ _ _ _ _ => trivial) (fun _ hn => hn) h

/-- With the class-name cache on, every Identifier token of a line of the loop that is styled
`Default` is in the unknown set when the line loop returns. -/
theorem lexLines_records (data : LexerData) (accessor : Document)
    (hc : data.settings.enableClassNameCache = true) (count : Nat) :
    ∀ (line : Nat) (L : Lexer) (sc : StyleContext) (ms : State)
      (r : Lexer × StyleContext × State),
      lexLines data accessor count line L sc ms = Except.ok r →
      ∀ j, j < count → ∀ rj, lexLines data accessor j line L sc ms = Except.ok rj →
        ∀ tokens, tokenize accessor (line + j) = Except.ok tokens →
        ∀ z ∈ List.zip tokens (tokenStyles data accessor (line + j) [] tokens rj.1 rj.2.2),
          z.1.tokenType = TokenType.Identifier → z.2 = State.Default →
          z.1.content ∈ r.1.nonClassNames := by
  intro line L sc ms r h j hj rj hrj tokens htok z hz hid hs
  obtain ⟨k, hk⟩ : ∃ k, count = j + (1 + k) := ⟨count - j - 1, by omega⟩
  rw [hk, lexLines_add data accessor j (1 + k) line L sc ms rj hrj] at h
  have hstep : lexLines data accessor 1 (line + j) rj.1 rj.2.1 rj.2.2
      = Except.ok (lexTokens data accessor (line + j) tokens rj.1 rj.2.1 rj.2.2) := by
    unfold lexLines lexLine
    rw [htok]
    rfl
  rw [lexLines_add data accessor 1 k (line + j) rj.1 rj.2.1 rj.2.2 _ hstep] at h
  apply lexLines_unknown_mono data accessor k _ _ _ _ r h
  exact (styleTokens_records data accessor (line + j) hc tokens [] rj.1 rj.2.1 rj.2.2).2 z hz
    hid hs

/-- When the game is `Auto`, the lexer after the step of an Identifier token met in the
`Default` state that starts no declaration, is no function name, is in no word list and is
no property name: with the cache on and the name not in the known set, the name is in the
unknown set; otherwise the lexer is as before. -/
theorem styleToken_auto_lexer (data : LexerData) (accessor : Document) (line : Nat)
    (pre : List Token) (tok : Token) (after : List Token) (self : Lexer)
    (hauto : data.currentGame = Game.Auto)
    (htok : tokenize accessor line = Except.ok (pre ++ tok :: after))
    (hid : tok.tokenType = TokenType.Identifier)
    (hno : ¬ startsDeclaration accessor line self tok after)
    (hfun : ¬ (tok.content.getLast?.map isalnum = some true ∧ nextIs after [chLParen] = true))
    (ht : self.wordListTypes tok.content = false)
    (hf : self.wordListFlowControl tok.content = false)
    (hk : self.wordListKeywords tok.content = false)
    (hk2 : self.wordListKeywords2 tok.content = false)
    (ho : self.wordListOperators tok.content = false)
    (hp : tok.content ∉ self.propertyNames) :
    (styleToken data accessor line pre.reverse tok after self State.Default).1
      = (if data.settings.enableClassNameCache = true ∧ tok.content ∉ self.classNames then
          { self with nonClassNames := setInsert tok.content self.nonClassNames }
        else self) := by
  rw [styleToken_identifier_default data accessor line pre tok after self htok hid hno]
  show (styleIdentifier data tok.content after self).1 = _
  have hfun2 : (tok.content.getLast?.any isalnum && nextIs after [chLParen]) = false := by
    cases hl : tok.content.getLast? with
    | none => rfl
    | some c =>
      rw [hl] at hfun
      cases h1 : isalnum c with
      | false => simp [h1]
      | true =>
        cases h2 : nextIs after [chLParen] with
        | false => simp
        | true =>
          exfalso
          exact hfun ⟨by simp [h1], h2⟩
  unfold styleIdentifier
  rw [Bool.and_assoc, hfun2, Bool.and_false]
  simp only [Bool.false_eq_true, if_false, ht, hf, hk, hk2, ho, if_neg hp]
  unfold resolveClassName
  by_cases h1 : tok.content ∈ self.classNames
  · rw [if_pos h1, if_neg (fun h => h.2 h1)]
  rw [if_neg h1]
  by_cases h2 : tok.content ∉ self.nonClassNames
  · rw [if_pos h2]
    simp only [hauto, ne_eq, not_true_eq_false, decide_False, Bool.false_and,
      Bool.false_eq_true, if_false]
    by_cases hc : data.settings.enableClassNameCache = true
    · rw [if_pos hc, if_pos ⟨hc, h1⟩]
    · rw [if_neg hc, if_neg (fun h => hc h.1)]
  · rw [if_neg h2]
    have h3 : tok.content ∈ self.nonClassNames := by simpa using h2
    have h4 : setInsert tok.content self.nonClassNames = self.nonClassNames := by
      unfold setInsert
      rw [if_pos h3]
    rw [h4]
    split_ifs <;> rfl

/-- C13, as amended: when the game is `Auto`, a `Lex` invocation consults no import
directory (its result is the same for every file-existence oracle) and leaves the known set
unchanged; with the class-name cache off it leaves the unknown set unchanged; with the cache
on the unknown set keeps its names, every name it gains was in neither set before, and it
holds the name of every Identifier token of the range that the invocation styles `Default`.
In the token loop, an Identifier token met in the `Default` state that starts no
declaration, is no function name, is in no word list and is no property name enters the
unknown set when the cache is on and the name is not in the known set, and leaves the lexer
as it is otherwise. With character widths of at least one, as in every eight-bit document,
the invocation returns. -/
theorem auto_game_caches (self : Lexer) (data : LexerData) (startPos lengthDoc : Nat)
    (doc : Document) (hauto : data.currentGame = Game.Auto) :
    (∀ probe, Lex self (some { data with fileExists := probe }) startPos lengthDoc doc
        = Lex self (some data) startPos lengthDoc doc)
    ∧ (∀ r, Lex self (some data) startPos lengthDoc doc = Except.ok r →
        r.1.classNames = self.classNames
        ∧ (data.settings.enableClassNameCache = false → r.1.nonClassNames = self.nonClassNames)
        ∧ (∀ n, n ∈ self.nonClassNames → n ∈ r.1.nonClassNames)
        ∧ (∀ n, n ∈ r.1.nonClassNames → n ∉ self.nonClassNames →
            data.settings.enableClassNameCache = true ∧ n ∉ self.classNames)
        ∧ (data.usable = true → data.settings.enableClassNameCache = true →
            ∀ line tokens styles, doc.GetLine startPos ≤ line →
              line ≤ doc.GetLine (startPos + lengthDoc - 1) →
              tokenize doc line = Except.ok tokens →
              assignedStyles self data startPos lengthDoc doc line = some styles →
              ∀ z ∈ List.zip tokens styles, z.1.tokenType = TokenType.Identifier →
                z.2 = State.Default → z.1.content ∈ r.1.nonClassNames))
    ∧ (∀ line pre tok after (L : Lexer),
        tokenize doc line = Except.ok (pre ++ tok :: after) →
        tok.tokenType = TokenType.Identifier →
        ¬ startsDeclaration doc line L tok after →
        ¬ (tok.content.getLast?.map isalnum = some true ∧ nextIs after [chLParen] = true) →
        L.wordListTypes tok.content = false → L.wordListFlowControl tok.content = false →
        L.wordListKeywords tok.content = false → L.wordListKeywords2 tok.content = false →
        L.wordListOperators tok.content = false → tok.content ∉ L.propertyNames →
        (styleToken data doc line pre.reverse tok after L State.Default).1
          = (if data.settings.enableClassNameCache = true ∧ tok.content ∉ L.classNames then
              { L with nonClassNames := setInsert tok.content L.nonClassNames }
            else L))
    ∧ (widthsPositive doc → ∃ r, Lex self (some data) startPos lengthDoc doc = Except.ok r) := by
  refine ⟨fun probe => Lex_probe data probe hauto self startPos lengthDoc doc, ?_,
    fun line pre tok after L htok hid hno hfun ht hf hk hk2 ho hp =>
      styleToken_auto_lexer data doc line pre tok after L hauto htok hid hno hfun ht hf hk hk2
        ho hp,
    fun hw => Lex_total self (some data) startPos lengthDoc doc hw⟩
  intro r hr
  obtain ⟨g1, g2, g3, g4⟩ := Lex_invariant data doc
    (fun L => L.classNames = self.classNames
      ∧ (data.settings.enableClassNameCache = false → L.nonClassNames = self.nonClassNames)
      ∧ (∀ n, n ∈ self.nonClassNames → n ∈ L.nonClassNames)
      ∧ (∀ n, n ∈ L.nonClassNames → n ∉ self.nonClassNames →
          data.settings.enableClassNameCache = true ∧ n ∉ self.classNames))
    (fun L records names h => h)
    (fun line before tok after L ms h => by
      obtain ⟨h1, h2, h3, h4⟩ := h
      obtain ⟨e1, e2⟩ := styleToken_auto_caches data hauto doc line before tok after L ms
      rcases e2 with e2 | ⟨hc, hn1, hn2, e2⟩
      · exact ⟨e1.trans h1, fun hoff => e2.trans (h2 hoff), fun n hn => by rw [e2]; exact h3 n hn,
          fun n hn hns => h4 n (by rw [← e2]; exact hn) hns⟩
      · refine ⟨e1.trans h1, fun hoff => ?_, fun n hn => ?_, fun n hn hns => ?_⟩
        · rw [hc] at hoff; exact absurd hoff (by decide)
        · rw [e2, mem_setInsert]; exact Or.inr (h3 n hn)
        · rw [e2, mem_setInsert] at hn
          rcases hn with hn | hn
          · rw [hn]; exact ⟨hc, by rw [← h1]; exact hn1⟩
          · exact h4 n hn hns)
    self startPos lengthDoc r hr ⟨rfl, fun _ => rfl, fun _ h => h, fun _ h hn => absurd h hn⟩
  refine ⟨g1, g2, g3, g4, ?_⟩
  intro hu hc line tokens styles hge hle htok hst z hz hid hs
  obtain ⟨kept, names, rl, hkn, hl, hres⟩ := Lex_usable_inv self data startPos lengthDoc doc hu r hr
  unfold assignedStyles lineEntry at hst
  rw [hkn] at hst
  simp only at hst
  cases hj : lexLines data doc (line - doc.GetLine startPos) (doc.GetLine startPos)
      { self with propertyLines := kept, propertyNames := names }
      (StyleContext.init startPos lengthDoc (doc.StyleBefore startPos) doc)
      (doc.StyleBefore startPos) with
  | error e => rw [hj] at hst; simp at hst
  | ok rj =>
    rw [hj, htok] at hst
    simp only [Option.some.injEq] at hst
    rw [hres]
    have hline : doc.GetLine startPos + (line - doc.GetLine startPos) = line := by omega
    exact lexLines_records data doc hc _ _ _ _ _ rl hl (line - doc.GetLine startPos) (by omega)
      rj hj tokens (by rw [hline]; exact htok) z (by rw [hline, hst]; exact hz) hid hs

/-- Witness for C13 as amended: the sample configuration, whose game is `Auto` and whose
cache is on, on `fooDocument`: the identifier `foo` is styled `Default` and is in the unknown
set after the invocation. -/
theorem auto_game_caches_witness :
    sampleData.currentGame = Game.Auto
    ∧ assignedStyles sampleLexer sampleData 0 4 fooDocument 0 = some [State.Default]
    ∧ (∀ r, Lex sampleLexer (some sampleData) 0 4 fooDocument = Except.ok r →
        r.1.classNames = sampleLexer.classNames
        ∧ "foo".toList ∈ r.1.nonClassNames)
    ∧ ∃ r, Lex sampleLexer (some sampleData) 0 4 fooDocument = Except.ok r :=
  ⟨rfl, by decide!,
    fun r hr =>
      ⟨((auto_game_caches sampleLexer sampleData 0 4 fooDocument rfl).2.1 r hr).1,
        ((auto_game_caches sampleLexer sampleData 0 4 fooDocument rfl).2.1 r hr).2.2.2.2 rfl rfl 0
          [identifierToken "foo" 0] [State.Default] (by decide!) (by decide!) (by rfl)
          (by decide!) (identifierToken "foo" 0, State.Default) (by simp) rfl rfl⟩,
    (auto_game_caches sampleLexer sampleData 0 4 fooDocument rfl).2.2.2
      (eightBit_widthsPositive fooDocument rfl)⟩

/-- Counterexample to C13 as stated: the game is `Auto` and the class-name cache is on; the
unknown set is empty before `Lex` and holds `foo` after it, though no import directory was
consulted. -/
theorem auto_game_records_unknown_name :
    sampleData.currentGame = Game.Auto
    ∧ sampleData.settings.enableClassNameCache = true
    ∧ sampleLexer.nonClassNames = []
    ∧ cachesAfter (Lex sampleLexer (some sampleData) 0 4 fooDocument)
        = some ([], ["foo".toList]) :=
  ⟨rfl, rfl, rfl, by decide!⟩

/-! #### The class-name sets stay disjoint -/

theorem styleToken_cachesDisjoint (data : LexerData) (accessor : Document) (line : Nat)
    (before : List Token) (tok : Token) (after : List Token) (L : Lexer) (ms : State)
    (h : cachesDisjoint L) :
    cachesDisjoint (styleToken data accessor line before tok after L ms).1 := by
  rcases styleToken_lexer_cases data accessor line before tok after L ms with
    e | e | ⟨next, _, _, e⟩
  · rw [e]; exact h
  · rw [e]
    rcases resolveClassName_cases data tok.content L with e2 | ⟨h1, h2, _, _, e2⟩ | ⟨h1, h2, _, e2⟩
    · rw [e2]; exact h
    · rw [e2]
      intro n hn
      have hn2 : n ∈ setInsert tok.content L.classNames := hn
      rw [mem_setInsert] at hn2
      show n ∉ L.nonClassNames
      rcases hn2 with hn2 | hn2
      · rw [hn2]; exact h2
      · exact h n hn2
    · rw [e2]
      intro n hn
      have hn1 : n ∈ L.classNames := hn
      show n ∉ setInsert tok.content L.nonClassNames
      rw [mem_setInsert]
      rintro (hn2 | hn2)
      · rw [hn2] at hn1; exact h1 hn1
      · exact h n hn1 hn2
  · rw [e]; exact h

theorem cachedLexer_disjoint : cachesDisjoint cachedLexer := by
  intro n hn
  have h : n = "foo".toList := by simpa [cachedLexer] using hn
  rw [h]
  decide

/-- C14: if the known and the unknown class-name set are disjoint before a `Lex` invocation,
they are disjoint after it, for every document, range, configuration (absent, unusable or
usable, every game, file-existence oracle and value of the cache setting); the invocation
returns whenever every character the accessor reads has a width of at least one, as in every
eight-bit document; and the listener of the cache setting keeps the sets disjoint. -/
theorem caches_stay_disjoint (self : Lexer) (lexerData : Option LexerData)
    (startPos lengthDoc : Nat) (doc : Document) (hd : cachesDisjoint self) :
    (∀ r, Lex self lexerData startPos lengthDoc doc = Except.ok r → cachesDisjoint r.1)
    ∧ (widthsPositive doc → ∃ r, Lex self lexerData startPos lengthDoc doc = Except.ok r)
    ∧ (doc.multiByte = none → widthsPositive doc)
    ∧ (∀ newValue, cachesDisjoint (onClassNameCacheChange self newValue)) := by
  refine ⟨?_, fun hw => Lex_total self lexerData startPos lengthDoc doc hw,
    fun h8 => eightBit_widthsPositive doc h8, ?_⟩
  · intro r hr
    cases lexerData with
    | none =>
      simp only [Lex, Except.ok.injEq] at hr
      rw [← hr]
      exact hd
    | some data =>
      exact Lex_invariant data doc cachesDisjoint (fun L records names h => h)
        (fun line before tok after L ms h =>
          styleToken_cachesDisjoint data doc line before tok after L ms h)
        self startPos lengthDoc r hr hd
  · intro newValue
    unfold onClassNameCacheChange
    split_ifs
    · intro n hn
      exact absurd hn (List.not_mem_nil n)
    · exact hd

/-- Witness for C14: the lexer whose known set holds `foo` and whose unknown set holds `baz`,
with a concrete game that finds the class `actor`, on `cachesDocument`: the invocation adds
`actor` to the known set and `bar` to the unknown set, and the sets stay disjoint. -/
theorem caches_stay_disjoint_witness :
    cachesDisjoint cachedLexer
    ∧ cachesAfter (Lex cachedLexer (some gameData) 0 14 cachesDocument)
        = some (["foo".toList, "actor".toList], ["baz".toList, "bar".toList])
    ∧ (∀ r, Lex cachedLexer (some gameData) 0 14 cachesDocument = Except.ok r →
        cachesDisjoint r.1)
    ∧ (∃ r, Lex cachedLexer (some gameData) 0 14 cachesDocument = Except.ok r)
    ∧ (∀ newValue, cachesDisjoint (onClassNameCacheChange cachedLexer newValue)) :=
  ⟨cachedLexer_disjoint, by decide!,
    (caches_stay_disjoint cachedLexer (some gameData) 0 14 cachesDocument
      cachedLexer_disjoint).1,
    (caches_stay_disjoint cachedLexer (some gameData) 0 14 cachesDocument
      cachedLexer_disjoint).2.1 (eightBit_widthsPositive cachesDocument rfl),
    (caches_stay_disjoint cachedLexer (some gameData) 0 14 cachesDocument
      cachedLexer_disjoint).2.2.2⟩

/-! ### Property names and the styles of a range -/

/-! #### Styles of the names in the property-name set -/

theorem styleDefault_style_property (data : LexerData) (tok : Token) (after : List Token)
    (L : Lexer) (ms : State)
    (h : (styleDefault data tok after L ms).2.2 = State.Property) :
    tok.content ∈ L.propertyNames := by
  unfold styleDefault at h
  simp only at h
  by_cases h1 : tok.content = [chLBrace]
  · rw [if_pos h1] at h; simp at h
  rw [if_neg h1] at h
  by_cases h2 : tok.content = [chSemicolon]
  · rw [if_pos h2] at h
    by_cases h3 : nextIs after [chSlash] = true
    · rw [if_pos h3] at h; simp at h
    · rw [if_neg h3] at h; simp at h
  rw [if_neg h2] at h
  by_cases h4 : tok.content = [chQuote]
  · rw [if_pos h4] at h; simp at h
  rw [if_neg h4] at h
  cases htt : tok.tokenType with
  | Numeric => rw [htt] at h; simp at h
  | Special =>
    rw [htt] at h
    simp only at h
    split_ifs at h
  | Identifier =>
    rw [htt] at h
    simp only at h
    rw [styleIdentifier_style] at h
    unfold identifierStyleSpec at h
    split_ifs at h with c1 c2 c3 c4 c5 c6 c7 c8
    exact c7

theorem styleByState_style_property (data : LexerData) (before : List Token) (tok : Token)
    (after : List Token) (L : Lexer) (ms : State)
    (h : (styleByState data before tok after L ms).2.2 = State.Property) :
    tok.content ∈ L.propertyNames := by
  rcases styleByState_cases data before tok after L ms with
    ⟨_, he⟩ | ⟨_, he⟩ | ⟨_, he⟩ | ⟨_, he⟩ | ⟨_, he⟩
  · rw [he] at h; simp at h
  · rw [he] at h; simp at h
  · rw [he] at h; simp at h
  · rw [he] at h; simp at h
  · rw [he] at h; exact styleDefault_style_property data tok after L ms h

/-- Only a name of the property-name set is styled `Property`. -/
theorem styleToken_style_property (data : LexerData) (accessor : Document) (line : Nat)
    (before : List Token) (tok : Token) (after : List Token) (L : Lexer) (ms : State)
    (h : (styleToken data accessor line before tok after L ms).2.2 = State.Property) :
    tok.content ∈ L.propertyNames := by
  unfold styleToken at h
  cases hd : declaresProperty accessor tok after with
  | none =>
    rw [hd] at h
    exact styleByState_style_property data before tok after L ms h
  | some next =>
    rw [hd] at h
    simp only at h
    by_cases hr : L.propertyLines.any (fun p => decide (p.line = line)) = true
    · rw [if_pos hr] at h
      exact styleByState_style_property data before tok after L ms h
    · rw [if_neg hr] at h
      simp at h

/-- An Identifier token that is a property name, no function name, in no word list and not
the word "property" is styled `Property`, or with the comment or string state it is met in. -/
theorem styleToken_named_style (data : LexerData) (accessor : Document) (line : Nat)
    (before : List Token) (tok : Token) (after : List Token) (L : Lexer) (ms : State)
    (hid : tok.tokenType = TokenType.Identifier) (hmem : tok.content ∈ L.propertyNames)
    (hne : tok.content ≠ propertyWord)
    (hfun : ¬ (tok.content.getLast?.map isalnum = some true ∧ nextIs after [chLParen] = true))
    (ht : L.wordListTypes tok.content = false) (hf : L.wordListFlowControl tok.content = false)
    (hk : L.wordListKeywords tok.content = false) (hk2 : L.wordListKeywords2 tok.content = false)
    (ho : L.wordListOperators tok.content = false) :
    ((styleToken data accessor line before tok after L ms).2.2 = State.Property
      ∨ (styleToken data accessor line before tok after L ms).2.2 = State.Comment
      ∨ (styleToken data accessor line before tok after L ms).2.2 = State.CommentMultiLine
      ∨ (styleToken data accessor line before tok after L ms).2.2 = State.CommentDoc
      ∨ (styleToken data accessor line before tok after L ms).2.2 = State.String)
    ∧ (isContinuationComment ms = false → tok.content ≠ [chLBrace] →
        tok.content ≠ [chSemicolon] → tok.content ≠ [chQuote] →
        (styleToken data accessor line before tok after L ms).2.2 = State.Property) := by
  rw [styleToken_of_ne data accessor line before tok after L ms hne]
  have hspec : (styleIdentifier data tok.content after L).2 = State.Property := by
    rw [styleIdentifier_style]
    unfold identifierStyleSpec
    have hfun2 : ¬ (L.wordListFlowControl tok.content = false
        ∧ tok.content.getLast?.map isalnum = some true ∧ nextIs after [chLParen] = true) :=
      fun h => hfun h.2
    rw [if_neg hfun2]
    simp [ht, hf, hk, hk2, ho, hmem]
  have hdef : ((styleDefault data tok after L ms).2.2 = State.Property
      ∨ (styleDefault data tok after L ms).2.2 = State.Comment
      ∨ (styleDefault data tok after L ms).2.2 = State.CommentMultiLine
      ∨ (styleDefault data tok after L ms).2.2 = State.CommentDoc
      ∨ (styleDefault data tok after L ms).2.2 = State.String)
      ∧ (tok.content ≠ [chLBrace] → tok.content ≠ [chSemicolon] → tok.content ≠ [chQuote] →
          (styleDefault data tok after L ms).2.2 = State.Property) := by
    unfold styleDefault
    simp only
    by_cases h1 : tok.content = [chLBrace]
    · rw [if_pos h1]; exact ⟨by simp, fun h => absurd h1 h⟩
    rw [if_neg h1]
    by_cases h2 : tok.content = [chSemicolon]
    · rw [if_pos h2]
      refine ⟨?_, fun _ h => absurd h2 h⟩
      by_cases h3 : nextIs after [chSlash] = true
      · rw [if_pos h3]; simp
      · rw [if_neg h3]; simp
    rw [if_neg h2]
    by_cases h4 : tok.content = [chQuote]
    · rw [if_pos h4]; exact ⟨by simp, fun _ _ h => absurd h4 h⟩
    rw [if_neg h4, hid]
    simp only
    exact ⟨Or.inl hspec, fun _ _ _ => hspec⟩
  rcases styleByState_cases data before tok after L ms with
    ⟨hm, he⟩ | ⟨hm, he⟩ | ⟨hm, he⟩ | ⟨hm, he⟩ | ⟨hm, he⟩
  · rw [he]; refine ⟨by simp, fun h => ?_⟩; rw [hm] at h; exact absurd h (by decide)
  · rw [he]; refine ⟨by simp, fun h => ?_⟩; rw [hm] at h; exact absurd h (by decide)
  · rw [he]; refine ⟨by simp, fun h => ?_⟩; rw [hm] at h; exact absurd h (by decide)
  · rw [he]; refine ⟨by simp, fun h => ?_⟩; rw [hm] at h; exact absurd h (by decide)
  · rw [he]; exact ⟨hdef.1, fun _ a b c => hdef.2 a b c⟩

theorem styleToken_wordLists (data : LexerData) (accessor : Document) (line : Nat)
    (before : List Token) (tok : Token) (after : List Token) (L : Lexer) (ms : State) :
    (styleToken data accessor line before tok after L ms).1.wordListTypes = L.wordListTypes
    ∧ (styleToken data accessor line before tok after L ms).1.wordListFlowControl
        = L.wordListFlowControl
    ∧ (styleToken data accessor line before tok after L ms).1.wordListKeywords
        = L.wordListKeywords
    ∧ (styleToken data accessor line before tok after L ms).1.wordListKeywords2
        = L.wordListKeywords2
    ∧ (styleToken data accessor line before tok after L ms).1.wordListOperators
        = L.wordListOperators := by
  rcases styleToken_lexer_cases data accessor line before tok after L ms with
    e | e | ⟨next, _, _, e⟩
  · rw [e]; exact ⟨rfl, rfl, rfl, rfl, rfl⟩
  · rw [e]
    rcases resolveClassName_cases data tok.content L with e2 | ⟨_, _, _, _, e2⟩ | ⟨_, _, _, e2⟩ <;>
      rw [e2] <;> exact ⟨rfl, rfl, rfl, rfl, rfl⟩
  · rw [e]; exact ⟨rfl, rfl, rfl, rfl, rfl⟩

/-! #### Styles of the tokens of a line under a property of the lexer -/

/-- When every step of the token loop keeps the property `P` of the lexer and gives a style
with the property `Q`, every token of the line gets a style with the property `Q`. -/
theorem tokenStyles_invariant (data : LexerData) (accessor : Document) (line : Nat)
    (P : Lexer → Prop) (C : Token → List Token → Prop) (Q : Token → List Token → State → Prop)
    (hstep : ∀ before tok after L ms, C tok after → P L →
      P (styleToken data accessor line before tok after L ms).1
        ∧ Q tok after (styleToken data accessor line before tok after L ms).2.2)
    (rest : List Token) :
    ∀ (before : List Token) (L : Lexer) (ms : State),
      (∀ pre tok after, rest = pre ++ tok :: after → C tok after) → P L →
      ∀ pre t after, rest = pre ++ t :: after →
        ∃ s, (t, s) ∈ List.zip rest (tokenStyles data accessor line before rest L ms)
          ∧ Q t after s := by
  induction rest with
  | nil =>
    intro before L ms _ _ pre t after hsplit
    simp at hsplit
  | cons tok rest1 ih =>
    intro before L ms hC hP pre t after hsplit
    obtain ⟨hP1, hQ1⟩ := hstep before tok rest1 L ms (hC [] tok rest1 rfl) hP
    unfold tokenStyles
    simp only [List.zip_cons_cons, List.mem_cons]
    cases pre with
    | nil =>
      simp only [List.nil_append, List.cons.injEq] at hsplit
      obtain ⟨h1, h2⟩ := hsplit
      subst h1 h2
      exact ⟨_, Or.inl rfl, hQ1⟩
    | cons p pre1 =>
      simp only [List.cons_append, List.cons.injEq] at hsplit
      obtain ⟨s, hs, hq⟩ := ih (tok :: before) _
        (styleToken data accessor line before tok rest1 L ms).2.1
        (fun pre2 t2 a2 hsp => hC (tok :: pre2) t2 a2 (by rw [hsp]; rfl)) hP1 pre1 t after hsplit.2
      exact ⟨s, Or.inr hs, hq⟩

/-! ### A renamed property declaration -/

theorem revalidate_rename (doc : Document) (a b : List Char) (l : Nat) (names : List (List Char))
    (tokens : List Token) (hab : a ≠ b) (htok : tokenize doc l = Except.ok tokens)
    (hfind : findPropertyName doc tokens = some b) :
    revalidate doc [{ name := a, line := l }] names
      = Except.ok ([{ name := b, line := l }], setInsert b (setErase a names)) := by
  unfold revalidate
  simp only [htok, hfind]
  unfold revalidate
  simp [hab]

theorem mem_setErase (x y : List Char) (s : List (List Char)) :
    y ∈ setErase x s ↔ y ∈ s ∧ y ≠ x := by
  unfold setErase
  simp [List.mem_filter]

theorem styleToken_tracksProperty (data : LexerData) (accessor : Document) (line : Nat)
    (b : List Char) (l : Nat) (before : List Token) (tok : Token) (after : List Token)
    (L : Lexer) (ms : State) (h : tracksProperty b l L) :
    tracksProperty b l (styleToken data accessor line before tok after L ms).1 := by
  rcases styleToken_lexer_cases data accessor line before tok after L ms with
    e | e | ⟨next, _, hany, e⟩
  · rw [e]; exact h
  · rw [e]
    obtain ⟨e1, e2⟩ := resolveClassName_properties data tok.content L
    unfold tracksProperty
    rw [e1, e2]
    exact h
  · rw [e]
    obtain ⟨h1, ⟨q, hq, hql⟩, h3⟩ := h
    have hline : line ≠ l := by
      intro hl
      have : L.propertyLines.any (fun p => decide (p.line = line)) = true :=
        List.any_eq_true.mpr ⟨q, hq, by simp [hql, hl]⟩
      rw [this] at hany
      exact absurd hany (by decide)
    refine ⟨?_, ⟨q, List.mem_append_left _ hq, hql⟩, ?_⟩
    · show b ∈ setInsert next.content L.propertyNames
      rw [mem_setInsert]
      exact Or.inr h1
    · intro p hp hpl
      have hp2 : p ∈ L.propertyLines ++ [{ name := next.content, line := line }] := hp
      rcases List.mem_append.mp hp2 with hp2 | hp2
      · exact h3 p hp2 hpl
      · rw [List.mem_singleton] at hp2
        rw [hp2] at hpl
        exact absurd hpl hline

theorem styleToken_not_named (data : LexerData) (accessor : Document) (line : Nat)
    (a : List Char) (before : List Token) (tok : Token) (after : List Token)
    (L : Lexer) (ms : State)
    (hC : ∀ next rest, after = next :: rest → tok.content = propertyWord → next.content ≠ a)
    (h : a ∉ L.propertyNames) :
    a ∉ (styleToken data accessor line before tok after L ms).1.propertyNames := by
  rcases styleToken_lexer_cases data accessor line before tok after L ms with
    e | e | ⟨next, hd, _, e⟩
  · rw [e]; exact h
  · rw [e, (resolveClassName_properties data tok.content L).2]; exact h
  · rw [e]
    obtain ⟨hc, ⟨rest, hrest⟩, _, _⟩ := declaresProperty_some accessor tok after next hd
    show a ∉ setInsert next.content L.propertyNames
    rw [mem_setInsert]
    rintro (ha | ha)
    · exact hC next rest hrest hc ha.symm
    · exact h ha

/-- C11, as amended: let the only property record be (a, l) and let the first "property"
token of line `l` that passes the guard be followed by the token `b`, distinct from `a`.
Then the re-validation pass renames the record to `b` and replaces `a` by `b` in the
property-name set. After a `Lex` of a usable lexer a record is on line `l`, every record on
line `l` has the name `b`, and `b` is in the name set; when no line of the range holds a
"property" token immediately followed by `a`, the name set does not hold `a`. Of the styles
that the invocation assigns to the tokens of a line of the range, the one of a token `a` is
then not `Property`, and the one of an Identifier token `b` that is no function name, in no
word list and not the word "property" is `Property`, or the comment or string style of the
state the token is met in; in a document read byte by byte and a range that starts at a line
start the assigned style is the style left at the start of the token. In the token loop, a
lexer whose name set holds `b` styles such a token `Property` in the `Default` state, and a
lexer whose name set does not hold `a` never styles a token `a` as `Property`. With
character widths of at least one, as in every eight-bit document, `Lex` returns and every
line has assigned styles. -/
theorem property_rename_tracked (data : LexerData) (doc : Document) (self : Lexer)
    (a b : List Char) (l : Nat) (tokens : List Token) (hab : a ≠ b)
    (hrec : self.propertyLines = [{ name := a, line := l }])
    (htok : tokenize doc l = Except.ok tokens)
    (hfind : findPropertyName doc tokens = some b) :
    revalidate doc self.propertyLines self.propertyNames
        = Except.ok ([{ name := b, line := l }], setInsert b (setErase a self.propertyNames))
    ∧ (∀ startPos lengthDoc r, data.usable = true →
        Lex self (some data) startPos lengthDoc doc = Except.ok r →
        tracksProperty b l r.1
        ∧ (notDeclared doc a (doc.GetLine startPos) (doc.GetLine (startPos + lengthDoc - 1)) →
            a ∉ r.1.propertyNames)
        ∧ (∀ line pre t after styles, doc.GetLine startPos ≤ line →
              line ≤ doc.GetLine (startPos + lengthDoc - 1) →
              tokenize doc line = Except.ok (pre ++ t :: after) →
              assignedStyles self data startPos lengthDoc doc line = some styles →
              ∃ s, (t, s) ∈ List.zip (pre ++ t :: after) styles
                ∧ (notDeclared doc a (doc.GetLine startPos)
                      (doc.GetLine (startPos + lengthDoc - 1)) →
                    t.content = a → s ≠ State.Property)
                ∧ (t.content = b → t.tokenType = TokenType.Identifier → b ≠ propertyWord →
                    ¬ (b.getLast?.map isalnum = some true ∧ nextIs after [chLParen] = true) →
                    self.wordListTypes b = false → self.wordListFlowControl b = false →
                    self.wordListKeywords b = false → self.wordListKeywords2 b = false →
                    self.wordListOperators b = false →
                    s = State.Property ∨ s = State.Comment ∨ s = State.CommentMultiLine
                      ∨ s = State.CommentDoc ∨ s = State.String)
                ∧ (readsBytes doc → doc.LineStart (doc.GetLine startPos) = startPos →
                    t.startPos < startPos + lengthDoc → r.2.styles t.startPos = s)))
    ∧ (∀ (L : Lexer) line pre tok after, b ∈ L.propertyNames →
        tokenize doc line = Except.ok (pre ++ tok :: after) → tok.content = b →
        tok.tokenType = TokenType.Identifier → b ≠ propertyWord →
        ¬ (b.getLast?.map isalnum = some true ∧ nextIs after [chLParen] = true) →
        L.wordListTypes b = false → L.wordListFlowControl b = false →
        L.wordListKeywords b = false → L.wordListKeywords2 b = false →
        L.wordListOperators b = false →
        (styleToken data doc line pre.reverse tok after L State.Default).2.2 = State.Property)
    ∧ (∀ (L : Lexer) line before tok after ms, a ∉ L.propertyNames → tok.content = a →
        (styleToken data doc line before tok after L ms).2.2 ≠ State.Property)
    ∧ (widthsPositive doc → ∀ startPos lengthDoc,
        (∃ r, Lex self (some data) startPos lengthDoc doc = Except.ok r)
        ∧ ∀ line, ∃ styles, assignedStyles self data startPos lengthDoc doc line = some styles)
    ∧ (doc.multiByte = none → readsBytes doc ∧ widthsPositive doc) := by
  have hre := revalidate_rename doc a b l self.propertyNames tokens hab htok hfind
  rw [← hrec] at hre
  refine ⟨hre, ?_, ?_, ?_,
    fun hw startPos lengthDoc => ⟨Lex_total self (some data) startPos lengthDoc doc hw,
      fun line => assignedStyles_returns self data startPos lengthDoc doc hw line⟩,
    fun h8 => ⟨eightBit_readsBytes doc h8, eightBit_widthsPositive doc h8⟩⟩
  · intro startPos lengthDoc r hu hr
    -- the lexer with which the line loop starts
    have h0 : tracksProperty b l
        { self with propertyLines := [{ name := b, line := l }],
                    propertyNames := setInsert b (setErase a self.propertyNames) } :=
      ⟨(mem_setInsert b b _).mpr (Or.inl rfl), ⟨_, List.mem_singleton.mpr rfl, rfl⟩,
        fun p hp _ => by rw [List.mem_singleton.mp hp]⟩
    have ha0 : a ∉ setInsert b (setErase a self.propertyNames) := by
      rw [mem_setInsert, mem_setErase]
      rintro (h | h)
      · exact hab h
      · exact h.2 rfl
    have hC : notDeclared doc a (doc.GetLine startPos) (doc.GetLine (startPos + lengthDoc - 1)) →
        ∀ count, doc.GetLine startPos + count
            ≤ doc.GetLine (startPos + lengthDoc - 1) + 1 →
          ∀ l1 toks, doc.GetLine startPos ≤ l1 → l1 < doc.GetLine startPos + count →
            tokenize doc l1 = Except.ok toks → ∀ pre tok after, toks = pre ++ tok :: after →
            ∀ next rest, after = next :: rest → tok.content = propertyWord → next.content ≠ a := by
      intro hnd count hcount l1 toks hl1 hl2 ht pre tok after hsplit next rest hafter
      exact hnd l1 toks hl1 (by omega) ht pre tok next rest (by rw [hsplit, hafter])
    obtain ⟨kept, names, r1, hr1, hl, he⟩ := Lex_usable_inv self data startPos lengthDoc doc hu r hr
    rw [hre] at hr1
    simp only [Except.ok.injEq, Prod.mk.injEq] at hr1
    obtain ⟨hk, hn⟩ := hr1
    subst hk hn
    refine ⟨?_, ?_, ?_⟩
    · rw [he]
      exact lexLines_invariant data doc (tracksProperty b l) (fun _ _ _ => True)
        (fun line before tok after L ms _ hL =>
          styleToken_tracksProperty data doc line b l before tok after L ms hL)
        _ _ _ _ _ r1 (fun _ _ _ _ _ _ _ _ _ => trivial) h0 hl
    · intro hnd
      rw [he]
      refine lexLines_invariant data doc (fun L => a ∉ L.propertyNames)
        (fun _ tok after => ∀ next rest, after = next :: rest → tok.content = propertyWord →
          next.content ≠ a)
        (fun line before tok after L ms hc hL =>
          styleToken_not_named data doc line a before tok after L ms hc hL)
        _ _ _ _ _ r1 ?_ ha0 hl
      by_cases hle : doc.GetLine startPos ≤ doc.GetLine (startPos + lengthDoc - 1) + 1
      · exact hC hnd _ (by omega)
      · intro l1 toks h1 h2
        omega
    · intro line pre t after styles hge hle htl hst
      obtain ⟨kept2, names2, rj, tokens2, hkn2, hrj, ht2, hs2⟩ :=
        assignedStyles_some self data startPos lengthDoc doc line styles hst
      rw [hre] at hkn2
      simp only [Except.ok.injEq, Prod.mk.injEq] at hkn2
      obtain ⟨hk, hn⟩ := hkn2
      subst hk hn
      rw [htl] at ht2
      simp only [Except.ok.injEq] at ht2
      subst ht2
      have hw : ∀ L : Lexer, L.wordListTypes = self.wordListTypes
          ∧ L.wordListFlowControl = self.wordListFlowControl
          ∧ L.wordListKeywords = self.wordListKeywords
          ∧ L.wordListKeywords2 = self.wordListKeywords2
          ∧ L.wordListOperators = self.wordListOperators →
          ∀ line before tok after ms,
            (styleToken data doc line before tok after L ms).1.wordListTypes = self.wordListTypes
            ∧ (styleToken data doc line before tok after L ms).1.wordListFlowControl
                = self.wordListFlowControl
            ∧ (styleToken data doc line before tok after L ms).1.wordListKeywords
                = self.wordListKeywords
            ∧ (styleToken data doc line before tok after L ms).1.wordListKeywords2
                = self.wordListKeywords2
            ∧ (styleToken data doc line before tok after L ms).1.wordListOperators
                = self.wordListOperators := by
        intro L hL line before tok after ms
        obtain ⟨w1, w2, w3, w4, w5⟩ := styleToken_wordLists data doc line before tok after L ms
        exact ⟨w1.trans hL.1, w2.trans hL.2.1, w3.trans hL.2.2.1, w4.trans hL.2.2.2.1,
          w5.trans hL.2.2.2.2⟩
      -- what the lexer keeps from token to token
      have hstep : ∀ line before tok after (L : Lexer) ms,
          (notDeclared doc a (doc.GetLine startPos) (doc.GetLine (startPos + lengthDoc - 1)) →
            ∀ next rest, after = next :: rest → tok.content = propertyWord →
              next.content ≠ a) →
          ((notDeclared doc a (doc.GetLine startPos) (doc.GetLine (startPos + lengthDoc - 1)) →
              a ∉ L.propertyNames)
            ∧ tracksProperty b l L
            ∧ (L.wordListTypes = self.wordListTypes
              ∧ L.wordListFlowControl = self.wordListFlowControl
              ∧ L.wordListKeywords = self.wordListKeywords
              ∧ L.wordListKeywords2 = self.wordListKeywords2
              ∧ L.wordListOperators = self.wordListOperators)) →
          ((notDeclared doc a (doc.GetLine startPos) (doc.GetLine (startPos + lengthDoc - 1)) →
              a ∉ (styleToken data doc line before tok after L ms).1.propertyNames)
            ∧ tracksProperty b l (styleToken data doc line before tok after L ms).1
            ∧ ((styleToken data doc line before tok after L ms).1.wordListTypes
                = self.wordListTypes
              ∧ (styleToken data doc line before tok after L ms).1.wordListFlowControl
                = self.wordListFlowControl
              ∧ (styleToken data doc line before tok after L ms).1.wordListKeywords
                = self.wordListKeywords
              ∧ (styleToken data doc line before tok after L ms).1.wordListKeywords2
                = self.wordListKeywords2
              ∧ (styleToken data doc line before tok after L ms).1.wordListOperators
                = self.wordListOperators)) :=
        fun line before tok after L ms hc hL =>
          ⟨fun hnd => styleToken_not_named data doc line a before tok after L ms (hc hnd)
              (hL.1 hnd),
            styleToken_tracksProperty data doc line b l before tok after L ms hL.2.1,
            hw L hL.2.2 line before tok after ms⟩
      have hrjP := lexLines_invariant data doc
        (fun L => (notDeclared doc a (doc.GetLine startPos)
              (doc.GetLine (startPos + lengthDoc - 1)) → a ∉ L.propertyNames)
          ∧ tracksProperty b l L
          ∧ (L.wordListTypes = self.wordListTypes
            ∧ L.wordListFlowControl = self.wordListFlowControl
            ∧ L.wordListKeywords = self.wordListKeywords
            ∧ L.wordListKeywords2 = self.wordListKeywords2
            ∧ L.wordListOperators = self.wordListOperators))
        (fun _ tok after => notDeclared doc a (doc.GetLine startPos)
            (doc.GetLine (startPos + lengthDoc - 1)) →
          ∀ next rest, after = next :: rest → tok.content = propertyWord → next.content ≠ a)
        hstep _ _ _ _ _ rj
        (fun l1 toks hl1 hl2 ht pre2 tok2 after2 hsplit hnd =>
          hC hnd (line - doc.GetLine startPos) (by omega) l1 toks hl1 hl2 ht pre2 tok2 after2
            hsplit)
        ⟨fun _ => ha0, h0, rfl, rfl, rfl, rfl, rfl⟩ hrj
      obtain ⟨s, hs, hq⟩ := tokenStyles_invariant data doc line
        (fun L => (notDeclared doc a (doc.GetLine startPos)
              (doc.GetLine (startPos + lengthDoc - 1)) → a ∉ L.propertyNames)
          ∧ tracksProperty b l L
          ∧ (L.wordListTypes = self.wordListTypes
            ∧ L.wordListFlowControl = self.wordListFlowControl
            ∧ L.wordListKeywords = self.wordListKeywords
            ∧ L.wordListKeywords2 = self.wordListKeywords2
            ∧ L.wordListOperators = self.wordListOperators))
        (fun tok after => notDeclared doc a (doc.GetLine startPos)
            (doc.GetLine (startPos + lengthDoc - 1)) →
          ∀ next rest, after = next :: rest → tok.content = propertyWord → next.content ≠ a)
        (fun tok after s =>
          (notDeclared doc a (doc.GetLine startPos) (doc.GetLine (startPos + lengthDoc - 1)) →
            tok.content = a → s ≠ State.Property)
          ∧ (tok.content = b → tok.tokenType = TokenType.Identifier → b ≠ propertyWord →
              ¬ (b.getLast?.map isalnum = some true ∧ nextIs after [chLParen] = true) →
              self.wordListTypes b = false → self.wordListFlowControl b = false →
              self.wordListKeywords b = false → self.wordListKeywords2 b = false →
              self.wordListOperators b = false →
              s = State.Property ∨ s = State.Comment ∨ s = State.CommentMultiLine
                ∨ s = State.CommentDoc ∨ s = State.String))
        (fun before tok after L ms hc hL =>
          ⟨hstep line before tok after L ms hc hL,
            fun hnd hta hs => hL.1 hnd (by
              rw [← hta]
              exact styleToken_style_property data doc _ before tok after L ms hs),
            fun hc2 hi hbp hfn ht hf hk hk2 ho =>
              (styleToken_named_style data doc _ before tok after L ms hi
                (by rw [hc2]; exact hL.2.1.1) (by rw [hc2]; exact hbp) (by rw [hc2]; exact hfn)
                (by rw [hc2, hL.2.2.1]; exact ht) (by rw [hc2, hL.2.2.2.1]; exact hf)
                (by rw [hc2, hL.2.2.2.2.1]; exact hk) (by rw [hc2, hL.2.2.2.2.2.1]; exact hk2)
                (by rw [hc2, hL.2.2.2.2.2.2]; exact ho)).1⟩)
        (pre ++ t :: after) [] rj.1 rj.2.2
        (fun pre2 tok2 after2 hsplit hnd next rest hafter =>
          hnd _ _ hge hle htl pre2 tok2 next rest (by rw [hsplit, hafter]))
        hrjP pre t after rfl
      refine ⟨s, by rw [hs2]; exact hs, hq.1, hq.2, ?_⟩
      intro hb hstart hlt
      exact Lex_stores_assigned self data startPos lengthDoc doc hb hu
        (Nat.le_of_eq hstart.symm) r hr line (pre ++ t :: after) styles hge hle htl hst (t, s)
        (by rw [hs2]; exact hs) hlt
  · intro L line pre tok after hb htl hc hid hbp hfun ht hf hk hk2 ho
    have hchars := tokenize_identifiers doc line _ htl tok (by simp) hid
    obtain ⟨hn1, hn2, hn3⟩ := identChar_content_ne tok.content hchars
    exact (styleToken_named_style data doc line pre.reverse tok after L State.Default hid
      (by rw [hc]; exact hb) (by rw [hc]; exact hbp) (by rw [hc]; exact hfun)
      (by rw [hc]; exact ht) (by rw [hc]; exact hf) (by rw [hc]; exact hk)
      (by rw [hc]; exact hk2) (by rw [hc]; exact ho)).2 (by decide) hn1 hn2 hn3
  · intro L line before tok after ms ha hc hs
    apply ha
    rw [← hc]
    exact styleToken_style_property data doc line before tok after L ms hs

/-- Witness for C11 as amended: the lexer holding the record (foo, 0) on `renamedDocument`,
whose line 0 now declares `bar`; `Lex` returns, after it the record and the name set hold
`bar`, the token `foo` at position 17 is assigned and left with the style `Default` and the
token `bar` at position 21 with `Property`. -/
theorem property_rename_tracked_witness :
    revalidate renamedDocument recordedLexer.propertyLines recordedLexer.propertyNames
        = Except.ok ([{ name := "bar".toList, line := 0 }],
            setInsert "bar".toList (setErase "foo".toList recordedLexer.propertyNames))
    ∧ (∃ r, Lex recordedLexer (some sampleData) 0 25 renamedDocument = Except.ok r)
    ∧ propertiesAfter (Lex recordedLexer (some sampleData) 0 25 renamedDocument)
        = some ([{ name := "bar".toList, line := 0 }], ["bar".toList])
    ∧ assignedStyles recordedLexer sampleData 0 25 renamedDocument 1
        = some [State.Default, State.Property]
    ∧ styleAfter (Lex recordedLexer (some sampleData) 0 25 renamedDocument) 17
        = some State.Default
    ∧ styleAfter (Lex recordedLexer (some sampleData) 0 25 renamedDocument) 21
        = some State.Property :=
  ⟨(property_rename_tracked sampleData renamedDocument recordedLexer "foo".toList "bar".toList 0
      [identifierToken "int" 0, identifierToken "property" 4, identifierToken "bar" 13]
      (by decide) rfl (by rfl) (by decide!)).1,
    ((property_rename_tracked sampleData renamedDocument recordedLexer "foo".toList "bar".toList 0
      [identifierToken "int" 0, identifierToken "property" 4, identifierToken "bar" 13]
      (by decide) rfl (by rfl) (by decide!)).2.2.2.2.1
      (eightBit_widthsPositive renamedDocument rfl) 0 25).1,
    by decide!, by decide!, by decide!, by decide!⟩

/-- Counterexample to C11 as stated: the only record is (foo, 0) and line 0 of
`redeclaredDocument` holds "property" followed by `bar`, both never styled; line 1 declares
`foo`. After `Lex` of the whole text the name set holds `foo` beside `bar`, and the
identifier `foo` at position 34 is styled `Property`. -/
theorem redeclared_name_stays_property :
    recordedLexer.propertyLines = [{ name := "foo".toList, line := 0 }]
    ∧ tokenize redeclaredDocument 0
        = Except.ok [identifierToken "int" 0, identifierToken "property" 4,
            identifierToken "bar" 13]
    ∧ tokenize redeclaredDocument 2 = Except.ok [identifierToken "foo" 34]
    ∧ propertiesAfter (Lex recordedLexer (some sampleData) 0 38 redeclaredDocument)
        = some ([{ name := "bar".toList, line := 0 }, { name := "foo".toList, line := 1 }],
            ["bar".toList, "foo".toList])
    ∧ styleAfter (Lex recordedLexer (some sampleData) 0 38 redeclaredDocument) 34
        = some State.Property :=
  ⟨rfl, by rfl, by rfl, by decide!, by decide!⟩

/-! ### Folding -/

/-! #### Bits of a fold level -/

theorem nat_land_header (n : Nat) (h : n < 8192) : n &&& 8192 = 0 := by
  apply Nat.eq_of_testBit_eq
  intro i
  rw [Nat.testBit_and, Nat.zero_testBit]
  by_cases hi : i = 13
  · subst hi
    rw [Nat.testBit_lt_two_pow (show n < 2 ^ 13 from h)]
    rfl
  · have : (8192 : Nat).testBit i = false := by
      have := @Nat.testBit_two_pow_of_ne 13 i (fun e => hi e.symm)
      simpa using this
    rw [this, Bool.and_false]

theorem nat_land_mask (n : Nat) (h : n < 4096) : n &&& 4095 = n :=
  @Nat.and_pow_two_sub_one_of_lt_two_pow 12 n h

/-- A level between 0 and 4095 is its own number part and carries no header flag; with the
header flag or-ed in, the number part is the same and the flag is there. -/
theorem level_bits (x : Int) (h0 : 0 ≤ x) (h1 : x ≤ 4095) :
    Int.land x SC_FOLDLEVELNUMBERMASK = x
    ∧ Int.land x SC_FOLDLEVELHEADERFLAG = 0
    ∧ Int.land (Int.lor x SC_FOLDLEVELHEADERFLAG) SC_FOLDLEVELNUMBERMASK = x
    ∧ Int.land (Int.lor x SC_FOLDLEVELHEADERFLAG) SC_FOLDLEVELHEADERFLAG
        = SC_FOLDLEVELHEADERFLAG := by
  obtain ⟨n, rfl⟩ := Int.eq_ofNat_of_zero_le h0
  have hn : n < 4096 := by omega
  have e1 : n &&& 4095 = n := nat_land_mask n hn
  have e2 : n &&& 8192 = 0 := nat_land_header n (by omega)
  have e3 : (n ||| 8192) &&& 4095 = n := by
    rw [Nat.and_distrib_right, e1]
    show n ||| 0 = n
    exact Nat.or_zero n
  have e4 : (n ||| 8192) &&& 8192 = 8192 := by
    rw [Nat.and_distrib_right, e2, Nat.and_self]
    exact Nat.zero_or _
  refine ⟨?_, ?_, ?_, ?_⟩
  · show ((n &&& 4095 : Nat) : Int) = n
    rw [e1]
  · show ((n &&& 8192 : Nat) : Int) = 0
    rw [e2]; rfl
  · show (((n ||| 8192) &&& 4095 : Nat) : Int) = n
    rw [e3]
  · show (((n ||| 8192) &&& 8192 : Nat) : Int) = 8192
    rw [e4]; rfl

/-! ### The levels that Fold writes -/

/-! #### The token loop of Fold -/

theorem countsForFold_eq (accessor : Document) (t : Token) :
    (!isComment (accessor.StyleAt t.startPos) && accessor.StyleAt t.startPos != State.String)
      = countsForFold accessor t := by
  unfold countsForFold isComment
  cases accessor.StyleAt t.startPos <;> rfl

theorem foldl_countFoldToken (self : Lexer) (data : LexerData) (accessor : Document)
    (tokens : List Token) :
    ∀ c : FoldCounts,
      tokens.foldl (countFoldToken self data accessor) c
        = { numFoldOpen := c.numFoldOpen + (tokens.countP
              (fun t => countsForFold accessor t && self.wordListFoldOpen t.content) : Nat)
            numFoldClose := c.numFoldClose + (tokens.countP
              (fun t => countsForFold accessor t && !self.wordListFoldOpen t.content
                && self.wordListFoldClose t.content) : Nat)
            hasFoldMiddle := c.hasFoldMiddle || (data.settings.enableFoldMiddle
              && tokens.any (fun t => countsForFold accessor t
                && !self.wordListFoldOpen t.content && !self.wordListFoldClose t.content
                && self.wordListFoldMiddle t.content)) } := by
  induction tokens with
  | nil => intro c; simp
  | cons t rest ih =>
    intro c
    rw [List.foldl_cons, ih]
    unfold countFoldToken
    rw [countsForFold_eq]
    cases hc : countsForFold accessor t <;> cases ho : self.wordListFoldOpen t.content <;>
      cases hcl : self.wordListFoldClose t.content <;>
      cases hm : self.wordListFoldMiddle t.content <;>
      cases he : data.settings.enableFoldMiddle <;>
      simp [List.countP_cons, hc, ho, hcl, hm, he, add_assoc, add_comm]

theorem lineTokens_of_ok (doc : Document) (line : Nat) (tokens : List Token)
    (h : tokenize doc line = Except.ok tokens) : lineTokens doc line = tokens := by
  unfold lineTokens
  rw [h]

theorem any_middle_of_zero (self : Lexer) (accessor : Document) (tokens : List Token)
    (ho : tokens.countP
      (fun t => countsForFold accessor t && self.wordListFoldOpen t.content) = 0)
    (hc : tokens.countP
      (fun t => countsForFold accessor t && !self.wordListFoldOpen t.content
        && self.wordListFoldClose t.content) = 0) :
    tokens.any (fun t => countsForFold accessor t
        && !self.wordListFoldOpen t.content && !self.wordListFoldClose t.content
        && self.wordListFoldMiddle t.content)
      = tokens.any (fun t => countsForFold accessor t && self.wordListFoldMiddle t.content) := by
  rw [List.countP_eq_zero] at ho hc
  induction tokens with
  | nil => rfl
  | cons t rest ih =>
    have h1 := ho t (List.mem_cons_self _ _)
    have h2 := hc t (List.mem_cons_self _ _)
    simp only [List.any_cons]
    rw [ih (fun x hx => ho x (List.mem_cons_of_mem _ hx))
      (fun x hx => hc x (List.mem_cons_of_mem _ hx))]
    congr 1
    cases h3 : countsForFold accessor t <;> cases h4 : self.wordListFoldOpen t.content <;>
      cases h5 : self.wordListFoldClose t.content <;> simp [h3, h4, h5] at h1 h2 ⊢

/-- The body of the line loop of `Fold` on the tokens of a line: the next running level
adds opens minus closes, and the level written is the one the claims give. -/
theorem foldLine_written (self : Lexer) (data : LexerData) (doc : Document) (line : Nat)
    (tokens : List Token) (levelPrev : Int) (htok : tokenize doc line = Except.ok tokens) :
    (foldLine self data doc tokens levelPrev).2
        = levelPrev + (foldOpens self doc line - foldCloses self doc line)
    ∧ (foldLine self data doc tokens levelPrev).1 = writtenLevel self data doc line levelPrev := by
  unfold foldLine writtenLevel isFoldMiddleLine foldOpens foldCloses
  rw [lineTokens_of_ok doc line tokens htok, foldl_countFoldToken]
  simp only [zero_add, Bool.false_or]
  refine ⟨trivial, ?_⟩
  generalize hO : tokens.countP
    (fun t => countsForFold doc t && self.wordListFoldOpen t.content) = O
  generalize hC : tokens.countP
    (fun t => countsForFold doc t && !self.wordListFoldOpen t.content
      && self.wordListFoldClose t.content) = C
  by_cases hz : O = 0 ∧ C = 0
  · obtain ⟨h1, h2⟩ := hz
    subst h1 h2
    rw [any_middle_of_zero self doc tokens hO hC]
    simp
  · have hne : ¬ ((O : Int) = 0 ∧ (C : Int) = 0) := by
      intro h
      apply hz
      exact ⟨by exact_mod_cast h.1, by exact_mod_cast h.2⟩
    have hb1 : ((data.settings.enableFoldMiddle
        && tokens.any (fun t => countsForFold doc t && !self.wordListFoldOpen t.content
          && !self.wordListFoldClose t.content && self.wordListFoldMiddle t.content))
        && (O : Int) == 0 && (C : Int) == 0) = false := by
      by_cases ho : (O : Int) = 0
      · have hc : ¬ (C : Int) = 0 := fun h => hne ⟨ho, h⟩
        simp [hc]
      · simp [ho]
    have hb2 : (data.settings.enableFoldMiddle && (O : Int) == 0 && (C : Int) == 0
        && tokens.any (fun t => countsForFold doc t && self.wordListFoldMiddle t.content))
        = false := by
      by_cases ho : (O : Int) = 0
      · have hc : ¬ (C : Int) = 0 := fun h => hne ⟨ho, h⟩
        simp [hc]
      · simp [ho]
    rw [hb1, hb2]
    simp

/-! #### The line loop of Fold -/

theorem runningLevel_zero (self : Lexer) (doc : Document) (first : Nat) (L0 : Int) :
    runningLevel self doc first L0 0 = L0 := by
  unfold runningLevel
  simp

theorem runningLevel_succ (self : Lexer) (doc : Document) (first : Nat) (L0 : Int) (k : Nat) :
    runningLevel self doc first L0 (k + 1)
      = runningLevel self doc first L0 k
        + (foldOpens self doc (first + k) - foldCloses self doc (first + k)) := by
  unfold runningLevel
  rw [List.range_succ, List.map_append, List.sum_append]
  simp only [List.map_cons, List.map_nil, List.sum_cons, List.sum_nil, add_zero]
  omega

theorem runningLevel_shift (self : Lexer) (doc : Document) (first : Nat) (L0 : Int) (k : Nat) :
    runningLevel self doc first L0 (k + 1)
      = runningLevel self doc (first + 1)
          (L0 + (foldOpens self doc first - foldCloses self doc first)) k := by
  induction k with
  | zero =>
    rw [runningLevel_succ, runningLevel_zero, runningLevel_zero]
    rfl
  | succ k ih =>
    rw [runningLevel_succ, ih, runningLevel_succ]
    have : first + (k + 1) = first + 1 + k := by omega
    rw [this]

theorem tokenize_SetLevel (acc : Document) (l : Nat) (v : Int) (line : Nat) :
    tokenize (acc.SetLevel l v) line = tokenize acc line :=
  tokenize_congr (acc.SetLevel l v) acc ⟨rfl, rfl⟩ line

/-- The line loop of `Fold` keeps the text and the styles, leaves the levels of the other
lines, and writes on the `k`-th line the level the claims give for the running level. -/
theorem foldLines_spec (self : Lexer) (data : LexerData) (doc : Document) (count : Nat) :
    ∀ (line : Nat) (acc : Document) (levelPrev : Int) (r : Document),
      acc.text = doc.text → acc.styles = doc.styles → acc.multiByte = doc.multiByte →
      foldLines self data count line acc levelPrev = Except.ok r →
      r.text = doc.text ∧ r.styles = doc.styles ∧ r.multiByte = doc.multiByte
      ∧ (∀ l, l < line ∨ line + count ≤ l → r.levels l = acc.levels l)
      ∧ ∀ k, k < count →
          r.levels (line + k)
            = writtenLevel self data doc (line + k) (runningLevel self doc line levelPrev k) := by
  induction count with
  | zero =>
    intro line acc levelPrev r ht hs hm h
    simp only [foldLines, Except.ok.injEq] at h
    subst h
    exact ⟨ht, hs, hm, fun _ _ => rfl, fun k hk => absurd hk (Nat.not_lt_zero k)⟩
  | succ count ih =>
    intro line acc levelPrev r ht hs hm h
    have hsame : sameText acc doc := ⟨ht, hm⟩
    unfold foldLines at h
    rw [tokenize_congr acc doc hsame line] at h
    cases htok : tokenize doc line with
    | error e => rw [htok] at h; simp at h
    | ok tokens =>
      rw [htok] at h
      simp only at h
      have hfl : foldLine self data acc tokens levelPrev = foldLine self data doc tokens levelPrev := by
        unfold foldLine
        have : countFoldToken self data acc = countFoldToken self data doc := by
          funext c t
          unfold countFoldToken Document.StyleAt Document.Length
          rw [ht, hs]
        rw [this]
      rw [hfl] at h
      obtain ⟨e2, e1⟩ := foldLine_written self data doc line tokens levelPrev htok
      obtain ⟨r1, r2, r3, r4, r5⟩ := ih (line + 1) _ _ r
        (show (acc.SetLevel line (foldLine self data doc tokens levelPrev).1).text = doc.text
          from ht)
        (show (acc.SetLevel line (foldLine self data doc tokens levelPrev).1).styles = doc.styles
          from hs)
        (show (acc.SetLevel line (foldLine self data doc tokens levelPrev).1).multiByte
          = doc.multiByte from hm) h
      refine ⟨r1, r2, r3, ?_, ?_⟩
      · intro l hl
        rw [r4 l (by omega)]
        show (if l = line then _ else acc.levels l) = acc.levels l
        rw [if_neg (by omega)]
      · intro k hk
        cases k with
        | zero =>
          rw [Nat.add_zero, r4 line (by omega), runningLevel_zero]
          show (if line = line then _ else acc.levels line) = _
          rw [if_pos rfl, e1]
        | succ k =>
          have := r5 k (by omega)
          rw [e2] at this
          rw [runningLevel_shift]
          have hl : line + (k + 1) = line + 1 + k := by omega
          rw [hl]
          exact this

theorem foldLines_total (self : Lexer) (data : LexerData) (count : Nat) :
    ∀ (line : Nat) (acc : Document) (levelPrev : Int), widthsPositive acc →
      ∃ r, foldLines self data count line acc levelPrev = Except.ok r := by
  induction count with
  | zero => intro line acc levelPrev _; exact ⟨_, rfl⟩
  | succ count ih =>
    intro line acc levelPrev hw
    obtain ⟨tokens, htok⟩ := tokenize_returns acc hw line
    unfold foldLines
    rw [htok]
    exact ih _ _ _ (fun q => hw q)

/-- With character widths of at least one `Fold` returns. -/
theorem Fold_total (self : Lexer) (lexerData : Option LexerData) (startPos lengthDoc : Nat)
    (doc : Document) (hw : widthsPositive doc) :
    ∃ r, Fold self lexerData startPos lengthDoc doc = Except.ok r := by
  unfold Fold
  cases lexerData with
  | none => exact ⟨_, rfl⟩
  | some data =>
    simp only
    split_ifs
    · exact foldLines_total self data _ _ _ _ hw
    · exact ⟨_, rfl⟩

/-- The levels that `Fold` of a usable lexer stores: for the `k`-th line of the range the
level the claims give for the running level, started at the number part of the stored
level of the first line; the other lines keep their levels, and the text and the styles
stay. -/
theorem Fold_spec (self : Lexer) (data : LexerData) (startPos lengthDoc : Nat) (doc : Document)
    (hu : data.usable = true) (r : Document)
    (h : Fold self (some data) startPos lengthDoc doc = Except.ok r) :
    r.text = doc.text ∧ r.styles = doc.styles ∧ r.multiByte = doc.multiByte
    ∧ (∀ l, l < doc.GetLine startPos ∨ doc.GetLine (startPos + lengthDoc) < l →
        r.LevelAt l = doc.LevelAt l)
    ∧ ∀ k, doc.GetLine startPos + k ≤ doc.GetLine (startPos + lengthDoc) →
        r.LevelAt (doc.GetLine startPos + k)
          = writtenLevel self data doc (doc.GetLine startPos + k)
              (runningLevel self doc (doc.GetLine startPos)
                (Int.land (doc.LevelAt (doc.GetLine startPos)) SC_FOLDLEVELNUMBERMASK) k) := by
  unfold Fold at h
  simp only [hu, if_true] at h
  obtain ⟨r1, r2, r3, r4, r5⟩ := foldLines_spec self data doc _ _ doc _ r rfl rfl rfl h
  refine ⟨r1, r2, r3, ?_, ?_⟩
  · intro l hl
    exact r4 l (by omega)
  · intro k hk
    exact r5 k (by omega)

/-! ### Fold levels, fold-middle lines and folding twice -/

/-! #### Levels and header flags -/

/-- C15, as amended: for a `Fold` of a usable lexer started at the running level L0 (the
number part of the stored level of the first line), the level written for the `k`-th line
of the range, when it is no fold-middle line, is the running level, L0 plus the sum over
the earlier lines of opens minus closes, with the header flag or-ed in when the line has
more opens than closes; opens count the tokens in the fold-open list, closes the tokens in
the fold-close list and not in the fold-open list, both only among tokens whose stored style
is none of Comment, CommentMultiLine, CommentDoc and String. When the running level is
between 0 and 4095, its number part is the running level and the header flag is set if and
only if the line has more opens than closes. `Fold` returns whenever every character the
accessor reads has a width of at least one, as in every eight-bit document. -/
theorem fold_level_is_running_sum (self : Lexer) (data : LexerData) (startPos lengthDoc : Nat)
    (doc : Document) (hu : data.usable = true) (k : Nat)
    (hk : doc.GetLine startPos + k ≤ doc.GetLine (startPos + lengthDoc))
    (hmid : isFoldMiddleLine self data doc (doc.GetLine startPos + k) = false) :
    (∀ r, Fold self (some data) startPos lengthDoc doc = Except.ok r →
      r.LevelAt (doc.GetLine startPos + k)
          = (if 0 < foldOpens self doc (doc.GetLine startPos + k)
                - foldCloses self doc (doc.GetLine startPos + k)
              then Int.lor (runningLevel self doc (doc.GetLine startPos) (startLevel doc startPos) k)
                SC_FOLDLEVELHEADERFLAG
              else runningLevel self doc (doc.GetLine startPos) (startLevel doc startPos) k)
      ∧ (0 ≤ runningLevel self doc (doc.GetLine startPos) (startLevel doc startPos) k →
          runningLevel self doc (doc.GetLine startPos) (startLevel doc startPos) k ≤ 4095 →
          Int.land (r.LevelAt (doc.GetLine startPos + k)) SC_FOLDLEVELNUMBERMASK
              = runningLevel self doc (doc.GetLine startPos) (startLevel doc startPos) k
            ∧ (Int.land (r.LevelAt (doc.GetLine startPos + k)) SC_FOLDLEVELHEADERFLAG ≠ 0
                ↔ 0 < foldOpens self doc (doc.GetLine startPos + k)
                    - foldCloses self doc (doc.GetLine startPos + k))))
    ∧ (widthsPositive doc → ∃ r, Fold self (some data) startPos lengthDoc doc = Except.ok r)
    ∧ (doc.multiByte = none → widthsPositive doc) := by
  refine ⟨?_, fun hw => Fold_total self (some data) startPos lengthDoc doc hw,
    fun h8 => eightBit_widthsPositive doc h8⟩
  intro r hr
  obtain ⟨_, _, _, _, hw⟩ := Fold_spec self data startPos lengthDoc doc hu r hr
  have hwk := hw k hk
  unfold writtenLevel at hwk
  rw [hmid] at hwk
  simp only [Bool.false_eq_true, if_false] at hwk
  refine ⟨hwk, ?_⟩
  intro h0 h1
  obtain ⟨b1, b2, b3, b4⟩ := level_bits _ h0 h1
  rw [hwk]
  by_cases hd : 0 < foldOpens self doc (doc.GetLine startPos + k)
      - foldCloses self doc (doc.GetLine startPos + k)
  · rw [if_pos hd]
    refine ⟨b3, fun _ => hd, fun _ => ?_⟩
    show Int.land (Int.lor (runningLevel self doc (doc.GetLine startPos)
      (startLevel doc startPos) k) SC_FOLDLEVELHEADERFLAG) SC_FOLDLEVELHEADERFLAG ≠ 0
    rw [b4]
    decide
  · rw [if_neg hd]
    refine ⟨b1, fun h => absurd ?_ h, fun h => absurd h hd⟩
    exact b2

/-- Witness for C15 as amended: the `endif` line of `ifBlockDocument`, the line 4 of a
range that starts at line 0. -/
theorem fold_level_is_running_sum_witness :
    (∀ r, Fold sampleLexer (some sampleData) 0 24 ifBlockDocument = Except.ok r →
      r.LevelAt (ifBlockDocument.GetLine 0 + 4)
          = (if 0 < foldOpens sampleLexer ifBlockDocument (ifBlockDocument.GetLine 0 + 4)
                - foldCloses sampleLexer ifBlockDocument (ifBlockDocument.GetLine 0 + 4)
              then Int.lor (runningLevel sampleLexer ifBlockDocument (ifBlockDocument.GetLine 0)
                (startLevel ifBlockDocument 0) 4) SC_FOLDLEVELHEADERFLAG
              else runningLevel sampleLexer ifBlockDocument (ifBlockDocument.GetLine 0)
                (startLevel ifBlockDocument 0) 4)
      ∧ (0 ≤ runningLevel sampleLexer ifBlockDocument (ifBlockDocument.GetLine 0)
            (startLevel ifBlockDocument 0) 4 →
          runningLevel sampleLexer ifBlockDocument (ifBlockDocument.GetLine 0)
            (startLevel ifBlockDocument 0) 4 ≤ 4095 →
          Int.land (r.LevelAt (ifBlockDocument.GetLine 0 + 4)) SC_FOLDLEVELNUMBERMASK
              = runningLevel sampleLexer ifBlockDocument (ifBlockDocument.GetLine 0)
                  (startLevel ifBlockDocument 0) 4
            ∧ (Int.land (r.LevelAt (ifBlockDocument.GetLine 0 + 4)) SC_FOLDLEVELHEADERFLAG ≠ 0
                ↔ 0 < foldOpens sampleLexer ifBlockDocument (ifBlockDocument.GetLine 0 + 4)
                    - foldCloses sampleLexer ifBlockDocument (ifBlockDocument.GetLine 0 + 4))))
    ∧ (∃ r, Fold sampleLexer (some sampleData) 0 24 ifBlockDocument = Except.ok r)
    ∧ runningLevel sampleLexer ifBlockDocument 0 (startLevel ifBlockDocument 0) 4 = 1025
    ∧ levelAfter (Fold sampleLexer (some sampleData) 0 24 ifBlockDocument) 4 = some 1025 :=
  ⟨(fold_level_is_running_sum sampleLexer sampleData 0 24 ifBlockDocument rfl 4 (by decide!)
      (by decide!)).1,
    (fold_level_is_running_sum sampleLexer sampleData 0 24 ifBlockDocument rfl 4 (by decide!)
      (by decide!)).2.1 (eightBit_widthsPositive ifBlockDocument rfl), by decide!, by decide!⟩

/-- Counterexample to C15 as stated, in two runs. `Fold` of `unmatchedCloseDocument` starts
at the running level 0; line 1 has no open and no close and is no fold-middle line, the
running level before it is -1, the level written for it is -1, and the header flag is set in
-1. `Fold` of `overlapDocument` with `overlapLexer`, whose fold-open and fold-close lists
both hold `if`, starts at the running level 0x400; line 0 holds one token in the fold-open
list and, counting as the claim does, one token in the fold-close list, so the claim gives a
line without header flag and the level 0x400 for line 1; the code writes 0x2400 on line 0,
a header, and 0x401 on line 1. -/
theorem negative_level_carries_header_flag :
    startLevel unmatchedCloseDocument 0 = 0
    ∧ foldOpens sampleLexer unmatchedCloseDocument 1
        - foldCloses sampleLexer unmatchedCloseDocument 1 = 0
    ∧ isFoldMiddleLine sampleLexer sampleData unmatchedCloseDocument 1 = false
    ∧ runningLevel sampleLexer unmatchedCloseDocument 0 0 1 = -1
    ∧ levelAfter (Fold sampleLexer (some sampleData) 0 8 unmatchedCloseDocument) 1 = some (-1)
    ∧ Int.land (-1) SC_FOLDLEVELHEADERFLAG ≠ 0
    ∧ startLevel overlapDocument 0 = 0x400
    ∧ foldOpens overlapLexer overlapDocument 0 = 1
    ∧ foldClosesAsStated overlapLexer overlapDocument 0 = 1
    ∧ foldCloses overlapLexer overlapDocument 0 = 0
    ∧ isFoldMiddleLine overlapLexer sampleData overlapDocument 0 = false
    ∧ isFoldMiddleLine overlapLexer sampleData overlapDocument 1 = false
    ∧ levelAfter (Fold overlapLexer (some sampleData) 0 5 overlapDocument) 0 = some 0x2400
    ∧ levelAfter (Fold overlapLexer (some sampleData) 0 5 overlapDocument) 1 = some 0x401 :=
  ⟨by decide!, by decide!, by decide!, by decide!, by decide!, by decide!, by decide!,
    by decide!, by decide!, by decide!, by decide!, by decide!, by decide!, by decide!⟩

/-! #### Fold-middle lines -/

/-- C16, as amended: for a `Fold` of a usable lexer, a fold-middle line (fold-middle
enabled, no counted open or close token, a counted fold-middle token) is written with the
header flag or-ed onto the running level minus one, and the running level after the line is
the one before it; when the running level before the line is between 1 and 4096, the number
part of the written level is one below the running level and the header flag is set. A line
is no fold-middle line when fold-middle is disabled or when it has a counted open or close
token, and then its written level is the running level, with the header flag or-ed in when
there are more opens than closes, whatever the fold-middle list holds. `Fold` returns
whenever every character the accessor reads has a width of at least one, as in every
eight-bit document. -/
theorem fold_middle_level (self : Lexer) (data : LexerData) (startPos lengthDoc : Nat)
    (doc : Document) (hu : data.usable = true) (k : Nat)
    (hk : doc.GetLine startPos + k ≤ doc.GetLine (startPos + lengthDoc)) :
    (∀ r, Fold self (some data) startPos lengthDoc doc = Except.ok r →
      (isFoldMiddleLine self data doc (doc.GetLine startPos + k) = true →
        r.LevelAt (doc.GetLine startPos + k)
            = Int.lor (runningLevel self doc (doc.GetLine startPos) (startLevel doc startPos) k - 1)
                SC_FOLDLEVELHEADERFLAG
          ∧ runningLevel self doc (doc.GetLine startPos) (startLevel doc startPos) (k + 1)
              = runningLevel self doc (doc.GetLine startPos) (startLevel doc startPos) k
          ∧ (1 ≤ runningLevel self doc (doc.GetLine startPos) (startLevel doc startPos) k →
              runningLevel self doc (doc.GetLine startPos) (startLevel doc startPos) k ≤ 4096 →
              Int.land (r.LevelAt (doc.GetLine startPos + k)) SC_FOLDLEVELNUMBERMASK
                  = runningLevel self doc (doc.GetLine startPos) (startLevel doc startPos) k - 1
                ∧ Int.land (r.LevelAt (doc.GetLine startPos + k)) SC_FOLDLEVELHEADERFLAG ≠ 0))
      ∧ (isFoldMiddleLine self data doc (doc.GetLine startPos + k) = false →
          r.LevelAt (doc.GetLine startPos + k)
            = (if 0 < foldOpens self doc (doc.GetLine startPos + k)
                  - foldCloses self doc (doc.GetLine startPos + k)
                then Int.lor
                  (runningLevel self doc (doc.GetLine startPos) (startLevel doc startPos) k)
                  SC_FOLDLEVELHEADERFLAG
                else runningLevel self doc (doc.GetLine startPos) (startLevel doc startPos) k)))
    ∧ (data.settings.enableFoldMiddle = false →
        isFoldMiddleLine self data doc (doc.GetLine startPos + k) = false)
    ∧ (foldOpens self doc (doc.GetLine startPos + k) ≠ 0
        ∨ foldCloses self doc (doc.GetLine startPos + k) ≠ 0 →
        isFoldMiddleLine self data doc (doc.GetLine startPos + k) = false)
    ∧ (widthsPositive doc → ∃ r, Fold self (some data) startPos lengthDoc doc = Except.ok r)
    ∧ (doc.multiByte = none → widthsPositive doc) := by
  refine ⟨?_, ?_, ?_, fun hw => Fold_total self (some data) startPos lengthDoc doc hw,
    fun h8 => eightBit_widthsPositive doc h8⟩
  · intro r hr
    obtain ⟨_, _, _, _, hw⟩ := Fold_spec self data startPos lengthDoc doc hu r hr
    have hwk := hw k hk
    unfold writtenLevel at hwk
    constructor
    · intro hmid
      rw [hmid] at hwk
      simp only [if_true] at hwk
      have hz : foldOpens self doc (doc.GetLine startPos + k) = 0
          ∧ foldCloses self doc (doc.GetLine startPos + k) = 0 := by
        unfold isFoldMiddleLine at hmid
        simp only [Bool.and_eq_true, beq_iff_eq] at hmid
        exact ⟨hmid.1.1.2, hmid.1.2⟩
      refine ⟨hwk, ?_, ?_⟩
      · rw [runningLevel_succ, hz.1, hz.2]
        omega
      · intro h1 h2
        obtain ⟨_, _, b3, b4⟩ := level_bits
          (runningLevel self doc (doc.GetLine startPos) (startLevel doc startPos) k - 1)
          (by omega) (by omega)
        rw [hwk]
        refine ⟨b3, ?_⟩
        show Int.land (Int.lor (runningLevel self doc (doc.GetLine startPos)
          (startLevel doc startPos) k - 1) SC_FOLDLEVELHEADERFLAG) SC_FOLDLEVELHEADERFLAG ≠ 0
        rw [b4]
        decide
    · intro hmid
      rw [hmid] at hwk
      simp only [Bool.false_eq_true, if_false] at hwk
      exact hwk
  · intro hoff
    unfold isFoldMiddleLine
    rw [hoff]
    rfl
  · intro hne
    unfold isFoldMiddleLine
    rcases hne with h | h
    · have : (foldOpens self doc (doc.GetLine startPos + k) == 0) = false := by
        simpa using h
      rw [this]
      simp
    · have : (foldCloses self doc (doc.GetLine startPos + k) == 0) = false := by
        simpa using h
      rw [this]
      simp

/-- Witness for C16 as amended: the `elseif` line of `ifBlockDocument`, line 2 of a range that
starts at line 0. The `if` line and the `elseif` line are both written 0x2400, headers at
the level 0x400, and the level written after `endif` is 0x400, the level before `if`. -/
theorem fold_middle_level_witness :
    isFoldMiddleLine sampleLexer sampleData ifBlockDocument (ifBlockDocument.GetLine 0 + 2) = true
    ∧ (∀ r, Fold sampleLexer (some sampleData) 0 24 ifBlockDocument = Except.ok r →
        r.LevelAt (ifBlockDocument.GetLine 0 + 2)
          = Int.lor (runningLevel sampleLexer ifBlockDocument (ifBlockDocument.GetLine 0)
              (startLevel ifBlockDocument 0) 2 - 1) SC_FOLDLEVELHEADERFLAG)
    ∧ (∃ r, Fold sampleLexer (some sampleData) 0 24 ifBlockDocument = Except.ok r)
    ∧ startLevel ifBlockDocument 0 = 0x400
    ∧ levelAfter (Fold sampleLexer (some sampleData) 0 24 ifBlockDocument) 0 = some 0x2400
    ∧ levelAfter (Fold sampleLexer (some sampleData) 0 24 ifBlockDocument) 1 = some 0x401
    ∧ levelAfter (Fold sampleLexer (some sampleData) 0 24 ifBlockDocument) 2 = some 0x2400
    ∧ levelAfter (Fold sampleLexer (some sampleData) 0 24 ifBlockDocument) 3 = some 0x401
    ∧ levelAfter (Fold sampleLexer (some sampleData) 0 24 ifBlockDocument) 4 = some 0x401
    ∧ levelAfter (Fold sampleLexer (some sampleData) 0 24 ifBlockDocument) 5 = some 0x400 :=
  ⟨by decide!,
    fun r hr => ((fold_middle_level sampleLexer sampleData 0 24 ifBlockDocument rfl 2
      (by decide!)).1 r hr).1 (by decide!) |>.1,
    (fold_middle_level sampleLexer sampleData 0 24 ifBlockDocument rfl 2
      (by decide!)).2.2.2.1 (eightBit_widthsPositive ifBlockDocument rfl),
    by decide!, by decide!, by decide!, by decide!, by decide!, by decide!, by decide!⟩

/-- Counterexample to C16 as stated: `Fold` of `lowElseDocument` starts at the running level
0; line 0 is a fold-middle line, the level written for it is -1, and the number part of -1
is 4095, not one below the running level. -/
theorem fold_middle_at_level_zero :
    startLevel lowElseDocument 0 = 0
    ∧ sampleData.settings.enableFoldMiddle = true
    ∧ isFoldMiddleLine sampleLexer sampleData lowElseDocument 0 = true
    ∧ runningLevel sampleLexer lowElseDocument 0 0 0 = 0
    ∧ levelAfter (Fold sampleLexer (some sampleData) 0 5 lowElseDocument) 0 = some (-1)
    ∧ Int.land (-1) SC_FOLDLEVELNUMBERMASK = 4095 :=
  ⟨by decide!, rfl, by decide!, by decide!, by decide!, by decide!⟩

/-! #### Folding a range twice -/

/-- C17 on `elseDocument`, whose first line is a fold-middle line: the first `Fold` of the
whole text starts at the running level 0x400 and writes 0x23FF on line 0 and 0x400 on lines
1 and 2; the second `Fold` of the same range reads the number part 0x3FF of the level
written on line 0, starts one level lower and writes 0x23FE on line 0 and 0x3FF on lines 1
and 2. -/
theorem fold_twice_shifts_levels :
    isFoldMiddleLine sampleLexer sampleData elseDocument 0 = true
    ∧ startLevel elseDocument 0 = 0x400
    ∧ levelAfter (Fold sampleLexer (some sampleData) 0 7 elseDocument) 0 = some 0x23FF
    ∧ levelAfter (Fold sampleLexer (some sampleData) 0 7 elseDocument) 1 = some 0x400
    ∧ levelAfter (Fold sampleLexer (some sampleData) 0 7 elseDocument) 2 = some 0x400
    ∧ Int.land 0x23FF SC_FOLDLEVELNUMBERMASK = 0x3FF
    ∧ levelAfter (foldTwice sampleLexer (some sampleData) 0 7 elseDocument) 0 = some 0x23FE
    ∧ levelAfter (foldTwice sampleLexer (some sampleData) 0 7 elseDocument) 1 = some 0x3FF
    ∧ levelAfter (foldTwice sampleLexer (some sampleData) 0 7 elseDocument) 2 = some 0x3FF :=
  ⟨by decide!, by decide!, by decide!, by decide!, by decide!, by decide!, by decide!,
    by decide!, by decide!⟩

/-! ### Folding twice from a line that is no fold-middle line -/

theorem nat_ldiff_le (a b : Nat) : Nat.ldiff a b ≤ a := by
  apply Nat.le_of_testBit
  intro i hi
  rw [Nat.testBit_ldiff] at hi
  simp only [Bool.and_eq_true] at hi
  exact hi.1

/-- The number part of a stored level is between 0 and 4095. -/
theorem land_mask_range (x : Int) :
    0 ≤ Int.land x SC_FOLDLEVELNUMBERMASK ∧ Int.land x SC_FOLDLEVELNUMBERMASK ≤ 4095 := by
  cases x with
  | ofNat n =>
    show 0 ≤ ((n &&& 4095 : Nat) : Int) ∧ ((n &&& 4095 : Nat) : Int) ≤ 4095
    have : n &&& 4095 ≤ 4095 := Nat.and_le_right
    omega
  | negSucc m =>
    show 0 ≤ ((Nat.ldiff 4095 m : Nat) : Int) ∧ ((Nat.ldiff 4095 m : Nat) : Int) ≤ 4095
    have := nat_ldiff_le 4095 m
    omega

theorem GetLine_of_text (a b : Document) (h : a.text = b.text) (p : Nat) :
    a.GetLine p = b.GetLine p := by
  unfold Document.GetLine Document.lineStarts
  rw [h]

theorem lineTokens_congr (a b : Document) (h : sameText a b) (line : Nat) :
    lineTokens a line = lineTokens b line := by
  unfold lineTokens
  rw [tokenize_congr a b h line]

theorem countsForFold_congr (a b : Document) (ht : a.text = b.text) (hs : a.styles = b.styles) :
    countsForFold a = countsForFold b := by
  funext t
  unfold countsForFold Document.StyleAt Document.Length
  rw [ht, hs]

theorem foldOpens_congr (self : Lexer) (a b : Document) (ht : a.text = b.text)
    (hs : a.styles = b.styles) (hm : a.multiByte = b.multiByte) (line : Nat) :
    foldOpens self a line = foldOpens self b line
    ∧ foldCloses self a line = foldCloses self b line := by
  unfold foldOpens foldCloses
  rw [lineTokens_congr a b ⟨ht, hm⟩ line, countsForFold_congr a b ht hs]
  exact ⟨rfl, rfl⟩

theorem runningLevel_congr (self : Lexer) (a b : Document) (ht : a.text = b.text)
    (hs : a.styles = b.styles) (hm : a.multiByte = b.multiByte) (first : Nat) (L0 : Int)
    (k : Nat) : runningLevel self a first L0 k = runningLevel self b first L0 k := by
  unfold runningLevel
  have : (fun j => foldOpens self a (first + j) - foldCloses self a (first + j))
      = (fun j => foldOpens self b (first + j) - foldCloses self b (first + j)) := by
    funext j
    rw [(foldOpens_congr self a b ht hs hm (first + j)).1,
      (foldOpens_congr self a b ht hs hm (first + j)).2]
  rw [this]

theorem writtenLevel_congr (self : Lexer) (data : LexerData) (a b : Document)
    (ht : a.text = b.text) (hs : a.styles = b.styles) (hm : a.multiByte = b.multiByte)
    (line : Nat) (running : Int) :
    writtenLevel self data a line running = writtenLevel self data b line running := by
  unfold writtenLevel isFoldMiddleLine
  rw [(foldOpens_congr self a b ht hs hm line).1, (foldOpens_congr self a b ht hs hm line).2,
    lineTokens_congr a b ⟨ht, hm⟩ line, countsForFold_congr a b ht hs]

theorem foldLines_returns (self : Lexer) (data : LexerData) (count : Nat) :
    ∀ (line : Nat) (a b : Document) (la lb : Int) (r : Document),
      a.text = b.text → a.multiByte = b.multiByte →
      foldLines self data count line a la = Except.ok r →
      ∃ r2, foldLines self data count line b lb = Except.ok r2 := by
  induction count with
  | zero => intro line a b la lb r _ _ _; exact ⟨_, rfl⟩
  | succ count ih =>
    intro line a b la lb r ht hm h
    unfold foldLines at h ⊢
    rw [tokenize_congr a b ⟨ht, hm⟩ line] at h
    cases htok : tokenize b line with
    | error e => rw [htok] at h; simp at h
    | ok tokens =>
      rw [htok] at h
      simp only at h ⊢
      exact ih (line + 1) (a.SetLevel line _) (b.SetLevel line _) _ _ r ht hm h

/-- When the first line of the range is no fold-middle line, a second `Fold` of the same
range, run on the document that the first one leaves, returns and stores the same level on
every line. -/
theorem Fold_twice_of_first_not_middle (self : Lexer) (data : LexerData)
    (startPos lengthDoc : Nat) (doc : Document) (hu : data.usable = true)
    (hmid : isFoldMiddleLine self data doc (doc.GetLine startPos) = false)
    (r1 : Document) (h1 : Fold self (some data) startPos lengthDoc doc = Except.ok r1) :
    ∃ r2, Fold self (some data) startPos lengthDoc r1 = Except.ok r2
      ∧ ∀ l, r2.LevelAt l = r1.LevelAt l := by
  obtain ⟨t1, s1, m1, f1, w1⟩ := Fold_spec self data startPos lengthDoc doc hu r1 h1
  have hg1 : r1.GetLine startPos = doc.GetLine startPos := GetLine_of_text r1 doc t1 _
  have hg2 : r1.GetLine (startPos + lengthDoc) = doc.GetLine (startPos + lengthDoc) :=
    GetLine_of_text r1 doc t1 _
  -- the second call returns
  obtain ⟨r2, h2⟩ : ∃ r2, Fold self (some data) startPos lengthDoc r1 = Except.ok r2 := by
    unfold Fold at h1 ⊢
    simp only [hu, if_true] at h1 ⊢
    rw [hg1, hg2]
    exact foldLines_returns self data _ _ doc r1 _ _ r1 t1.symm m1.symm h1
  refine ⟨r2, h2, ?_⟩
  obtain ⟨t2, s2, m2, f2, w2⟩ := Fold_spec self data startPos lengthDoc r1 hu r2 h2
  rw [hg1, hg2] at f2 w2
  -- the second call starts at the same running level
  have hstart : Int.land (r1.LevelAt (doc.GetLine startPos)) SC_FOLDLEVELNUMBERMASK
      = Int.land (doc.LevelAt (doc.GetLine startPos)) SC_FOLDLEVELNUMBERMASK := by
    by_cases hk0 : doc.GetLine startPos ≤ doc.GetLine (startPos + lengthDoc)
    · have hw0 := w1 0 (by omega)
      rw [Nat.add_zero, runningLevel_zero] at hw0
      rw [hw0]
      unfold writtenLevel
      rw [hmid]
      simp only [Bool.false_eq_true, if_false]
      obtain ⟨g0, g1⟩ := land_mask_range (doc.LevelAt (doc.GetLine startPos))
      obtain ⟨b1, _, b3, _⟩ := level_bits _ g0 g1
      split_ifs
      · exact b3
      · exact b1
    · rw [f1 _ (Or.inr (by omega))]
  intro l
  by_cases hl : l < doc.GetLine startPos ∨ doc.GetLine (startPos + lengthDoc) < l
  · exact f2 l hl
  · obtain ⟨k, hk⟩ : ∃ k, l = doc.GetLine startPos + k := ⟨l - doc.GetLine startPos, by omega⟩
    subst hk
    rw [w2 k (by omega), w1 k (by omega), hstart, writtenLevel_congr self data r1 doc t1 s1 m1,
      runningLevel_congr self r1 doc t1 s1 m1]

/-! ### Identifier tokens on a line read byte by byte -/

theorem tokensWithin_mem (ts : List Token) :
    ∀ (lo hi : Nat), tokensWithin lo ts hi →
      ∀ t ∈ ts, t.content ≠ [] ∧ lo ≤ t.startPos ∧ t.startPos + t.content.length ≤ hi := by
  induction ts with
  | nil => intro lo hi _ t ht; exact absurd ht (List.not_mem_nil t)
  | cons a rest ih =>
    intro lo hi hw t ht
    obtain ⟨h1, h2, h3, h4⟩ := hw
    rcases List.mem_cons.1 ht with ht | ht
    · rw [ht]; exact ⟨h2, h1, h3⟩
    · obtain ⟨g1, g2, g3⟩ := ih _ _ h4 t ht
      exact ⟨g1, by omega, g3⟩

theorem isalnum_high (c : Char) (h : 128 ≤ c.toNat) : isalnum c = false := by
  have := not_identChar_high c h
  unfold identChar at this
  simp only [Bool.or_eq_false_iff] at this
  exact this.1

theorem tolower_identChar (c : Char) (h : identChar c = true) :
    (tolower c).isLower = true ∨ (tolower c).isDigit = true ∨ tolower c = chUnderscore := by
  revert h
  apply ascii_cases (fun c => identChar c = true →
    ((tolower c).isLower = true ∨ (tolower c).isDigit = true ∨ tolower c = chUnderscore))
  · decide!
  · intro c hc h
    rw [not_identChar_high c hc] at h
    exact Bool.noConfusion h

theorem tolower_isalpha (c : Char) (h : (isalpha c || c == chUnderscore) = true) :
    (tolower c).isLower = true ∨ tolower c = chUnderscore := by
  revert h
  apply ascii_cases (fun c => (isalpha c || c == chUnderscore) = true →
    ((tolower c).isLower = true ∨ tolower c = chUnderscore))
  · decide!
  · intro c hc h
    have := not_identChar_high c hc
    rw [isalpha_identChar c h] at this
    exact Bool.noConfusion this

/-- C20: on a line that is read byte by byte, as every line of an eight-bit document and
every line of ASCII text is, `tokenize` returns, and every Identifier token it returns has a
content whose first character is a lower-case letter or an underscore and whose characters
are all lower-case letters, digits or underscores; the content is the lower-casing of the
document text at its start position, and the token is maximal: the document character right
after it (a space when the text ends there) is not alphanumeric and not an underscore. -/
theorem identifier_token_shape (doc : Document) (line : Nat)
    (hdec : decodesBytewise doc (doc.LineStart line) (doc.LineEnd line)) :
    ∃ tokens, tokenize doc line = Except.ok tokens
      ∧ ∀ t ∈ tokens, t.tokenType = TokenType.Identifier →
        (∃ c rest, t.content = c :: rest ∧ (c.isLower = true ∨ c = chUnderscore))
        ∧ (∀ x ∈ t.content, x.isLower = true ∨ x.isDigit = true ∨ x = chUnderscore)
        ∧ t.content = ((doc.text.drop t.startPos).take t.content.length).map tolower
        ∧ isalnum (doc.SafeGetCharAt (t.startPos + t.content.length)) = false
        ∧ doc.SafeGetCharAt (t.startPos + t.content.length) ≠ chUnderscore := by
  obtain ⟨tokens, htok, hw, hsh⟩ := tokenize_shape doc line hdec
  refine ⟨tokens, htok, ?_⟩
  intro t ht hid
  obtain ⟨hne, _, _⟩ := tokensWithin_mem tokens _ _ hw t ht
  obtain ⟨hlen, hslice0, hident⟩ := hsh t ht
  have hslice : t.content = ((doc.text.drop t.startPos).take t.content.length).map tolower := by
    rcases hslice0 with h | ⟨h, _⟩
    · exact h
    · rw [hid] at h
      exact TokenType.noConfusion h
  obtain ⟨hfirst, hall, hlast⟩ := hident hid
  have hpos : 0 < t.content.length := List.length_pos.2 hne
  have hL : doc.Length = doc.text.length := rfl
  have hin : t.startPos < doc.text.length := by omega
  have hsafe : doc.SafeGetCharAt t.startPos = doc.text.get ⟨t.startPos, hin⟩ := by
    show doc.text.getD t.startPos chSpace = _
    rw [List.getD_eq_getElem?_getD, List.getElem?_eq_getElem hin]
    rfl
  obtain ⟨m, hm⟩ : ∃ m, t.content.length = m + 1 := ⟨t.content.length - 1, by omega⟩
  refine ⟨?_, ?_, hslice, ?_, ?_⟩
  · refine ⟨tolower (doc.text.get ⟨t.startPos, hin⟩),
      ((doc.text.drop (t.startPos + 1)).take m).map tolower, ?_, ?_⟩
    · have := hslice
      rw [hm, drop_take_succ doc.text t.startPos m hin, List.map_cons] at this
      exact this
    · rw [← hsafe]
      exact tolower_isalpha _ hfirst
  · intro x hx
    rw [hslice] at hx
    obtain ⟨y, hy, hxy⟩ := List.mem_map.1 hx
    rw [← hxy]
    exact tolower_identChar y (hall y hy)
  · unfold identChar at hlast
    simp only [Bool.or_eq_false_iff] at hlast
    exact hlast.1
  · unfold identChar at hlast
    simp only [Bool.or_eq_false_iff, beq_eq_false_iff_ne] at hlast
    exact hlast.2

/-- Witness for C20: the line `Foo_1 = bar9` of an eight-bit document, whose tokens are the
Identifier `foo_1`, the Special "=" and the Identifier `bar9`. -/
theorem identifier_token_shape_witness :
    tokenize (freshDocument "Foo_1 = bar9\n") 0
      = Except.ok [identifierToken "foo_1" 0, specialToken (Char.ofNat 61) 6,
          identifierToken "bar9" 8]
    ∧ ∃ tokens, tokenize (freshDocument "Foo_1 = bar9\n") 0 = Except.ok tokens
      ∧ ∀ t ∈ tokens, t.tokenType = TokenType.Identifier →
        (∃ c rest, t.content = c :: rest ∧ (c.isLower = true ∨ c = chUnderscore))
        ∧ (∀ x ∈ t.content, x.isLower = true ∨ x.isDigit = true ∨ x = chUnderscore)
        ∧ t.content = (((freshDocument "Foo_1 = bar9\n").text.drop t.startPos).take
            t.content.length).map tolower
        ∧ isalnum ((freshDocument "Foo_1 = bar9\n").SafeGetCharAt
            (t.startPos + t.content.length)) = false
        ∧ (freshDocument "Foo_1 = bar9\n").SafeGetCharAt (t.startPos + t.content.length)
            ≠ chUnderscore :=
  ⟨by rfl, identifier_token_shape (freshDocument "Foo_1 = bar9\n") 0
    (eightBit_decodesBytewise _ rfl _ _)⟩

/-! ### Numeric literals -/

theorem slice_append (l : List Char) (i : Nat) (a b : List Char)
    (h : (l.drop i).take (a ++ b).length = a ++ b) :
    (l.drop i).take a.length = a ∧ (l.drop (i + a.length)).take b.length = b := by
  have h1 : ((l.drop i).take (a ++ b).length).take a.length = a := by
    rw [h, List.take_left]
  have h2 : ((l.drop i).take (a ++ b).length).drop a.length = b := by
    rw [h, List.drop_left]
  rw [List.take_take, List.length_append] at h1
  rw [List.length_append, List.drop_take, List.drop_drop] at h2
  have e1 : min a.length (a.length + b.length) = a.length := by omega
  have e2 : a.length + b.length - a.length = b.length := by omega
  rw [e1] at h1
  rw [e2] at h2
  exact ⟨h1, h2⟩

/-- The numeric scan over a stretch of the text on which the loop condition holds at every
character: the scan goes on after the stretch with its characters added. -/
theorem scanNumeric_segment (accessor : Document) (lo hi : Nat)
    (hdec : decodesBytewise accessor lo hi) (hhi : hi ≤ accessor.Length) (startPos : Nat) :
    ∀ (seg : List Char) (fuel : Nat) (content : List Char) (hasDigit : Bool) (c : Cursor),
      c.reads accessor → lo ≤ c.index → c.index + seg.length ≤ hi →
      (accessor.text.drop c.index).take seg.length = seg →
      (∀ pre x post, seg = pre ++ x :: post → ∀ c2 : Cursor, c2.ch = x →
        c2.index = c.index + pre.length →
        numericContinues startPos (content ++ pre.map tolower) (hasDigit || pre.any isdigit) c2
          = Except.ok true) →
      ∃ c1 : Cursor, c1.reads accessor ∧ c1.index = c.index + seg.length
        ∧ scanNumeric accessor startPos (fuel + seg.length) content hasDigit c
          = scanNumeric accessor startPos fuel (content ++ seg.map tolower)
              (hasDigit || seg.any isdigit) c1 := by
  intro seg
  induction seg with
  | nil =>
    intro fuel content hasDigit c hr _ _ _ _
    exact ⟨c, hr, rfl, by simp⟩
  | cons x seg1 ih =>
    intro fuel content hasDigit c hr hlo hle hslice H
    simp only [List.length_cons] at hle hslice
    obtain ⟨hlen, hget, _, hnext⟩ := reads_inside accessor lo hi hdec hhi c hr hlo (by omega)
    rw [drop_take_succ accessor.text c.index seg1.length hlen] at hslice
    simp only [List.cons.injEq] at hslice
    obtain ⟨hx, hslice1⟩ := hslice
    have hch : c.ch = x := by rw [hget, hx]
    have hcont : numericContinues startPos content hasDigit c = Except.ok true := by
      have := H [] x seg1 rfl c hch rfl
      simpa using this
    obtain ⟨c1, hr1, hidx, heq⟩ := ih fuel (content ++ [tolower x]) (hasDigit || isdigit x)
      (getNextChar accessor c) (getNextChar_reads accessor c) (by omega) (by omega)
      (by rw [hnext]; exact hslice1)
      (by
        intro pre y post hsplit c2 hc2 hi2
        have := H (x :: pre) y post (by rw [hsplit]; rfl) c2 hc2
          (by rw [hi2, hnext, List.length_cons]; omega)
        simpa [List.append_assoc, Bool.or_assoc] using this)
    refine ⟨c1, hr1, by rw [hidx, hnext, List.length_cons]; omega, ?_⟩
    have hf : fuel + (x :: seg1).length = (fuel + seg1.length) + 1 := by
      rw [List.length_cons]; omega
    rw [hf]
    conv => lhs; unfold scanNumeric
    rw [hcont]
    simp only
    rw [hch, heq]
    simp [List.append_assoc, Bool.or_assoc]

theorem numericContinues_dot (startPos : Nat) (content : List Char) (c : Cursor)
    (h : c.ch = chDot) : numericContinues startPos content true c = Except.ok true := by
  have e1 : isdigit chDot = false := by decide
  have e2 : (chDot == chMinus) = false := by decide
  unfold numericContinues
  rw [h]
  simp [e1, e2]

theorem isxdigit_not_sign (ch : Char) (h : isxdigit ch = true) :
    (ch == chMinus) = false ∧ (ch == chDot) = false ∧ (tolower ch == 'x') = false := by
  revert h
  apply ascii_cases (fun c => isxdigit c = true →
    (c == chMinus) = false ∧ (c == chDot) = false ∧ (tolower c == 'x') = false)
  · decide!
  · intro c hc h
    exfalso
    unfold isxdigit Char.isDigit at h
    have hv : 128 ≤ c.val.toNat := hc
    simp only [ge_iff_le, Bool.or_eq_true, Bool.and_eq_true, decide_eq_true_eq] at h
    rcases h with (h | h) | h
    · have : c.val.toNat ≤ 57 := h.2
      omega
    · have : c.val.toNat ≤ 102 := h.2
      omega
    · have : c.val.toNat ≤ 70 := h.2
      omega

/-- The numeric scan over a text made of three stretches, each of which keeps the loop
going, and followed by the end of the line: the scan returns the whole text, lower-cased. -/
theorem scanNumeric_three (accessor : Document) (lo hi : Nat)
    (hdec : decodesBytewise accessor lo hi) (hhi : hi ≤ accessor.Length)
    (a b d : List Char) (c : Cursor) (hr : c.reads accessor) (hlo : lo ≤ c.index)
    (hhieq : hi = c.index + (a ++ b ++ d).length)
    (hslice : (accessor.text.drop c.index).take (a ++ b ++ d).length = a ++ b ++ d)
    (hend : endChar (readAt accessor hi).1) (f0 : Nat)
    (Ha : ∀ pre x post, a = pre ++ x :: post → ∀ c2 : Cursor, c2.ch = x →
      c2.index = c.index + pre.length →
      numericContinues c.index (pre.map tolower) (pre.any isdigit) c2 = Except.ok true)
    (Hb : ∀ pre x post, b = pre ++ x :: post → ∀ c2 : Cursor, c2.ch = x →
      c2.index = c.index + a.length + pre.length →
      numericContinues c.index (a.map tolower ++ pre.map tolower)
        (a.any isdigit || pre.any isdigit) c2 = Except.ok true)
    (Hd : ∀ pre x post, d = pre ++ x :: post → ∀ c2 : Cursor, c2.ch = x →
      c2.index = c.index + a.length + b.length + pre.length →
      numericContinues c.index (a.map tolower ++ (b.map tolower ++ pre.map tolower))
        (a.any isdigit || (b.any isdigit || pre.any isdigit)) c2 = Except.ok true) :
    ∃ c1 : Cursor, c1.reads accessor ∧ c1.index = hi
      ∧ scanNumeric accessor c.index (f0 + 1 + (a ++ b ++ d).length) [] false c
        = Except.ok ((a ++ b ++ d).map tolower, c1) := by
  obtain ⟨hab, hsd⟩ := slice_append accessor.text c.index (a ++ b) d hslice
  obtain ⟨hsa, hsb⟩ := slice_append accessor.text c.index a b hab
  simp only [List.length_append] at hhieq hsd
  rw [← Nat.add_assoc] at hsd
  obtain ⟨c1, hr1, hi1, e1⟩ := scanNumeric_segment accessor lo hi hdec hhi c.index a
    (f0 + 1 + d.length + b.length) [] false c hr hlo (by omega) hsa
    (by
      intro pre x post hsplit c2 hc2 hi2
      simpa using Ha pre x post hsplit c2 hc2 hi2)
  obtain ⟨c2, hr2, hi2, e2⟩ := scanNumeric_segment accessor lo hi hdec hhi c.index b
    (f0 + 1 + d.length) ([] ++ a.map tolower) (false || a.any isdigit) c1 hr1 (by omega)
    (by omega) (by rw [hi1]; exact hsb)
    (by
      intro pre x post hsplit c3 hc3 hi3
      simpa using Hb pre x post hsplit c3 hc3 (by rw [hi3, hi1]))
  obtain ⟨c3, hr3, hi3, e3⟩ := scanNumeric_segment accessor lo hi hdec hhi c.index d
    (f0 + 1) ([] ++ a.map tolower ++ b.map tolower)
    ((false || a.any isdigit) || b.any isdigit) c2 hr2 (by omega)
    (by omega) (by rw [hi2, hi1]; exact hsd)
    (by
      intro pre x post hsplit c4 hc4 hi4
      simpa [List.append_assoc, Bool.or_assoc] using
        Hd pre x post hsplit c4 hc4 (by rw [hi4, hi2, hi1]))
  have hidx : c3.index = hi := by rw [hi3, hi2, hi1, hhieq]; omega
  refine ⟨c3, hr3, hidx, ?_⟩
  have hf : f0 + 1 + (a ++ b ++ d).length = f0 + 1 + d.length + b.length + a.length := by
    simp only [List.length_append]
    omega
  rw [hf, e1, e2, e3]
  have hstop : endChar c3.ch := by
    rw [hr3.1, hidx]
    exact hend
  unfold scanNumeric
  rw [numericContinues_end _ _ _ _ hstop]
  simp

theorem numericContinues_hexPrefix (startPos : Nat) (hasDigit : Bool) (c : Cursor)
    (h : c.ch = 'x' ∨ c.ch = 'X') (hi : c.index = startPos + 1) :
    numericContinues startPos ['0'] hasDigit c = Except.ok true := by
  have e1 : isdigit 'x' = false ∧ isdigit 'X' = false := by decide
  have e2 : ('x' == chMinus) = false ∧ ('X' == chMinus) = false := by decide
  have e3 : ('x' == chDot) = false ∧ ('X' == chDot) = false := by decide
  have e4 : (tolower 'x' == 'x') = true ∧ (tolower 'X' == 'x') = true := by decide
  unfold numericContinues
  rcases h with h | h <;> rw [h, hi] <;>
    simp [e1.1, e1.2, e2.1, e2.2, e3.1, e3.2, e4.1, e4.2, stringAt, Except.map]

theorem numericContinues_hexDigit (startPos : Nat) (c0 : Char) (rest : List Char)
    (hasDigit : Bool) (c : Cursor) (h : isxdigit c.ch = true) :
    numericContinues startPos (c0 :: 'x' :: rest) hasDigit c = Except.ok true := by
  by_cases hd : isdigit c.ch = true
  · exact numericContinues_start _ _ _ _ (Or.inl hd)
  · obtain ⟨e1, e2, e3⟩ := isxdigit_not_sign c.ch h
    have e4 : tolower 'x' = 'x' := by decide
    unfold numericContinues
    rw [if_neg hd]
    simp [e1, e2, e3, e4, h, stringAt, Except.map]

theorem any_isdigit_of_digits (digits : List Char) (hne : digits ≠ [])
    (hdig : ∀ x ∈ digits, isdigit x = true) : digits.any isdigit = true := by
  cases digits with
  | nil => exact absurd rfl hne
  | cons x rest => simp [hdig x (List.mem_cons_self x rest)]

/-- The numeric scan of a decimal or hexadecimal literal followed by the end of the line
returns the literal, lower-cased. -/
theorem scanNumeric_literal (accessor : Document) (lo hi : Nat)
    (hdec : decodesBytewise accessor lo hi) (hhi : hi ≤ accessor.Length)
    (s : List Char) (hs : isDecimalLiteral s ∨ isHexLiteral s)
    (c : Cursor) (hr : c.reads accessor) (hlo : lo ≤ c.index)
    (hhieq : hi = c.index + s.length)
    (hslice : (accessor.text.drop c.index).take s.length = s)
    (hend : endChar (readAt accessor hi).1) (f0 : Nat) :
    ∃ c1 : Cursor, c1.reads accessor ∧ c1.index = hi
      ∧ scanNumeric accessor c.index (f0 + 1 + s.length) [] false c
        = Except.ok (s.map tolower, c1) := by
  rcases hs with ⟨sign, digits, frac, rfl, hsign, hne, hdig, hfrac⟩ | ⟨x, ds, rfl, hx, _, hds⟩
  · refine scanNumeric_three accessor lo hi hdec hhi sign digits frac c hr hlo hhieq hslice
      hend f0 ?_ ?_ ?_
    · intro pre y post hsplit c2 hc2 hi2
      rcases hsign with hsign | hsign
      · rw [hsign] at hsplit
        simp at hsplit
      · rw [hsign] at hsplit
        cases pre with
        | nil =>
          simp only [List.nil_append, List.cons.injEq] at hsplit
          exact numericContinues_start _ _ _ _
            (Or.inr ⟨by rw [hc2, ← hsplit.1], by simpa using hi2⟩)
        | cons p pre1 => simp at hsplit
    · intro pre y post hsplit c2 hc2 _
      have hy : y ∈ digits := by rw [hsplit]; simp
      exact numericContinues_start _ _ _ _ (Or.inl (by rw [hc2]; exact hdig y hy))
    · intro pre y post hsplit c2 hc2 _
      rcases hfrac with hfrac | ⟨ds, hfrac, hds⟩
      · rw [hfrac] at hsplit
        simp at hsplit
      · rw [hfrac] at hsplit
        cases pre with
        | nil =>
          simp only [List.nil_append, List.cons.injEq] at hsplit
          have hany := any_isdigit_of_digits digits hne hdig
          have := numericContinues_dot c.index
            (sign.map tolower ++ (digits.map tolower ++ ([] : List Char).map tolower)) c2
            (by rw [hc2, ← hsplit.1])
          simpa [hany] using this
        | cons p pre1 =>
          simp only [List.cons_append, List.cons.injEq] at hsplit
          have hy : y ∈ ds := by rw [hsplit.2]; simp
          exact numericContinues_start _ _ _ _ (Or.inl (by rw [hc2]; exact hds y hy))
  · have e0 : tolower '0' = '0' := by decide
    refine scanNumeric_three accessor lo hi hdec hhi ['0'] [x] ds c hr hlo hhieq hslice
      hend f0 ?_ ?_ ?_
    · intro pre y post hsplit c2 hc2 _
      have hy : y = '0' := by
        cases pre with
        | nil =>
          simp only [List.nil_append, List.cons.injEq] at hsplit
          exact hsplit.1.symm
        | cons p pre1 => simp at hsplit
      exact numericContinues_start _ _ _ _ (Or.inl (by rw [hc2, hy]; decide))
    · intro pre y post hsplit c2 hc2 hi2
      cases pre with
      | nil =>
        simp only [List.nil_append, List.cons.injEq] at hsplit
        have := numericContinues_hexPrefix c.index
          (['0'].any isdigit || ([] : List Char).any isdigit) c2
          (by rw [hc2, ← hsplit.1]; exact hx) (by simpa using hi2)
        simpa [e0] using this
      | cons p pre1 => simp at hsplit
    · intro pre y post hsplit c2 hc2 _
      have hy : y ∈ ds := by rw [hsplit]; simp
      have hx1 : tolower x = 'x' := by rcases hx with h | h <;> rw [h] <;> decide
      have := numericContinues_hexDigit c.index '0' (pre.map tolower)
        (['0'].any isdigit || ([x].any isdigit || pre.any isdigit)) c2
        (by rw [hc2]; exact hds y hy)
      simpa [e0, hx1] using this

theorem literal_first (s : List Char) (hs : isDecimalLiteral s ∨ isHexLiteral s) :
    ∃ x0 rest, s = x0 :: rest ∧ (isdigit x0 = true ∨ x0 = chMinus)
      ∧ (rest = [] → isdigit x0 = true) := by
  rcases hs with ⟨sign, digits, frac, rfl, hsign, hne, hdig, _⟩ | ⟨x, ds, rfl, _, _, _⟩
  · cases digits with
    | nil => exact absurd rfl hne
    | cons d ds1 =>
      have hd := hdig d (List.mem_cons_self d ds1)
      rcases hsign with hsign | hsign
      · rw [hsign]
        exact ⟨d, ds1 ++ frac, rfl, Or.inl hd, fun _ => hd⟩
      · rw [hsign]
        exact ⟨chMinus, d :: ds1 ++ frac, rfl, Or.inr rfl, fun h => by simp at h⟩
  · exact ⟨'0', x :: ds, rfl, Or.inl (by decide), fun _ => by decide⟩

theorem numericStart_branch (ch : Char) (h : isdigit ch = true ∨ ch = chMinus) :
    (ch == chCR || ch == chLF) = false ∧ isblank ch = false
      ∧ (isalpha ch || ch == chUnderscore) = false ∧ (isdigit ch || ch == chMinus) = true := by
  revert h
  apply ascii_cases (fun c => (isdigit c = true ∨ c = chMinus) →
    (c == chCR || c == chLF) = false ∧ isblank c = false
      ∧ (isalpha c || c == chUnderscore) = false ∧ (isdigit c || c == chMinus) = true)
  · decide!
  · intro c hc h
    exfalso
    rcases h with h | h
    · unfold isdigit Char.isDigit at h
      have hv : 128 ≤ c.val.toNat := hc
      simp only [ge_iff_le, Bool.and_eq_true, decide_eq_true_eq] at h
      have : c.val.toNat ≤ 57 := h.2
      omega
    · rw [h] at hc
      revert hc
      decide

theorem digit_not_minus (ch : Char) (h : isdigit ch = true) : (tolower ch == chMinus) = false := by
  have h1 := isdigit_tolower ch h
  cases hb : (tolower ch == chMinus) with
  | false => rfl
  | true =>
    rw [beq_iff_eq] at hb
    rw [hb] at h1
    revert h1
    decide

/-- C18: on a line that consists of exactly a decimal literal (an optional leading "-", one
or more decimal digits, then optionally "." and zero or more decimal digits) or a hexadecimal
literal ("0x" or "0X" and one or more hexadecimal digits), read byte by byte, `tokenize`
returns exactly one token: of kind Numeric, with the literal lower-cased as its content, and
starting at the line start. -/
theorem numeric_literal_token (doc : Document) (line : Nat) (s : List Char)
    (hdec : decodesBytewise doc (doc.LineStart line) (doc.LineEnd line))
    (hline : lineHolds doc line s) (hs : isDecimalLiteral s ∨ isHexLiteral s) :
    tokenize doc line = Except.ok
      [{ tokenType := TokenType.Numeric, content := s.map tolower,
         startPos := doc.LineStart line }] := by
  obtain ⟨hlen, hslice⟩ := hline
  have hhi := LineEnd_le_Length doc line
  have hstop : endChar (readAt doc (doc.LineEnd line)).1 := by
    by_cases h : doc.LineEnd line < doc.Length
    · rw [(hdec (doc.LineEnd line) (LineStart_le_LineEnd doc line) (Nat.le_refl _)).2 h]
      exact Or.inl (LineEnd_stop doc line)
    · exact (readAt_outside doc _ (by omega)).2
  have hidx : (getNextChar doc
      (⟨chSpace, doc.LineStart line, doc.LineStart line⟩ : Cursor)).index
      = doc.LineStart line := by
    rw [getNextChar_readAt]
  have hr0 := getNextChar_reads doc (⟨chSpace, doc.LineStart line, doc.LineStart line⟩ : Cursor)
  obtain ⟨x0, rest, hs0, hfirst, hone⟩ := literal_first s hs
  unfold tokenize tokenizeFuel
  simp only
  generalize getNextChar doc (⟨chSpace, doc.LineStart line, doc.LineStart line⟩ : Cursor) = c0
    at hidx hr0 ⊢
  have hpos : 0 < s.length := by rw [hs0]; simp
  obtain ⟨hl, hget, _, _⟩ := reads_inside doc (doc.LineStart line) (doc.LineEnd line) hdec hhi
    c0 hr0 (by omega) (by omega)
  have hch : c0.ch = x0 := by
    have h1 := hslice
    rw [hs0, List.length_cons, ← hidx, drop_take_succ doc.text c0.index rest.length hl] at h1
    simp only [List.cons.injEq] at h1
    rw [hget, h1.1]
  obtain ⟨c1, _, hi1, hscan⟩ := scanNumeric_literal doc (doc.LineStart line) (doc.LineEnd line)
    hdec hhi s hs c0 hr0 (by omega) (by omega) (by rw [hidx]; exact hslice) hstop
    (doc.Length - s.length)
  obtain ⟨b1, b2, b3, b4⟩ := numericStart_branch c0.ch (by rw [hch]; exact hfirst)
  have hfuel : doc.Length + 2 = (doc.Length - s.length + 1 + s.length) + 1 := by omega
  rw [hfuel]
  conv => lhs; unfold tokenizeLoop
  rw [if_pos (by omega), if_neg (by rw [b1]; simp), if_neg (by rw [b2]; simp),
    if_neg (by rw [b3]; simp), if_pos b4, hscan]
  have hat : stringAt (s.map tolower) 0 = Except.ok (tolower x0) := by
    rw [hs0]
    rfl
  simp only [hat]
  have htype : (tolower x0 == chMinus && (s.map tolower).length == 1) = false := by
    cases hb : ((s.map tolower).length == 1) with
    | false => simp
    | true =>
      have hr1 : rest = [] := by
        rw [hs0] at hb
        simpa using hb
      rw [digit_not_minus x0 (hone hr1)]
      rfl
  rw [htype]
  have hfuel1 : doc.Length - s.length + 1 + s.length = (doc.Length - s.length + s.length) + 1 := by
    omega
  rw [hfuel1]
  unfold tokenizeLoop
  rw [if_neg (by omega), hidx]
  rfl

/-- Witness for C18: the line `0x1A` of an eight-bit document yields the one Numeric token
`0x1a`, and the lines `-1`, `1.5` and `1.` yield one Numeric token each. -/
theorem numeric_literal_token_witness :
    tokenize (freshDocument "0x1A\n") 0 = Except.ok
      [{ tokenType := TokenType.Numeric, content := "0x1A".toList.map tolower,
         startPos := (freshDocument "0x1A\n").LineStart 0 }]
    ∧ tokenize (freshDocument "0x1A\n") 0 = Except.ok [numericToken "0x1a" 0]
    ∧ tokenize (freshDocument "-1\n") 0 = Except.ok [numericToken "-1" 0]
    ∧ tokenize (freshDocument "1.5\n") 0 = Except.ok [numericToken "1.5" 0]
    ∧ tokenize (freshDocument "1.\n") 0 = Except.ok [numericToken "1." 0] :=
  ⟨numeric_literal_token (freshDocument "0x1A\n") 0 "0x1A".toList
    (eightBit_decodesBytewise _ rfl _ _) ⟨by decide!, by decide!⟩
    (Or.inr ⟨'x', ['1', 'A'], rfl, Or.inl rfl, by simp, by decide⟩),
   by rfl, by rfl, by rfl, by rfl⟩

/-! ### The tokens of a line and its text -/

theorem squeeze_stop (x : Char) (l : List Char) (h : (x == chCR || x == chLF) = true) :
    squeeze (x :: l) = [] := by
  unfold squeeze
  rw [List.takeWhile_cons]
  simp [h]

theorem squeeze_blank (x : Char) (l : List Char) (h1 : (x == chCR || x == chLF) = false)
    (h2 : isblank x = true) : squeeze (x :: l) = squeeze l := by
  unfold squeeze
  rw [List.takeWhile_cons]
  simp [h1, h2]

theorem squeeze_solid (x : Char) (l : List Char) (h : solidChar x = true) :
    squeeze (x :: l) = tolower x :: squeeze l := by
  unfold solidChar at h
  simp only [Bool.and_eq_true, Bool.not_eq_true_eq_eq_false, Bool.not_eq_eq_eq_not,
    Bool.not_true] at h
  unfold squeeze
  rw [List.takeWhile_cons]
  simp [h.1, h.2]

theorem squeeze_append_solid (a l : List Char) (h : ∀ x ∈ a, solidChar x = true) :
    squeeze (a ++ l) = a.map tolower ++ squeeze l := by
  induction a with
  | nil => rfl
  | cons x rest ih =>
    rw [List.cons_append, squeeze_solid x _ (h x (List.mem_cons_self x rest)),
      ih (fun y hy => h y (List.mem_cons_of_mem x hy))]
    rfl

theorem contents_append (a b : List Token) : contents (a ++ b) = contents a ++ contents b := by
  induction a with
  | nil => rfl
  | cons t ts ih =>
    show t.content ++ contents (ts ++ b) = (t.content ++ contents ts) ++ contents b
    rw [ih, List.append_assoc]

theorem slice_split (l : List Char) (i n m : Nat) (h : n ≤ m) :
    (l.drop i).take m = (l.drop i).take n ++ (l.drop (i + n)).take (m - n) := by
  have e : m = n + (m - n) := by omega
  conv => lhs; rw [e, List.take_add]
  rw [List.drop_drop]

theorem identChar_solid (ch : Char) (h : identChar ch = true) : solidChar ch = true := by
  revert h
  apply ascii_cases (fun c => identChar c = true → solidChar c = true)
  · decide!
  · intro c hc h
    rw [not_identChar_high c hc] at h
    exact Bool.noConfusion h

theorem numericContinues_solid (startPos : Nat) (content : List Char) (hasDigit : Bool)
    (c : Cursor) (h : numericContinues startPos content hasDigit c = Except.ok true) :
    solidChar c.ch = true := by
  cases hs : solidChar c.ch with
  | true => rfl
  | false =>
    exfalso
    have hcases : stopChar c.ch ∨ c.ch = chTab := by
      unfold solidChar isblank at hs
      simp only [Bool.and_eq_false_iff, Bool.not_eq_false_eq_eq_true, Bool.or_eq_true,
        beq_iff_eq, Bool.not_eq_eq_eq_not, Bool.not_false] at hs
      rcases hs with (h1 | h1) | (h1 | h1)
      · exact Or.inl (Or.inl h1)
      · exact Or.inl (Or.inr (Or.inl h1))
      · exact Or.inl (Or.inr (Or.inr h1))
      · exact Or.inr h1
    rcases hcases with h1 | h1
    · rw [numericContinues_stop startPos content hasDigit c h1] at h
      simp at h
    · have e1 : isdigit c.ch = false := by rw [h1]; decide
      have e2 : (c.ch == chMinus) = false := by rw [h1]; decide
      have e3 : (c.ch == chDot) = false := by rw [h1]; decide
      have e4 : (tolower c.ch == 'x') = false := by rw [h1]; decide
      have e5 : isxdigit c.ch = false := by rw [h1]; decide
      unfold numericContinues at h
      simp [e1, e2, e3, e4, e5] at h

/-- The numeric scan on a stretch read byte by byte: it returns a piece of the text,
lower-cased, that holds no CR, LF, space or tab. -/
theorem scanNumeric_solid (accessor : Document) (lo hi : Nat)
    (hdec : decodesBytewise accessor lo hi) (hhi : hi ≤ accessor.Length)
    (hstop : endChar (readAt accessor hi).1) (startPos : Nat) :
    ∀ (fuel : Nat) (content : List Char) (hasDigit : Bool) (c : Cursor),
      c.reads accessor → lo ≤ c.index → c.index ≤ hi → hi - c.index < fuel →
      startPos ≤ c.index → content.length = c.index - startPos →
      ∃ n c1, scanNumeric accessor startPos fuel content hasDigit c
          = Except.ok (content ++ ((accessor.text.drop c.index).take n).map tolower, c1)
        ∧ c1.reads accessor ∧ c1.index = c.index + n ∧ c1.index ≤ hi
        ∧ ((isdigit c.ch = true ∨ (c.ch = chMinus ∧ c.index = startPos)) → 0 < n)
        ∧ ∀ x ∈ (accessor.text.drop c.index).take n, solidChar x = true := by
  intro fuel
  induction fuel with
  | zero => intro content hasDigit c _ _ _ hf; omega
  | succ fuel ih =>
    intro content hasDigit c hr hlo hle hf hsp hlen
    unfold scanNumeric
    obtain ⟨b, hb⟩ := numericContinues_ok startPos content hasDigit c (by
      intro hi hc
      rw [hc] at hlen
      simp only [List.length_nil] at hlen
      omega)
    rw [hb]
    cases b with
    | false =>
      refine ⟨0, c, by simp, hr, by simp, hle, ?_, by simp⟩
      intro hstart
      rw [numericContinues_start startPos content hasDigit c hstart] at hb
      simp at hb
    | true =>
      simp only
      have hsolid := numericContinues_solid startPos content hasDigit c hb
      have hlt : c.index < hi := by
        rcases Nat.lt_or_ge c.index hi with h | h
        · exact h
        · exfalso
          have he : c.index = hi := by omega
          have hs : endChar c.ch := by rw [hr.1, he]; exact hstop
          rw [numericContinues_end startPos content hasDigit c hs] at hb
          simp at hb
      obtain ⟨hlen1, hget, _, hnext⟩ := reads_inside accessor lo hi hdec hhi c hr hlo hlt
      obtain ⟨n, c1, hres, hr1, hidx, hle1, _, hall⟩ :=
        ih (content ++ [tolower c.ch]) (hasDigit || isdigit c.ch) (getNextChar accessor c)
          (getNextChar_reads accessor c) (by omega) (by omega) (by omega) (by omega)
          (by rw [List.length_append, hlen, hnext]; simp; omega)
      rw [hnext] at hres hidx hall
      refine ⟨n + 1, c1, ?_, hr1, by omega, hle1, fun _ => Nat.succ_pos n, ?_⟩
      · rw [hres, drop_take_succ accessor.text c.index n hlen1, List.map_cons, ← hget,
          List.append_assoc]
        rfl
      · intro x hx
        rw [drop_take_succ accessor.text c.index n hlen1] at hx
        rcases List.mem_cons.1 hx with hx | hx
        · rw [hx, ← hget]; exact hsolid
        · exact hall x hx

theorem narrow_of_byte (x : Char) (h : x.toNat < 256) : narrow x = x := by
  unfold narrow
  rw [Nat.mod_eq_of_lt h]
  exact Char.ofNat_toNat x

/-- Lower-casing a byte gives a byte, which the conversion to `char` leaves as it is. -/
theorem narrow_tolower_byte (x : Char) (h : x.toNat < 256) : narrow (tolower x) = tolower x := by
  revert h
  apply ascii_cases (fun c => c.toNat < 256 → narrow (tolower c) = tolower c)
  · decide!
  · intro c hc h
    rw [tolower_high c hc]
    exact narrow_of_byte c h

/-- A letter, digit or underscore, lower-cased, is left as it is by the conversion to
`char`. -/
theorem narrow_tolower_identChar (x : Char) (h : identChar x = true) :
    narrow (tolower x) = tolower x := by
  apply narrow_tolower_byte
  by_cases hx : x.toNat < 128
  · omega
  · rw [not_identChar_high x (by omega)] at h
    exact Bool.noConfusion h

/-- A character that keeps the numeric scan going, lower-cased, is left as it is by the
conversion to `char`. -/
theorem narrow_tolower_numeric (startPos : Nat) (content : List Char) (hasDigit : Bool)
    (c : Cursor) (h : numericContinues startPos content hasDigit c = Except.ok true) :
    narrow (tolower c.ch) = tolower c.ch := by
  apply narrow_tolower_byte
  by_cases hx : c.ch.toNat < 128
  · omega
  · exfalso
    have hv : 128 ≤ c.ch.val.toNat := by
      have : c.ch.toNat = c.ch.val.toNat := rfl
      omega
    have e1 : isdigit c.ch = false := by
      unfold isdigit Char.isDigit
      simp only [ge_iff_le, Bool.and_eq_false_iff, decide_eq_false_iff_not]
      right
      intro hle
      have : c.ch.val.toNat ≤ 57 := hle
      omega
    have e2 : (c.ch == chMinus) = false := by
      rw [beq_eq_false_iff_ne]
      intro he
      rw [he] at hx
      exact hx (by decide)
    have e3 : (c.ch == chDot) = false := by
      rw [beq_eq_false_iff_ne]
      intro he
      rw [he] at hx
      exact hx (by decide)
    have e4 : (tolower c.ch == 'x') = false := by
      rw [tolower_high c.ch (by omega), beq_eq_false_iff_ne]
      intro he
      rw [he] at hx
      exact hx (by decide)
    have e5 : isxdigit c.ch = false := by
      unfold isxdigit Char.isDigit
      simp only [ge_iff_le, Bool.or_eq_false_iff, Bool.and_eq_false_iff,
        decide_eq_false_iff_not]
      refine ⟨⟨Or.inr ?_, Or.inr ?_⟩, Or.inr ?_⟩
      · intro hle
        have : c.ch.val.toNat ≤ 57 := hle
        omega
      · intro hle
        have : c.ch.val.toNat ≤ 102 := hle
        omega
      · intro hle
        have : c.ch.val.toNat ≤ 70 := hle
        omega
    unfold numericContinues at h
    simp [e1, e2, e3, e4, e5] at h

theorem mem_slice (l : List Char) (x : Char) :
    ∀ (n i : Nat), x ∈ (l.drop i).take n →
      ∃ q, i ≤ q ∧ q < i + n ∧ ∃ h : q < l.length, l.get ⟨q, h⟩ = x := by
  intro n
  induction n with
  | zero => intro i hx; simp at hx
  | succ n ih =>
    intro i hx
    by_cases hi : i < l.length
    · rw [drop_take_succ l i n hi] at hx
      rcases List.mem_cons.1 hx with hx | hx
      · exact ⟨i, Nat.le_refl _, by omega, hi, hx.symm⟩
      · obtain ⟨q, h1, h2, h3⟩ := ih (i + 1) hx
        exact ⟨q, by omega, by omega, h3⟩
    · rw [List.drop_eq_nil_of_le (by omega)] at hx
      simp at hx

theorem slice_mem (l : List Char) (q : Nat) (h : q < l.length) :
    ∀ (n i : Nat), i ≤ q → q < i + n → l.get ⟨q, h⟩ ∈ (l.drop i).take n := by
  intro n
  induction n with
  | zero => intro i h1 h2; omega
  | succ n ih =>
    intro i h1 h2
    have hi : i < l.length := by omega
    rw [drop_take_succ l i n hi]
    by_cases he : i = q
    · subst he
      exact List.mem_cons_self _ _
    · exact List.mem_cons_of_mem _ (ih (i + 1) (by omega) (by omega))

/-- The outer loop on a stretch of bytes read byte by byte: the contents of the tokens it
adds, one after the other, are the rest of the stretch up to its first CR or LF, without
spaces and tabs, lower-cased; and no token holds a CR, LF, space or tab of the text. -/
theorem tokenizeLoop_contents (accessor : Document) (lo hi : Nat)
    (hdec : decodesBytewise accessor lo hi) (hhi : hi ≤ accessor.Length)
    (hstop : endChar (readAt accessor hi).1)
    (hbytes : ∀ (q : Nat) (h : q < accessor.text.length), lo ≤ q → q < hi →
      (accessor.text.get ⟨q, h⟩).toNat < 256) :
    ∀ (fuel : Nat) (tokens : List Token) (c : Cursor),
      c.reads accessor → lo ≤ c.index → c.index ≤ hi → hi + 1 - c.index < fuel →
      ∃ new, tokenizeLoop accessor hi fuel tokens c = Except.ok (tokens ++ new)
        ∧ contents new = squeeze ((accessor.text.drop c.index).take (hi - c.index))
        ∧ ∀ t ∈ new, ∀ x ∈ (accessor.text.drop t.startPos).take t.content.length,
            solidChar x = true := by
  intro fuel
  induction fuel with
  | zero => intro tokens c _ _ _ hf; omega
  | succ fuel ih =>
    intro tokens c hr hlo hle hf
    unfold tokenizeLoop
    by_cases hlt : c.index < hi
    swap
    · rw [if_neg hlt]
      have e : hi - c.index = 0 := by omega
      exact ⟨[], by simp, by rw [e]; rfl, by simp⟩
    rw [if_pos hlt]
    obtain ⟨hlen, hget, hsafe, hnext⟩ := reads_inside accessor lo hi hdec hhi c hr hlo hlt
    have hsl : (accessor.text.drop c.index).take (hi - c.index)
        = c.ch :: (accessor.text.drop (c.index + 1)).take (hi - (c.index + 1)) := by
      have e : hi - c.index = (hi - (c.index + 1)) + 1 := by omega
      rw [e, drop_take_succ accessor.text c.index _ hlen, ← hget]
    by_cases hcr : (c.ch == chCR || c.ch == chLF) = true
    · rw [if_pos hcr]
      exact ⟨[], by simp, by rw [hsl, squeeze_stop _ _ hcr]; rfl, by simp⟩
    rw [if_neg hcr]
    have hcr1 : (c.ch == chCR || c.ch == chLF) = false := by simpa using hcr
    have hr1 := getNextChar_reads accessor c
    by_cases hbl : isblank c.ch = true
    · rw [if_pos hbl]
      obtain ⟨new, hres, hcon, hsol⟩ := ih tokens (getNextChar accessor c) hr1 (by omega)
        (by omega) (by omega)
      refine ⟨new, hres, ?_, hsol⟩
      rw [hcon, hnext, hsl, squeeze_blank _ _ hcr1 hbl]
    rw [if_neg hbl]
    have hbl1 : isblank c.ch = false := by simpa using hbl
    have hsolid : solidChar c.ch = true := by
      unfold solidChar
      rw [hcr1, hbl1]
      rfl
    by_cases hal : (isalpha c.ch || c.ch == chUnderscore) = true
    · rw [if_pos hal]
      obtain ⟨n, c1, hres, hr2, hidx, hle2, hall, hpos, hlast⟩ :=
        scanIdentifier_shape accessor lo hi hdec hhi hstop fuel [] c hr hlo hle (by omega)
      rw [hres]
      simp only [List.nil_append]
      have hn : 0 < n := hpos (isalpha_identChar c.ch hal)
      have hin : c.index + n ≤ accessor.Length := by omega
      have hl := slice_length accessor.text c.index n hin
      obtain ⟨new, hres2, hcon, hsol⟩ := ih
        (tokens ++ [{ tokenType := TokenType.Identifier,
                      content := ((accessor.text.drop c.index).take n).map tolower,
                      startPos := c.index }]) c1 hr2 (by omega) hle2 (by omega)
      refine ⟨{ tokenType := TokenType.Identifier,
                content := ((accessor.text.drop c.index).take n).map tolower,
                startPos := c.index } :: new, ?_, ?_, ?_⟩
      · rw [hres2, List.append_assoc]; rfl
      · show ((accessor.text.drop c.index).take n).map tolower ++ contents new = _
        rw [hcon, slice_split accessor.text c.index n (hi - c.index) (by omega),
          squeeze_append_solid _ _ (fun x hx => identChar_solid x (hall x hx)), hidx]
        congr 3
        omega
      · intro t ht
        rcases List.mem_cons.1 ht with ht | ht
        · rw [ht]
          show ∀ x ∈ (accessor.text.drop c.index).take
            (((accessor.text.drop c.index).take n).map tolower).length, solidChar x = true
          rw [hl]
          exact fun x hx => identChar_solid x (hall x hx)
        · exact hsol t ht
    rw [if_neg hal]
    by_cases hnum : (isdigit c.ch || c.ch == chMinus) = true
    · rw [if_pos hnum]
      obtain ⟨n, c1, hres, hr2, hidx, hle2, hpos, hall⟩ :=
        scanNumeric_solid accessor lo hi hdec hhi hstop c.index fuel [] false c hr hlo hle
          (by omega) (Nat.le_refl _) (by simp)
      rw [hres]
      simp only [List.nil_append]
      have hn : 0 < n := by
        apply hpos
        rcases Bool.or_eq_true_iff.1 hnum with h | h
        · exact Or.inl h
        · exact Or.inr ⟨by simpa using h, rfl⟩
      have hin : c.index + n ≤ accessor.Length := by omega
      have hl := slice_length accessor.text c.index n hin
      have hsplit := slice_split accessor.text c.index n (hi - c.index) (by omega)
      cases hs : ((accessor.text.drop c.index).take n).map tolower with
      | nil =>
        rw [hs] at hl
        simp at hl
        omega
      | cons a rest =>
        rw [stringAt_cons_zero]
        simp only
        obtain ⟨tt, htt⟩ : ∃ tt : TokenType, tt =
            (if (a == chMinus && (a :: rest).length == 1) = true then TokenType.Special
              else TokenType.Numeric) := ⟨_, rfl⟩
        rw [← htt]
        have hfuel : hi + 1 - c1.index < fuel := by
          rw [hidx]
          omega
        obtain ⟨new, hres2, hcon, hsol⟩ := ih
          (tokens ++ [(⟨tt, a :: rest, c.index⟩ : Token)]) c1 hr2 (by omega) hle2 hfuel
        refine ⟨(⟨tt, a :: rest, c.index⟩ : Token) :: new, ?_, ?_, ?_⟩
        · rw [hres2, List.append_assoc]; rfl
        · show (a :: rest) ++ contents new = _
          rw [hcon, hsplit, squeeze_append_solid _ _ hall, hs, hidx]
          congr 3
          omega
        · intro t ht
          rcases List.mem_cons.1 ht with ht | ht
          · rw [ht]
            show ∀ x ∈ (accessor.text.drop c.index).take (a :: rest).length, solidChar x = true
            rw [← hs, hl]
            exact hall
          · exact hsol t ht
    rw [if_neg hnum]
    obtain ⟨new, hres2, hcon, hsol⟩ := ih
      (tokens ++ [{ tokenType := TokenType.Special, content := [narrow (tolower c.ch)], startPos := c.index }])
      (getNextChar accessor c) hr1 (by omega) (by omega) (by omega)
    refine ⟨{ tokenType := TokenType.Special, content := [narrow (tolower c.ch)], startPos := c.index } :: new,
      ?_, ?_, ?_⟩
    · rw [hres2, List.append_assoc]; rfl
    · show [narrow (tolower c.ch)] ++ contents new = _
      rw [narrow_tolower_byte c.ch (by rw [hget]; exact hbytes c.index hlen hlo hlt), hcon, hnext,
        hsl, squeeze_solid _ _ hsolid]
      rfl
    · intro t ht
      rcases List.mem_cons.1 ht with ht | ht
      · rw [ht]
        show ∀ x ∈ (accessor.text.drop c.index).take 1, solidChar x = true
        rw [drop_take_succ accessor.text c.index 0 hlen, ← hget]
        intro x hx
        simp only [List.take_zero, List.mem_singleton] at hx
        rw [hx]
        exact hsolid
      · exact hsol t ht

theorem tokensWithin_pairwise (ts : List Token) :
    ∀ (lo hi : Nat), tokensWithin lo ts hi →
      ts.Pairwise (fun a b => a.startPos < b.startPos)
        ∧ ts.Pairwise (fun a b => a.startPos + a.content.length ≤ b.startPos) := by
  induction ts with
  | nil => intro _ _ _; exact ⟨List.Pairwise.nil, List.Pairwise.nil⟩
  | cons a rest ih =>
    intro lo hi hw
    obtain ⟨_, h2, _, h4⟩ := hw
    obtain ⟨p1, p2⟩ := ih _ _ h4
    have hpos : 0 < a.content.length := List.length_pos.2 h2
    have hmem := tokensWithin_mem rest _ _ h4
    refine ⟨List.Pairwise.cons (fun b hb => ?_) p1, List.Pairwise.cons (fun b hb => ?_) p2⟩
    · have := (hmem b hb).2.1
      omega
    · exact (hmem b hb).2.1

/-- C21: on a line of bytes that is read byte by byte (every line of an eight-bit document,
every line of ASCII text), `tokenize` returns; the start positions of its tokens are strictly
increasing and no token overlaps a later one; each token lies within the line, its content
is the lower-cased document text at its position, and it holds no CR, LF, space or tab of the
text; and the contents of the tokens, one after the other, are the text of the line up to its
first CR or LF, lower-cased, with every space and tab removed. -/
theorem tokens_partition_line (doc : Document) (line : Nat)
    (hdec : decodesBytewise doc (doc.LineStart line) (doc.LineEnd line))
    (hbytes : lineBytes doc line) :
    ∃ tokens, tokenize doc line = Except.ok tokens
      ∧ tokens.Pairwise (fun a b => a.startPos < b.startPos)
      ∧ tokens.Pairwise (fun a b => a.startPos + a.content.length ≤ b.startPos)
      ∧ (∀ t ∈ tokens, doc.LineStart line ≤ t.startPos
          ∧ t.startPos + t.content.length ≤ doc.LineEnd line
          ∧ t.content = ((doc.text.drop t.startPos).take t.content.length).map tolower
          ∧ ∀ x ∈ (doc.text.drop t.startPos).take t.content.length, solidChar x = true)
      ∧ contents tokens = squeeze (lineText doc line) := by
  obtain ⟨tokens, hres, hw, hsh⟩ := tokenize_shape doc line hdec
  have hle := LineStart_le_LineEnd doc line
  have hhi := LineEnd_le_Length doc line
  have hstop : endChar (readAt doc (doc.LineEnd line)).1 := by
    by_cases h : doc.LineEnd line < doc.Length
    · rw [(hdec (doc.LineEnd line) hle (Nat.le_refl _)).2 h]
      exact Or.inl (LineEnd_stop doc line)
    · exact (readAt_outside doc _ (by omega)).2
  have hidx : (getNextChar doc
      (⟨chSpace, doc.LineStart line, doc.LineStart line⟩ : Cursor)).index
      = doc.LineStart line := by
    rw [getNextChar_readAt]
  have hb : ∀ (q : Nat) (h : q < doc.text.length), doc.LineStart line ≤ q →
      q < doc.LineEnd line → (doc.text.get ⟨q, h⟩).toNat < 256 := by
    intro q h h1 h2
    apply hbytes
    exact slice_mem doc.text q h _ _ h1 (by omega)
  obtain ⟨new, hres2, hcon, hsol⟩ := tokenizeLoop_contents doc (doc.LineStart line)
    (doc.LineEnd line) hdec hhi hstop hb (doc.Length + 2) []
    (getNextChar doc (⟨chSpace, doc.LineStart line, doc.LineStart line⟩ : Cursor))
    (getNextChar_reads doc _) (by rw [hidx]) (by rw [hidx]; exact hle) (by rw [hidx]; omega)
  have heq : tokens = new := by
    have h1 : tokenize doc line = Except.ok ([] ++ new) := hres2
    rw [hres] at h1
    simpa using h1
  subst heq
  obtain ⟨p1, p2⟩ := tokensWithin_pairwise tokens _ _ hw
  refine ⟨tokens, hres, p1, p2, ?_, ?_⟩
  · intro t ht
    obtain ⟨_, g2, g3⟩ := tokensWithin_mem tokens _ _ hw t ht
    refine ⟨g2, g3, ?_, hsol t ht⟩
    rcases (hsh t ht).2.1 with h | ⟨_, h⟩
    · exact h
    · refine h.trans (List.map_congr_left ?_)
      intro x hx
      obtain ⟨q, h1, h2, h3, h4⟩ := mem_slice doc.text x _ _ hx
      rw [← h4]
      exact narrow_tolower_byte _ (hb q h3 (by omega) (by omega))
  · rw [hcon, hidx]
    rfl

/-- Witness for C21: the line `Foo = -1` with a tab before the `=`, in an eight-bit
document; its tokens are `foo`, `=` and `-1`, and the line without space and tab is
`foo=-1`. -/
theorem tokens_partition_line_witness :
    tokenize (freshDocument "Foo \t= -1\n") 0
      = Except.ok [identifierToken "foo" 0, specialToken (Char.ofNat 61) 5, numericToken "-1" 7]
    ∧ squeeze (lineText (freshDocument "Foo \t= -1\n") 0) = "foo=-1".toList
    ∧ ∃ tokens, tokenize (freshDocument "Foo \t= -1\n") 0 = Except.ok tokens
      ∧ tokens.Pairwise (fun a b => a.startPos < b.startPos)
      ∧ tokens.Pairwise (fun a b => a.startPos + a.content.length ≤ b.startPos)
      ∧ (∀ t ∈ tokens, (freshDocument "Foo \t= -1\n").LineStart 0 ≤ t.startPos
          ∧ t.startPos + t.content.length ≤ (freshDocument "Foo \t= -1\n").LineEnd 0
          ∧ t.content = (((freshDocument "Foo \t= -1\n").text.drop t.startPos).take
              t.content.length).map tolower
          ∧ ∀ x ∈ ((freshDocument "Foo \t= -1\n").text.drop t.startPos).take t.content.length,
              solidChar x = true)
      ∧ contents tokens = squeeze (lineText (freshDocument "Foo \t= -1\n") 0) :=
  ⟨by rfl, by decide!, tokens_partition_line (freshDocument "Foo \t= -1\n") 0
    (eightBit_decodesBytewise _ rfl _ _) (by unfold lineBytes; decide!)⟩

/-! ### Accesses in range -/

/-- The identifier scan raises no out-of-range error, and returns a non-empty content when
it starts with one or at a letter, digit or underscore. -/
theorem scanIdentifier_safe (accessor : Document) :
    ∀ (fuel : Nat) (content : List Char) (c : Cursor),
      scanIdentifier accessor fuel content c ≠ Except.error Error.outOfRange
        ∧ ∀ r, scanIdentifier accessor fuel content c = Except.ok r →
            (content ≠ [] ∨ identChar c.ch = true) → r.1 ≠ [] := by
  intro fuel
  induction fuel with
  | zero =>
    intro content c
    simp [scanIdentifier]
  | succ fuel ih =>
    intro content c
    unfold scanIdentifier
    by_cases hm : (isalnum c.ch || c.ch == chUnderscore) = true
    · rw [if_pos hm]
      obtain ⟨h1, h2⟩ := ih (content ++ [tolower c.ch]) (getNextChar accessor c)
      exact ⟨h1, fun r hr _ => h2 r hr (Or.inl (by simp))⟩
    · rw [if_neg hm]
      refine ⟨by simp, fun r hr hne => ?_⟩
      simp only [Except.ok.injEq] at hr
      rw [← hr]
      rcases hne with hne | hne
      · exact hne
      · exact absurd hne hm

/-- The numeric scan raises no out-of-range error when the content is not empty at the
position after its start, and returns a non-empty content when it starts with one or at a
character that keeps the loop going. -/
theorem scanNumeric_safe (accessor : Document) (startPos : Nat) :
    ∀ (fuel : Nat) (content : List Char) (hasDigit : Bool) (c : Cursor),
      (c.index = startPos + 1 → content ≠ []) →
      scanNumeric accessor startPos fuel content hasDigit c ≠ Except.error Error.outOfRange
        ∧ ∀ r, scanNumeric accessor startPos fuel content hasDigit c = Except.ok r →
            (content ≠ [] ∨ numericContinues startPos content hasDigit c = Except.ok true) →
            r.1 ≠ [] := by
  intro fuel
  induction fuel with
  | zero =>
    intro content hasDigit c _
    simp [scanNumeric]
  | succ fuel ih =>
    intro content hasDigit c hc
    unfold scanNumeric
    obtain ⟨b, hb⟩ := numericContinues_ok startPos content hasDigit c hc
    rw [hb]
    cases b with
    | false =>
      refine ⟨by simp, fun r hr hne => ?_⟩
      simp only [Except.ok.injEq] at hr
      rw [← hr]
      rcases hne with hne | hne
      · exact hne
      · simp at hne
    | true =>
      simp only
      obtain ⟨h1, h2⟩ := ih (content ++ [tolower c.ch]) (hasDigit || isdigit c.ch)
        (getNextChar accessor c) (fun _ => by simp)
      exact ⟨h1, fun r hr _ => h2 r hr (Or.inl (by simp))⟩

/-- The outer loop raises no out-of-range error and adds no token with an empty content. -/
theorem tokenizeLoop_safe (accessor : Document) (lineEnd : Nat) :
    ∀ (fuel : Nat) (tokens : List Token) (c : Cursor),
      (∀ t ∈ tokens, t.content ≠ []) →
      tokenizeLoop accessor lineEnd fuel tokens c ≠ Except.error Error.outOfRange
        ∧ ∀ r, tokenizeLoop accessor lineEnd fuel tokens c = Except.ok r →
            ∀ t ∈ r, t.content ≠ [] := by
  intro fuel
  induction fuel with
  | zero =>
    intro tokens c _
    simp [tokenizeLoop]
  | succ fuel ih =>
    intro tokens c hall
    have hext : ∀ tok : Token, tok.content ≠ [] → ∀ t ∈ tokens ++ [tok], t.content ≠ [] := by
      intro tok htok t ht
      rcases List.mem_append.1 ht with ht | ht
      · exact hall t ht
      · rw [List.mem_singleton] at ht
        rw [ht]
        exact htok
    have hdone : (Except.ok tokens : Except Error (List Token)) ≠ Except.error Error.outOfRange
        ∧ ∀ r, (Except.ok tokens : Except Error (List Token)) = Except.ok r →
            ∀ t ∈ r, t.content ≠ [] := by
      refine ⟨by simp, fun r hr => ?_⟩
      simp only [Except.ok.injEq] at hr
      rw [← hr]
      exact hall
    unfold tokenizeLoop
    by_cases hlt : c.index < lineEnd
    swap
    · rw [if_neg hlt]
      exact hdone
    rw [if_pos hlt]
    by_cases hcr : (c.ch == chCR || c.ch == chLF) = true
    · rw [if_pos hcr]
      exact hdone
    rw [if_neg hcr]
    by_cases hbl : isblank c.ch = true
    · rw [if_pos hbl]
      exact ih _ _ hall
    rw [if_neg hbl]
    by_cases hal : (isalpha c.ch || c.ch == chUnderscore) = true
    · rw [if_pos hal]
      obtain ⟨s1, s2⟩ := scanIdentifier_safe accessor fuel [] c
      cases hs : scanIdentifier accessor fuel [] c with
      | error e =>
        simp only
        refine ⟨fun he => s1 ?_, fun r hr => by simp at hr⟩
        rw [hs, Except.error.injEq] at *
        simpa using he
      | ok res =>
        simp only
        exact ih _ _ (hext _ (s2 res hs (Or.inr (isalpha_identChar c.ch hal))))
    rw [if_neg hal]
    by_cases hnum : (isdigit c.ch || c.ch == chMinus) = true
    · rw [if_pos hnum]
      have hstart : numericContinues c.index [] false c = Except.ok true := by
        apply numericContinues_start
        rcases Bool.or_eq_true_iff.1 hnum with h | h
        · exact Or.inl h
        · exact Or.inr ⟨by simpa using h, rfl⟩
      obtain ⟨s1, s2⟩ := scanNumeric_safe accessor c.index fuel [] false c (fun h => by omega)
      cases hs : scanNumeric accessor c.index fuel [] false c with
      | error e =>
        simp only
        refine ⟨fun he => s1 ?_, fun r hr => by simp at hr⟩
        rw [hs, Except.error.injEq] at *
        simpa using he
      | ok res =>
        simp only
        have hne := s2 res hs (Or.inr hstart)
        cases hcont : res.1 with
        | nil => exact absurd hcont hne
        | cons a rest =>
          rw [stringAt_cons_zero]
          simp only
          exact ih _ _ (hext _ (List.cons_ne_nil a rest))
    rw [if_neg hnum]
    exact ih _ _ (hext _ (List.cons_ne_nil _ _))

/-- C22: for every document, encoding and line, and for every step budget, `tokenize`
raises no out-of-range error (the accesses `content.at(0)` and `content.at(1)` of the
numeric scan and the access `content.at(0)` after it are in range), every token it returns
has a non-empty content, and so the last character of every Identifier token, which `Lex`
reads, exists; `tokenize` returns on a line that is read byte by byte, and on every line
when the character widths are at least one. -/
theorem tokenize_accesses_in_range (doc : Document) (line : Nat) :
    (∀ fuel, tokenizeFuel fuel doc line ≠ Except.error Error.outOfRange)
    ∧ tokenize doc line ≠ Except.error Error.outOfRange
    ∧ (∀ fuel tokens, tokenizeFuel fuel doc line = Except.ok tokens →
        ∀ t ∈ tokens, t.content ≠ []
          ∧ (t.tokenType = TokenType.Identifier → ∃ last, t.content.getLast? = some last))
    ∧ (∀ tokens, tokenize doc line = Except.ok tokens →
        ∀ t ∈ tokens, t.content ≠ []
          ∧ (t.tokenType = TokenType.Identifier → ∃ last, t.content.getLast? = some last))
    ∧ (decodesBytewise doc (doc.LineStart line) (doc.LineEnd line) →
        ∃ tokens, tokenize doc line = Except.ok tokens)
    ∧ (widthsPositive doc → ∃ tokens, tokenize doc line = Except.ok tokens) := by
  have hsafe : ∀ fuel, tokenizeFuel fuel doc line ≠ Except.error Error.outOfRange
      ∧ ∀ tokens, tokenizeFuel fuel doc line = Except.ok tokens →
          ∀ t ∈ tokens, t.content ≠ []
            ∧ (t.tokenType = TokenType.Identifier → ∃ last, t.content.getLast? = some last) := by
    intro fuel
    unfold tokenizeFuel
    obtain ⟨h1, h2⟩ := tokenizeLoop_safe doc (doc.LineEnd line) fuel []
      (getNextChar doc (⟨chSpace, doc.LineStart line, doc.LineStart line⟩ : Cursor))
      (fun t ht => absurd ht (List.not_mem_nil t))
    refine ⟨h1, fun tokens ht t hmem => ?_⟩
    have hne := h2 tokens ht t hmem
    refine ⟨hne, fun _ => ?_⟩
    cases hl : t.content.getLast? with
    | none => exact absurd (List.getLast?_eq_none_iff.1 hl) hne
    | some last => exact ⟨last, rfl⟩
  refine ⟨fun fuel => (hsafe fuel).1, (hsafe _).1, fun fuel => (hsafe fuel).2, (hsafe _).2,
    fun hdec => ?_, fun hw => tokenize_returns doc hw line⟩
  obtain ⟨tokens, h, _⟩ := tokenize_shape doc line hdec
  exact ⟨tokens, h⟩

/-- Witness for C22: the line `x0 0x1F -` of an eight-bit document, where the numeric scan
reads `content.at(0)` at the `x` and `content.at(1)` at the hexadecimal digits; its tokens
are `x0`, `0x1f` and "-", none with an empty content; and `tokenize` returns on the line of
`widePointDocument`, a document in a two-byte encoding. -/
theorem tokenize_accesses_in_range_witness :
    tokenize (freshDocument "x0 0x1F -\n") 0
      = Except.ok [identifierToken "x0" 0, numericToken "0x1f" 3, specialToken chMinus 8]
    ∧ (∀ t ∈ [identifierToken "x0" 0, numericToken "0x1f" 3, specialToken chMinus 8],
        t.content ≠ []
          ∧ (t.tokenType = TokenType.Identifier → ∃ last, t.content.getLast? = some last))
    ∧ ∃ tokens, tokenize widePointDocument 0 = Except.ok tokens :=
  ⟨by rfl, (tokenize_accesses_in_range (freshDocument "x0 0x1F -\n") 0).2.2.2.1 _ (by rfl),
    (tokenize_accesses_in_range widePointDocument 0).2.2.2.2.2 widePointDocument_widths⟩

end Papyrus
